import Mathlib

/-!
# cShell virtual filesystem (`src/fs/vfs.c`)

A shallow embedding of the in-memory filesystem of cShell and a verification of
its specification against it.

Conventions of the embedding.

* A C string is the list of its characters before the terminating NUL.
* A `VFSNode *` is an address (a natural number) into a heap of nodes; `malloc`
  returns the next unused address, `free` empties the cell.  The allocations of
  fixed size (nodes, path buffers, copies of path strings) are taken to succeed.
  The `realloc` in `vfs_write`, whose size the caller chooses, returns `NULL`
  when the environment record says so.
* A call whose behaviour is undefined in C (a read of an uninitialised or freed
  object, a copy outside a block, unbounded recursion) yields `none` /
  `Lookup.undefined`.
* The platform is LP64: `int` has 32 bits, `size_t` is unsigned 64 bit, `off_t`
  is signed 64 bit.  Conversions wrap modulo the width.
* `time(NULL)`, `getuid()` and `getgid()` are read from an environment record;
  `time(NULL)` is taken to be constant during one call.
-/

namespace CShell

/-! ## Constants and basic types -/

abbrev CStr := List Char

def VFS_MAX_FILENAME : Nat := 256
def VFS_MAX_PATH : Nat := 1024
def VFS_MAX_CHILDREN : Nat := 128

/-- Number of values of `size_t` (2^64). -/
def SIZE_MOD : Nat := 18446744073709551616

/-- Largest value of `int` (2^31 - 1). -/
def INT_MAX : Nat := 2147483647

/-- Conversion of an unsigned value to `int`, as done by `return size;` in a
function returning `int`: the value wraps modulo 2^32 into the signed range. -/
def toInt32 (n : Nat) : Int :=
  Int.ofNat ((n + 2147483648) % 4294967296) - 2147483648

/-- Conversion of an `off_t` to `size_t` (the usual arithmetic conversion applied
when an `off_t` meets a `size_t` in `+`, `>` or `>=`). -/
def toSizeT (o : Int) : Nat := (o % 18446744073709551616).toNat

/-- Largest value of `off_t` (2^63 - 1). -/
def OFF_MAX : Nat := 9223372036854775807

/-- Conversion of an integer to `off_t`, the type of the parameter `offset`: the
value wraps modulo 2^64 into the signed range. -/
def toOffT (o : Int) : Int :=
  (o + 9223372036854775808) % 18446744073709551616 - 9223372036854775808

inductive VFSNodeType where
  | VFS_TYPE_FILE
  | VFS_TYPE_DIRECTORY
  | VFS_TYPE_SYMLINK
deriving DecidableEq, Repr

/-- The struct `VFSNode`.  `children` holds `children[0 .. child_count)`, so
`child_count` is its length; `data` is the block `data` points to (`NULL` and the
empty block are not told apart). -/
structure VFSNode where
  name : CStr
  type : VFSNodeType
  created : Nat
  modified : Nat
  accessed : Nat
  permissions : Nat
  uid : Nat
  gid : Nat
  size : Nat
  data : List Nat
  parent : Nat
  children : List Nat
deriving DecidableEq, Repr

/-- The global state of `vfs.c`: the heap of nodes, `vfs_root` and
`vfs_current_directory`. -/
structure VFS where
  heap : List (Option VFSNode)
  vfs_root : Option Nat
  vfs_current_directory : CStr
deriving DecidableEq, Repr

/-- What a call reads from its environment: the clock, the ids of the caller, the
bytes found in fresh memory, and for which sizes `realloc` returns `NULL`. -/
structure Env where
  now : Nat
  uid : Nat
  gid : Nat
  junk : Nat → Nat
  realloc_fails : Nat → Bool

/-- Result of a function returning `VFSNode *`. -/
inductive Lookup where
  | undefined
  | null
  | found (p : Nat)
deriving DecidableEq, Repr

/-- The node stored at an address, if the address is live. -/
def VFS.node (s : VFS) (p : Nat) : Option VFSNode := (s.heap[p]?).getD none

/-- Store through a pointer. -/
def VFS.setNode (s : VFS) (p : Nat) (n : VFSNode) : VFS :=
  { s with heap := s.heap.set p (some n) }

/-- The call `free(p)`. -/
def VFS.free (s : VFS) (p : Nat) : VFS :=
  { s with heap := s.heap.set p none }

/-- The call `malloc(sizeof(VFSNode))` followed by the initialisation of the node. -/
def VFS.alloc (s : VFS) (n : VFSNode) : VFS × Nat :=
  ({ s with heap := s.heap ++ [some n] }, s.heap.length)

/-! ## C library helpers -/

/-- Index of the last occurrence of `c`, as `strrchr` finds it. -/
def strrchr : CStr → Char → Option Nat
  | [], _ => none
  | x :: xs, c =>
    match strrchr xs c with
    | some i => some (i + 1)
    | none => if x = c then some 0 else none

/-- The tokens that successive calls of `strtok(.., "/")` return: the maximal
runs of characters other than `/`.  `cur` is the token being read. -/
def strtok_all (cur : CStr) : CStr → List CStr
  | [] => if cur = [] then [] else [cur]
  | c :: cs =>
    if c = '/' then
      if cur = [] then strtok_all [] cs else cur :: strtok_all [] cs
    else strtok_all (cur ++ [c]) cs

/-- The block `realloc(d, n)` returns: the old bytes up to `n`, the rest
indeterminate (taken from `junk`). -/
def realloc (junk : Nat → Nat) (d : List Nat) (n : Nat) : List Nat :=
  (List.range n).map (fun i => (d[i]?).getD (junk i))

/-- The call `memset(d + start, v, len)`; undefined outside the block. -/
def memset (d : List Nat) (start : Nat) (v : Nat) (len : Nat) : Option (List Nat) :=
  if start + len ≤ d.length then
    some (d.take start ++ List.replicate len v ++ d.drop (start + len))
  else none

/-- The call `memcpy(d + offset, buffer, size)`; undefined when it leaves the
block `d` or reads past `buffer`. -/
def memcpy_to (d : List Nat) (offset : Int) (buffer : List Nat) (size : Nat) :
    Option (List Nat) :=
  if 0 ≤ offset ∧ offset.toNat + size ≤ d.length ∧ size ≤ buffer.length then
    some (d.take offset.toNat ++ buffer.take size ++ d.drop (offset.toNat + size))
  else none

/-! ## Path splitting and resolution -/

/-- The loop of `split_path`: `comps` is `components[0 .. count)`. -/
def split_loop : List CStr → List CStr → List CStr
  | [], comps => comps
  | token :: rest, comps =>
    if comps.length < VFS_MAX_PATH - 1 then
      if token ≠ ['.'] then
        if token = ['.', '.'] then
          if comps.length > 1 then split_loop rest comps.dropLast
          else split_loop rest comps
        else split_loop rest (comps ++ [token])
      else split_loop rest comps
    else comps

/-- The function `split_path`: the returned list is the component array, its
length is `*count`. -/
def split_path (path : CStr) : List CStr :=
  if path.head? = some '/' then
    split_loop (strtok_all [] (path.drop 1)) [['/']]
  else
    split_loop (strtok_all [] path) []

/-- The inner loop of `vfs_get_node`: the first child whose name is `name`. -/
def find_child (s : VFS) : List Nat → CStr → Lookup
  | [], _ => .null
  | c :: cs, name =>
    match s.node c with
    | none => .undefined
    | some n => if n.name = name then .found c else find_child s cs name

/-- The outer loop of `vfs_get_node`, from `current` over the remaining
components. -/
def traverse (s : VFS) : Lookup → List CStr → Lookup
  | cur, [] => cur
  | .undefined, _ :: _ => .undefined
  | .null, _ :: _ => .null
  | .found p, comp :: rest =>
    match s.node p with
    | none => .undefined
    | some n =>
      if n.type ≠ VFSNodeType.VFS_TYPE_DIRECTORY then .null
      else traverse s (find_child s n.children comp) rest

/-- The recursive call `vfs_get_node(vfs_current_directory)` made for a relative
path.  A working directory that is itself relative would recurse without
bound. -/
def vfs_get_node_cwd (s : VFS) (root : Nat) : Lookup :=
  if s.vfs_current_directory = ['/'] then .found root
  else
    match split_path s.vfs_current_directory with
    | [] => .undefined
    | c0 :: rest =>
      if c0.head? ≠ some '/' then .undefined
      else traverse s (.found root) rest

/-- The function `vfs_get_node`.  When `split_path` returns no component,
`components[0]` is read uninitialised. -/
def vfs_get_node (s : VFS) (path : CStr) : Lookup :=
  match s.vfs_root with
  | none => .null
  | some root =>
    if path = ['/'] then .found root
    else
      match split_path path with
      | [] => .undefined
      | c0 :: rest =>
        if c0.head? ≠ some '/' then
          traverse s (vfs_get_node_cwd s root) (c0 :: rest)
        else traverse s (.found root) rest

/-- The root pointer as a lookup result. -/
def rootLookup (s : VFS) : Lookup :=
  match s.vfs_root with
  | none => .null
  | some r => .found r

/-- The function `vfs_get_parent`.  `strncpy` leaves `abs_path` unterminated
when the path has `VFS_MAX_PATH - 1` characters or more. -/
def vfs_get_parent (s : VFS) (path : CStr) : Lookup :=
  if path.head? = some '/' ∧ path.length ≥ VFS_MAX_PATH - 1 then .undefined
  else
    let abs_path : CStr :=
      if path.head? = some '/' then path
      else (s.vfs_current_directory ++ ['/'] ++ path).take (VFS_MAX_PATH - 1)
    match strrchr abs_path '/' with
    | none => rootLookup s
    | some 0 => rootLookup s
    | some (i + 1) =>
      if (abs_path.take (i + 1)).length = 0 then rootLookup s
      else vfs_get_node s (abs_path.take (i + 1))

/-- The function `vfs_get_filename`. -/
def vfs_get_filename (path : CStr) : CStr :=
  match strrchr path '/' with
  | none => path
  | some i => path.drop (i + 1)

/-! ## Creation -/

/-- The common body of `vfs_create_file`, `vfs_create_directory` and
`vfs_create_symlink`, which differ only in the `type`, `size` and `data` given to
the new node.  The result is the returned pointer (`none` is `NULL`). -/
def vfs_create_node (e : Env) (s : VFS) (path : CStr) (mode : Nat)
    (type : VFSNodeType) (size : Nat) (data : List Nat) : Option (VFS × Option Nat) :=
  match s.vfs_root with
  | none => some (s, none)
  | some _ =>
    match vfs_get_parent s path with
    | .undefined => none
    | .null => some (s, none)
    | .found parent =>
      match s.node parent with
      | none => none
      | some pn =>
        if pn.type ≠ VFSNodeType.VFS_TYPE_DIRECTORY then some (s, none)
        else if (vfs_get_filename path).length = 0 then some (s, none)
        else
          match find_child s pn.children (vfs_get_filename path) with
          | .undefined => none
          | .found _ => some (s, none)
          | .null =>
            if pn.children.length ≥ VFS_MAX_CHILDREN then some (s, none)
            else
              let file : Nat := s.heap.length
              let s1 : VFS := (s.alloc
                { name := (vfs_get_filename path).take (VFS_MAX_FILENAME - 1)
                  type := type
                  created := e.now
                  modified := e.now
                  accessed := e.now
                  permissions := mode &&& 0o777
                  uid := e.uid
                  gid := e.gid
                  size := size
                  data := data
                  parent := parent
                  children := [] }).1
              some (s1.setNode parent
                { pn with children := pn.children ++ [file], modified := e.now },
                some file)

/-- The function `vfs_create_file`. -/
def vfs_create_file (e : Env) (s : VFS) (path : CStr) (mode : Nat) :
    Option (VFS × Option Nat) :=
  vfs_create_node e s path mode VFSNodeType.VFS_TYPE_FILE 0 []

/-- The function `vfs_create_directory`. -/
def vfs_create_directory (e : Env) (s : VFS) (path : CStr) (mode : Nat) :
    Option (VFS × Option Nat) :=
  vfs_create_node e s path mode VFSNodeType.VFS_TYPE_DIRECTORY 0 []

/-- The function `vfs_create_symlink`: `size` is `strlen(target)` and `data` is
`strdup(target)`, the characters followed by the terminator. -/
def vfs_create_symlink (e : Env) (s : VFS) (path : CStr) (target : CStr) (mode : Nat) :
    Option (VFS × Option Nat) :=
  vfs_create_node e s path mode VFSNodeType.VFS_TYPE_SYMLINK target.length
    (target.map Char.toNat ++ [0])

/-- The static initial values of the globals. -/
def vfs_initial : VFS :=
  { heap := [], vfs_root := none, vfs_current_directory := ['/'] }

/-- The function `vfs_init` run on the initial globals.  `pw` is the user name
`getpwuid` reports, if any. -/
def vfs_init (e : Env) (pw : Option CStr) : Option VFS :=
  let root : Nat := vfs_initial.heap.length
  let s0 : VFS :=
    { (vfs_initial.alloc
        { name := ['/']
          type := VFSNodeType.VFS_TYPE_DIRECTORY
          created := e.now
          modified := e.now
          accessed := e.now
          permissions := 0o755
          uid := e.uid
          gid := e.gid
          size := 0
          data := []
          parent := root
          children := [] }).1 with vfs_root := some root }
  (vfs_create_directory e s0 "/bin".toList 0o755).bind fun r1 =>
  (vfs_create_directory e r1.1 "/etc".toList 0o755).bind fun r2 =>
  (vfs_create_directory e r2.1 "/home".toList 0o755).bind fun r3 =>
  (vfs_create_directory e r3.1 "/tmp".toList 0o777).bind fun r4 =>
  (vfs_create_directory e r4.1 "/usr".toList 0o755).bind fun r5 =>
  (vfs_create_directory e r5.1 "/var".toList 0o755).bind fun r6 =>
  match pw with
  | none => some r6.1
  | some pw_name =>
    let home_path : CStr := ("/home/".toList ++ pw_name).take (VFS_MAX_PATH - 1)
    (vfs_create_directory e r6.1 home_path 0o755).bind fun r7 =>
    some { r7.1 with vfs_current_directory := home_path }

/-! ## Reading and writing -/

/-- The function `vfs_write`; `buffer` holds the bytes at `buffer`, of which the
first `size` are copied, and `off` is the parameter `offset` as the `off_t` it is.
When the file has to grow and `realloc` returns `NULL` the call returns -1 and
stores nothing. -/
def vfs_write (e : Env) (s : VFS) (path : CStr) (buffer : List Nat) (size : Nat)
    (offset : Int) : Option (VFS × Int) :=
  match s.vfs_root with
  | none => some (s, -1)
  | some _ =>
    match vfs_get_node s path with
    | .undefined => none
    | .null => some (s, -1)
    | .found f =>
      match s.node f with
      | none => none
      | some file =>
        if file.type ≠ VFSNodeType.VFS_TYPE_FILE then some (s, -1)
        else
          let off : Int := toOffT offset
          let total : Nat := (toSizeT off + size) % SIZE_MOD
          if total > file.size ∧ e.realloc_fails total = true then some (s, -1)
          else
            let resized : Option (List Nat) :=
              if total > file.size then
                if toSizeT off > file.size then
                  memset (realloc e.junk file.data total) file.size 0
                    (toSizeT off - file.size)
                else some (realloc e.junk file.data total)
              else some file.data
            let newSize : Nat := if total > file.size then total else file.size
            match resized with
            | none => none
            | some d =>
              match memcpy_to d off buffer size with
              | none => none
              | some d1 =>
                some (s.setNode f
                  { file with data := d1, size := newSize,
                              modified := e.now, accessed := e.now },
                  toInt32 size)

/-- The function `vfs_read`.  The result carries the returned `int` and the bytes
copied into `buffer`. -/
def vfs_read (e : Env) (s : VFS) (path : CStr) (size : Nat) (offset : Int) :
    Option (VFS × Int × List Nat) :=
  match s.vfs_root with
  | none => some (s, -1, [])
  | some _ =>
    match vfs_get_node s path with
    | .undefined => none
    | .null => some (s, -1, [])
    | .found f =>
      match s.node f with
      | none => none
      | some file =>
        if file.type ≠ VFSNodeType.VFS_TYPE_FILE then some (s, -1, [])
        else if toSizeT offset ≥ file.size then some (s, 0, [])
        else
          let n : Nat :=
            if (toSizeT offset + size) % SIZE_MOD > file.size then
              file.size - toSizeT offset
            else size
          if 0 ≤ offset ∧ offset.toNat + n ≤ file.data.length then
            some (s.setNode f { file with accessed := e.now }, toInt32 n,
              (file.data.drop offset.toNat).take n)
          else none

/-! ## Deletion and renaming -/

/-- The function `vfs_delete`. -/
def vfs_delete (e : Env) (s : VFS) (path : CStr) : Option (VFS × Int) :=
  match s.vfs_root with
  | none => some (s, -1)
  | some _ =>
    if path = ['/'] then some (s, -1)
    else
      match vfs_get_node s path with
      | .undefined => none
      | .null => some (s, -1)
      | .found node =>
        match s.node node with
        | none => none
        | some n =>
          if n.type = VFSNodeType.VFS_TYPE_DIRECTORY ∧ n.children.length > 0 then
            some (s, -1)
          else
            match s.node n.parent with
            | none => none
            | some pn =>
              if node ∈ pn.children then
                some (((s.setNode n.parent
                  { pn with children := pn.children.erase node,
                            modified := e.now }).free node), 0)
              else some (s, -1)

/-- The last part of `vfs_rename` ("Add to target parent"), run in the state `s1`
left by the removal from the source parent: the node is renamed and re-parented,
then appended to the children of the target parent.  The stores go through the
heap one after the other, since the source, its old parent and the target parent
may coincide. -/
def rename_link (e : Env) (s1 : VFS) (src_node target_parent : Nat) (target_name : CStr) :
    Option (VFS × Int) :=
  match s1.node src_node with
  | none => none
  | some n1 =>
    match (s1.setNode src_node
        { n1 with name := target_name.take (VFS_MAX_FILENAME - 1),
                  parent := target_parent, modified := e.now }).node target_parent with
    | none => none
    | some n2 =>
      some ((s1.setNode src_node
          { n1 with name := target_name.take (VFS_MAX_FILENAME - 1),
                    parent := target_parent, modified := e.now }).setNode target_parent
          { n2 with children := n2.children ++ [src_node], modified := e.now }, 0)

/-- The function `vfs_rename`. -/
def vfs_rename (e : Env) (s : VFS) (old_path new_path : CStr) : Option (VFS × Int) :=
  match s.vfs_root with
  | none => some (s, -1)
  | some _ =>
    match vfs_get_node s old_path with
    | .undefined => none
    | .null => some (s, -1)
    | .found src_node =>
      match vfs_get_parent s new_path with
      | .undefined => none
      | .null => some (s, -1)
      | .found target_parent =>
        match s.node target_parent with
        | none => none
        | some tpn =>
          if tpn.type ≠ VFSNodeType.VFS_TYPE_DIRECTORY then some (s, -1)
          else if (vfs_get_filename new_path).length = 0 then some (s, -1)
          else
            match find_child s tpn.children (vfs_get_filename new_path) with
            | .undefined => none
            | .found _ => some (s, -1)
            | .null =>
              if tpn.children.length ≥ VFS_MAX_CHILDREN then some (s, -1)
              else
                match s.node src_node with
                | none => none
                | some srcn =>
                  match s.node srcn.parent with
                  | none => none
                  | some spn =>
                    if src_node ∈ spn.children then
                      rename_link e
                        (s.setNode srcn.parent
                          { spn with children := spn.children.erase src_node,
                                     modified := e.now })
                        src_node target_parent (vfs_get_filename new_path)
                    else some (s, -1)

/-- The states that the stores of `vfs_rename` behind "Add to target parent" pass
through, in program order, starting from the state `s1` left by the removal from
the source parent: `s1` itself, the states after the stores of the name, of the
parent pointer and of the modification time of the moved node, the state after
the append to the children of the target parent, and the state after the store
of its modification time, in which the call returns.  `vfs.c` takes no lock, so
these are the states that another thread running between two statements finds.
The removal before them (the loop that shifts the later siblings down, and the
decrement of `child_count`) is one step here, `children` being a list. -/
def rename_stores (e : Env) (s1 : VFS) (src_node target_parent : Nat) (target_name : CStr) :
    Option (List VFS) :=
  match s1.node src_node with
  | none => none
  | some n1 =>
    let s2 : VFS := s1.setNode src_node
      { n1 with name := target_name.take (VFS_MAX_FILENAME - 1) }
    let s3 : VFS := s2.setNode src_node
      { n1 with name := target_name.take (VFS_MAX_FILENAME - 1),
                parent := target_parent }
    let s4 : VFS := s3.setNode src_node
      { n1 with name := target_name.take (VFS_MAX_FILENAME - 1),
                parent := target_parent, modified := e.now }
    match s4.node target_parent with
    | none => none
    | some n2 =>
      let s5 : VFS := s4.setNode target_parent
        { n2 with children := n2.children ++ [src_node] }
      let s6 : VFS := s5.setNode target_parent
        { n2 with children := n2.children ++ [src_node], modified := e.now }
      some [s1, s2, s3, s4, s5, s6]


/-! ## Absolute and canonical paths, the working directory -/

/-- The function `vfs_get_absolute_path`.  For an absolute path `strncpy` copies
at most `VFS_MAX_PATH - 1` characters into the fresh block and writes no
terminator when the path has that many or more, so no C string results; for a
relative path `snprintf` truncates and terminates. -/
def vfs_get_absolute_path (s : VFS) (path : CStr) : Option CStr :=
  if path.head? = some '/' then
    if path.length ≥ VFS_MAX_PATH - 1 then none else some path
  else if s.vfs_current_directory = ['/'] then
    some (('/' :: path).take (VFS_MAX_PATH - 1))
  else
    some ((s.vfs_current_directory ++ ['/'] ++ path).take (VFS_MAX_PATH - 1))

/-- The loop of `vfs_get_canonical_path` that appends `components[1 ..]` to
`canonical`. -/
def canonical_loop : CStr → List CStr → CStr
  | canonical, [] => canonical
  | canonical, comp :: rest =>
    canonical_loop
      ((if canonical ≠ ['/'] then canonical ++ ['/'] else canonical) ++ comp) rest

/-- The function `vfs_get_canonical_path`.  The result is built by `strcat` in a
block of `VFS_MAX_PATH` bytes. -/
def vfs_get_canonical_path (s : VFS) (path : CStr) : Option CStr :=
  match vfs_get_absolute_path s path with
  | none => none
  | some abs_path =>
    let canonical : CStr := canonical_loop ['/'] ((split_path abs_path).drop 1)
    if canonical.length ≥ VFS_MAX_PATH then none
    else if canonical.length = 0 then some ['/']
    else some canonical

/-- The function `vfs_change_directory`.  `abs_path` is built as in
`vfs_get_absolute_path`, in a local array. -/
def vfs_change_directory (s : VFS) (path : CStr) : Option (VFS × Int) :=
  match s.vfs_root with
  | none => some (s, -1)
  | some _ =>
    match vfs_get_node s path with
    | .undefined => none
    | .null => some (s, -1)
    | .found node =>
      match s.node node with
      | none => none
      | some n =>
        if n.type ≠ VFSNodeType.VFS_TYPE_DIRECTORY then some (s, -1)
        else
          let abs_path : Option CStr :=
            if path.head? = some '/' then
              if path.length ≥ VFS_MAX_PATH - 1 then none else some path
            else if s.vfs_current_directory = ['/'] then
              some (('/' :: path).take (VFS_MAX_PATH - 1))
            else
              some ((s.vfs_current_directory ++ ['/'] ++ path).take (VFS_MAX_PATH - 1))
          match abs_path with
          | none => none
          | some a =>
            match vfs_get_canonical_path s a with
            | none => none
            | some canonical =>
              some ({ s with vfs_current_directory := canonical.take (VFS_MAX_PATH - 1) }, 0)

/-! ## Permission tests -/

def S_IRUSR : Nat := 0o400
def S_IWUSR : Nat := 0o200
def S_IRGRP : Nat := 0o040
def S_IWGRP : Nat := 0o020
def S_IROTH : Nat := 0o004
def S_IWOTH : Nat := 0o002

/-- The function `vfs_is_readable`; the result is the returned `int`. -/
def vfs_is_readable (e : Env) (s : VFS) (path : CStr) : Option Int :=
  match vfs_get_node s path with
  | .undefined => none
  | .null => some 0
  | .found p =>
    match s.node p with
    | none => none
    | some node =>
      if node.uid = e.uid then some (if node.permissions &&& S_IRUSR ≠ 0 then 1 else 0)
      else if node.gid = e.gid then some (if node.permissions &&& S_IRGRP ≠ 0 then 1 else 0)
      else some (if node.permissions &&& S_IROTH ≠ 0 then 1 else 0)

/-- The function `vfs_is_writable`; the result is the returned `int`. -/
def vfs_is_writable (e : Env) (s : VFS) (path : CStr) : Option Int :=
  match vfs_get_node s path with
  | .undefined => none
  | .null => some 0
  | .found p =>
    match s.node p with
    | none => none
    | some node =>
      if node.uid = e.uid then some (if node.permissions &&& S_IWUSR ≠ 0 then 1 else 0)
      else if node.gid = e.gid then some (if node.permissions &&& S_IWGRP ≠ 0 then 1 else 0)
      else some (if node.permissions &&& S_IWOTH ≠ 0 then 1 else 0)


/-! ## The second filesystem (`src/fs/fs.c`)

The part of `fs.c` that sets the tree up, adds entries, looks them up and removes
them.  `fs_mutex` is the
default (non-recursive) mutex `PTHREAD_MUTEX_INITIALIZER`: a thread that locks
it while holding it does not come back from `pthread_mutex_lock`.  A call that
does not return, or whose behaviour is undefined, yields `none`.  Writing to the
log does not touch the tree and is left out. -/

inductive FileType where
  | FS_TYPE_REGULAR
  | FS_TYPE_DIRECTORY
  | FS_TYPE_SYMLINK
  | FS_TYPE_FIFO
  | FS_TYPE_SOCKET
  | FS_TYPE_CHAR_DEV
  | FS_TYPE_BLOCK_DEV
  | FS_TYPE_UNKNOWN
deriving DecidableEq, Repr

/-- The struct `FileEntry` (without the permission record, which lookup and
removal do not read).  `children` holds `children[0 .. child_count)`; `parent` and
`data` are `none` for `NULL`. -/
structure FileEntry where
  name : CStr
  path : CStr
  type : FileType
  size : Int
  data : Option (List Nat)
  parent : Option Nat
  children : List Nat
deriving DecidableEq, Repr

/-- The globals of `fs.c`: the heap of entries, `root`, `current_dir` and whether
`fs_mutex` is held. -/
structure FS where
  heap : List (Option FileEntry)
  root : Option Nat
  current_dir : CStr
  fs_mutex : Bool
deriving DecidableEq, Repr

def MAX_FILES_PER_DIR : Nat := 1024
def MAX_FILENAME_LENGTH : Nat := 256
def MAX_PATH_LENGTH : Nat := 1024

/-- The function `fs_init` of `fs.c`: a fresh root entry, the current directory
`/`; `log_opens` tells whether `fopen("logs/fs.log", "a")` succeeds, which decides
the returned value only. -/
def FS.fs_init (s : FS) (log_opens : Bool) : FS × Int :=
  ({ s with
      heap := s.heap ++
        [some { name := ['/'], path := ['/'], type := FileType.FS_TYPE_DIRECTORY,
                size := 0, data := none, parent := none, children := [] }]
      root := some s.heap.length
      current_dir := ['/'] },
    if log_opens then 0 else -1)

/-- The entry stored at an address, if the address is live. -/
def FS.entry (s : FS) (p : Nat) : Option FileEntry := (s.heap[p]?).getD none

/-- The call `pthread_mutex_lock(&fs_mutex)` by the one thread there is. -/
def pthread_mutex_lock (s : FS) : Option FS :=
  if s.fs_mutex then none else some { s with fs_mutex := true }

/-- The call `pthread_mutex_unlock(&fs_mutex)`. -/
def pthread_mutex_unlock (s : FS) : FS := { s with fs_mutex := false }

/-- The inner loop of `fs_get_file`: the first child named `token`. -/
def fs_find (s : FS) : List Nat → CStr → Option (Option Nat)
  | [], _ => some none
  | c :: cs, token =>
    match s.entry c with
    | none => none
    | some n => if n.name = token then some (some c) else fs_find s cs token

/-- The outer loop of `fs_get_file` from `current` over the remaining tokens;
`some none` is the result `NULL`. -/
def fs_walk (s : FS) : Nat → List CStr → Option (Option Nat)
  | current, [] => some (some current)
  | current, token :: rest =>
    match s.entry current with
    | none => none
    | some n =>
      match fs_find s n.children token with
      | none => none
      | some none => some none
      | some (some c) => fs_walk s c rest

/-- The function `fs_get_file`. -/
def fs_get_file (s : FS) (path : CStr) : Option (FS × Option Nat) :=
  match pthread_mutex_lock s with
  | none => none
  | some s1 =>
    if path = ['/'] then some (pthread_mutex_unlock s1, s1.root)
    else
      match s1.root with
      | none =>
        match strtok_all [] path with
        | [] => some (pthread_mutex_unlock s1, none)
        | _ :: _ => none
      | some r =>
        match fs_walk s1 r (strtok_all [] path) with
        | none => none
        | some res => some (pthread_mutex_unlock s1, res)

/-- The statements of `fs_create_file` that follow the lookup
`parent = fs_get_file(dirname)`, run in the state the lookup leaves.  The store
`parent->children[parent->child_count++]` is not guarded; outside the array it is
undefined. -/
def fs_create_file_found (s : FS) (parent : Option Nat) (path filename : CStr)
    (type : FileType) : Option (FS × Option Nat) :=
  match parent with
  | none => some (pthread_mutex_unlock s, none)
  | some p =>
    match s.entry p with
    | none => none
    | some pn =>
      if pn.type ≠ FileType.FS_TYPE_DIRECTORY then some (pthread_mutex_unlock s, none)
      else
        match fs_find s pn.children filename with
        | none => none
        | some (some _) => some (pthread_mutex_unlock s, none)
        | some none =>
          if pn.children.length ≥ MAX_FILES_PER_DIR then none
          else
            let file : Nat := s.heap.length
            let s1 : FS :=
              { s with heap := s.heap ++
                  [some { name := filename.take (MAX_FILENAME_LENGTH - 1)
                          path := path.take (MAX_PATH_LENGTH - 1)
                          type := type
                          size := 0
                          data := none
                          parent := some p
                          children := [] }] }
            let pn1 : FileEntry := { pn with children := pn.children ++ [file] }
            some (pthread_mutex_unlock { s1 with heap := s1.heap.set p (some pn1) },
              some file)

/-- The function `fs_create_file`: the path is cut at its last slash into
`dirname` and `filename`, and the parent is looked up with `fs_mutex` held. -/
def fs_create_file (s : FS) (path : CStr) (type : FileType) : Option (FS × Option Nat) :=
  match pthread_mutex_lock s with
  | none => none
  | some s1 =>
    match strrchr path '/' with
    | none => some (pthread_mutex_unlock s1, none)
    | some i =>
      match fs_get_file s1 (path.take i) with
      | none => none
      | some (s2, parent) => fs_create_file_found s2 parent path (path.drop (i + 1)) type

/-- The removal loop shared by `fs_remove_directory` and `fs_delete_file`: the
first occurrence of `x` leaves the children of its parent. -/
def fs_unlink (s : FS) (x : Nat) (n : FileEntry) : Option FS :=
  match n.parent with
  | none => none
  | some p =>
    match s.entry p with
    | none => none
    | some pn =>
      some { s with heap := s.heap.set p (some { pn with children := pn.children.erase x }) }

/-- The statements of `fs_remove_directory` that follow the lookup
`dir = fs_get_file(path)`, run in the state the lookup leaves. -/
def fs_remove_directory_found (s : FS) (dir : Option Nat) : Option (FS × Int) :=
  match dir with
  | none => some (pthread_mutex_unlock s, -1)
  | some d =>
    match s.entry d with
    | none => none
    | some n =>
      if n.type ≠ FileType.FS_TYPE_DIRECTORY then some (pthread_mutex_unlock s, -1)
      else if n.children.length > 0 then some (pthread_mutex_unlock s, -1)
      else
        match fs_unlink s d n with
        | none => none
        | some s1 => some (pthread_mutex_unlock { s1 with heap := s1.heap.set d none }, 0)

/-- The function `fs_remove_directory`. -/
def fs_remove_directory (s : FS) (path : CStr) : Option (FS × Int) :=
  match pthread_mutex_lock s with
  | none => none
  | some s1 =>
    match fs_get_file s1 path with
    | none => none
    | some (s2, dir) => fs_remove_directory_found s2 dir

/-- The statements of `fs_delete_file` that follow the lookup
`file = fs_get_file(path)`, run in the state the lookup leaves. -/
def fs_delete_file_found (s : FS) (file : Option Nat) : Option (FS × Int) :=
  match file with
  | none => some (pthread_mutex_unlock s, -1)
  | some f =>
    match s.entry f with
    | none => none
    | some n =>
      match fs_unlink s f n with
      | none => none
      | some s1 => some (pthread_mutex_unlock { s1 with heap := s1.heap.set f none }, 0)

/-- The function `fs_delete_file`. -/
def fs_delete_file (s : FS) (path : CStr) : Option (FS × Int) :=
  match pthread_mutex_lock s with
  | none => none
  | some s1 =>
    match fs_get_file s1 path with
    | none => none
    | some (s2, file) => fs_delete_file_found s2 file


/-! ## The shell (`main.c`)

The parts of `main.c` that the specification speaks of: the tokenizer of command
lines, the command history and the table of virtual files. -/

def MAX_LINE : Nat := 80
def MAX_ARGS : Nat := 10
def MAX_HISTORY : Nat := 1000
def MAX_FILES : Nat := 1000

/-- The tokens that successive calls of `strtok` return for the separators `sep`:
the maximal runs of other characters.  `cur` is the token being read. -/
def strtok_by (sep : Char → Bool) (cur : CStr) : CStr → List CStr
  | [] => if cur = [] then [] else [cur]
  | c :: cs =>
    if sep c then
      if cur = [] then strtok_by sep [] cs else cur :: strtok_by sep [] cs
    else strtok_by sep (cur ++ [c]) cs

/-- The separators of `parse_command`, the string `" \t"`. -/
def is_blank (c : Char) : Bool := c == ' ' || c == '\t'

/-- The loop of `parse_command`: `args` is `args[0 .. i)`, `tokens` are the tokens
that `strtok` has yet to return; at the end `args[i] = NULL` is stored. -/
def parse_loop : List CStr → List (Option CStr) → List (Option CStr)
  | [], args => args ++ [none]
  | token :: rest, args =>
    if args.length < MAX_ARGS - 1 then parse_loop rest (args ++ [some token])
    else args ++ [none]

/-- The function `parse_command`: the entries `args[0 .. i]` that it stores. -/
def parse_command (line : CStr) : List (Option CStr) :=
  parse_loop (strtok_by is_blank [] line) []

/-- The globals `history` (the entries `history[0 .. MAX_HISTORY)`, `none` for a
slot without string), `history_count` and `current_history`. -/
structure History where
  history : List (Option CStr)
  history_count : Nat
  current_history : Nat
deriving DecidableEq, Repr

/-- The loop `for (i = lo; i < hi; i++) history[i] = history[i + 1];`. -/
def shift_loop (a : List (Option CStr)) (lo : Nat) : Nat → List (Option CStr)
  | 0 => a
  | k + 1 => shift_loop (a.set lo ((a[lo + 1]?).getD none)) (lo + 1) k

/-- The function `add_to_history`; a store outside the array is undefined. -/
def add_to_history (h : History) (line : CStr) : Option History :=
  if h.history_count < MAX_HISTORY then
    if h.history_count < h.history.length then
      some { history := h.history.set h.history_count (some line)
             history_count := h.history_count + 1
             current_history := h.history_count + 1 }
    else none
  else
    if h.history_count ≤ h.history.length then
      some { history :=
               (shift_loop h.history 0 (h.history_count - 1)).set (h.history_count - 1)
                 (some line)
             history_count := h.history_count
             current_history := h.history_count }
    else none

/-- The struct `VFile` of `main.c`. -/
structure VFile where
  name : CStr
  content : CStr
  size : Nat
  owner : CStr
  permissions : CStr
  created : Nat
  modified : Nat
deriving DecidableEq, Repr

/-- The loop of `create_vfile` over the slots of `vfs_files` from the current
one on: the first `NULL` slot receives the new file.  `strcpy` is undefined when
the name does not fit `name[MAX_LINE]` or the content `content[MAX_LINE * 10]`. -/
def create_vfile_loop (e : Env) (name content : CStr) :
    List (Option VFile) → Option (List (Option VFile))
  | [] => some []
  | none :: rest =>
    if name.length ≥ MAX_LINE ∨ content.length ≥ MAX_LINE * 10 then none
    else
      some (some { name := name, content := content, size := content.length,
                   owner := "root".toList, permissions := "rw-r--r--".toList,
                   created := e.now, modified := e.now } :: rest)
  | some f :: rest => (create_vfile_loop e name content rest).map fun r => some f :: r

/-- The function `create_vfile` on the table `vfs_files`. -/
def create_vfile (e : Env) (vfs_files : List (Option VFile)) (name content : CStr) :
    Option (List (Option VFile)) :=
  create_vfile_loop e name content vfs_files

/-- The table `vfs_files` after `init_virtual_env` on the static initial table of
`MAX_FILES` null pointers: the calls `create_vfile("/etc/passwd", ..)` and
`create_vfile("/etc/hostname", ..)` are the only statements of
`init_virtual_env` that touch it. -/
def init_virtual_env (e : Env) : Option (List (Option VFile)) :=
  (create_vfile e (List.replicate MAX_FILES none) "/etc/passwd".toList
      "root:x:0:0:root:/root:/bin/sh\n".toList).bind fun t =>
    create_vfile e t "/etc/hostname".toList "virtualshell\n".toList

/-! ## Auxiliary definitions used in the statements and proofs -/

/-- The fields of a node that path resolution reads. -/
def shape (n : VFSNode) : CStr × VFSNodeType × List Nat := (n.name, n.type, n.children)

/-- Two states that path resolution cannot tell apart. -/
def SameShape (s t : VFS) : Prop :=
  s.vfs_root = t.vfs_root ∧ s.vfs_current_directory = t.vfs_current_directory ∧
    ∀ p, (s.node p).map shape = (t.node p).map shape

/-- Content of a file after a write of `b` at offset `o` over content `d`: the
gap up to `o` is zero, `b` sits at `o`, what lies behind `b` is kept. -/
def write_ref (d : List Nat) (o : Nat) (b : List Nat) : List Nat :=
  (d ++ List.replicate (o - d.length) 0).take o ++ b ++ d.drop (o + b.length)

/-- The block that `vfs_write` builds before the final `memcpy`. -/
def resized_block (junk : Nat → Nat) (d : List Nat) (o n : Nat) : Option (List Nat) :=
  if o + n > d.length then
    if o > d.length then memset (realloc junk d (o + n)) d.length 0 (o - d.length)
    else some (realloc junk d (o + n))
  else some d

/-- The file node after `vfs_write` of `b` at offset `o`. -/
def file_after_write (e : Env) (file : VFSNode) (o : Nat) (b : List Nat) : VFSNode :=
  { file with data := write_ref file.data o b,
              size := max file.size (o + b.length),
              modified := e.now, accessed := e.now }

/-! ## Concrete states used in examples -/

/-- An environment for the worked examples. -/
def env0 : Env :=
  { now := 100, uid := 1000, gid := 1000, junk := fun _ => 170,
    realloc_fails := fun _ => false }

/-- The environment `env0` with no memory left: every `realloc` returns `NULL`. -/
def env_nomem : Env := { env0 with realloc_fails := fun _ => true }

/-- The state after `vfs_init` when `getpwuid` reports no entry: the root with
`/bin`, `/etc`, `/home`, `/tmp`, `/usr`, `/var` at addresses 1 to 6. -/
def fs_init : VFS :=
  match vfs_init env0 none with
  | some s => s
  | none => vfs_initial

/-- The state after `vfs_init` (no password entry) and `vfs_create_file("/f", 0644)`. -/
def fs_with_file : VFS :=
  match (vfs_init env0 none).bind (fun s => vfs_create_file env0 s "/f".toList 0o644) with
  | some r => r.1
  | none => vfs_initial

/-- The state `fs_with_file` after `vfs_write("/f", "\x0a\x14\x1e\x28\x32", 5, 0)`. -/
def fs_with_data : VFS :=
  match vfs_write env0 fs_with_file "/f".toList [10, 20, 30, 40, 50] 5 0 with
  | some r => r.1
  | none => vfs_initial
/-- The node of `/f` in `fs_with_file`. -/
def file_f : VFSNode :=
  { name := ['f'], type := VFSNodeType.VFS_TYPE_FILE, created := 100, modified := 100,
    accessed := 100, permissions := 420, uid := 1000, gid := 1000, size := 0, data := [],
    parent := 0, children := [] }

/-- The node of `/f` in `fs_with_data`. -/
def file_f_data : VFSNode :=
  { file_f with size := 5, data := [10, 20, 30, 40, 50] }

/-- A buffer of 2^31 zero bytes, one more than `INT_MAX`. -/
def big_buffer : List Nat := List.replicate 2147483648 0

/-- Components below the root that `vfs_get_parent` walks for an absolute path:
those of the text before the last separator. -/
def parent_comps (path : CStr) : List CStr :=
  match strrchr path '/' with
  | some (i + 1) => (split_path (path.take (i + 1))).tail
  | _ => []

/-- Well-formed links: no directory lists a child twice, and every listed child
is live and has the listing directory as its `parent`. -/
def WF (s : VFS) : Prop :=
  ∀ p n, s.node p = some n →
    n.children.Nodup ∧ ∀ c ∈ n.children, ∃ cn, s.node c = some cn ∧ cn.parent = p

/-- Sibling names are unique: two children of one directory with the same stored
name are the same node. -/
def SiblingNamesUnique (s : VFS) : Prop :=
  ∀ p n, s.node p = some n → ∀ c1 ∈ n.children, ∀ c2 ∈ n.children, ∀ n1 n2,
    s.node c1 = some n1 → s.node c2 = some n2 → n1.name = n2.name → c1 = c2

/-- The node `c` is `a` or lies below `a` through `children` links. -/
inductive Descends (s : VFS) : Nat → Nat → Prop where
  | refl (p : Nat) : Descends s p p
  | step {a b c : Nat} {n : VFSNode} :
      s.node a = some n → b ∈ n.children → Descends s b c → Descends s a c

/-- The state `t` keeps every live node of `s` with its name and type, and only
appends to children lists. -/
def Extends (s t : VFS) : Prop :=
  ∀ p n, s.node p = some n →
    ∃ m ys, t.node p = some m ∧ m.name = n.name ∧ m.type = n.type ∧
      m.children = n.children ++ ys

/-- The state `t` keeps every live node of `s` other than `x` with its name and
type; in children lists `x` may have been removed and entries appended. -/
def Evolves (x : Nat) (s t : VFS) : Prop :=
  ∀ p n, p ≠ x → s.node p = some n →
    ∃ m ys, t.node p = some m ∧ m.name = n.name ∧ m.type = n.type ∧
      m.children = n.children.filter (fun c => c != x) ++ ys

/-- Executable check of `WF` over the allocated addresses. -/
def WF_check (s : VFS) : Bool :=
  (List.range s.heap.length).all fun p =>
    match s.node p with
    | none => true
    | some n =>
      decide n.children.Nodup &&
        n.children.all fun c =>
          match s.node c with
          | none => false
          | some cn => decide (cn.parent = p)

/-- Executable check of `SiblingNamesUnique` over the allocated addresses. -/
def SiblingNamesUnique_check (s : VFS) : Bool :=
  (List.range s.heap.length).all fun p =>
    match s.node p with
    | none => true
    | some n =>
      n.children.all fun c1 => n.children.all fun c2 =>
        match s.node c1, s.node c2 with
        | some n1, some n2 => decide (n1.name = n2.name → c1 = c2)
        | _, _ => true

/-- The node that the `vfs_create_*` functions initialise. -/
def new_node (e : Env) (parent : Nat) (name : CStr) (mode : Nat) (type : VFSNodeType)
    (size : Nat) (data : List Nat) : VFSNode :=
  { name := name.take (VFS_MAX_FILENAME - 1)
    type := type
    created := e.now
    modified := e.now
    accessed := e.now
    permissions := mode &&& 0o777
    uid := e.uid
    gid := e.gid
    size := size
    data := data
    parent := parent
    children := [] }

/-- The path `/aa...ab`: 255 times `a`, then `b` (a name of 256 characters). -/
def long_path_b : CStr := '/' :: (List.replicate 255 'a' ++ ['b'])

/-- The path `/aa...ac`: 255 times `a`, then `c` (a name of 256 characters). -/
def long_path_c : CStr := '/' :: (List.replicate 255 'a' ++ ['c'])

/-- The state after `vfs_init`, `vfs_create_file(long_path_b)` and
`vfs_create_file(long_path_c)`. -/
def fs_two_long_names : VFS :=
  match (vfs_create_file env0 fs_init long_path_b 0o644).bind
      (fun r => vfs_create_file env0 r.1 long_path_c 0o644) with
  | some r => r.1
  | none => vfs_initial

/-- The state after `vfs_init` and `vfs_rename("/bin", "/bin/x")`. -/
def fs_bin_moved : VFS :=
  match vfs_rename env0 fs_init "/bin".toList "/bin/x".toList with
  | some r => r.1
  | none => vfs_initial

/-- Executable check that the set `S` of addresses is closed under `children`. -/
def closed_check (s : VFS) (S : List Nat) : Bool :=
  S.all fun a =>
    match s.node a with
    | none => true
    | some n => n.children.all fun b => decide (b ∈ S)

/-- Successive `vfs_delete` calls, each of which has to return 0. -/
def run_deletes (e : Env) : VFS → List CStr → Option VFS
  | s, [] => some s
  | s, p :: ps =>
    match vfs_delete e s p with
    | some (s1, 0) => run_deletes e s1 ps
    | _ => none

/-- The state after `vfs_init` and the deletion of the six standard directories:
the root has no child left. -/
def fs_root_empty : VFS :=
  match run_deletes env0 fs_init
      ["/bin".toList, "/etc".toList, "/home".toList, "/tmp".toList, "/usr".toList,
        "/var".toList] with
  | some s => s
  | none => vfs_initial

/-- The state after `vfs_init` for the user `bob`: `/home/bob` is at address 7
and is the working directory. -/
def fs_home_bob : VFS :=
  match vfs_init env0 (some "bob".toList) with
  | some s => s
  | none => vfs_initial

/-- The state `fs_home_bob` after `vfs_delete("/home/bob")`. -/
def fs_home_empty : VFS :=
  match vfs_delete env0 fs_home_bob "/home/bob".toList with
  | some r => r.1
  | none => vfs_initial

/-- The node of `/home` when it lists the children `kids`. -/
def home_node (kids : List Nat) : VFSNode :=
  { name := "home".toList, type := VFSNodeType.VFS_TYPE_DIRECTORY, created := 100,
    modified := 100, accessed := 100, permissions := 493, uid := 1000, gid := 1000,
    size := 0, data := [], parent := 0, children := kids }

/-- The state after `vfs_init`, `vfs_create_file("/home/a.txt")` and
`vfs_write("/home/a.txt", "hi", 2, 0)`: the file is at address 7. -/
def fs_home_a : VFS :=
  match (vfs_create_file env0 fs_init "/home/a.txt".toList 0o644).bind
      (fun r => vfs_write env0 r.1 "/home/a.txt".toList [104, 105] 2 0) with
  | some r => r.1
  | none => vfs_initial

/-- The node of `/home/a.txt` in `fs_home_a`. -/
def file_a : VFSNode :=
  { name := "a.txt".toList, type := VFSNodeType.VFS_TYPE_FILE, created := 100,
    modified := 100, accessed := 100, permissions := 420, uid := 1000, gid := 1000,
    size := 2, data := [104, 105], parent := 3, children := [] }

/-- The root node after `vfs_init` (no password entry). -/
def root_node : VFSNode :=
  { name := ['/'], type := VFSNodeType.VFS_TYPE_DIRECTORY, created := 100,
    modified := 100, accessed := 100, permissions := 493, uid := 1000, gid := 1000,
    size := 0, data := [], parent := 0, children := [1, 2, 3, 4, 5, 6] }

/-- The absolute path that `vfs_get_parent` builds from a path: the path itself
when it is absolute, else the working directory, a separator and the path. -/
def effective_path (s : VFS) (path : CStr) : CStr :=
  if path.head? = some '/' then path else s.vfs_current_directory ++ ['/'] ++ path

/-- The paths for which `vfs_get_parent` and `vfs_get_node` agree on the
directory part: absolute paths, and relative paths without a `..` component
under an absolute working directory. -/
def PlainPath (s : VFS) (path : CStr) : Prop :=
  path.head? = some '/' ∨
    (s.vfs_current_directory.head? = some '/' ∧ ['.', '.'] ∉ strtok_all [] path)

/-- The state `fs_home_bob` after `vfs_create_file("notes")` in the working
directory `/home/bob`: the file is at address 8. -/
def fs_bob_notes : VFS :=
  match vfs_create_file env0 fs_home_bob "notes".toList 0o644 with
  | some r => r.1
  | none => vfs_initial

/-- One call of the interface that changes the globals. -/
inductive Call where
  | create_file (path : CStr) (mode : Nat)
  | create_directory (path : CStr) (mode : Nat)
  | create_symlink (path target : CStr) (mode : Nat)
  | write (path : CStr) (buffer : List Nat) (size : Nat) (offset : Int)
  | read (path : CStr) (size : Nat) (offset : Int)
  | delete (path : CStr)
  | rename (old_path new_path : CStr)
  | change_directory (path : CStr)

/-- The state a call leaves, when its behaviour is defined. -/
def Call.run (e : Env) (s : VFS) : Call → Option VFS
  | .create_file path mode => (vfs_create_file e s path mode).map Prod.fst
  | .create_directory path mode => (vfs_create_directory e s path mode).map Prod.fst
  | .create_symlink path target mode =>
    (vfs_create_symlink e s path target mode).map Prod.fst
  | .write path buffer size offset => (vfs_write e s path buffer size offset).map Prod.fst
  | .read path size offset => (vfs_read e s path size offset).map Prod.fst
  | .delete path => (vfs_delete e s path).map Prod.fst
  | .rename old_path new_path => (vfs_rename e s old_path new_path).map Prod.fst
  | .change_directory path => (vfs_change_directory s path).map Prod.fst

/-- The states reachable from `vfs_init` by calls of the interface. -/
inductive Reachable : VFS → Prop where
  | init (e : Env) (pw : Option CStr) (s : VFS) : vfs_init e pw = some s → Reachable s
  | step (e : Env) (c : Call) (s t : VFS) : Reachable s → c.run e s = some t → Reachable t


/-! ## Further auxiliary definitions -/

/-- A node with its permission bits, owner and group blanked. -/
def strip_perms (n : VFSNode) : VFSNode := { n with permissions := 0, uid := 0, gid := 0 }

/-- Two states that differ at most in the permission bits, owners and groups of
their nodes. -/
def PermsApart (s t : VFS) : Prop :=
  s.vfs_root = t.vfs_root ∧ s.vfs_current_directory = t.vfs_current_directory ∧
    ∀ p, (s.node p).map strip_perms = (t.node p).map strip_perms

/-- Executable check of `PermsApart` over the allocated addresses. -/
def PermsApart_check (s t : VFS) : Bool :=
  decide (s.vfs_root = t.vfs_root) &&
  decide (s.vfs_current_directory = t.vfs_current_directory) &&
  decide (s.heap.length = t.heap.length) &&
  (List.range s.heap.length).all fun p =>
    decide ((s.node p).map strip_perms = (t.node p).map strip_perms)

/-- The state after `vfs_init`, `vfs_create_directory("/d", mode)` and
`vfs_create_file("/d/f", 0644)`: `/d` is at address 7 and `/d/f` at address 8. -/
def fs_dir_mode (mode : Nat) : VFS :=
  match (vfs_create_directory env0 fs_init "/d".toList mode).bind
      (fun r => vfs_create_file env0 r.1 "/d/f".toList 0o644) with
  | some r => r.1
  | none => vfs_initial

/-- The state after `vfs_init` and `vfs_create_file("/f", 0077)`: the file is at
address 7, owned by the caller, with the owner bits clear and the group and other
bits set. -/
def fs_owner_denied : VFS :=
  match vfs_create_file env0 fs_init "/f".toList 0o077 with
  | some r => r.1
  | none => vfs_initial

/-- The node of `/f` in `fs_owner_denied`. -/
def file_077 : VFSNode := { file_f with permissions := 0o077 }

/-- The state after `vfs_init` and `vfs_create_symlink("/link", "/home", 0777)`:
the link is at address 7. -/
def fs_link_home : VFS :=
  match vfs_create_symlink env0 fs_init "/link".toList "/home".toList 0o777 with
  | some r => r.1
  | none => vfs_initial

/-- The state after `vfs_init` and `vfs_create_symlink("/l", "/l", 0777)`: a link
at address 7 whose target is its own path. -/
def fs_link_self : VFS :=
  match vfs_create_symlink env0 fs_init "/l".toList "/l".toList 0o777 with
  | some r => r.1
  | none => vfs_initial

/-- The components `cs` written one after the other, each behind a separator. -/
def slash_join : List CStr → CStr
  | [] => []
  | c :: cs => '/' :: c ++ slash_join cs

/-- The canonical spelling of the absolute path with the components `cs`. -/
def join_path (cs : List CStr) : CStr :=
  if cs = [] then ['/'] else slash_join cs

/-- A proper component: not empty, without separator, and neither `.` nor `..`. -/
def Proper (t : CStr) : Prop := '/' ∉ t ∧ t ≠ [] ∧ t ≠ ['.'] ∧ t ≠ ['.', '.']

/-- The total room that components take when each is written behind a separator. -/
def weight : List CStr → Nat
  | [] => 0
  | c :: cs => c.length + 1 + weight cs

/-- The relative path `aa...a` of 1022 characters. -/
def long_rel : CStr := List.replicate 1022 'a'

/-- The absolute path `/aa...a` of 1023 characters, one less than `VFS_MAX_PATH`. -/
def long_abs : CStr := '/' :: long_rel

/-- A name of 255 characters, the longest that is stored in full. -/
def name255 : CStr := List.replicate 255 'a'

/-- The path of a directory three levels below the root, 768 characters long. -/
def deep3 : CStr := '/' :: name255 ++ '/' :: name255 ++ '/' :: name255

/-- The state after `vfs_init`, the creation of the three directories on the way to
`deep3`, `vfs_change_directory(deep3)` and `vfs_create_directory(name255)` there:
the working directory is `deep3` (address 9) and lists the new directory (address
10). -/
def fs_deep : VFS :=
  match (vfs_create_directory env0 fs_init ('/' :: name255) 0o755).bind fun r1 =>
    (vfs_create_directory env0 r1.1 ('/' :: name255 ++ '/' :: name255) 0o755).bind fun r2 =>
    (vfs_create_directory env0 r2.1 deep3 0o755).bind fun r3 =>
    (vfs_change_directory r3.1 deep3).bind fun r4 =>
    vfs_create_directory env0 r4.1 name255 0o755 with
  | some r => r.1
  | none => vfs_initial

/-- The state after `vfs_init` for the user `bob` and the creation of the
directories `x` and `x/y` in the working directory `/home/bob`: they are at the
addresses 8 and 9. -/
def fs_bob_xy : VFS :=
  match (vfs_create_directory env0 fs_home_bob "x".toList 0o755).bind fun r1 =>
    vfs_create_directory env0 r1.1 "x/y".toList 0o755 with
  | some r => r.1
  | none => vfs_initial

/-- No node lists more than `VFS_MAX_CHILDREN` children. -/
def Bounded (s : VFS) : Prop :=
  ∀ p n, s.node p = some n → n.children.length ≤ VFS_MAX_CHILDREN

/-- The name of two letters with the number `k` (below 256). -/
def name2 (k : Nat) : CStr := [Char.ofNat (97 + k / 16), Char.ofNat (97 + k % 16)]

/-- A file in the full directory of `fs_full`. -/
def full_leaf (i : Nat) : VFSNode :=
  { name := name2 i, type := VFSNodeType.VFS_TYPE_FILE, created := 100, modified := 100,
    accessed := 100, permissions := 0o644, uid := 1000, gid := 1000, size := 0, data := [],
    parent := 1, children := [] }

/-- The full directory `/d` of `fs_full`: it lists the addresses 2 to 129. -/
def full_dir_node : VFSNode :=
  { name := ['d'], type := VFSNodeType.VFS_TYPE_DIRECTORY, created := 100,
    modified := 100, accessed := 100, permissions := 0o755, uid := 1000, gid := 1000,
    size := 0, data := [], parent := 0, children := List.range' 2 128 }

/-- The root of `fs_full`. -/
def full_root_node : VFSNode :=
  { name := ['/'], type := VFSNodeType.VFS_TYPE_DIRECTORY, created := 100,
    modified := 100, accessed := 100, permissions := 0o755, uid := 1000, gid := 1000,
    size := 0, data := [], parent := 0, children := [1] }

/-- A state whose root (address 0) lists the directory `/d` (address 1), which
lists 128 files with different names of two letters. -/
def fs_full : VFS :=
  { heap := some full_root_node :: some full_dir_node ::
      (List.range 128).map (fun i => some (full_leaf i))
    vfs_root := some 0
    vfs_current_directory := ['/'] }

/-- The history at program start: no entry. -/
def hist_empty : History :=
  { history := List.replicate MAX_HISTORY none, history_count := 0, current_history := 0 }

/-- A full history: entry `i` is the decimal-free name `name2 (i % 256)`. -/
def hist_full : History :=
  { history := (List.range MAX_HISTORY).map fun i => some (name2 (i % 256))
    history_count := MAX_HISTORY
    current_history := MAX_HISTORY }

/-- The table `vfs_files` after `init_virtual_env` (clock at 100). -/
def files_after_init : List (Option VFile) :=
  match init_virtual_env env0 with
  | some t => t
  | none => []

/-- The file `/etc/passwd` that `init_virtual_env` creates. -/
def vfile_passwd : VFile :=
  { name := "/etc/passwd".toList, content := "root:x:0:0:root:/root:/bin/sh\n".toList,
    size := 30, owner := "root".toList, permissions := "rw-r--r--".toList,
    created := 100, modified := 100 }

/-- The file `/etc/hostname` that `init_virtual_env` creates. -/
def vfile_hostname : VFile :=
  { name := "/etc/hostname".toList, content := "virtualshell\n".toList,
    size := 13, owner := "root".toList, permissions := "rw-r--r--".toList,
    created := 100, modified := 100 }

/-- A chain of 1022 nested directories named `a` below the root: the directory at
depth `i` is at address `i` and lists the address `i + 1`, the last one lists
nothing. -/
def fs_chain : VFS :=
  { heap := (List.range 1023).map fun i =>
      some { name := if i = 0 then ['/'] else ['a']
             type := VFSNodeType.VFS_TYPE_DIRECTORY
             created := 100, modified := 100, accessed := 100, permissions := 0o755
             uid := 1000, gid := 1000, size := 0, data := []
             parent := i - 1
             children := if i < 1022 then [i + 1] else [] }
    vfs_root := some 0
    vfs_current_directory := ['/'] }

/-- The path `/a/a/.../a` with `k` components. -/
def chain_path : Nat → CStr
  | 0 => []
  | k + 1 => '/' :: 'a' :: chain_path k

/-- The components that the specification folds over: the pieces of the path
between separators that are not empty. -/
def spec_components (path : CStr) : List CStr :=
  (path.splitOn '/').filter fun t => t ≠ []

/-- Whether the node at address `c` is live and has exactly the name `comp`. -/
def name_is (s : VFS) (comp : CStr) (c : Nat) : Bool :=
  match s.node c with
  | some cn => decide (cn.name = comp)
  | none => false

/-- Modelled after the words of the specification, for comparison with
`vfs_get_node`: one step of the fold, from the node `cur` to its first child with
exactly the name `comp`; `none` is `NULL`, the result when `cur` is `NULL`, is not
a Directory, or has no such child. -/
def spec_step (s : VFS) (cur : Option Nat) (comp : CStr) : Option Nat :=
  match cur with
  | none => none
  | some p =>
    match s.node p with
    | none => none
    | some n =>
      if n.type = VFSNodeType.VFS_TYPE_DIRECTORY then n.children.find? (name_is s comp)
      else none

/-- Modelled after the words of the specification, for comparison with
`vfs_get_node`: split on `/`, discard empty components, fold from the root. -/
def spec_resolve (s : VFS) (path : CStr) : Option Nat :=
  (spec_components path).foldl (spec_step s) s.vfs_root

/-- The result of a specification-level resolution as a pointer. -/
def Lookup.ofOption : Option Nat → Lookup
  | none => .null
  | some p => .found p

/-- The root is live, is its own parent and is not among its own children. -/
def RootOK (s : VFS) : Prop :=
  ∃ r rn, s.vfs_root = some r ∧ s.node r = some rn ∧ rn.parent = r ∧ r ∉ rn.children

/-- The links of a node: its parent and its children. -/
def links (n : VFSNode) : Nat × List Nat := (n.parent, n.children)

/-- The directories that list the node `x` among their children, by address: what
a resolver walking the tree can reach `x` from. -/
def parents_of (s : VFS) (x : Nat) : List Nat :=
  (List.range s.heap.length).filter fun p =>
    match s.node p with
    | some n => decide (x ∈ n.children)
    | none => false

/-- The state `fs_home_a` after the statements "Remove from source parent" of
`vfs_rename("/home/a.txt", "/b.txt")`: `/home` (address 3) no longer lists the
file at address 7. -/
def fs_home_a_unlinked : VFS :=
  fs_home_a.setNode 3 { home_node [7] with children := [7].erase 7, modified := env0.now }

/-- The state `fs_home_a` after `vfs_rename("/home/a.txt", "/b.txt")`. -/
def fs_home_a_moved : VFS :=
  match vfs_rename env0 fs_home_a "/home/a.txt".toList "/b.txt".toList with
  | some r => r.1
  | none => vfs_initial


/-! # Theorems -/

/-! ## Machine integers -/

theorem toInt32_of_le (n : Nat) (h : n ≤ INT_MAX) : toInt32 n = (n : Int) := by
  unfold toInt32 INT_MAX at *
  have : (n + 2147483648) % 4294967296 = n + 2147483648 := Nat.mod_eq_of_lt (by omega)
  rw [this]
  show ((n + 2147483648 : Nat) : Int) - 2147483648 = n
  omega

theorem toSizeT_of_nonneg (o : Int) (h0 : 0 ≤ o) (h1 : o < 18446744073709551616) :
    toSizeT o = o.toNat := by
  unfold toSizeT
  rw [Int.emod_eq_of_lt h0 h1]

/-! ## The heap -/

theorem node_setNode (s : VFS) (p q : Nat) (n : VFSNode) :
    (s.setNode p n).node q =
      if q = p then (if p < s.heap.length then some n else none) else s.node q := by
  unfold VFS.setNode VFS.node
  simp only [List.getElem?_set]
  by_cases h : q = p
  · subst h
    by_cases h2 : q < s.heap.length <;> simp [h2]
  · simp [h, Ne.symm h]

theorem lt_length_of_node {s : VFS} {p : Nat} {n : VFSNode} (h : s.node p = some n) :
    p < s.heap.length := by
  unfold VFS.node at h
  by_contra hlt
  have hle : s.heap.length ≤ p := Nat.le_of_not_lt hlt
  rw [List.getElem?_eq_none hle] at h
  simp at h

theorem node_setNode_self {s : VFS} {p : Nat} {m : VFSNode} (n : VFSNode)
    (h : s.node p = some m) : (s.setNode p n).node p = some n := by
  rw [node_setNode]; simp [lt_length_of_node h]

theorem node_setNode_ne (s : VFS) {p q : Nat} (n : VFSNode) (h : q ≠ p) :
    (s.setNode p n).node q = s.node q := by
  rw [node_setNode]; simp [h]

theorem find_child_sameShape {s t : VFS} (h : SameShape s t) (cs : List Nat) (nm : CStr) :
    find_child s cs nm = find_child t cs nm := by
  induction cs with
  | nil => rfl
  | cons c cs ih =>
    have hc := h.2.2 c
    unfold find_child
    cases hs : s.node c <;> cases ht : t.node c <;> simp [hs, ht, shape] at hc ⊢
    rw [hc.1, ih]

theorem traverse_sameShape {s t : VFS} (h : SameShape s t) (cur : Lookup) (cs : List CStr) :
    traverse s cur cs = traverse t cur cs := by
  induction cs generalizing cur with
  | nil => simp [traverse]
  | cons c cs ih =>
    cases cur with
    | undefined => simp [traverse]
    | null => simp [traverse]
    | found p =>
      have hp := h.2.2 p
      unfold traverse
      cases hs : s.node p <;> cases ht : t.node p <;> simp [hs, ht, shape] at hp ⊢
      rw [hp.2.1, hp.2.2, find_child_sameShape h, ih]

theorem vfs_get_node_sameShape {s t : VFS} (h : SameShape s t) (path : CStr) :
    vfs_get_node s path = vfs_get_node t path := by
  unfold vfs_get_node vfs_get_node_cwd
  rw [← h.1, ← h.2.1]
  cases s.vfs_root with
  | none => rfl
  | some r =>
    simp only [traverse_sameShape h]

theorem sameShape_setNode {s : VFS} {f : Nat} {file : VFSNode} (n : VFSNode)
    (hnode : s.node f = some file) (hs : shape n = shape file) :
    SameShape s (s.setNode f n) := by
  refine ⟨rfl, rfl, fun p => ?_⟩
  by_cases hp : p = f
  · subst hp; rw [node_setNode_self n hnode, hnode]; simp [hs]
  · rw [node_setNode_ne s n hp]


theorem getElem?_range_ite (n i : Nat) :
    (List.range n)[i]? = if i < n then some i else none := by
  by_cases h : i < n
  · simp [h, List.getElem?_range h]
  · have hle : (List.range n).length ≤ i := by simpa using Nat.le_of_not_lt h
    simp [h, List.getElem?_eq_none hle]

theorem length_realloc (junk : Nat → Nat) (d : List Nat) (n : Nat) :
    (realloc junk d n).length = n := by
  simp [realloc]

theorem realloc_eq_append (junk : Nat → Nat) (d : List Nat) (n : Nat) (h : d.length ≤ n) :
    ∃ t : List Nat, realloc junk d n = d ++ t ∧ t.length = n - d.length := by
  refine ⟨(realloc junk d n).drop d.length, ?_, by simp [length_realloc]⟩
  have htake : (realloc junk d n).take d.length = d := by
    apply List.ext_getElem?
    intro i
    unfold realloc
    rw [List.getElem?_take, List.getElem?_map, getElem?_range_ite]
    by_cases hi : i < d.length
    · have hin : i < n := by omega
      simp [hi, hin, List.getElem?_eq_getElem hi]
    · simp [hi, List.getElem?_eq_none (Nat.le_of_not_lt hi)]
  conv_lhs => rw [← List.take_append_drop d.length (realloc junk d n)]
  rw [htake]

theorem length_write_ref (d : List Nat) (o : Nat) (b : List Nat) :
    (write_ref d o b).length = max d.length (o + b.length) := by
  simp [write_ref]
  omega

theorem write_block (junk : Nat → Nat) (d b : List Nat) (o : Nat) :
    (resized_block junk d o b.length).bind (fun x => memcpy_to x (o : Int) b b.length) =
      some (write_ref d o b) := by
  unfold resized_block write_ref
  by_cases h1 : o + b.length > d.length
  · obtain ⟨t, ht, hlen⟩ := realloc_eq_append junk d (o + b.length) (Nat.le_of_lt h1)
    by_cases h2 : o > d.length
    · simp only [h1, h2, if_true, memset, ht]
      rw [if_pos (by simp; omega)]
      simp only [Option.some_bind, memcpy_to]
      rw [if_pos (by simp; omega)]
      simp only [Int.toNat_ofNat, List.take_length]
      have e1 : d.length + (o - d.length) = o := by omega
      have e2 : List.take d.length (d ++ t) = d := by simp
      rw [e1, e2]
      have e3 : List.take o (d ++ List.replicate (o - d.length) 0 ++ List.drop o (d ++ t))
          = d ++ List.replicate (o - d.length) 0 := by
        rw [List.take_append_of_le_length (by simp; omega)]
        rw [List.take_of_length_le (by simp; omega)]
      have e4 : List.drop (o + b.length)
          (d ++ List.replicate (o - d.length) 0 ++ List.drop o (d ++ t)) = [] := by
        apply List.drop_eq_nil_of_le
        simp; omega
      have e5 : List.take o (d ++ List.replicate (o - d.length) 0)
          = d ++ List.replicate (o - d.length) 0 := by
        rw [List.take_of_length_le (by simp; omega)]
      have e6 : List.drop (o + b.length) d = [] := List.drop_eq_nil_of_le (by omega)
      rw [e3, e4, e5, e6]
    · have h2' : o ≤ d.length := Nat.le_of_not_lt h2
      simp only [h1, h2, if_true, if_false, ht]
      simp only [Option.some_bind, memcpy_to]
      rw [if_pos (by simp; omega)]
      simp only [Int.toNat_ofNat, List.take_length]
      have e0 : o - d.length = 0 := by omega
      have e1 : List.take o (d ++ t) = List.take o d := by
        rw [List.take_append_of_le_length h2']
      have e4 : List.drop (o + b.length) (d ++ t) = [] := by
        apply List.drop_eq_nil_of_le
        simp; omega
      have e6 : List.drop (o + b.length) d = [] := List.drop_eq_nil_of_le (by omega)
      rw [e1, e4, e6, e0]
      simp
  · have h1' : o + b.length ≤ d.length := Nat.le_of_not_lt h1
    simp only [h1, if_false, Option.some_bind, memcpy_to]
    rw [if_pos (by simp; omega)]
    have e0 : o - d.length = 0 := by omega
    simp [e0]


theorem root_of_found {s : VFS} {path : CStr} {f : Nat} (h : vfs_get_node s path = .found f) :
    ∃ r, s.vfs_root = some r := by
  unfold vfs_get_node at h
  cases hr : s.vfs_root with
  | none => simp [hr] at h
  | some r => exact ⟨r, rfl⟩

theorem toSizeT_natCast (o : Nat) (h : o < SIZE_MOD) : toSizeT (o : Int) = o := by
  unfold SIZE_MOD at h
  rw [toSizeT_of_nonneg _ (Int.ofNat_nonneg o) (by omega)]
  simp

theorem toOffT_natCast (o : Nat) (h : o ≤ OFF_MAX) : toOffT (o : Int) = o := by
  unfold OFF_MAX at h
  unfold toOffT
  omega

/-- When the file has to grow and `realloc` returns `NULL`, `vfs_write` returns -1
and stores nothing. -/
theorem vfs_write_nomem (e : Env) (s : VFS) (path : CStr) (f : Nat) (file : VFSNode)
    (b : List Nat) (o : Nat)
    (hget : vfs_get_node s path = .found f) (hnode : s.node f = some file)
    (htype : file.type = VFSNodeType.VFS_TYPE_FILE)
    (hoff : o ≤ OFF_MAX) (hwrap : o + b.length < SIZE_MOD)
    (hgrow : file.size < o + b.length) (hfail : e.realloc_fails (o + b.length) = true) :
    vfs_write e s path b b.length (o : Int) = some (s, -1) := by
  obtain ⟨r, hr⟩ := root_of_found hget
  have ho : toSizeT (o : Int) = o := toSizeT_natCast o (by omega)
  have htot : (o + b.length) % SIZE_MOD = o + b.length := Nat.mod_eq_of_lt hwrap
  unfold vfs_write
  simp only [hr, hget, hnode, htype, toOffT_natCast o hoff, ho, htot, ne_eq,
    not_true_eq_false, if_false]
  rw [if_pos ⟨hgrow, hfail⟩]

/-- What `vfs_write` does on a file whose `size` is the length of its content,
for an offset that is a non-negative `off_t`, no wrap-around of `offset + size`,
and a `realloc` that does not return `NULL` when the file has to grow. -/
theorem vfs_write_eq (e : Env) (s : VFS) (path : CStr) (f : Nat) (file : VFSNode)
    (b : List Nat) (o : Nat)
    (hget : vfs_get_node s path = .found f) (hnode : s.node f = some file)
    (htype : file.type = VFSNodeType.VFS_TYPE_FILE) (hsize : file.size = file.data.length)
    (hoff : o ≤ OFF_MAX) (hwrap : o + b.length < SIZE_MOD)
    (halloc : ¬ (file.size < o + b.length ∧ e.realloc_fails (o + b.length) = true)) :
    vfs_write e s path b b.length (o : Int) =
      some (s.setNode f (file_after_write e file o b), toInt32 b.length) := by
  obtain ⟨r, hr⟩ := root_of_found hget
  have ho : toSizeT (o : Int) = o := toSizeT_natCast o (by omega)
  have htot : (o + b.length) % SIZE_MOD = o + b.length := Nat.mod_eq_of_lt hwrap
  have hblock := write_block e.junk file.data b o
  unfold resized_block at hblock
  unfold vfs_write file_after_write
  simp only [hr, hget, hnode, htype, toOffT_natCast o hoff, ho, htot, ne_eq,
    not_true_eq_false, if_false]
  rw [if_neg halloc]
  simp only [hsize]
  by_cases h1 : o + b.length > file.data.length
  · have hmax : max file.data.length (o + b.length) = o + b.length := by omega
    by_cases h2 : o > file.data.length
    · simp only [h1, h2, if_true] at hblock ⊢
      cases hm : memset (realloc e.junk file.data (o + b.length)) file.data.length 0
          (o - file.data.length) with
      | none => simp [hm] at hblock
      | some x =>
        simp only [hm, Option.some_bind] at hblock
        simp only [hblock, hmax]
    · simp only [h1, h2, if_true, if_false, Option.some_bind] at hblock ⊢
      simp only [hblock, hmax]
  · have hmax : max file.data.length (o + b.length) = file.data.length := by omega
    simp only [h1, if_false, Option.some_bind] at hblock ⊢
    simp only [hblock, hmax]

/-- What `vfs_read` does on a file whose `size` is the length of its content, for
a non-negative offset below the size and no wrap-around of `offset + size`. -/
theorem vfs_read_eq (e : Env) (s : VFS) (path : CStr) (f : Nat) (file : VFSNode)
    (n o : Nat)
    (hget : vfs_get_node s path = .found f) (hnode : s.node f = some file)
    (htype : file.type = VFSNodeType.VFS_TYPE_FILE) (hsize : file.size = file.data.length)
    (ho : o < file.size) (hwrap : o + n < SIZE_MOD) :
    vfs_read e s path n (o : Int) =
      some (s.setNode f { file with accessed := e.now },
        toInt32 (min n (file.size - o)), (file.data.drop o).take (min n (file.size - o))) := by
  obtain ⟨r, hr⟩ := root_of_found hget
  have ho' : toSizeT (o : Int) = o := toSizeT_natCast o (by omega)
  have htot : (o + n) % SIZE_MOD = o + n := Nat.mod_eq_of_lt hwrap
  unfold vfs_read
  simp only [hr, hget, hnode, htype, ho', htot, ne_eq, not_true_eq_false, if_false]
  rw [if_neg (by omega)]
  by_cases h1 : o + n > file.size
  · have hmin : min n (file.size - o) = file.size - o := by omega
    simp only [h1, if_true, hmin]
    rw [if_pos (by simp; omega)]
    simp
  · have hmin : min n (file.size - o) = n := by omega
    simp only [h1, if_false, hmin]
    rw [if_pos (by simp; omega)]
    simp

/-- At or past the end of the data `vfs_read` returns 0 and copies nothing. -/
theorem vfs_read_eof (e : Env) (s : VFS) (path : CStr) (f : Nat) (file : VFSNode)
    (n o : Nat)
    (hget : vfs_get_node s path = .found f) (hnode : s.node f = some file)
    (htype : file.type = VFSNodeType.VFS_TYPE_FILE)
    (ho : file.size ≤ o) (hrep : o < SIZE_MOD) :
    vfs_read e s path n (o : Int) = some (s, 0, []) := by
  obtain ⟨r, hr⟩ := root_of_found hget
  have ho' : toSizeT (o : Int) = o := toSizeT_natCast o hrep
  unfold vfs_read
  simp only [hr, hget, hnode, htype, ho', ne_eq, not_true_eq_false, if_false]
  rw [if_pos (by omega)]

theorem getElem?_write_ref (d : List Nat) (o : Nat) (b : List Nat) (i : Nat) :
    (write_ref d o b)[i]? =
      if i < o then (if i < d.length then d[i]? else some 0)
      else if i < o + b.length then b[i - o]? else d[i]? := by
  unfold write_ref
  by_cases h1 : i < o
  · rw [List.append_assoc, List.getElem?_append_left (by simp; omega)]
    rw [List.getElem?_take, if_pos h1]
    by_cases h2 : i < d.length
    · simp [h1, h2, List.getElem?_append_left h2]
    · rw [List.getElem?_append_right (by omega)]
      simp [h1, h2, List.getElem?_replicate]
      omega
  · have hlen : (List.take o (d ++ List.replicate (o - d.length) 0)).length = o := by
      simp; omega
    rw [List.append_assoc, List.getElem?_append_right (by omega), hlen]
    by_cases h2 : i < o + b.length
    · rw [List.getElem?_append_left (by omega)]
      simp [h1, h2]
    · rw [List.getElem?_append_right (by omega), List.getElem?_drop]
      simp only [h1, h2, if_false]
      congr 1
      omega

theorem fs_with_file_reached :
    ((vfs_init env0 none).bind fun s =>
      (vfs_create_file env0 s "/f".toList 0o644).map Prod.fst) = some fs_with_file := by
  decide!

theorem fs_with_file_get : vfs_get_node fs_with_file "/f".toList = .found 7 := by decide!

theorem fs_with_file_node : fs_with_file.node 7 = some file_f := by decide!

theorem fs_with_data_get : vfs_get_node fs_with_data "/f".toList = .found 7 := by decide!

theorem fs_with_data_node : fs_with_data.node 7 = some file_f_data := by decide!

theorem big_buffer_length : big_buffer.length = 2147483648 := by
  unfold big_buffer
  exact List.length_replicate _ _

theorem toInt32_two_pow_31 : toInt32 2147483648 = -2147483648 := by decide

/-- After a write the path still resolves to the same file node. -/
theorem vfs_get_node_after_store {s : VFS} {f : Nat} {file : VFSNode} (n : VFSNode)
    (path : CStr) (hnode : s.node f = some file) (hs : shape n = shape file) :
    vfs_get_node (s.setNode f n) path = vfs_get_node s path :=
  (vfs_get_node_sameShape (sameShape_setNode n hnode hs) path).symm

/-- C1 (amended): on a file whose size is the length of its content, for a buffer
`b` of at most `INT_MAX` bytes written at offset 0: when the file has to grow
(`len(b)` exceeds its size) and `realloc` returns `NULL`, `vfs_write` returns -1
and changes nothing; otherwise it returns `len(b)`, and reading `len(b)` bytes at
offset 0 afterwards returns `len(b)` and yields exactly `b`. -/
theorem C1_write_read_round_trip (e e1 : Env) (s : VFS) (path : CStr) (f : Nat)
    (file : VFSNode) (b : List Nat)
    (hget : vfs_get_node s path = .found f) (hnode : s.node f = some file)
    (htype : file.type = VFSNodeType.VFS_TYPE_FILE) (hsize : file.size = file.data.length)
    (hb : b.length ≤ INT_MAX) :
    (file.size < b.length ∧ e.realloc_fails b.length = true →
      vfs_write e s path b b.length 0 = some (s, -1)) ∧
    (¬ (file.size < b.length ∧ e.realloc_fails b.length = true) →
      ∃ s1 s2, vfs_write e s path b b.length 0 = some (s1, (b.length : Int)) ∧
        vfs_read e1 s1 path b.length 0 = some (s2, (b.length : Int), b)) := by
  have hsmall : 0 + b.length < SIZE_MOD := by
    unfold INT_MAX at hb; unfold SIZE_MOD; omega
  have hoff : 0 ≤ OFF_MAX := Nat.zero_le _
  constructor
  · intro hfail
    have hw := vfs_write_nomem e s path f file b 0 hget hnode htype hoff hsmall
      (by rw [Nat.zero_add]; exact hfail.1) (by rw [Nat.zero_add]; exact hfail.2)
    simpa using hw
  intro halloc
  have hw := vfs_write_eq e s path f file b 0 hget hnode htype hsize hoff hsmall
    (by rw [Nat.zero_add]; exact halloc)
  rw [toInt32_of_le _ hb] at hw
  simp only [Nat.cast_zero] at hw
  have hget1 := (vfs_get_node_after_store (file_after_write e file 0 b) path hnode rfl).trans hget
  have hnode1 := node_setNode_self (file_after_write e file 0 b) hnode
  have hsz : (file_after_write e file 0 b).size = max file.size b.length := by
    simp [file_after_write]
  have hdat : (file_after_write e file 0 b).data = write_ref file.data 0 b := rfl
  suffices h : ∃ s2, vfs_read e1 (s.setNode f (file_after_write e file 0 b)) path b.length 0
      = some (s2, (b.length : Int), b) by
    obtain ⟨s2, h2⟩ := h
    exact ⟨_, s2, hw, h2⟩
  by_cases hz : max file.size b.length = 0
  · have hb0 : b.length = 0 := by omega
    have hbnil : b = [] := List.length_eq_zero.mp hb0
    have hr := vfs_read_eof e1 _ path f _ b.length 0 hget1 hnode1 htype
      (by rw [hsz]; omega) (by unfold SIZE_MOD; omega)
    simp only [Nat.cast_zero] at hr
    refine ⟨s.setNode f (file_after_write e file 0 b), ?_⟩
    rw [hr]
    simp [hb0, hbnil]
  · have hr := vfs_read_eq e1 _ path f _ b.length 0 hget1 hnode1 htype
      (by rw [hsz, hdat, length_write_ref, hsize]; simp)
      (by rw [hsz]; omega)
      (by unfold INT_MAX at hb; unfold SIZE_MOD; omega)
    simp only [Nat.cast_zero] at hr
    have hmin : min b.length ((file_after_write e file 0 b).size - 0) = b.length := by
      rw [hsz]; omega
    have hdata : List.take b.length (List.drop 0 (file_after_write e file 0 b).data) = b := by
      simp [hdat, write_ref]
    rw [hmin, toInt32_of_le _ hb, hdata] at hr
    exact ⟨_, hr⟩

/-- Witness of C1 on `/f` of `fs_with_file`, with the buffer `[1, 2, 3]`: the round
trip when `realloc` succeeds, the refused write when it returns `NULL`. -/
theorem C1_write_read_round_trip_witness :
    vfs_get_node fs_with_file "/f".toList = .found 7 ∧
    fs_with_file.node 7 = some file_f ∧
    (∃ s1 s2, vfs_write env0 fs_with_file "/f".toList [1, 2, 3] 3 0 = some (s1, 3) ∧
      vfs_read env0 s1 "/f".toList 3 0 = some (s2, 3, [1, 2, 3])) ∧
    vfs_write env_nomem fs_with_file "/f".toList [1, 2, 3] 3 0 = some (fs_with_file, -1) :=
  ⟨fs_with_file_get, fs_with_file_node,
    (C1_write_read_round_trip env0 env0 fs_with_file "/f".toList 7 file_f [1, 2, 3]
      fs_with_file_get fs_with_file_node rfl rfl (by decide)).2 (by decide),
    (C1_write_read_round_trip env_nomem env0 fs_with_file "/f".toList 7 file_f [1, 2, 3]
      fs_with_file_get fs_with_file_node rfl rfl (by decide)).1 (by decide)⟩

/-- C1 as stated fails in two ways.  Writing a buffer of 2^31 bytes at offset 0 to
the empty file `/f` returns -2147483648, not the length 2147483648 of the buffer.
And when `realloc` returns `NULL`, writing the three bytes `[1, 2, 3]` to the empty
file returns -1, not 3, and the file stays empty, so that the following read
returns 0 and copies nothing. -/
theorem C1_counterexample :
    vfs_get_node fs_with_file "/f".toList = .found 7 ∧
    fs_with_file.node 7 = some file_f ∧
    (big_buffer.length : Int) = 2147483648 ∧
    (vfs_write env0 fs_with_file "/f".toList big_buffer big_buffer.length 0).map Prod.snd
      = some (-2147483648) ∧
    vfs_write env_nomem fs_with_file "/f".toList [1, 2, 3] 3 0 = some (fs_with_file, -1) ∧
    vfs_read env0 fs_with_file "/f".toList 3 0 = some (fs_with_file, 0, []) := by
  refine ⟨fs_with_file_get, fs_with_file_node, by rw [big_buffer_length]; rfl, ?_,
    by decide!, by decide!⟩
  have hw := vfs_write_eq env0 fs_with_file "/f".toList 7 file_f big_buffer 0
    fs_with_file_get fs_with_file_node rfl rfl (Nat.zero_le _)
    (by rw [big_buffer_length]; decide) (fun h => Bool.false_ne_true h.2)
  simp only [Nat.cast_zero] at hw
  rw [hw, big_buffer_length, toInt32_two_pow_31]
  rfl

theorem shape_file_after_write (e : Env) (file : VFSNode) (o : Nat) (b : List Nat) :
    shape (file_after_write e file o b) = shape file := by
  unfold shape file_after_write
  rfl

theorem file_after_write_size (e : Env) (file : VFSNode) (o : Nat) (b : List Nat)
    (hsize : file.size = file.data.length) :
    (file_after_write e file o b).size = (file_after_write e file o b).data.length := by
  show max file.size (o + b.length) = (write_ref file.data o b).length
  rw [length_write_ref, hsize]

/-- The bytes between the old end of the data and the offset of a write are zero. -/
theorem gap_of_write_ref (d b : List Nat) (o : Nat) (h : d.length ≤ o) :
    List.take (o - d.length) (List.drop d.length (write_ref d o b)) =
      List.replicate (o - d.length) 0 := by
  apply List.ext_getElem?
  intro i
  rw [List.getElem?_take, List.getElem?_drop, getElem?_write_ref, List.getElem?_replicate]
  by_cases hi : i < o - d.length
  · have h1 : d.length + i < o := by omega
    have h2 : ¬ d.length + i < d.length := by omega
    simp only [hi, h1, h2, if_true, if_false]
  · simp only [hi, if_false]

/-- C2 (amended): on a file of size `s` (the length of its content), for a write
of any buffer at an offset `o > s` that is an `off_t`, with `o - s` at most
`INT_MAX` and `o + len(b)` below 2^64: when `realloc` returns `NULL` the write
returns -1, the file is unchanged and reading `o - s` bytes at offset `s` returns
0; otherwise, after the write, reading `o - s` bytes at offset `s` returns `o - s`
and yields `o - s` zero bytes. -/
theorem C2_sparse_write_reads_zero (e e1 : Env) (s : VFS) (path : CStr) (f : Nat)
    (file : VFSNode) (b : List Nat) (o : Nat)
    (hget : vfs_get_node s path = .found f) (hnode : s.node f = some file)
    (htype : file.type = VFSNodeType.VFS_TYPE_FILE) (hsize : file.size = file.data.length)
    (hgt : file.size < o) (hoff : o ≤ OFF_MAX) (hwrap : o + b.length < SIZE_MOD)
    (hret : o - file.size ≤ INT_MAX) :
    (e.realloc_fails (o + b.length) = true →
      vfs_write e s path b b.length (o : Int) = some (s, -1) ∧
      vfs_read e1 s path (o - file.size) (file.size : Int) = some (s, 0, [])) ∧
    (e.realloc_fails (o + b.length) = false →
      ∃ s1 r s2, vfs_write e s path b b.length (o : Int) = some (s1, r) ∧
        vfs_read e1 s1 path (o - file.size) (file.size : Int) =
          some (s2, ((o - file.size : Nat) : Int), List.replicate (o - file.size) 0)) := by
  constructor
  · intro hfail
    exact ⟨vfs_write_nomem e s path f file b o hget hnode htype hoff hwrap (by omega) hfail,
      vfs_read_eof e1 s path f file (o - file.size) file.size hget hnode htype
        (Nat.le_refl _) (by omega)⟩
  intro hok
  have hw := vfs_write_eq e s path f file b o hget hnode htype hsize hoff hwrap
    (fun h => by rw [hok] at h; exact Bool.false_ne_true h.2)
  have hget1 := (vfs_get_node_after_store (file_after_write e file o b) path hnode rfl).trans hget
  have hnode1 := node_setNode_self (file_after_write e file o b) hnode
  have hsz : (file_after_write e file o b).size = max file.size (o + b.length) := rfl
  have hdat : (file_after_write e file o b).data = write_ref file.data o b := rfl
  have hr := vfs_read_eq e1 _ path f _ (o - file.size) file.size hget1 hnode1 htype
    (file_after_write_size e file o b hsize) (by rw [hsz]; omega) (by omega)
  have hmin : min (o - file.size) ((file_after_write e file o b).size - file.size)
      = o - file.size := by
    rw [hsz]; omega
  rw [hmin, toInt32_of_le _ hret, hdat] at hr
  have hgap := gap_of_write_ref file.data b o (by omega)
  rw [← hsize] at hgap
  rw [hgap] at hr
  exact ⟨_, _, _, hw, hr⟩

/-- Witness of C2 on `/f` of `fs_with_data` (5 bytes): a write at offset 8, with a
`realloc` that succeeds and with one that returns `NULL`. -/
theorem C2_sparse_write_reads_zero_witness :
    vfs_get_node fs_with_data "/f".toList = .found 7 ∧
    fs_with_data.node 7 = some file_f_data ∧
    (∃ s1 r s2, vfs_write env0 fs_with_data "/f".toList [9, 9] 2 8 = some (s1, r) ∧
      vfs_read env0 s1 "/f".toList 3 5 = some (s2, 3, [0, 0, 0])) ∧
    (vfs_write env_nomem fs_with_data "/f".toList [9, 9] 2 8 = some (fs_with_data, -1) ∧
      vfs_read env0 fs_with_data "/f".toList 3 5 = some (fs_with_data, 0, [])) :=
  ⟨fs_with_data_get, fs_with_data_node,
    (C2_sparse_write_reads_zero env0 env0 fs_with_data "/f".toList 7 file_f_data [9, 9] 8
      fs_with_data_get fs_with_data_node rfl rfl (by decide) (by decide) (by decide)
      (by decide)).2 rfl,
    (C2_sparse_write_reads_zero env_nomem env0 fs_with_data "/f".toList 7 file_f_data [9, 9] 8
      fs_with_data_get fs_with_data_node rfl rfl (by decide) (by decide) (by decide)
      (by decide)).1 rfl⟩

/-- C2 as stated fails in two ways.  On the empty file `/f` (size 0), after a write
of one byte at offset 2^31 the read of `o - s` = 2^31 bytes at offset 0 returns
-2147483648, not 2147483648.  And when `realloc` returns `NULL`, the write of two
bytes at offset 8 to the 5-byte file returns -1 and leaves the file as it was, so
that the read of `o - s` = 3 bytes at offset 5 returns 0, not 3. -/
theorem C2_counterexample :
    vfs_get_node fs_with_file "/f".toList = .found 7 ∧
    fs_with_file.node 7 = some file_f ∧
    file_f.size = 0 ∧
    ((vfs_write env0 fs_with_file "/f".toList [1] 1 2147483648).bind fun w =>
      (vfs_read env0 w.1 "/f".toList 2147483648 0).map fun r => r.2.1)
      = some (-2147483648) ∧
    fs_with_data.node 7 = some file_f_data ∧
    file_f_data.size = 5 ∧
    ((vfs_write env_nomem fs_with_data "/f".toList [9, 9] 2 8).bind fun w =>
      (vfs_read env0 w.1 "/f".toList 3 5).map fun r => (w.2, r.2.1))
      = some (-1, 0) := by
  refine ⟨fs_with_file_get, fs_with_file_node, rfl, ?_, fs_with_data_node, rfl, by decide!⟩
  have hw := vfs_write_eq env0 fs_with_file "/f".toList 7 file_f [1] 2147483648
    fs_with_file_get fs_with_file_node rfl rfl (by decide) (by decide)
    (fun h => Bool.false_ne_true h.2)
  have hget1 := (vfs_get_node_after_store (file_after_write env0 file_f 2147483648 [1])
    "/f".toList fs_with_file_node rfl).trans fs_with_file_get
  have hnode1 := node_setNode_self (file_after_write env0 file_f 2147483648 [1])
    fs_with_file_node
  have hr := vfs_read_eq env0 _ "/f".toList 7 _ 2147483648 0 hget1 hnode1 rfl
    (file_after_write_size env0 file_f 2147483648 [1] rfl) (by decide) (by decide)
  have hmin : min 2147483648 ((file_after_write env0 file_f 2147483648 [1]).size - 0)
      = 2147483648 := by decide
  rw [hmin, toInt32_two_pow_31] at hr
  simp only [Nat.cast_ofNat, Nat.cast_zero, List.length_singleton] at hw hr
  rw [hw, Option.some_bind, hr]
  rfl

/-- C3 (amended): `vfs_write` meets its reference definition when the buffer has
at most `INT_MAX` bytes, the offset is an `off_t` and `realloc` does not fail.  On
a file with content of length `s`, for a buffer `b` of length `n` and an offset
`o ≥ 0`: when the file has to grow (`o + n > s`) and `realloc` returns `NULL` it
returns -1 and changes nothing; otherwise it returns `n`, the new size is
`max(s, o + n)` and is the length of the new content, the bytes at `[o, o+n)` are
`b`, the bytes at `[s, o)` are zero, and every byte below `s` outside `[o, o+n)`
is unchanged. -/
theorem C3_vfs_write_reference (e : Env) (s : VFS) (path : CStr) (f : Nat)
    (file : VFSNode) (b : List Nat) (o : Nat)
    (hget : vfs_get_node s path = .found f) (hnode : s.node f = some file)
    (htype : file.type = VFSNodeType.VFS_TYPE_FILE) (hsize : file.size = file.data.length)
    (hoff : o ≤ OFF_MAX) (hret : b.length ≤ INT_MAX) :
    (file.size < o + b.length ∧ e.realloc_fails (o + b.length) = true →
      vfs_write e s path b b.length (o : Int) = some (s, -1)) ∧
    (¬ (file.size < o + b.length ∧ e.realloc_fails (o + b.length) = true) →
      ∃ s1 file1, vfs_write e s path b b.length (o : Int) = some (s1, (b.length : Int)) ∧
        s1.node f = some file1 ∧
        file1.size = max file.size (o + b.length) ∧
        file1.data.length = file1.size ∧
        (∀ i, i < b.length → file1.data[o + i]? = b[i]?) ∧
        (∀ i, file.size ≤ i → i < o → file1.data[i]? = some 0) ∧
        (∀ i, i < file.size → (i < o ∨ o + b.length ≤ i) →
          file1.data[i]? = file.data[i]?)) := by
  have hwrap : o + b.length < SIZE_MOD := by
    unfold OFF_MAX at hoff; unfold INT_MAX at hret; unfold SIZE_MOD; omega
  constructor
  · intro hfail
    exact vfs_write_nomem e s path f file b o hget hnode htype hoff hwrap hfail.1 hfail.2
  intro halloc
  have hw := vfs_write_eq e s path f file b o hget hnode htype hsize hoff hwrap halloc
  rw [toInt32_of_le _ hret] at hw
  refine ⟨_, file_after_write e file o b, hw, node_setNode_self _ hnode, rfl,
    (file_after_write_size e file o b hsize).symm, ?_, ?_, ?_⟩
  · intro i hi
    show (write_ref file.data o b)[o + i]? = b[i]?
    rw [getElem?_write_ref, if_neg (by omega), if_pos (by omega)]
    congr 1
    omega
  · intro i h1 h2
    show (write_ref file.data o b)[i]? = some 0
    rw [getElem?_write_ref, if_pos h2, if_neg (by omega)]
  · intro i h1 h2
    show (write_ref file.data o b)[i]? = file.data[i]?
    rw [getElem?_write_ref]
    rcases h2 with h2 | h2
    · rw [if_pos h2, if_pos (by omega)]
    · rw [if_neg (by omega), if_neg (by omega)]

/-- Witness of C3 on `/f` of `fs_with_data`: two bytes written at offset 7, with a
`realloc` that succeeds and with one that returns `NULL`. -/
theorem C3_vfs_write_reference_witness :
    vfs_get_node fs_with_data "/f".toList = .found 7 ∧
    fs_with_data.node 7 = some file_f_data ∧
    (∃ s1 file1, vfs_write env0 fs_with_data "/f".toList [8, 9] 2 7 = some (s1, 2) ∧
      s1.node 7 = some file1 ∧
      file1.size = max 5 (7 + 2) ∧
      file1.data.length = file1.size ∧
      (∀ i, i < 2 → file1.data[7 + i]? = [8, 9][i]?) ∧
      (∀ i, 5 ≤ i → i < 7 → file1.data[i]? = some 0) ∧
      (∀ i, i < 5 → (i < 7 ∨ 7 + 2 ≤ i) → file1.data[i]? = [10, 20, 30, 40, 50][i]?)) ∧
    vfs_write env_nomem fs_with_data "/f".toList [8, 9] 2 7 = some (fs_with_data, -1) :=
  ⟨fs_with_data_get, fs_with_data_node,
    (C3_vfs_write_reference env0 fs_with_data "/f".toList 7 file_f_data [8, 9] 7
      fs_with_data_get fs_with_data_node rfl rfl (by decide) (by decide)).2
      (fun h => Bool.false_ne_true h.2),
    (C3_vfs_write_reference env_nomem fs_with_data "/f".toList 7 file_f_data [8, 9] 7
      fs_with_data_get fs_with_data_node rfl rfl (by decide) (by decide)).1
      ⟨by decide, rfl⟩⟩

/-- C3 as stated fails in two ways.  Writing a buffer of n = 2^31 bytes at offset 3
into the 5-byte file `/f` returns -2147483648, not n.  And when `realloc` returns
`NULL`, writing two bytes at offset 7 returns -1, not 2, and the file keeps its
size of 5 and its content. -/
theorem C3_counterexample :
    vfs_get_node fs_with_data "/f".toList = .found 7 ∧
    fs_with_data.node 7 = some file_f_data ∧
    file_f_data.size = file_f_data.data.length ∧
    (big_buffer.length : Int) = 2147483648 ∧
    (vfs_write env0 fs_with_data "/f".toList big_buffer big_buffer.length 3).map Prod.snd
      = some (-2147483648) ∧
    vfs_write env_nomem fs_with_data "/f".toList [8, 9] 2 7 = some (fs_with_data, -1) := by
  refine ⟨fs_with_data_get, fs_with_data_node, rfl, by rw [big_buffer_length]; rfl, ?_,
    by decide!⟩
  have hw := vfs_write_eq env0 fs_with_data "/f".toList 7 file_f_data big_buffer 3
    fs_with_data_get fs_with_data_node rfl rfl (by decide)
    (by rw [big_buffer_length]; decide) (fun h => Bool.false_ne_true h.2)
  rw [big_buffer_length, toInt32_two_pow_31] at hw
  rw [big_buffer_length]
  have h3 : ((3 : Nat) : Int) = 3 := rfl
  rw [h3] at hw
  rw [hw]
  rfl

/-- C4 (amended): `vfs_read` meets its reference definition when the number of
bytes to return is at most `INT_MAX`.  On a file with content of length `s`, for a
requested length `n` and an offset `o ≥ 0`: when `o ≥ s` it returns 0, copies
nothing and changes nothing; otherwise it returns `min(n, s - o)`, copies out
`c[o .. o + min(n, s - o))` and only sets the access time of the file node. -/
theorem C4_vfs_read_reference (e : Env) (s : VFS) (path : CStr) (f : Nat)
    (file : VFSNode) (n o : Nat)
    (hget : vfs_get_node s path = .found f) (hnode : s.node f = some file)
    (htype : file.type = VFSNodeType.VFS_TYPE_FILE) (hsize : file.size = file.data.length)
    (hwrap : o + n < SIZE_MOD) (hret : min n (file.size - o) ≤ INT_MAX) :
    (file.size ≤ o → vfs_read e s path n (o : Int) = some (s, 0, [])) ∧
    (o < file.size →
      vfs_read e s path n (o : Int) =
        some (s.setNode f { file with accessed := e.now },
          ((min n (file.size - o) : Nat) : Int),
          (file.data.drop o).take (min n (file.size - o)))) := by
  constructor
  · intro ho
    exact vfs_read_eof e s path f file n o hget hnode htype ho (by omega)
  · intro ho
    have hr := vfs_read_eq e s path f file n o hget hnode htype hsize ho hwrap
    rw [toInt32_of_le _ hret] at hr
    exact hr

/-- Witness of C4 on `/f` of `fs_with_data`: ten bytes requested at offset 2. -/
theorem C4_vfs_read_reference_witness :
    vfs_get_node fs_with_data "/f".toList = .found 7 ∧
    fs_with_data.node 7 = some file_f_data ∧
    vfs_read env0 fs_with_data "/f".toList 10 2 =
      some (fs_with_data.setNode 7 { file_f_data with accessed := env0.now }, 3,
        [30, 40, 50]) :=
  ⟨fs_with_data_get, fs_with_data_node,
    (C4_vfs_read_reference env0 fs_with_data "/f".toList 7 file_f_data 10 2
      fs_with_data_get fs_with_data_node rfl rfl (by decide) (by decide)).2 (by decide)⟩

/-- C4 as stated fails: once `/f` holds s = 2^31 bytes, a read of n = 2^31 bytes at
offset 0 returns -2147483648, not min(n, s - 0) = 2147483648.  And on the 5-byte
file a read of n = 2^64 - 1 bytes at offset 1 is not clamped, because
`offset + size` wraps to 0: the copy leaves the block. -/
theorem C4_counterexample :
    ((vfs_write env0 fs_with_file "/f".toList big_buffer 2147483648 0).bind fun w =>
      (vfs_read env0 w.1 "/f".toList 2147483648 0).map fun r =>
        ((w.1.node 7).map fun x => (x.type, x.size, x.data.length), r.2.1))
      = some (some (VFSNodeType.VFS_TYPE_FILE, 2147483648, 2147483648), -2147483648) ∧
    vfs_read env0 fs_with_data "/f".toList 18446744073709551615 1 = none := by
  refine ⟨?_, by decide!⟩
  have hw := vfs_write_eq env0 fs_with_file "/f".toList 7 file_f big_buffer 0
    fs_with_file_get fs_with_file_node rfl rfl (Nat.zero_le _)
    (by rw [big_buffer_length]; decide) (fun h => Bool.false_ne_true h.2)
  have hget1 := (vfs_get_node_after_store (file_after_write env0 file_f 0 big_buffer)
    "/f".toList fs_with_file_node (shape_file_after_write _ _ _ _)).trans fs_with_file_get
  have hnode1 := node_setNode_self (file_after_write env0 file_f 0 big_buffer)
    fs_with_file_node
  have hsz : (file_after_write env0 file_f 0 big_buffer).size = 2147483648 := by
    show max 0 (0 + big_buffer.length) = 2147483648
    rw [big_buffer_length]
    decide
  have hlen : (file_after_write env0 file_f 0 big_buffer).data.length = 2147483648 := by
    rw [← file_after_write_size env0 file_f 0 big_buffer rfl, hsz]
  have hr := vfs_read_eq env0 _ "/f".toList 7 _ 2147483648 0 hget1 hnode1 rfl
    (file_after_write_size env0 file_f 0 big_buffer rfl) (by rw [hsz]; decide) (by decide)
  have hmin : min 2147483648 ((file_after_write env0 file_f 0 big_buffer).size - 0)
      = 2147483648 := by
    rw [hsz]; decide
  rw [hmin, toInt32_two_pow_31] at hr
  have h0 : ((0 : Nat) : Int) = 0 := rfl
  rw [big_buffer_length] at hw
  rw [h0] at hw hr
  rw [hw, Option.some_bind, hr, Option.map_some', hnode1, Option.map_some', hsz, hlen]
  rfl

/-! ## Strings and path splitting -/

theorem strrchr_none {l : CStr} {c : Char} (h : strrchr l c = none) : c ∉ l := by
  induction l with
  | nil => simp
  | cons x xs ih =>
    unfold strrchr at h
    cases hx : strrchr xs c with
    | some i => simp [hx] at h
    | none =>
      simp only [hx] at h
      by_cases hxc : x = c
      · simp [hxc] at h
      · simp only [List.mem_cons, not_or]
        exact ⟨fun hc => hxc hc.symm, ih hx⟩

/-- The index `strrchr` returns splits the string at its last separator. -/
theorem strrchr_some {l : CStr} {c : Char} {i : Nat} (h : strrchr l c = some i) :
    l = l.take i ++ c :: l.drop (i + 1) ∧ c ∉ l.drop (i + 1) ∧ i < l.length := by
  induction l generalizing i with
  | nil => simp [strrchr] at h
  | cons x xs ih =>
    unfold strrchr at h
    cases hx : strrchr xs c with
    | some j =>
      simp only [hx, Option.some.injEq] at h
      subst h
      obtain ⟨h1, h2, h3⟩ := ih hx
      refine ⟨?_, ?_, ?_⟩
      · simp only [List.take_succ_cons, List.drop_succ_cons, List.cons_append]
        rw [← h1]
      · simpa using h2
      · simp; omega
    | none =>
      simp only [hx] at h
      by_cases hxc : x = c
      · simp only [hxc, if_true, Option.some.injEq] at h
        subst h
        subst hxc
        refine ⟨by simp, ?_, by simp⟩
        simpa using strrchr_none hx
      · simp [hxc] at h

theorem strtok_all_noslash (cur n : CStr) (hn : '/' ∉ n) (hne : cur ++ n ≠ []) :
    strtok_all cur n = [cur ++ n] := by
  induction n generalizing cur with
  | nil => simp at hne; simp [strtok_all, hne]
  | cons x xs ih =>
    simp only [List.mem_cons, not_or] at hn
    unfold strtok_all
    rw [if_neg (fun h => hn.1 h.symm)]
    rw [ih (cur ++ [x]) hn.2 (by simp)]
    simp

theorem strtok_all_append_slash (cur a n : CStr) (hn : '/' ∉ n) (hne : n ≠ []) :
    strtok_all cur (a ++ '/' :: n) = strtok_all cur a ++ [n] := by
  induction a generalizing cur with
  | nil =>
    have h0 := strtok_all_noslash [] n hn (by simpa using hne)
    simp only [List.nil_append] at h0 ⊢
    unfold strtok_all
    by_cases hc : cur = []
    · simp [hc, h0]
    · simp [hc, h0]
  | cons x xs ih =>
    simp only [List.cons_append]
    unfold strtok_all
    by_cases hx : x = '/'
    · by_cases hc : cur = []
      · simp [hx, hc, ih]
      · simp [hx, hc, ih]
    · simp [hx, ih]

theorem strtok_all_length (cur l : CStr) : (strtok_all cur l).length ≤ l.length + 1 := by
  induction l generalizing cur with
  | nil => unfold strtok_all; split <;> simp
  | cons x xs ih =>
    unfold strtok_all
    split
    · split
      · have := ih []; simp; omega
      · have := ih []; simp; omega
    · have := ih (cur ++ [x]); simp; omega

theorem split_loop_cons (t : CStr) (ts acc : List CStr) :
    split_loop (t :: ts) acc =
      if acc.length < VFS_MAX_PATH - 1 then
        if t ≠ ['.'] then
          if t = ['.', '.'] then
            if acc.length > 1 then split_loop ts acc.dropLast else split_loop ts acc
          else split_loop ts (acc ++ [t])
        else split_loop ts acc
      else acc := by
  rw [split_loop]

theorem split_loop_full (toks acc : List CStr) (h : ¬ acc.length < VFS_MAX_PATH - 1) :
    split_loop toks acc = acc := by
  cases toks with
  | nil => simp [split_loop]
  | cons t ts => rw [split_loop_cons, if_neg h]

theorem split_loop_append (a b acc : List CStr) :
    split_loop (a ++ b) acc = split_loop b (split_loop a acc) := by
  induction a generalizing acc with
  | nil => simp [split_loop]
  | cons t ts ih =>
    simp only [List.cons_append]
    rw [split_loop_cons t (ts ++ b), split_loop_cons t ts]
    by_cases hlen : acc.length < VFS_MAX_PATH - 1
    · rw [if_pos hlen, if_pos hlen]
      by_cases h1 : t ≠ ['.']
      · rw [if_pos h1, if_pos h1]
        by_cases h2 : t = ['.', '.']
        · rw [if_pos h2, if_pos h2]
          by_cases h3 : acc.length > 1
          · rw [if_pos h3, if_pos h3]; exact ih _
          · rw [if_neg h3, if_neg h3]; exact ih _
        · rw [if_neg h2, if_neg h2]; exact ih _
      · rw [if_neg h1, if_neg h1]; exact ih _
    · rw [if_neg hlen, if_neg hlen]
      exact (split_loop_full b acc hlen).symm

theorem split_loop_length (toks acc : List CStr) :
    (split_loop toks acc).length ≤ acc.length + toks.length := by
  induction toks generalizing acc with
  | nil => simp [split_loop]
  | cons t ts ih =>
    rw [split_loop_cons]
    by_cases hlen : acc.length < VFS_MAX_PATH - 1
    · rw [if_pos hlen]
      by_cases h1 : t ≠ ['.']
      · rw [if_pos h1]
        by_cases h2 : t = ['.', '.']
        · rw [if_pos h2]
          by_cases h3 : acc.length > 1
          · rw [if_pos h3]
            have := ih acc.dropLast
            simp at this ⊢; omega
          · rw [if_neg h3]
            have := ih acc
            simp; omega
        · rw [if_neg h2]
          have := ih (acc ++ [t])
          simp at this ⊢; omega
      · rw [if_neg h1]
        have := ih acc
        simp; omega
    · rw [if_neg hlen]; simp

/-- The first component is never popped. -/
theorem split_loop_head (toks : List CStr) (x : CStr) (ys : List CStr) :
    ∃ zs, split_loop toks (x :: ys) = x :: zs := by
  induction toks generalizing ys with
  | nil => exact ⟨ys, by simp [split_loop]⟩
  | cons t ts ih =>
    rw [split_loop_cons]
    by_cases hlen : (x :: ys).length < VFS_MAX_PATH - 1
    · rw [if_pos hlen]
      by_cases h1 : t ≠ ['.']
      · rw [if_pos h1]
        by_cases h2 : t = ['.', '.']
        · rw [if_pos h2]
          by_cases h3 : (x :: ys).length > 1
          · rw [if_pos h3]
            cases ys with
            | nil => simp at h3
            | cons y ys1 =>
              have : (x :: y :: ys1).dropLast = x :: (y :: ys1).dropLast := by
                simp [List.dropLast]
              rw [this]
              exact ih _
          · rw [if_neg h3]; exact ih _
        · rw [if_neg h2]; exact ih (ys ++ [t])
      · rw [if_neg h1]; exact ih _
    · rw [if_neg hlen]; exact ⟨ys, rfl⟩

theorem split_loop_single (t : CStr) (acc : List CStr)
    (h1 : t ≠ ['.']) (h2 : t ≠ ['.', '.']) (hlen : acc.length < VFS_MAX_PATH - 1) :
    split_loop [t] acc = acc ++ [t] := by
  rw [split_loop_cons, if_pos hlen, if_pos h1, if_neg h2]
  simp [split_loop]

/-! ## Resolution as a walk from the root -/

theorem traverse_undefined (s : VFS) (cs : List CStr) :
    traverse s .undefined cs = .undefined := by
  cases cs <;> simp [traverse]

theorem traverse_null (s : VFS) (cs : List CStr) : traverse s .null cs = .null := by
  cases cs <;> simp [traverse]

theorem traverse_cons_found (s : VFS) (p : Nat) (comp : CStr) (rest : List CStr) :
    traverse s (.found p) (comp :: rest) =
      match s.node p with
      | none => .undefined
      | some n =>
        if n.type ≠ VFSNodeType.VFS_TYPE_DIRECTORY then .null
        else traverse s (find_child s n.children comp) rest := by
  rw [traverse]

theorem traverse_append (s : VFS) (cur : Lookup) (a b : List CStr) :
    traverse s cur (a ++ b) = traverse s (traverse s cur a) b := by
  induction a generalizing cur with
  | nil => simp [traverse]
  | cons x xs ih =>
    cases cur with
    | undefined => simp [traverse, traverse_undefined]
    | null => simp [traverse, traverse_null]
    | found p =>
      simp only [List.cons_append]
      rw [traverse_cons_found, traverse_cons_found]
      cases s.node p with
      | none => simp [traverse_undefined]
      | some n =>
        by_cases ht : n.type ≠ VFSNodeType.VFS_TYPE_DIRECTORY
        · simp only [if_pos ht, traverse_null]
        · simp only [if_neg ht]
          exact ih _

theorem split_path_abs (path : CStr) (habs : path.head? = some '/') :
    ∃ zs, split_path path = ['/'] :: zs := by
  unfold split_path
  rw [if_pos habs]
  exact split_loop_head _ _ _

/-- For an absolute path `vfs_get_node` walks from the root over the components
after the leading one. -/
theorem vfs_get_node_abs (s : VFS) (r : Nat) (path : CStr) (hr : s.vfs_root = some r)
    (habs : path.head? = some '/') :
    vfs_get_node s path = traverse s (.found r) (split_path path).tail := by
  obtain ⟨zs, hzs⟩ := split_path_abs path habs
  unfold vfs_get_node
  simp only [hr]
  by_cases hp : path = ['/']
  · subst hp
    have : zs = [] := by
      have h2 : split_path ['/'] = [['/']] := by decide
      rw [h2] at hzs
      simpa using hzs.symm
    simp [hzs, this, traverse]
  · simp [hp, hzs]

/-- Every successful resolution is a walk from the root over a component list
that depends only on the path and the working-directory string. -/
theorem vfs_get_node_components (s : VFS) (r x : Nat) (path : CStr)
    (hr : s.vfs_root = some r) (h : vfs_get_node s path = .found x) :
    ∃ comps, ∀ t : VFS, t.vfs_root = some r →
      t.vfs_current_directory = s.vfs_current_directory →
      vfs_get_node t path = traverse t (.found r) comps := by
  unfold vfs_get_node at h
  simp only [hr] at h
  by_cases hp : path = ['/']
  · refine ⟨[], fun t ht _ => ?_⟩
    unfold vfs_get_node
    simp [ht, hp, traverse]
  · simp only [hp, if_false] at h
    cases hsp : split_path path with
    | nil => simp [hsp] at h
    | cons c0 rest =>
      simp only [hsp] at h
      by_cases hrel : c0.head? ≠ some '/'
      · rw [if_pos hrel] at h
        unfold vfs_get_node_cwd at h
        by_cases hcwd : s.vfs_current_directory = ['/']
        · refine ⟨c0 :: rest, fun t ht hc => ?_⟩
          unfold vfs_get_node vfs_get_node_cwd
          simp [ht, hp, hsp, hrel, hc, hcwd]
        · rw [if_neg hcwd] at h
          cases hsc : split_path s.vfs_current_directory with
          | nil => simp [hsc, traverse_undefined] at h
          | cons d0 drest =>
            simp only [hsc] at h
            by_cases hd : d0.head? ≠ some '/'
            · simp [hd, traverse_undefined] at h
            · refine ⟨drest ++ c0 :: rest, fun t ht hc => ?_⟩
              unfold vfs_get_node vfs_get_node_cwd
              simp only [ht, hc, hsp, hsc]
              rw [if_neg hp, if_pos hrel, if_neg hcwd, if_neg hd, traverse_append]
      · refine ⟨rest, fun t ht _ => ?_⟩
        unfold vfs_get_node
        simp [ht, hp, hsp, hrel]

/-- For a short absolute path `vfs_get_parent` walks from the root over
`parent_comps`. -/
theorem vfs_get_parent_abs (s : VFS) (r : Nat) (path : CStr) (hr : s.vfs_root = some r)
    (habs : path.head? = some '/') (hlen : path.length < VFS_MAX_PATH - 1) :
    vfs_get_parent s path = traverse s (.found r) (parent_comps path) := by
  unfold vfs_get_parent parent_comps rootLookup
  rw [if_neg (by intro hc; have := hc.2; omega)]
  simp only [habs, if_true, hr]
  cases hi : strrchr path '/' with
  | none => simp [traverse]
  | some i =>
    cases i with
    | zero => simp [traverse]
    | succ j =>
      obtain ⟨h1, _, h3⟩ := strrchr_some hi
      have hne : ¬ (List.take (j + 1) path).length = 0 := by
        rw [List.length_take]; omega
      simp only [hne, if_false]
      apply vfs_get_node_abs s r _ hr
      cases path with
      | nil => simp at habs
      | cons c cs => simpa using habs

/-- For a short absolute path whose last component is a proper name, the
components of the path are those of its parent followed by the name. -/
theorem split_path_parent_name (path : CStr) (habs : path.head? = some '/')
    (hlen : path.length < VFS_MAX_PATH - 1)
    (hne : vfs_get_filename path ≠ []) (hdot : vfs_get_filename path ≠ ['.'])
    (hdotdot : vfs_get_filename path ≠ ['.', '.']) :
    (split_path path).tail = parent_comps path ++ [vfs_get_filename path] := by
  unfold vfs_get_filename at hne hdot hdotdot ⊢
  unfold parent_comps
  cases hi : strrchr path '/' with
  | none =>
    have := strrchr_none hi
    cases path with
    | nil => simp at habs
    | cons c cs =>
      simp at habs
      subst habs
      simp at this
  | some i =>
    simp only [hi] at hne hdot hdotdot ⊢
    obtain ⟨h1, h2, h3⟩ := strrchr_some hi
    cases i with
    | zero =>
      have hd : path.drop 1 = path.drop (0 + 1) := rfl
      unfold split_path
      rw [if_pos habs, hd, strtok_all_noslash [] _ h2 (by simpa using hne)]
      simp only [List.nil_append]
      rw [split_loop_single _ _ hdot hdotdot (by simp [VFS_MAX_PATH])]
      simp
    | succ j =>
      have habs2 : (path.take (j + 1)).head? = some '/' := by
        cases path with
        | nil => simp at habs
        | cons c cs => simpa using habs
      obtain ⟨zs, hzs⟩ := split_path_abs _ habs2
      have hdrop : path.drop 1 =
          (path.take (j + 1)).drop 1 ++ '/' :: path.drop (j + 1 + 1) := by
        conv_lhs => rw [h1]
        rw [List.drop_append_of_le_length (by simp; omega)]
      have hsp : split_path path =
          split_loop [path.drop (j + 1 + 1)] (split_path (path.take (j + 1))) := by
        unfold split_path
        rw [if_pos habs, if_pos habs2, hdrop,
          strtok_all_append_slash [] _ _ h2 hne, split_loop_append]
      have hbound : (split_path (path.take (j + 1))).length < VFS_MAX_PATH - 1 := by
        unfold split_path
        rw [if_pos habs2]
        have a1 := split_loop_length (strtok_all [] ((path.take (j + 1)).drop 1)) [['/']]
        have a2 := strtok_all_length [] ((path.take (j + 1)).drop 1)
        have a3 : ((path.take (j + 1)).drop 1).length ≤ j := by
          rw [List.length_drop, List.length_take]; omega
        simp only [List.length_singleton] at a1
        omega
      rw [hsp, split_loop_single _ _ hdot hdotdot hbound]
      simp [hzs]

/-! ## Lookups and walks under a change of state -/

theorem find_child_cons (s : VFS) (c : Nat) (cs : List Nat) (nm : CStr) :
    find_child s (c :: cs) nm =
      match s.node c with
      | none => .undefined
      | some n => if n.name = nm then .found c else find_child s cs nm := by
  rw [find_child]

theorem find_child_found {s : VFS} {cs : List Nat} {nm : CStr} {c : Nat}
    (h : find_child s cs nm = .found c) :
    c ∈ cs ∧ ∃ n, s.node c = some n ∧ n.name = nm := by
  induction cs with
  | nil => simp [find_child] at h
  | cons d ds ih =>
    rw [find_child_cons] at h
    cases hd : s.node d with
    | none => simp [hd] at h
    | some n =>
      simp only [hd] at h
      by_cases hn : n.name = nm
      · rw [if_pos hn] at h
        cases h
        exact ⟨by simp, n, hd, hn⟩
      · rw [if_neg hn] at h
        obtain ⟨h1, h2⟩ := ih h
        exact ⟨by simp [h1], h2⟩

theorem find_child_null {s : VFS} {cs : List Nat} {nm : CStr}
    (h : find_child s cs nm = .null) :
    ∀ c ∈ cs, ∃ n, s.node c = some n ∧ n.name ≠ nm := by
  induction cs with
  | nil => simp
  | cons d ds ih =>
    rw [find_child_cons] at h
    cases hd : s.node d with
    | none => simp [hd] at h
    | some n =>
      simp only [hd] at h
      by_cases hn : n.name = nm
      · rw [if_pos hn] at h; cases h
      · rw [if_neg hn] at h
        intro c hc
        rcases List.mem_cons.mp hc with rfl | hc
        · exact ⟨n, hd, hn⟩
        · exact ih h c hc

theorem find_child_eq_null {s : VFS} {cs : List Nat} {nm : CStr}
    (h : ∀ c ∈ cs, ∃ n, s.node c = some n ∧ n.name ≠ nm) :
    find_child s cs nm = .null := by
  induction cs with
  | nil => simp [find_child]
  | cons d ds ih =>
    obtain ⟨n, hd, hn⟩ := h d (by simp)
    rw [find_child_cons]
    simp only [hd]
    rw [if_neg hn]
    exact ih (fun c hc => h c (by simp [hc]))

theorem find_child_append_null {s : VFS} {cs : List Nat} {nm : CStr} (ys : List Nat)
    (h : find_child s cs nm = .null) :
    find_child s (cs ++ ys) nm = find_child s ys nm := by
  induction cs with
  | nil => simp
  | cons d ds ih =>
    rw [find_child_cons] at h
    simp only [List.cons_append]
    rw [find_child_cons]
    cases hd : s.node d with
    | none => simp [hd] at h
    | some n =>
      simp only [hd] at h ⊢
      by_cases hn : n.name = nm
      · rw [if_pos hn] at h; cases h
      · rw [if_neg hn] at h ⊢
        exact ih h

theorem traverse_found_cons {s : VFS} {a c : Nat} {comp : CStr} {rest : List CStr}
    (h : traverse s (.found a) (comp :: rest) = .found c) :
    ∃ n b, s.node a = some n ∧ n.type = VFSNodeType.VFS_TYPE_DIRECTORY ∧
      find_child s n.children comp = .found b ∧ traverse s (.found b) rest = .found c := by
  rw [traverse_cons_found] at h
  cases ha : s.node a with
  | none => simp [ha] at h
  | some n =>
    simp only [ha] at h
    by_cases ht : n.type ≠ VFSNodeType.VFS_TYPE_DIRECTORY
    · rw [if_pos ht] at h; cases h
    · rw [if_neg ht] at h
      cases hf : find_child s n.children comp with
      | undefined => rw [hf, traverse_undefined] at h; cases h
      | null => rw [hf, traverse_null] at h; cases h
      | found b =>
        rw [hf] at h
        exact ⟨n, b, rfl, not_not.mp ht, hf, h⟩

theorem traverse_step {s : VFS} {a : Nat} {b : Lookup} {n : VFSNode} {comp : CStr}
    (rest : List CStr)
    (ha : s.node a = some n) (ht : n.type = VFSNodeType.VFS_TYPE_DIRECTORY)
    (hf : find_child s n.children comp = b) :
    traverse s (.found a) (comp :: rest) = traverse s b rest := by
  rw [traverse_cons_found]
  simp only [ha]
  rw [if_neg (by simp [ht]), hf]

theorem traverse_snoc_found {s : VFS} {a c : Nat} {pre : List CStr} {last : CStr}
    (h : traverse s (.found a) (pre ++ [last]) = .found c) :
    ∃ p n, traverse s (.found a) pre = .found p ∧ s.node p = some n ∧
      n.type = VFSNodeType.VFS_TYPE_DIRECTORY ∧ find_child s n.children last = .found c := by
  rw [traverse_append] at h
  cases hp : traverse s (.found a) pre with
  | undefined => rw [hp, traverse_undefined] at h; cases h
  | null => rw [hp, traverse_null] at h; cases h
  | found p =>
    rw [hp] at h
    obtain ⟨n, b, h1, h2, h3, h4⟩ := traverse_found_cons h
    simp only [traverse] at h4
    cases h4
    exact ⟨p, n, rfl, h1, h2, h3⟩

theorem Descends.trans {s : VFS} {a b c : Nat} (h1 : Descends s a b) (h2 : Descends s b c) :
    Descends s a c := by
  induction h1 with
  | refl p => exact h2
  | step hn hb _ ih => exact Descends.step hn hb (ih h2)

theorem descends_of_traverse {s : VFS} {a c : Nat} {cs : List CStr}
    (h : traverse s (.found a) cs = .found c) : Descends s a c := by
  induction cs generalizing a with
  | nil => simp only [traverse] at h; cases h; exact Descends.refl _
  | cons comp rest ih =>
    obtain ⟨n, b, h1, _, h3, h4⟩ := traverse_found_cons h
    exact Descends.step h1 (find_child_found h3).1 (ih h4)

theorem descends_childless {s : VFS} {x c : Nat} {n : VFSNode}
    (hx : s.node x = some n) (hc : n.children = []) (h : Descends s x c) : c = x := by
  cases h with
  | refl => rfl
  | step hn hb _ =>
    rw [hx] at hn
    cases hn
    simp [hc] at hb

theorem find_child_extends {s t : VFS} (h : Extends s t) {cs : List Nat} {nm : CStr}
    {c : Nat} (ys : List Nat) (hf : find_child s cs nm = .found c) :
    find_child t (cs ++ ys) nm = .found c := by
  induction cs with
  | nil => simp [find_child] at hf
  | cons d ds ih =>
    rw [find_child_cons] at hf
    simp only [List.cons_append]
    rw [find_child_cons]
    cases hd : s.node d with
    | none => simp [hd] at hf
    | some n =>
      obtain ⟨m, _, hm, hname, _, _⟩ := h d n hd
      simp only [hd] at hf
      simp only [hm, hname]
      by_cases hn : n.name = nm
      · rw [if_pos hn] at hf ⊢; exact hf
      · rw [if_neg hn] at hf ⊢; exact ih hf

theorem traverse_extends {s t : VFS} (h : Extends s t) {a c : Nat} {cs : List CStr}
    (hw : traverse s (.found a) cs = .found c) : traverse t (.found a) cs = .found c := by
  induction cs generalizing a with
  | nil => simpa [traverse] using hw
  | cons comp rest ih =>
    obtain ⟨n, b, h1, h2, h3, h4⟩ := traverse_found_cons hw
    obtain ⟨m, ys, hm, _, htype, hch⟩ := h a n h1
    have hf : find_child t m.children comp = .found b := by
      rw [hch]; exact find_child_extends h ys h3
    rw [traverse_step rest hm (htype.trans h2) hf]
    exact ih h4

theorem find_child_evolves {x : Nat} {s t : VFS} (h : Evolves x s t) {cs : List Nat}
    {nm : CStr} {c : Nat} (ys : List Nat) (hf : find_child s cs nm = .found c)
    (hc : c ≠ x) :
    find_child t (cs.filter (fun c => c != x) ++ ys) nm = .found c := by
  induction cs with
  | nil => simp [find_child] at hf
  | cons d ds ih =>
    rw [find_child_cons] at hf
    cases hd : s.node d with
    | none => simp [hd] at hf
    | some n =>
      simp only [hd] at hf
      by_cases hdx : d = x
      · have hn : ¬ n.name = nm := by
          intro hn
          rw [if_pos hn] at hf
          cases hf
          exact hc hdx
        rw [if_neg hn] at hf
        have : List.filter (fun c => c != x) (d :: ds)
            = List.filter (fun c => c != x) ds := by
          simp [List.filter_cons, hdx]
        rw [this]
        exact ih hf
      · obtain ⟨m, _, hm, hname, _, _⟩ := h d n hdx hd
        have : List.filter (fun c => c != x) (d :: ds)
            = d :: List.filter (fun c => c != x) ds := by
          simp [List.filter_cons, hdx]
        rw [this, List.cons_append, find_child_cons]
        simp only [hm, hname]
        by_cases hn : n.name = nm
        · rw [if_pos hn] at hf ⊢; exact hf
        · rw [if_neg hn] at hf ⊢; exact ih hf

/-- A walk of `s` that ends outside the subtree of `x` is a walk of `t`. -/
theorem traverse_evolves {x : Nat} {s t : VFS} (h : Evolves x s t) {a c : Nat}
    {cs : List CStr} (hw : traverse s (.found a) cs = .found c)
    (hx : ¬ Descends s x c) : traverse t (.found a) cs = .found c := by
  induction cs generalizing a with
  | nil => simpa [traverse] using hw
  | cons comp rest ih =>
    obtain ⟨n, b, h1, h2, h3, h4⟩ := traverse_found_cons hw
    have hax : a ≠ x := fun e => hx (e ▸ descends_of_traverse hw)
    have hbx : b ≠ x := fun e => hx (e ▸ descends_of_traverse h4)
    obtain ⟨m, ys, hm, _, htype, hch⟩ := h a n hax h1
    have hf : find_child t m.children comp = .found b := by
      rw [hch]; exact find_child_evolves h ys h3 hbx
    rw [traverse_step rest hm (htype.trans h2) hf]
    exact ih h4

theorem WF_of_check {s : VFS} (h : WF_check s = true) : WF s := by
  intro p n hp
  unfold WF_check at h
  rw [List.all_eq_true] at h
  have := h p (by simpa using lt_length_of_node hp)
  simp only [hp, Bool.and_eq_true, decide_eq_true_eq, List.all_eq_true] at this
  refine ⟨this.1, fun c hc => ?_⟩
  have hc2 := this.2 c hc
  cases hcn : s.node c with
  | none => simp [hcn] at hc2
  | some cn =>
    simp only [hcn, decide_eq_true_eq] at hc2
    exact ⟨cn, rfl, hc2⟩

theorem SiblingNamesUnique_of_check {s : VFS} (h : SiblingNamesUnique_check s = true) :
    SiblingNamesUnique s := by
  intro p n hp c1 hc1 c2 hc2 n1 n2 h1 h2 hname
  unfold SiblingNamesUnique_check at h
  rw [List.all_eq_true] at h
  have := h p (by simpa using lt_length_of_node hp)
  simp only [hp, List.all_eq_true] at this
  have := this c1 hc1 c2 hc2
  simp only [h1, h2, decide_eq_true_eq] at this
  exact this hname

/-! ## Relative paths -/

theorem strrchr_append (a b : CStr) (c : Char) :
    strrchr (a ++ b) c =
      match strrchr b c with
      | some i => some (a.length + i)
      | none => strrchr a c := by
  induction a with
  | nil =>
    cases h : strrchr b c <;> simp [strrchr, h]
  | cons x xs ih =>
    simp only [List.cons_append]
    rw [strrchr, ih]
    cases hb : strrchr b c with
    | some i => simp; omega
    | none => simp [strrchr]

theorem strtok_all_append_sep (cur a b : CStr) :
    strtok_all cur (a ++ '/' :: b) = strtok_all cur a ++ strtok_all [] b := by
  induction a generalizing cur with
  | nil =>
    simp only [List.nil_append]
    rw [strtok_all, strtok_all]
    by_cases hc : cur = [] <;> simp [hc]
  | cons x xs ih =>
    simp only [List.cons_append]
    rw [strtok_all, strtok_all]
    by_cases hx : x = '/'
    · by_cases hc : cur = [] <;> simp [hx, hc, ih]
    · simp [hx, ih]

theorem strtok_all_noslash_mem (cur l : CStr) (hc : '/' ∉ cur) :
    ∀ t ∈ strtok_all cur l, '/' ∉ t ∧ t ≠ [] := by
  induction l generalizing cur with
  | nil =>
    intro t ht
    rw [strtok_all] at ht
    by_cases h0 : cur = []
    · simp [h0] at ht
    · simp only [h0, if_false, List.mem_singleton] at ht
      subst ht
      exact ⟨hc, h0⟩
  | cons x xs ih =>
    intro t ht
    rw [strtok_all] at ht
    by_cases hx : x = '/'
    · simp only [hx, if_true] at ht
      by_cases h0 : cur = []
      · simp only [h0, if_true] at ht
        exact ih [] (by simp) t ht
      · simp only [h0, if_false, List.mem_cons] at ht
        rcases ht with rfl | ht
        · exact ⟨hc, h0⟩
        · exact ih [] (by simp) t ht
    · simp only [hx, if_false] at ht
      exact ih (cur ++ [x]) (by simp [hc]; exact fun h => hx h.symm) t ht

theorem strtok_all_length_le (l : CStr) : (strtok_all [] l).length ≤ l.length := by
  suffices h : ∀ cur : CStr, (strtok_all cur l).length ≤
      l.length + (if cur = [] then 0 else 1) by simpa using h []
  induction l with
  | nil => intro cur; rw [strtok_all]; by_cases h0 : cur = [] <;> simp [h0]
  | cons x xs ih =>
    intro cur
    rw [strtok_all]
    by_cases hx : x = '/'
    · simp only [hx, if_true]
      have := ih []
      by_cases h0 : cur = []
      · simp only [h0, if_true] at this ⊢; simp at this ⊢; omega
      · simp only [h0, if_false] at this ⊢; simp at this ⊢; omega
    · simp only [hx, if_false]
      have := ih (cur ++ [x])
      rw [if_neg (by simp)] at this
      by_cases h0 : cur = []
      · rw [if_pos h0]; simp only [List.length_cons]; omega
      · rw [if_neg h0]; simp only [List.length_cons]; omega

/-- Without `..` and within the bound, `split_loop` appends the tokens other than
`.` to what it has. -/
theorem split_loop_plain (toks acc : List CStr) (hdd : ['.', '.'] ∉ toks)
    (hlen : acc.length + toks.length < VFS_MAX_PATH - 1) :
    split_loop toks acc = acc ++ toks.filter (fun t => t != ['.']) := by
  induction toks generalizing acc with
  | nil => simp [split_loop]
  | cons t ts ih =>
    simp only [List.mem_cons, not_or] at hdd
    simp only [List.length_cons] at hlen
    rw [split_loop_cons, if_pos (by omega)]
    by_cases h1 : t ≠ ['.']
    · rw [if_pos h1, if_neg (fun h => hdd.1 h.symm)]
      rw [ih (acc ++ [t]) hdd.2 (by simp; omega)]
      simp [List.filter_cons, h1]
    · rw [if_neg h1, ih acc hdd.2 (by omega)]
      simp [List.filter_cons, not_not.mp h1]

theorem effective_path_abs (s : VFS) (path : CStr) (h : path.head? = some '/') :
    effective_path s path = path := by
  unfold effective_path
  rw [if_pos h]

theorem effective_path_head (s : VFS) (path : CStr) (h : PlainPath s path) :
    (effective_path s path).head? = some '/' := by
  unfold effective_path
  by_cases ha : path.head? = some '/'
  · rw [if_pos ha]; exact ha
  · rw [if_neg ha]
    rcases h with h | ⟨h, _⟩
    · exact absurd h ha
    · cases hc : s.vfs_current_directory with
      | nil => simp [hc] at h
      | cons c cs => simpa [hc] using h

/-- The function `vfs_get_filename` sees the same name in a path and in its
effective path. -/
theorem vfs_get_filename_effective (s : VFS) (path : CStr) :
    vfs_get_filename (effective_path s path) = vfs_get_filename path := by
  unfold effective_path
  by_cases ha : path.head? = some '/'
  · rw [if_pos ha]
  · rw [if_neg ha]
    unfold vfs_get_filename
    rw [List.append_assoc, strrchr_append]
    have hs : strrchr (['/'] ++ path) '/' =
        match strrchr path '/' with
        | some i => some (i + 1)
        | none => some 0 := by
      simp only [List.singleton_append]
      rw [strrchr]
      cases strrchr path '/' <;> simp
    rw [hs]
    cases hp : strrchr path '/' with
    | none =>
      simp only
      rw [List.drop_append_eq_append_drop]
      simp
    | some i =>
      simp only
      rw [List.drop_append_eq_append_drop]
      have e1 : List.drop (s.vfs_current_directory.length + (i + 1) + 1)
          s.vfs_current_directory = [] := List.drop_eq_nil_of_le (by omega)
      have e2 : s.vfs_current_directory.length + (i + 1) + 1
          - s.vfs_current_directory.length = (i + 1) + 1 := by omega
      rw [e1, e2]
      simp

/-- The function `vfs_get_parent` on a path is `vfs_get_parent` on its effective
path, as long as that is shorter than `VFS_MAX_PATH - 1`. -/
theorem vfs_get_parent_effective (s : VFS) (path : CStr) (h : PlainPath s path)
    (hlen : (effective_path s path).length < VFS_MAX_PATH - 1) :
    vfs_get_parent s (effective_path s path) = vfs_get_parent s path := by
  by_cases ha : path.head? = some '/'
  · rw [effective_path_abs s path ha]
  · have hh := effective_path_head s path h
    have he : effective_path s path = s.vfs_current_directory ++ ['/'] ++ path := by
      unfold effective_path; rw [if_neg ha]
    conv_rhs =>
      unfold vfs_get_parent
      rw [if_neg (fun hc => ha hc.1), if_neg ha, ← he, List.take_of_length_le (by omega)]
    conv_lhs =>
      unfold vfs_get_parent
      rw [if_neg (fun hc => absurd hc.2 (by omega)), if_pos hh]

/-- The last component of a path is one of its tokens. -/
theorem filename_mem_tokens (path : CStr) (hne : vfs_get_filename path ≠ []) :
    vfs_get_filename path ∈ strtok_all [] path := by
  unfold vfs_get_filename at hne ⊢
  cases hi : strrchr path '/' with
  | none =>
    simp only [hi] at hne ⊢
    rw [strtok_all_noslash [] path (strrchr_none hi) (by simpa using hne)]
    simp
  | some i =>
    simp only [hi] at hne ⊢
    obtain ⟨h1, h2, _⟩ := strrchr_some hi
    have hsplit : strtok_all [] path
        = strtok_all [] (path.take i) ++ [path.drop (i + 1)] := by
      conv_lhs => rw [h1]
      exact strtok_all_append_slash [] _ _ h2 hne
    rw [hsplit]
    simp

/-- For a plain path with a proper last component `vfs_get_node` on the path is
`vfs_get_node` on its effective path. -/
theorem vfs_get_node_effective (t : VFS) (path : CStr) (h : PlainPath t path)
    (hlen : (effective_path t path).length < VFS_MAX_PATH - 1)
    (hne : vfs_get_filename path ≠ []) (hdot : vfs_get_filename path ≠ ['.']) :
    vfs_get_node t (effective_path t path) = vfs_get_node t path := by
  by_cases ha : path.head? = some '/'
  · rw [effective_path_abs t path ha]
  · rcases h with h | ⟨hcwd, hdd⟩
    · exact absurd h ha
    · have he : effective_path t path = t.vfs_current_directory ++ ['/'] ++ path := by
        unfold effective_path; rw [if_neg ha]
      have hh := effective_path_head t path (Or.inr ⟨hcwd, hdd⟩)
      cases hr : t.vfs_root with
      | none => unfold vfs_get_node; simp [hr]
      | some r =>
        obtain ⟨W, hW⟩ := split_path_abs _ hcwd
        have hcne : t.vfs_current_directory ≠ [] := by
          intro h0; simp [h0] at hcwd
        have hlen2 : t.vfs_current_directory.length + 1 + path.length
            < VFS_MAX_PATH - 1 := by
          rw [he] at hlen
          simp only [List.length_append, List.length_singleton] at hlen
          omega
        have hB := strtok_all_length_le path
        -- components of the relative path
        have hsp : split_path path
            = (strtok_all [] path).filter (fun x => x != ['.']) := by
          unfold split_path
          rw [if_neg ha, split_loop_plain _ _ hdd (by simp; omega)]
          simp
        -- components of the effective path
        have hcl : (split_path t.vfs_current_directory).length
            ≤ t.vfs_current_directory.length := by
          unfold split_path
          rw [if_pos hcwd]
          have a1 := split_loop_length (strtok_all [] (t.vfs_current_directory.drop 1))
            [['/']]
          have a2 := strtok_all_length_le (t.vfs_current_directory.drop 1)
          have a3 : 0 < t.vfs_current_directory.length := List.length_pos.mpr hcne
          simp only [List.length_singleton, List.length_drop] at a1 a2
          omega
        have hdrop : (t.vfs_current_directory ++ ['/'] ++ path).drop 1
            = t.vfs_current_directory.drop 1 ++ '/' :: path := by
          rw [List.append_assoc, List.drop_append_of_le_length
            (by have := List.length_pos.mpr hcne; omega)]
          simp
        have hse : split_path (effective_path t path)
            = split_path t.vfs_current_directory ++ split_path path := by
          have hcs : split_path t.vfs_current_directory
              = split_loop (strtok_all [] (t.vfs_current_directory.drop 1)) [['/']] := by
            unfold split_path; rw [if_pos hcwd]
          conv_lhs =>
            unfold split_path
            rw [if_pos hh, he, hdrop, strtok_all_append_sep, split_loop_append, ← hcs]
          rw [split_loop_plain _ _ hdd (by omega), hsp]
        -- the relative path has at least one component
        have hmem : vfs_get_filename path ∈ split_path path := by
          rw [hsp, List.mem_filter]
          exact ⟨filename_mem_tokens path hne, by simpa using hdot⟩
        cases hc0 : split_path path with
        | nil => rw [hc0] at hmem; simp at hmem
        | cons c0 rest =>
          have hc0mem : c0 ∈ strtok_all [] path := by
            have : c0 ∈ split_path path := by rw [hc0]; simp
            rw [hsp, List.mem_filter] at this
            exact this.1
          obtain ⟨hns, hnn⟩ := strtok_all_noslash_mem [] path (by simp) c0 hc0mem
          have hc0h : c0.head? ≠ some '/' := by
            cases c0 with
            | nil => exact absurd rfl hnn
            | cons ch cs =>
              simp only [List.head?_cons, ne_eq, Option.some.injEq]
              intro hch
              exact hns (by simp [hch])
          have hpne : path ≠ ['/'] := by
            intro h0; rw [h0] at ha; simp at ha
          have hcwdnode : vfs_get_node_cwd t r = traverse t (.found r) W := by
            unfold vfs_get_node_cwd
            by_cases h1 : t.vfs_current_directory = ['/']
            · rw [if_pos h1]
              have h2 : split_path ['/'] = [['/']] := by decide
              rw [h1, h2] at hW
              have : W = [] := by simpa using hW.symm
              simp [this, traverse]
            · rw [if_neg h1]
              simp only [hW]
              rw [if_neg (by simp)]
          rw [vfs_get_node_abs t r _ hr hh, hse, hW, hc0]
          conv_rhs =>
            unfold vfs_get_node
            simp only [hr, hc0]
            rw [if_neg hpne, if_pos hc0h, hcwdnode]
          simp only [List.cons_append, List.tail_cons]
          rw [traverse_append]

/-! ## Creation -/

theorem node_alloc (s : VFS) (n : VFSNode) (p : Nat) :
    (s.alloc n).1.node p = if p = s.heap.length then some n else s.node p := by
  unfold VFS.alloc VFS.node
  simp only
  by_cases h1 : p < s.heap.length
  · rw [List.getElem?_append_left h1, if_neg (show ¬ p = s.heap.length by omega)]
  · by_cases h2 : p = s.heap.length
    · subst h2
      simp
    · have h3 : (s.heap ++ [some n]).length ≤ p := by simp; omega
      have h4 : s.heap.length ≤ p := by omega
      rw [if_neg h2, List.getElem?_eq_none h3, List.getElem?_eq_none h4]

/-- What a successful `vfs_create_*` call found and did. -/
theorem vfs_create_node_success {e : Env} {s s1 : VFS} {path : CStr} {mode : Nat}
    {type : VFSNodeType} {size : Nat} {data : List Nat} {f : Nat}
    (h : vfs_create_node e s path mode type size data = some (s1, some f)) :
    ∃ r parent pn, s.vfs_root = some r ∧ vfs_get_parent s path = .found parent ∧
      s.node parent = some pn ∧ pn.type = VFSNodeType.VFS_TYPE_DIRECTORY ∧
      vfs_get_filename path ≠ [] ∧
      find_child s pn.children (vfs_get_filename path) = .null ∧
      pn.children.length < VFS_MAX_CHILDREN ∧ f = s.heap.length ∧
      s1 = (s.alloc (new_node e parent (vfs_get_filename path) mode type size data)).1.setNode
        parent { pn with children := pn.children ++ [f], modified := e.now } := by
  unfold vfs_create_node at h
  cases hr : s.vfs_root with
  | none => simp [hr] at h
  | some r =>
    simp only [hr] at h
    cases hp : vfs_get_parent s path with
    | undefined => simp [hp] at h
    | null => simp [hp] at h
    | found parent =>
      simp only [hp] at h
      cases hn : s.node parent with
      | none => simp [hn] at h
      | some pn =>
        simp only [hn] at h
        by_cases ht : pn.type ≠ VFSNodeType.VFS_TYPE_DIRECTORY
        · rw [if_pos ht] at h; simp at h
        · rw [if_neg ht] at h
          by_cases hl : (vfs_get_filename path).length = 0
          · rw [if_pos hl] at h; simp at h
          · rw [if_neg hl] at h
            cases hf : find_child s pn.children (vfs_get_filename path) with
            | undefined => simp [hf] at h
            | found c => simp [hf] at h
            | null =>
              simp only [hf] at h
              by_cases hfull : pn.children.length ≥ VFS_MAX_CHILDREN
              · rw [if_pos hfull] at h; simp at h
              · rw [if_neg hfull] at h
                simp only [Option.some.injEq, Prod.mk.injEq] at h
                obtain ⟨h1, h2⟩ := h
                refine ⟨r, parent, pn, rfl, rfl, hn, not_not.mp ht, ?_, hf,
                  Nat.lt_of_not_le hfull, h2.symm, ?_⟩
                · intro h0; exact hl (by simp [h0])
                · rw [← h1, ← h2]; rfl

/-- A `vfs_create_*` call on an existing name returns `NULL` and changes nothing. -/
theorem vfs_create_node_exists {e : Env} {s : VFS} {path : CStr} {mode : Nat}
    {type : VFSNodeType} {size : Nat} {data : List Nat} {r parent c : Nat} {pn : VFSNode}
    (hr : s.vfs_root = some r) (hp : vfs_get_parent s path = .found parent)
    (hn : s.node parent = some pn)
    (hf : find_child s pn.children (vfs_get_filename path) = .found c) :
    vfs_create_node e s path mode type size data = some (s, none) := by
  unfold vfs_create_node
  simp only [hr, hp, hn, hf]
  split
  · rfl
  · split <;> rfl

theorem extends_create (s : VFS) (parent : Nat) (pn nn : VFSNode)
    (hn : s.node parent = some pn) :
    Extends s ((s.alloc nn).1.setNode parent
      { pn with children := pn.children ++ [s.heap.length], modified := nn.modified }) := by
  intro p n hp
  have hlt := lt_length_of_node hp
  have hparlt := lt_length_of_node hn
  have hpar : (s.alloc nn).1.node parent = some pn := by
    rw [node_alloc, if_neg (show ¬ parent = s.heap.length by omega)]; exact hn
  by_cases hpp : p = parent
  · subst hpp
    rw [hn] at hp
    cases hp
    exact ⟨_, [s.heap.length], node_setNode_self _ hpar, rfl, rfl, rfl⟩
  · refine ⟨n, [], ?_, rfl, rfl, by simp⟩
    rw [node_setNode_ne _ _ hpp, node_alloc, if_neg (show ¬ p = s.heap.length by omega)]
    exact hp

/-- The postcondition of `vfs_create_file` for an absolute path shorter than
`VFS_MAX_PATH - 1` whose last component is not `.` or `..` and has at most 255
characters. -/
theorem create_file_postcondition_abs (e : Env) (s s1 : VFS) (path : CStr) (mode : Nat)
    (f : Nat)
    (habs : path.head? = some '/') (hlen : path.length < VFS_MAX_PATH - 1)
    (hdot : vfs_get_filename path ≠ ['.']) (hdotdot : vfs_get_filename path ≠ ['.', '.'])
    (hname : (vfs_get_filename path).length ≤ VFS_MAX_FILENAME - 1)
    (hc : vfs_create_file e s path mode = some (s1, some f)) :
    vfs_get_node s1 path = .found f ∧
    (∃ fn, s1.node f = some fn ∧ fn.type = VFSNodeType.VFS_TYPE_FILE ∧ fn.size = 0) ∧
    (∀ e2 mode2, vfs_create_file e2 s1 path mode2 = some (s1, none)) ∧
    (∀ e2 mode2, vfs_create_directory e2 s1 path mode2 = some (s1, none)) ∧
    (∀ e2 target mode2, vfs_create_symlink e2 s1 path target mode2 = some (s1, none)) ∧
    s1.vfs_current_directory = s.vfs_current_directory := by
  obtain ⟨r, parent, pn, hr, hp, hn, ht, hne, hf, _, hfe, hs1⟩ :=
    vfs_create_node_success hc
  have hext : Extends s s1 := by
    rw [hs1, hfe]
    exact extends_create s parent pn _ hn
  have hr1 : s1.vfs_root = some r := by rw [hs1]; exact hr
  have hpar_lt := lt_length_of_node hn
  have halloc_par : (s.alloc (new_node e parent (vfs_get_filename path) mode
      VFSNodeType.VFS_TYPE_FILE 0 [])).1.node parent = some pn := by
    rw [node_alloc, if_neg (show ¬ parent = s.heap.length by omega)]; exact hn
  have hn1 : s1.node parent =
      some { pn with children := pn.children ++ [f], modified := e.now } := by
    rw [hs1]; exact node_setNode_self _ halloc_par
  have hf1 : s1.node f = some (new_node e parent (vfs_get_filename path) mode
      VFSNodeType.VFS_TYPE_FILE 0 []) := by
    rw [hs1, node_setNode_ne _ _ (show f ≠ parent by omega), node_alloc, if_pos hfe]
  have hwalk : traverse s (.found r) (parent_comps path) = .found parent := by
    rw [← vfs_get_parent_abs s r path hr habs hlen]; exact hp
  have hwalk1 := traverse_extends hext hwalk
  have hp1 : vfs_get_parent s1 path = .found parent := by
    rw [vfs_get_parent_abs s1 r path hr1 habs hlen]; exact hwalk1
  have hold : find_child s1 pn.children (vfs_get_filename path) = .null := by
    apply find_child_eq_null
    intro c hcm
    obtain ⟨n, hcn, hcname⟩ := find_child_null hf c hcm
    obtain ⟨m, _, hm, hmname, _, _⟩ := hext c n hcn
    exact ⟨m, hm, by rw [hmname]; exact hcname⟩
  have hfind : find_child s1 (pn.children ++ [f]) (vfs_get_filename path) = .found f := by
    rw [find_child_append_null _ hold, find_child_cons]
    simp only [hf1]
    rw [if_pos (by simp [new_node, List.take_of_length_le hname])]
  refine ⟨?_, ⟨_, hf1, rfl, rfl⟩, ?_, ?_, ?_, by rw [hs1]; rfl⟩
  · rw [vfs_get_node_abs s1 r path hr1 habs,
      split_path_parent_name path habs hlen hne hdot hdotdot, traverse_append, hwalk1,
      traverse_step [] hn1 ht hfind]
    simp [traverse]
  · intro e2 mode2
    exact vfs_create_node_exists hr1 hp1 hn1 hfind
  · intro e2 mode2
    exact vfs_create_node_exists hr1 hp1 hn1 hfind
  · intro e2 target mode2
    exact vfs_create_node_exists hr1 hp1 hn1 hfind

theorem fs_init_reached : vfs_init env0 none = some fs_init := by decide!

theorem fs_init_create_f :
    vfs_create_file env0 fs_init "/f".toList 0o644 = some (fs_with_file, some 7) := by
  decide!

theorem vfs_create_node_effective (e : Env) (s : VFS) (path : CStr) (mode : Nat)
    (type : VFSNodeType) (size : Nat) (data : List Nat) (h : PlainPath s path)
    (hlen : (effective_path s path).length < VFS_MAX_PATH - 1) :
    vfs_create_node e s (effective_path s path) mode type size data =
      vfs_create_node e s path mode type size data := by
  unfold vfs_create_node
  rw [vfs_get_parent_effective s path h hlen, vfs_get_filename_effective]

theorem effective_path_congr {s t : VFS} (path : CStr)
    (h : t.vfs_current_directory = s.vfs_current_directory) :
    effective_path t path = effective_path s path := by
  unfold effective_path
  rw [h]

theorem plainPath_congr {s t : VFS} {path : CStr}
    (h : t.vfs_current_directory = s.vfs_current_directory) (hp : PlainPath s path) :
    PlainPath t path := by
  unfold PlainPath at hp ⊢
  rw [h]
  exact hp

/-- C5 (amended): let the path be absolute, or relative without a `..` component
under an absolute working directory, let its effective path be shorter than
`VFS_MAX_PATH - 1`, and let its last component be neither `.` nor `..` and have at
most 255 characters.  If `vfs_create_file` succeeds then `vfs_get_node` of the path
returns the created node, which is a File of size 0, and a second create of the
path (file, directory or symlink) returns `NULL` and leaves the state unchanged. -/
theorem C5_create_file_postcondition (e : Env) (s s1 : VFS) (path : CStr) (mode : Nat)
    (f : Nat)
    (hplain : PlainPath s path)
    (hlen : (effective_path s path).length < VFS_MAX_PATH - 1)
    (hdot : vfs_get_filename path ≠ ['.']) (hdotdot : vfs_get_filename path ≠ ['.', '.'])
    (hname : (vfs_get_filename path).length ≤ VFS_MAX_FILENAME - 1)
    (hc : vfs_create_file e s path mode = some (s1, some f)) :
    vfs_get_node s1 path = .found f ∧
    (∃ fn, s1.node f = some fn ∧ fn.type = VFSNodeType.VFS_TYPE_FILE ∧ fn.size = 0) ∧
    (∀ e2 mode2, vfs_create_file e2 s1 path mode2 = some (s1, none)) ∧
    (∀ e2 mode2, vfs_create_directory e2 s1 path mode2 = some (s1, none)) ∧
    (∀ e2 target mode2, vfs_create_symlink e2 s1 path target mode2 = some (s1, none)) := by
  have hne : vfs_get_filename path ≠ [] := by
    obtain ⟨_, _, _, _, _, _, _, hne, _⟩ := vfs_create_node_success hc
    exact hne
  have hfn := vfs_get_filename_effective s path
  have hc2 : vfs_create_file e s (effective_path s path) mode = some (s1, some f) := by
    unfold vfs_create_file
    rw [vfs_create_node_effective e s path mode _ _ _ hplain hlen]
    exact hc
  obtain ⟨h1, h2, h3, h4, h5, hcwd⟩ :=
    create_file_postcondition_abs e s s1 (effective_path s path) mode f
      (effective_path_head s path hplain) hlen (by rw [hfn]; exact hdot)
      (by rw [hfn]; exact hdotdot) (by rw [hfn]; exact hname) hc2
  have heff := effective_path_congr path hcwd
  have hplain1 := plainPath_congr hcwd hplain
  have hlen1 : (effective_path s1 path).length < VFS_MAX_PATH - 1 := by
    rw [heff]; exact hlen
  refine ⟨?_, h2, ?_, ?_, ?_⟩
  · rw [← vfs_get_node_effective s1 path hplain1 hlen1 hne hdot, heff]
    exact h1
  · intro e2 mode2
    have := h3 e2 mode2
    unfold vfs_create_file at this ⊢
    rw [← vfs_create_node_effective e2 s1 path mode2 _ _ _ hplain1 hlen1, heff]
    exact this
  · intro e2 mode2
    have := h4 e2 mode2
    unfold vfs_create_directory at this ⊢
    rw [← vfs_create_node_effective e2 s1 path mode2 _ _ _ hplain1 hlen1, heff]
    exact this
  · intro e2 target mode2
    have := h5 e2 target mode2
    unfold vfs_create_symlink at this ⊢
    rw [← vfs_create_node_effective e2 s1 path mode2 _ _ _ hplain1 hlen1, heff]
    exact this

theorem fs_home_bob_create_notes :
    vfs_create_file env0 fs_home_bob "notes".toList 0o644 = some (fs_bob_notes, some 8) := by
  decide!

/-- Witness of C5: `vfs_create_file("notes")` with the working directory
`/home/bob`, in the state after `vfs_init` for the user `bob`. -/
theorem C5_create_file_postcondition_witness :
    PlainPath fs_home_bob "notes".toList ∧
    vfs_create_file env0 fs_home_bob "notes".toList 0o644 = some (fs_bob_notes, some 8) ∧
    vfs_get_node fs_bob_notes "notes".toList = .found 8 ∧
    (∃ fn, fs_bob_notes.node 8 = some fn ∧ fn.type = VFSNodeType.VFS_TYPE_FILE ∧
      fn.size = 0) ∧
    vfs_create_file env0 fs_bob_notes "notes".toList 0o600 = some (fs_bob_notes, none) ∧
    vfs_create_directory env0 fs_bob_notes "notes".toList 0o755
      = some (fs_bob_notes, none) ∧
    vfs_create_symlink env0 fs_bob_notes "notes".toList "/tmp".toList 0o777
      = some (fs_bob_notes, none) :=
  have hp : PlainPath fs_home_bob "notes".toList := Or.inr (by decide!)
  have h := C5_create_file_postcondition env0 fs_home_bob fs_bob_notes "notes".toList
    0o644 8 hp (by decide!) (by decide) (by decide) (by decide) fs_home_bob_create_notes
  ⟨hp, fs_home_bob_create_notes, h.1, h.2.1, h.2.2.1 env0 0o600, h.2.2.2.1 env0 0o755,
    h.2.2.2.2 env0 "/tmp".toList 0o777⟩

/-- C5 as stated fails for the name `..` in the root directory: the call
`vfs_create_file("/..")` succeeds and stores a File named `..` at address 7, yet
`vfs_get_node("/..")` returns the root (address 0), a Directory.  It also fails
for the relative path `tmp/../g` (working directory `/`): the file is created in
the root, and `vfs_get_node("tmp/../g")` looks for `/tmp/g` and returns `NULL`. -/
theorem C5_counterexample :
    (vfs_create_file env0 fs_init "/..".toList 0o644).map Prod.snd = some (some 7) ∧
    ((vfs_create_file env0 fs_init "/..".toList 0o644).map fun r =>
      vfs_get_node r.1 "/..".toList) = some (.found 0) ∧
    ((vfs_create_file env0 fs_init "/..".toList 0o644).bind fun r =>
      (r.1.node 0).map fun n => n.type) = some VFSNodeType.VFS_TYPE_DIRECTORY ∧
    ((vfs_create_file env0 fs_init "/..".toList 0o644).bind fun r =>
      (r.1.node 7).map fun n => n.type) = some VFSNodeType.VFS_TYPE_FILE ∧
    ((vfs_create_file env0 fs_init "/..".toList 0o644).bind fun r =>
      (r.1.node 7).map fun n => n.name) = some "..".toList ∧
    (vfs_create_file env0 fs_init "tmp/../g".toList 0o644).map Prod.snd = some (some 7) ∧
    ((vfs_create_file env0 fs_init "tmp/../g".toList 0o644).map fun r =>
      vfs_get_node r.1 "tmp/../g".toList) = some .null := by
  decide!

/-! ## Renaming -/

theorem rename_link_cases (e : Env) (s1 : VFS) (src tp : Nat) (nm : CStr) :
    rename_link e s1 src tp nm = none ∨ ∃ s2, rename_link e s1 src tp nm = some (s2, 0) := by
  unfold rename_link
  cases s1.node src with
  | none => simp
  | some n1 =>
    simp only
    cases (s1.setNode src
        { n1 with name := nm.take (VFS_MAX_FILENAME - 1),
                  parent := tp, modified := e.now }).node tp with
    | none => simp
    | some n2 => simp

theorem rename_link_outcome (e : Env) (s1 : VFS) (src tp : Nat) (nm : CStr) (s : VFS) :
    rename_link e s1 src tp nm = none ∨ rename_link e s1 src tp nm = some (s, -1) ∨
      ∃ s2, rename_link e s1 src tp nm = some (s2, 0) := by
  rcases rename_link_cases e s1 src tp nm with h | h
  · exact Or.inl h
  · exact Or.inr (Or.inr h)

/-- The three outcomes of `vfs_rename`: undefined behaviour, failure without any
change, or success. -/
theorem vfs_rename_cases (e : Env) (s : VFS) (old_path new_path : CStr) :
    vfs_rename e s old_path new_path = none ∨
    vfs_rename e s old_path new_path = some (s, -1) ∨
    ∃ s1, vfs_rename e s old_path new_path = some (s1, 0) := by
  unfold vfs_rename
  repeat' split
  all_goals first
    | exact rename_link_outcome _ _ _ _ _ _
    | simp

/-- C9: whenever `vfs_rename` returns -1 the state after the call is the state
before it: every node, children list, name and parent link is unchanged. -/
theorem C9_rename_all_or_nothing (e : Env) (s s1 : VFS) (old_path new_path : CStr)
    (h : vfs_rename e s old_path new_path = some (s1, -1)) : s1 = s := by
  rcases vfs_rename_cases e s old_path new_path with h0 | h0 | ⟨s2, h0⟩
  · rw [h0] at h; cases h
  · rw [h0] at h; cases h; rfl
  · rw [h0] at h; cases h

/-- Witness of C9: renaming the missing `/nope` in the state after `vfs_init`. -/
theorem C9_rename_all_or_nothing_witness :
    vfs_rename env0 fs_init "/nope".toList "/x".toList = some (fs_init, -1) ∧
    fs_init = fs_init :=
  ⟨by decide!, C9_rename_all_or_nothing env0 fs_init fs_init "/nope".toList "/x".toList
    (by decide!)⟩

/-! ## Two defects: truncated names and a move into the own subtree -/

/-- C6 fails on the code: after `vfs_init`, creating the files `/aa...ab` and
`/aa...ac` (names of 256 characters that agree on the first 255) succeeds twice;
both nodes, at addresses 7 and 8, are children of the root and both carry the
stored name of 255 times `a`, so sibling names are not unique. -/
theorem C6_truncated_names_collide :
    ((vfs_init env0 none).bind fun s0 =>
      (vfs_create_file env0 s0 long_path_b 0o644).bind fun r1 =>
        (vfs_create_file env0 r1.1 long_path_c 0o644).map fun r2 =>
          (r1.2, r2.2, r2.1)) = some (some 7, some 8, fs_two_long_names) ∧
    (fs_two_long_names.node 0).map (fun n => n.children) = some [1, 2, 3, 4, 5, 6, 7, 8] ∧
    (fs_two_long_names.node 7).map (fun n => n.name) = some (List.replicate 255 'a') ∧
    (fs_two_long_names.node 8).map (fun n => n.name) = some (List.replicate 255 'a') ∧
    ¬ SiblingNamesUnique fs_two_long_names := by
  refine ⟨by decide!, by decide!, by decide!, by decide!, ?_⟩
  intro h
  have h0 : ∃ n, fs_two_long_names.node 0 = some n ∧ 7 ∈ n.children ∧ 8 ∈ n.children := by
    decide!
  have a7 : (fs_two_long_names.node 7).map (fun n => n.name)
      = some (List.replicate 255 'a') := by decide!
  have a8 : (fs_two_long_names.node 8).map (fun n => n.name)
      = some (List.replicate 255 'a') := by decide!
  obtain ⟨n, hn, m7, m8⟩ := h0
  obtain ⟨n7, e7, hn7⟩ := Option.map_eq_some'.mp a7
  obtain ⟨n8, e8, hn8⟩ := Option.map_eq_some'.mp a8
  have := h 0 n hn 7 m7 8 m8 n7 n8 e7 e8 (hn7.trans hn8.symm)
  omega

theorem descends_closed {s : VFS} {S : List Nat} (hS : closed_check s S = true)
    {a c : Nat} (h : Descends s a c) (ha : a ∈ S) : c ∈ S := by
  induction h with
  | refl p => exact ha
  | step hn hb _ ih =>
    apply ih
    unfold closed_check at hS
    rw [List.all_eq_true] at hS
    have := hS _ ha
    simp only [hn, List.all_eq_true, decide_eq_true_eq] at this
    exact this _ hb

/-- C8 fails on the code: after `vfs_init`, `vfs_rename("/bin", "/bin/x")` returns
0 and leaves the node of `/bin` (address 1, created and never deleted) renamed to
`x`, with itself as parent and as only child, listed by no other directory and
not reachable from the root (address 0) through children links. -/
theorem C8_rename_into_own_subtree :
    vfs_rename env0 fs_init "/bin".toList "/bin/x".toList = some (fs_bin_moved, 0) ∧
    fs_bin_moved.vfs_root = some 0 ∧
    (fs_bin_moved.node 1).map (fun n => n.name) = some "x".toList ∧
    (fs_bin_moved.node 1).map (fun n => n.parent) = some 1 ∧
    (fs_bin_moved.node 1).map (fun n => n.children) = some [1] ∧
    (fs_bin_moved.node 0).map (fun n => n.children) = some [2, 3, 4, 5, 6] ∧
    ¬ Descends fs_bin_moved 0 1 := by
  refine ⟨by decide!, by decide!, by decide!, by decide!, by decide!, by decide!, ?_⟩
  intro h
  have hc : closed_check fs_bin_moved [0, 2, 3, 4, 5, 6] = true := by decide!
  have := descends_closed hc h (by decide)
  revert this
  decide

/-! ## Deletion -/

theorem node_free (s : VFS) (x p : Nat) :
    (s.free x).node p = if p = x then none else s.node p := by
  unfold VFS.free VFS.node
  simp only [List.getElem?_set]
  by_cases h : p = x
  · subst h
    by_cases h2 : p < s.heap.length <;> simp [h2]
  · simp [h, Ne.symm h]

/-- In a well-formed state only the parent of `x` lists `x`. -/
theorem filter_children_of_other {s : VFS} (hwf : WF s) {x p : Nat} {n m : VFSNode}
    (hx : s.node x = some n) (hp : s.node p = some m) (hne : p ≠ n.parent) :
    m.children.filter (fun c => c != x) = m.children := by
  rw [List.filter_eq_self]
  intro c hc
  simp only [bne_iff_ne, ne_eq]
  intro hcx
  subst hcx
  obtain ⟨cn, hcn, hpar⟩ := (hwf p m hp).2 c hc
  rw [hx] at hcn
  cases hcn
  exact hne hpar.symm

/-- The state change of a successful `vfs_delete` of `x`. -/
theorem evolves_delete {s : VFS} (hwf : WF s) {x : Nat} {n pn : VFSNode} (now : Nat)
    (hx : s.node x = some n) (hp : s.node n.parent = some pn) :
    Evolves x s ((s.setNode n.parent
      { pn with children := pn.children.erase x, modified := now }).free x) := by
  intro p m hpx hm
  rw [node_free, if_neg hpx]
  by_cases hpp : p = n.parent
  · subst hpp
    rw [hp] at hm
    cases hm
    refine ⟨_, [], node_setNode_self _ hp, rfl, rfl, ?_⟩
    simp only [List.append_nil]
    exact (hwf _ _ hp).1.erase_eq_filter x
  · refine ⟨m, [], ?_, rfl, rfl, ?_⟩
    · rw [node_setNode_ne _ _ hpp]; exact hm
    · rw [List.append_nil]; exact (filter_children_of_other hwf hx hm hpp).symm

/-- C10 (amended): when a path resolves to a Directory with at least one child,
`vfs_delete` returns -1 and changes nothing.  When it resolves to a Directory other
than the root that has no child, in a state with well-formed links and unique
sibling names, `vfs_delete` returns 0 and the path no longer resolves. -/
theorem C10_delete_directory (e : Env) (s : VFS) (path : CStr) (x : Nat) (n : VFSNode)
    (hget : vfs_get_node s path = .found x) (hnode : s.node x = some n)
    (htype : n.type = VFSNodeType.VFS_TYPE_DIRECTORY) :
    (n.children ≠ [] → vfs_delete e s path = some (s, -1)) ∧
    (n.children = [] → s.vfs_root ≠ some x → WF s → SiblingNamesUnique s →
      ∃ s1, vfs_delete e s path = some (s1, 0) ∧ vfs_get_node s1 path = .null) := by
  obtain ⟨r, hr⟩ := root_of_found hget
  constructor
  · intro hne
    unfold vfs_delete
    simp only [hr]
    by_cases hp : path = ['/']
    · rw [if_pos hp]
    · rw [if_neg hp]
      simp only [hget, hnode]
      rw [if_pos ⟨htype, List.length_pos.mpr hne⟩]
  · intro hnil hroot hwf huniq
    have hxr : x ≠ r := fun h => hroot (by rw [hr, h])
    obtain ⟨comps, hcomps⟩ := vfs_get_node_components s r x path hr hget
    have hw : traverse s (.found r) comps = .found x := by
      rw [← hcomps s hr rfl]; exact hget
    have hcne : comps ≠ [] := by
      intro h0
      rw [h0] at hw
      simp only [traverse, Lookup.found.injEq] at hw
      exact hxr hw.symm
    rw [← List.dropLast_append_getLast hcne] at hw
    obtain ⟨par, pn, hwalk, hpn, hpdir, hfind⟩ := traverse_snoc_found hw
    obtain ⟨hmem, n2, hn2, hname⟩ := find_child_found hfind
    rw [hnode] at hn2
    cases hn2
    obtain ⟨hnodup, hkids⟩ := hwf par pn hpn
    obtain ⟨cn, hcn, hpar⟩ := hkids x hmem
    rw [hnode] at hcn
    cases hcn
    have hp : path ≠ ['/'] := by
      intro h0
      rw [h0] at hget
      unfold vfs_get_node at hget
      simp only [hr, if_true, Lookup.found.injEq] at hget
      exact hxr hget.symm
    have hpn2 : s.node n.parent = some pn := by rw [hpar]; exact hpn
    have hmem2 : x ∈ pn.children := hmem
    obtain ⟨S1, hS1⟩ : ∃ S1, S1 = (s.setNode n.parent
      { pn with children := pn.children.erase x, modified := e.now }).free x := ⟨_, rfl⟩
    have hr1 : S1.vfs_root = some r := by rw [hS1]; exact hr
    have hcwd1 : S1.vfs_current_directory = s.vfs_current_directory := by rw [hS1]; rfl
    have hev : Evolves x s S1 := by rw [hS1]; exact evolves_delete hwf e.now hnode hpn2
    have hxpar : par ≠ x := by
      intro h0
      rw [h0, hnode] at hpn
      cases hpn
      rw [hnil] at hmem
      simp at hmem
    have hm2 : S1.node par
        = some { pn with children := pn.children.erase x, modified := e.now } := by
      rw [hS1, node_free, if_neg hxpar, ← hpar]
      exact node_setNode_self _ hpn2
    refine ⟨S1, ?_, ?_⟩
    · unfold vfs_delete
      simp only [hr]
      rw [if_neg hp]
      simp only [hget, hnode]
      rw [if_neg (by simp [hnil])]
      simp only [hpn2]
      rw [if_pos hmem2, hS1]
    · have hnd : ¬ Descends s x par := fun hd =>
        hxpar (descends_childless hnode hnil hd)
      have hwalk1 := traverse_evolves hev hwalk hnd
      have hnull : find_child S1 (pn.children.erase x) (comps.getLast hcne) = .null := by
        apply find_child_eq_null
        intro c hc
        rw [hnodup.mem_erase_iff] at hc
        obtain ⟨cn, hcn, _⟩ := hkids c hc.2
        obtain ⟨m2, _, hm2n, hm2name, _, _⟩ := hev c cn hc.1 hcn
        refine ⟨m2, hm2n, ?_⟩
        rw [hm2name]
        intro hcname
        exact hc.1 (huniq par pn hpn c hc.2 x hmem cn n hcn hnode (hcname.trans hname.symm))
      rw [hcomps S1 hr1 hcwd1, ← List.dropLast_append_getLast hcne, traverse_append, hwalk1,
        traverse_step [] hm2 hpdir hnull]
      simp [traverse]

/-- Witness of C10 in the state after `vfs_init` for the user `bob`: `/home` lists
`/home/bob` and cannot be deleted; once `/home/bob` is deleted, it can. -/
theorem C10_delete_directory_witness :
    vfs_get_node fs_home_bob "/home".toList = .found 3 ∧
    fs_home_bob.node 3 = some (home_node [7]) ∧
    vfs_delete env0 fs_home_bob "/home".toList = some (fs_home_bob, -1) ∧
    vfs_delete env0 fs_home_bob "/home/bob".toList = some (fs_home_empty, 0) ∧
    fs_home_empty.node 3 = some (home_node []) ∧
    ∃ s1, vfs_delete env0 fs_home_empty "/home".toList = some (s1, 0) ∧
      vfs_get_node s1 "/home".toList = .null :=
  ⟨by decide!, by decide!,
    (C10_delete_directory env0 fs_home_bob "/home".toList 3 (home_node [7])
      (by decide!) (by decide!) rfl).1 (by decide),
    by decide!, by decide!,
    (C10_delete_directory env0 fs_home_empty "/home".toList 3 (home_node [])
      (by decide!) (by decide!) rfl).2 rfl (by decide!)
      (WF_of_check (by decide!)) (SiblingNamesUnique_of_check (by decide!))⟩

/-- C10 as stated fails for the root: `/` resolves to a Directory with six
children after `vfs_init`; once all six have been deleted, `vfs_delete("/")` (and
`vfs_delete("//")`) still returns -1, and `/` still resolves. -/
theorem C10_counterexample :
    vfs_get_node fs_init "/".toList = .found 0 ∧
    (fs_init.node 0).map (fun n => (n.type, n.children))
      = some (VFSNodeType.VFS_TYPE_DIRECTORY, [1, 2, 3, 4, 5, 6]) ∧
    run_deletes env0 fs_init
      ["/bin".toList, "/etc".toList, "/home".toList, "/tmp".toList, "/usr".toList,
        "/var".toList] = some fs_root_empty ∧
    (fs_root_empty.node 0).map (fun n => (n.type, n.children))
      = some (VFSNodeType.VFS_TYPE_DIRECTORY, []) ∧
    vfs_delete env0 fs_root_empty "/".toList = some (fs_root_empty, -1) ∧
    vfs_delete env0 fs_root_empty "//".toList = some (fs_root_empty, -1) ∧
    vfs_get_node fs_root_empty "/".toList = .found 0 := by
  decide!

/-! ## The postcondition of a successful rename -/

/-- A walk that starts outside `x` and ends in `x` enters `x` from a directory
other than `x` that lists it. -/
theorem walk_enters {s : VFS} {x : Nat} {cs : List CStr} {a : Nat} (ha : a ≠ x)
    (hw : traverse s (.found a) cs = .found x) :
    ∃ q qn, q ≠ x ∧ s.node q = some qn ∧ x ∈ qn.children := by
  induction cs generalizing a with
  | nil =>
    simp only [traverse, Lookup.found.injEq] at hw
    exact absurd hw ha
  | cons comp rest ih =>
    obtain ⟨n, b, h1, _, h3, h4⟩ := traverse_found_cons hw
    by_cases hb : b = x
    · exact ⟨a, n, ha, h1, hb ▸ (find_child_found h3).1⟩
    · exact ih hb h4

/-- A walk of `s` that ends in `x` ends in `NULL` in a state `t` in which the old
parent of `x` has no child with the old name of `x`. -/
theorem walk_lost {x : Nat} {s t : VFS} {xn : VFSNode} (hev : Evolves x s t) (hwf : WF s)
    (hx : s.node x = some xn)
    (hgone : ∀ m, t.node xn.parent = some m → find_child t m.children xn.name = .null)
    {cs : List CStr} {a : Nat} (ha : a ≠ x) (hw : traverse s (.found a) cs = .found x) :
    traverse t (.found a) cs = .null := by
  induction cs generalizing a with
  | nil =>
    simp only [traverse, Lookup.found.injEq] at hw
    exact absurd hw ha
  | cons comp rest ih =>
    obtain ⟨n, b, h1, h2, h3, h4⟩ := traverse_found_cons hw
    obtain ⟨m, ys, hm, _, htype, hch⟩ := hev a n ha h1
    by_cases hb : b = x
    · subst hb
      obtain ⟨hmem, n2, hn2, hname⟩ := find_child_found h3
      rw [hx] at hn2
      cases hn2
      obtain ⟨cn, hcn, hpar⟩ := (hwf a n h1).2 b hmem
      rw [hx] at hcn
      cases hcn
      have hnull : find_child t m.children comp = .null := by
        rw [← hname]
        exact hgone m (by rw [hpar]; exact hm)
      rw [traverse_step rest hm (htype.trans h2) hnull, traverse_null]
    · have hf : find_child t m.children comp = .found b := by
        rw [hch]; exact find_child_evolves hev ys h3 hb
      rw [traverse_step rest hm (htype.trans h2) hf]
      exact ih hb h4

/-- The call of `vfs_rename` reduces to its last part once all checks pass. -/
theorem vfs_rename_eq (e : Env) {s : VFS} {old_path new_path : CStr} {r x tp : Nat}
    {xn spn tpn : VFSNode}
    (hr : s.vfs_root = some r) (hold : vfs_get_node s old_path = .found x)
    (hparent : vfs_get_parent s new_path = .found tp) (htp : s.node tp = some tpn)
    (hdir : tpn.type = VFSNodeType.VFS_TYPE_DIRECTORY)
    (hne : vfs_get_filename new_path ≠ [])
    (hfree : find_child s tpn.children (vfs_get_filename new_path) = .null)
    (hroom : tpn.children.length < VFS_MAX_CHILDREN)
    (hx : s.node x = some xn) (hsp : s.node xn.parent = some spn)
    (hmem : x ∈ spn.children) :
    vfs_rename e s old_path new_path =
      rename_link e
        (s.setNode xn.parent
          { spn with children := spn.children.erase x, modified := e.now })
        x tp (vfs_get_filename new_path) := by
  unfold vfs_rename
  simp only [hr, hold, hparent, htp]
  rw [if_neg (by simp [hdir]), if_neg (by simpa using hne)]
  simp only [hfree]
  rw [if_neg (by omega)]
  simp only [hx, hsp]
  rw [if_pos hmem]

/-- The state a successful rename leaves, node by node, when the moved node `x`
is neither its old parent `sp` nor the target parent `tp`. -/
theorem rename_link_eq (e : Env) (nm : CStr) {s : VFS} {x sp tp : Nat}
    {xn spn tpn : VFSNode} (hx : s.node x = some xn) (hsp : s.node sp = some spn)
    (htp : s.node tp = some tpn) (hxsp : x ≠ sp) (hxtp : x ≠ tp) :
    ∃ s3, rename_link e
        (s.setNode sp { spn with children := spn.children.erase x, modified := e.now })
        x tp nm = some (s3, 0) ∧
      s3.vfs_root = s.vfs_root ∧ s3.vfs_current_directory = s.vfs_current_directory ∧
      s3.node x = some { xn with name := nm.take (VFS_MAX_FILENAME - 1), parent := tp,
                                 modified := e.now } ∧
      (tp = sp → s3.node tp = some { spn with children := spn.children.erase x ++ [x],
                                              modified := e.now }) ∧
      (tp ≠ sp → s3.node tp = some { tpn with children := tpn.children ++ [x],
                                              modified := e.now } ∧
                 s3.node sp = some { spn with children := spn.children.erase x,
                                              modified := e.now }) ∧
      (∀ p, p ≠ x → p ≠ sp → p ≠ tp → s3.node p = s.node p) := by
  have h1 : (s.setNode sp
      { spn with children := spn.children.erase x, modified := e.now }).node x
      = some xn := by
    rw [node_setNode_ne _ _ hxsp]; exact hx
  have h1sp := node_setNode_self
    { spn with children := spn.children.erase x, modified := e.now } hsp
  unfold rename_link
  simp only [h1]
  by_cases hts : tp = sp
  · subst hts
    have h2 : ((s.setNode tp
        { spn with children := spn.children.erase x, modified := e.now }).setNode x
        { xn with name := nm.take (VFS_MAX_FILENAME - 1), parent := tp,
                  modified := e.now }).node tp
        = some { spn with children := spn.children.erase x, modified := e.now } := by
      rw [node_setNode_ne _ _ (Ne.symm hxtp)]; exact h1sp
    simp only [h2]
    refine ⟨_, rfl, rfl, rfl, ?_, fun _ => ?_, fun h => absurd rfl h, ?_⟩
    · rw [node_setNode_ne _ _ hxtp]
      exact node_setNode_self _ h1
    · exact node_setNode_self _ h2
    · intro p hpx hpsp _
      rw [node_setNode_ne _ _ hpsp, node_setNode_ne _ _ hpx, node_setNode_ne _ _ hpsp]
  · have h2 : ((s.setNode sp
        { spn with children := spn.children.erase x, modified := e.now }).setNode x
        { xn with name := nm.take (VFS_MAX_FILENAME - 1), parent := tp,
                  modified := e.now }).node tp = some tpn := by
      rw [node_setNode_ne _ _ (Ne.symm hxtp), node_setNode_ne _ _ hts]; exact htp
    simp only [h2]
    refine ⟨_, rfl, rfl, rfl, ?_, fun h => absurd h hts, fun _ => ⟨?_, ?_⟩, ?_⟩
    · rw [node_setNode_ne _ _ hxtp]
      exact node_setNode_self _ h1
    · exact node_setNode_self _ h2
    · rw [node_setNode_ne _ _ (Ne.symm hts), node_setNode_ne _ _ (Ne.symm hxsp)]
      exact h1sp
    · intro p hpx hpsp hptp
      rw [node_setNode_ne _ _ hptp, node_setNode_ne _ _ hpx, node_setNode_ne _ _ hpsp]

/-- The state change of a successful rename of `x` from `sp` into `tp`. -/
theorem evolves_rename {s s3 : VFS} (hwf : WF s) {x sp tp : Nat} {xn spn tpn : VFSNode}
    {now : Nat} (hx : s.node x = some xn) (hsp : s.node sp = some spn)
    (htp : s.node tp = some tpn) (hpar : xn.parent = sp)
    (htp_eq : tp = sp → s3.node tp =
      some { spn with children := spn.children.erase x ++ [x], modified := now })
    (htp_ne : tp ≠ sp →
      s3.node tp = some { tpn with children := tpn.children ++ [x], modified := now } ∧
      s3.node sp = some { spn with children := spn.children.erase x, modified := now })
    (hother : ∀ p, p ≠ x → p ≠ sp → p ≠ tp → s3.node p = s.node p) :
    Evolves x s s3 := by
  intro p m hpx hm
  by_cases hps : p = sp
  · subst hps
    rw [hsp] at hm
    cases hm
    have herase := (hwf p spn hsp).1.erase_eq_filter x
    by_cases hts : tp = p
    · have h3 := htp_eq hts
      rw [hts] at h3
      exact ⟨_, [x], h3, rfl, rfl, by simp only [herase]⟩
    · exact ⟨_, [], (htp_ne hts).2, rfl, rfl, by simp only [herase, List.append_nil]⟩
  · have hfilter := filter_children_of_other hwf hx hm (by rw [hpar]; exact hps)
    by_cases hpt : p = tp
    · subst hpt
      rw [htp] at hm
      cases hm
      refine ⟨_, [x], (htp_ne hps).1, rfl, rfl, ?_⟩
      simp only [hfilter]
    · refine ⟨m, [], ?_, rfl, rfl, ?_⟩
      · rw [hother p hpx hps hpt]; exact hm
      · simp only [hfilter, List.append_nil]

/-- The postcondition of `vfs_rename` for an absolute new path shorter than
`VFS_MAX_PATH - 1`. -/
theorem rename_postcondition_abs (e : Env) (s : VFS) (old_path new_path : CStr)
    (x tp : Nat) (xn tpn : VFSNode)
    (hwf : WF s) (huniq : SiblingNamesUnique s)
    (hold : vfs_get_node s old_path = .found x) (hx : s.node x = some xn)
    (hroot : s.vfs_root ≠ some x)
    (habs : new_path.head? = some '/') (hlen : new_path.length < VFS_MAX_PATH - 1)
    (hne : vfs_get_filename new_path ≠ [])
    (hdot : vfs_get_filename new_path ≠ ['.'])
    (hdotdot : vfs_get_filename new_path ≠ ['.', '.'])
    (hname : (vfs_get_filename new_path).length ≤ VFS_MAX_FILENAME - 1)
    (hparent : vfs_get_parent s new_path = .found tp) (htp : s.node tp = some tpn)
    (hdir : tpn.type = VFSNodeType.VFS_TYPE_DIRECTORY)
    (hroom : tpn.children.length < VFS_MAX_CHILDREN)
    (hfree : ∀ c ∈ tpn.children, ∀ cn, s.node c = some cn →
      cn.name ≠ vfs_get_filename new_path)
    (hout : ¬ Descends s x tp) :
    ∃ s1 xn1, vfs_rename e s old_path new_path = some (s1, 0) ∧
      vfs_get_node s1 old_path = .null ∧ vfs_get_node s1 new_path = .found x ∧
      s1.node x = some xn1 ∧ xn1.type = xn.type ∧ xn1.size = xn.size ∧
      xn1.data = xn.data ∧ s1.vfs_current_directory = s.vfs_current_directory := by
  obtain ⟨r, hr⟩ := root_of_found hold
  have hxr : x ≠ r := fun h => hroot (by rw [hr, h])
  obtain ⟨comps, hcomps⟩ := vfs_get_node_components s r x old_path hr hold
  have hw : traverse s (.found r) comps = .found x := by
    rw [← hcomps s hr rfl]; exact hold
  obtain ⟨sp, spn, hspx, hsp, hmem⟩ := walk_enters (Ne.symm hxr) hw
  obtain ⟨cn, hcn, hpar⟩ := (hwf sp spn hsp).2 x hmem
  rw [hx] at hcn
  cases hcn
  have hxsp : x ≠ sp := Ne.symm hspx
  have hxtp : x ≠ tp := fun h => hout (h ▸ Descends.refl x)
  have hkids := (hwf tp tpn htp).2
  have hfind : find_child s tpn.children (vfs_get_filename new_path) = .null :=
    find_child_eq_null fun c hc =>
      let ⟨cn, hcn, _⟩ := hkids c hc
      ⟨cn, hcn, hfree c hc cn hcn⟩
  have hren := vfs_rename_eq e hr hold hparent htp hdir hne hfind hroom hx
    (by rw [hpar]; exact hsp) hmem
  rw [hpar] at hren
  obtain ⟨s3, hlink, hr3, hcwd3, hx3, htp_eq, htp_ne, hother⟩ :=
    rename_link_eq e (vfs_get_filename new_path) hx hsp htp hxsp hxtp
  have hr3' : s3.vfs_root = some r := by rw [hr3]; exact hr
  have hev : Evolves x s s3 := evolves_rename hwf hx hsp htp hpar htp_eq htp_ne hother
  have hnewname : List.take (VFS_MAX_FILENAME - 1) (vfs_get_filename new_path)
      = vfs_get_filename new_path := List.take_of_length_le hname
  -- names of the other nodes are kept
  have hkeep : ∀ c cn, c ≠ x → s.node c = some cn → ∃ m, s3.node c = some m ∧
      m.name = cn.name := fun c cn hcx hcn =>
    let ⟨m, _, hm, hmn, _, _⟩ := hev c cn hcx hcn
    ⟨m, hm, hmn⟩
  refine ⟨s3, _, hren.trans hlink, ?_, ?_, hx3, rfl, rfl, rfl, hcwd3⟩
  · -- the old path
    rw [hcomps s3 hr3' hcwd3]
    apply walk_lost hev hwf hx ?_ (Ne.symm hxr) hw
    intro m hm
    rw [hpar] at hm
    have hnodup := (hwf sp spn hsp).1
    have hold_part : find_child s3 (spn.children.erase x) xn.name = .null := by
      apply find_child_eq_null
      intro c hc
      rw [hnodup.mem_erase_iff] at hc
      obtain ⟨cn, hcn, _⟩ := (hwf sp spn hsp).2 c hc.2
      obtain ⟨m2, hm2, hm2n⟩ := hkeep c cn hc.1 hcn
      refine ⟨m2, hm2, ?_⟩
      rw [hm2n]
      intro hcname
      exact hc.1 (huniq sp spn hsp c hc.2 x hmem cn xn hcn hx hcname)
    by_cases hts : tp = sp
    · have h3 := htp_eq hts
      rw [hts, hm] at h3
      cases h3
      show find_child s3 (spn.children.erase x ++ [x]) xn.name = .null
      rw [find_child_append_null _ hold_part, find_child_cons]
      simp only [hx3]
      have hxname : xn.name ≠ vfs_get_filename new_path := by
        have hsame : tpn = spn := by
          rw [hts, hsp] at htp
          cases htp
          rfl
        exact hfree x (hsame ▸ hmem) xn hx
      rw [if_neg (by rw [hnewname]; exact fun h => hxname h.symm)]
      simp [find_child]
    · have h3 := (htp_ne hts).2
      rw [hm] at h3
      cases h3
      exact hold_part
  · -- the new path
    have hwalk : traverse s (.found r) (parent_comps new_path) = .found tp := by
      rw [← vfs_get_parent_abs s r new_path hr habs hlen]; exact hparent
    have hwalk3 := traverse_evolves hev hwalk hout
    have hfound : ∃ m3 L, s3.node tp = some m3 ∧
        m3.type = VFSNodeType.VFS_TYPE_DIRECTORY ∧ m3.children = L ++ [x] ∧
        ∀ c ∈ L, c ∈ tpn.children ∧ c ≠ x := by
      by_cases hts : tp = sp
      · have hsame : tpn = spn := by
          rw [hts, hsp] at htp
          cases htp
          rfl
        refine ⟨_, spn.children.erase x, htp_eq hts, hsame ▸ hdir, rfl, fun c hc => ?_⟩
        rw [(hwf sp spn hsp).1.mem_erase_iff] at hc
        exact ⟨hsame ▸ hc.2, hc.1⟩
      · refine ⟨_, tpn.children, (htp_ne hts).1, hdir, rfl, fun c hc => ⟨hc, ?_⟩⟩
        intro hcx
        obtain ⟨cn, hcn, hcpar⟩ := hkids c hc
        rw [hcx, hx] at hcn
        cases hcn
        exact hts (hcpar.symm.trans hpar)
    obtain ⟨m3, L, hm3, hm3dir, hm3ch, hL⟩ := hfound
    have hLnull : find_child s3 L (vfs_get_filename new_path) = .null := by
      apply find_child_eq_null
      intro c hc
      obtain ⟨hc1, hc2⟩ := hL c hc
      obtain ⟨cn, hcn, _⟩ := hkids c hc1
      obtain ⟨m2, hm2, hm2n⟩ := hkeep c cn hc2 hcn
      exact ⟨m2, hm2, by rw [hm2n]; exact hfree c hc1 cn hcn⟩
    have hfindx : find_child s3 m3.children (vfs_get_filename new_path) = .found x := by
      rw [hm3ch, find_child_append_null _ hLnull, find_child_cons]
      simp only [hx3]
      rw [if_pos hnewname]
    rw [vfs_get_node_abs s3 r new_path hr3' habs,
      split_path_parent_name new_path habs hlen hne hdot hdotdot, traverse_append, hwalk3,
      traverse_step [] hm3 hm3dir hfindx]
    simp [traverse]

theorem vfs_rename_effective (e : Env) (s : VFS) (old_path new_path : CStr)
    (h : PlainPath s new_path)
    (hlen : (effective_path s new_path).length < VFS_MAX_PATH - 1) :
    vfs_rename e s old_path (effective_path s new_path) =
      vfs_rename e s old_path new_path := by
  unfold vfs_rename
  rw [vfs_get_parent_effective s new_path h hlen, vfs_get_filename_effective]

/-- C7 (amended): in a state with well-formed links and unique sibling names, let
the old path resolve to a node `x` other than the root; let the new path be
absolute, or relative without a `..` component under an absolute working
directory, with an effective path shorter than `VFS_MAX_PATH - 1` and a last
component that is non-empty, not `.` or `..` and at most 255 characters long; let
its parent resolve to a Directory `tp` that is not full, has no child of that name
and is neither `x` nor below `x`.  Then `vfs_rename` returns 0, afterwards the old
path resolves to `NULL` and the new path resolves to `x`, whose type, size and
content are unchanged. -/
theorem C7_rename_postcondition (e : Env) (s : VFS) (old_path new_path : CStr)
    (x tp : Nat) (xn tpn : VFSNode)
    (hwf : WF s) (huniq : SiblingNamesUnique s)
    (hold : vfs_get_node s old_path = .found x) (hx : s.node x = some xn)
    (hroot : s.vfs_root ≠ some x)
    (hplain : PlainPath s new_path)
    (hlen : (effective_path s new_path).length < VFS_MAX_PATH - 1)
    (hne : vfs_get_filename new_path ≠ [])
    (hdot : vfs_get_filename new_path ≠ ['.'])
    (hdotdot : vfs_get_filename new_path ≠ ['.', '.'])
    (hname : (vfs_get_filename new_path).length ≤ VFS_MAX_FILENAME - 1)
    (hparent : vfs_get_parent s new_path = .found tp) (htp : s.node tp = some tpn)
    (hdir : tpn.type = VFSNodeType.VFS_TYPE_DIRECTORY)
    (hroom : tpn.children.length < VFS_MAX_CHILDREN)
    (hfree : ∀ c ∈ tpn.children, ∀ cn, s.node c = some cn →
      cn.name ≠ vfs_get_filename new_path)
    (hout : ¬ Descends s x tp) :
    ∃ s1 xn1, vfs_rename e s old_path new_path = some (s1, 0) ∧
      vfs_get_node s1 old_path = .null ∧ vfs_get_node s1 new_path = .found x ∧
      s1.node x = some xn1 ∧ xn1.type = xn.type ∧ xn1.size = xn.size ∧
      xn1.data = xn.data := by
  have hfn := vfs_get_filename_effective s new_path
  obtain ⟨s1, xn1, h1, h2, h3, h4, h5, h6, h7, hcwd⟩ :=
    rename_postcondition_abs e s old_path (effective_path s new_path) x tp xn tpn hwf
      huniq hold hx hroot (effective_path_head s new_path hplain) hlen
      (by rw [hfn]; exact hne) (by rw [hfn]; exact hdot) (by rw [hfn]; exact hdotdot)
      (by rw [hfn]; exact hname)
      (by rw [vfs_get_parent_effective s new_path hplain hlen]; exact hparent)
      htp hdir hroom (by rw [hfn]; exact hfree) hout
  have heff := effective_path_congr new_path hcwd
  have hplain1 := plainPath_congr hcwd hplain
  have hlen1 : (effective_path s1 new_path).length < VFS_MAX_PATH - 1 := by
    rw [heff]; exact hlen
  refine ⟨s1, xn1, ?_, h2, ?_, h4, h5, h6, h7⟩
  · rw [← vfs_rename_effective e s old_path new_path hplain hlen]; exact h1
  · rw [← vfs_get_node_effective s1 new_path hplain1 hlen1 hne hdot, heff]; exact h3

theorem no_child_named {s : VFS} {cs : List Nat} {nm : CStr}
    (h : find_child s cs nm = .null) :
    ∀ c ∈ cs, ∀ cn, s.node c = some cn → cn.name ≠ nm := by
  intro c hc cn hcn
  obtain ⟨n, hn, hne⟩ := find_child_null h c hc
  rw [hcn] at hn
  cases hn
  exact hne

/-- Witness of C7, the scenario of the specification: `/home/a.txt` (content
`hi`) is renamed to `/b.txt`. -/
theorem C7_rename_postcondition_witness :
    vfs_get_node fs_home_a "/home/a.txt".toList = .found 7 ∧
    fs_home_a.node 7 = some file_a ∧
    vfs_get_parent fs_home_a "/b.txt".toList = .found 0 ∧
    fs_home_a.node 0 = some root_node ∧
    ∃ s1 xn1, vfs_rename env0 fs_home_a "/home/a.txt".toList "/b.txt".toList
        = some (s1, 0) ∧
      vfs_get_node s1 "/home/a.txt".toList = .null ∧
      vfs_get_node s1 "/b.txt".toList = .found 7 ∧
      s1.node 7 = some xn1 ∧ xn1.type = VFSNodeType.VFS_TYPE_FILE ∧ xn1.size = 2 ∧
      xn1.data = [104, 105] :=
  ⟨by decide!, by decide!, by decide!, by decide!,
    C7_rename_postcondition env0 fs_home_a "/home/a.txt".toList "/b.txt".toList 7 0
      file_a root_node (WF_of_check (by decide!)) (SiblingNamesUnique_of_check (by decide!))
      (by decide!) (by decide!) (by decide!) (Or.inl (by decide)) (by decide) (by decide)
      (by decide) (by decide) (by decide) (by decide!) (by decide!) rfl (by decide)
      (no_child_named (by decide!))
      (fun h => absurd (descends_childless (by decide! : fs_home_a.node 7 = some file_a)
        rfl h) (by decide))⟩

/-- C7 as stated fails for the new path `/tmp/..`: `/bin` resolves to the node at
address 1, the parent `/tmp` of the new path is an empty Directory with no child
named `..`, and `vfs_rename("/bin", "/tmp/..")` returns 0; but afterwards
`vfs_get_node("/tmp/..")` returns the root (address 0), not the moved node.  It
also fails for the relative new path `tmp/../y` (working directory `/`): the node
is moved into the root, and `vfs_get_node("tmp/../y")` returns `NULL`. -/
theorem C7_counterexample :
    vfs_get_node fs_init "/bin".toList = .found 1 ∧
    vfs_get_parent fs_init "/tmp/..".toList = .found 4 ∧
    (fs_init.node 4).map (fun n => (n.type, n.children))
      = some (VFSNodeType.VFS_TYPE_DIRECTORY, []) ∧
    vfs_get_filename "/tmp/..".toList = "..".toList ∧
    (vfs_rename env0 fs_init "/bin".toList "/tmp/..".toList).map Prod.snd = some 0 ∧
    ((vfs_rename env0 fs_init "/bin".toList "/tmp/..".toList).map fun r =>
      vfs_get_node r.1 "/tmp/..".toList) = some (.found 0) ∧
    ((vfs_rename env0 fs_init "/bin".toList "/tmp/..".toList).bind fun r =>
      (r.1.node 4).map fun n => n.children) = some [1] ∧
    vfs_get_parent fs_init "tmp/../y".toList = .found 0 ∧
    (vfs_rename env0 fs_init "/bin".toList "tmp/../y".toList).map Prod.snd = some 0 ∧
    ((vfs_rename env0 fs_init "/bin".toList "tmp/../y".toList).map fun r =>
      vfs_get_node r.1 "tmp/../y".toList) = some .null := by
  decide!

/-! ## Well-formed links are an invariant -/

theorem vfs_create_node_cases (e : Env) (s s1 : VFS) (path : CStr) (mode : Nat)
    (type : VFSNodeType) (size : Nat) (data : List Nat) (res : Option Nat)
    (h : vfs_create_node e s path mode type size data = some (s1, res)) :
    s1 = s ∨ ∃ f, vfs_create_node e s path mode type size data = some (s1, some f) := by
  cases res with
  | some f => exact Or.inr ⟨f, h⟩
  | none =>
    left
    unfold vfs_create_node at h
    repeat' split at h
    all_goals first
      | (simp only [Option.some.injEq, Prod.mk.injEq] at h; exact h.1.symm)
      | (simp at h)

theorem WF_create {e : Env} {s s1 : VFS} {path : CStr} {mode : Nat} {type : VFSNodeType}
    {size : Nat} {data : List Nat} {res : Option Nat} (hwf : WF s)
    (h : vfs_create_node e s path mode type size data = some (s1, res)) : WF s1 := by
  rcases vfs_create_node_cases e s s1 path mode type size data res h with h0 | ⟨f, h0⟩
  · rw [h0]; exact hwf
  · obtain ⟨r, parent, pn, _, _, hn, _, _, _, _, hfe, hs1⟩ := vfs_create_node_success h0
    have hplt := lt_length_of_node hn
    have hnode : ∀ p, s1.node p =
        if p = parent then some { pn with children := pn.children ++ [f], modified := e.now }
        else if p = f then some (new_node e parent (vfs_get_filename path) mode type size data)
        else s.node p := by
      intro p
      have hpar : (s.alloc (new_node e parent (vfs_get_filename path) mode type size
          data)).1.node parent = some pn := by
        rw [node_alloc, if_neg (show ¬ parent = s.heap.length by omega)]; exact hn
      by_cases hp : p = parent
      · rw [if_pos hp, hs1, hp]; exact node_setNode_self _ hpar
      · rw [if_neg hp, hs1, node_setNode_ne _ _ hp, node_alloc, hfe]
    -- parents of the old nodes are kept
    have hparent : ∀ c cn, s.node c = some cn → ∃ cm, s1.node c = some cm ∧
        cm.parent = cn.parent := by
      intro c cn hcn
      have hclt := lt_length_of_node hcn
      rw [hnode c]
      by_cases hc : c = parent
      · rw [if_pos hc]
        rw [hc, hn] at hcn
        cases hcn
        exact ⟨_, rfl, rfl⟩
      · rw [if_neg hc, if_neg (show ¬ c = f by omega)]
        exact ⟨cn, hcn, rfl⟩
    intro p n1 hp1
    rw [hnode p] at hp1
    by_cases hp : p = parent
    · rw [if_pos hp] at hp1
      cases hp1
      obtain ⟨hnd, hk⟩ := hwf parent pn hn
      refine ⟨?_, ?_⟩
      · show (pn.children ++ [f]).Nodup
        rw [List.nodup_append]
        refine ⟨hnd, List.nodup_singleton f, ?_⟩
        intro c hc hc2
        obtain ⟨cn, hcn, _⟩ := hk c hc
        have := lt_length_of_node hcn
        simp only [List.mem_singleton] at hc2
        omega
      · intro c hc
        rcases List.mem_append.mp hc with hc | hc
        · obtain ⟨cn, hcn, hcp⟩ := hk c hc
          obtain ⟨cm, hcm, hcmp⟩ := hparent c cn hcn
          exact ⟨cm, hcm, by rw [hcmp, hcp, hp]⟩
        · simp only [List.mem_singleton] at hc
          refine ⟨new_node e parent (vfs_get_filename path) mode type size data, ?_, ?_⟩
          · rw [hnode c, if_neg (show ¬ c = parent by omega), if_pos hc]
          · rw [hp]; rfl
    · rw [if_neg hp] at hp1
      by_cases hpf : p = f
      · rw [if_pos hpf] at hp1
        cases hp1
        exact ⟨List.nodup_nil, fun c hc => by simp [new_node] at hc⟩
      · rw [if_neg hpf] at hp1
        obtain ⟨hnd, hk⟩ := hwf p n1 hp1
        refine ⟨hnd, fun c hc => ?_⟩
        obtain ⟨cn, hcn, hcp⟩ := hk c hc
        obtain ⟨cm, hcm, hcmp⟩ := hparent c cn hcn
        exact ⟨cm, hcm, by rw [hcmp, hcp]⟩


/-! ## The second filesystem: removal of directories -/

theorem fs_get_file_locked (s : FS) (path : CStr) (h : s.fs_mutex = true) :
    fs_get_file s path = none := by
  unfold fs_get_file pthread_mutex_lock
  rw [if_pos h]

theorem fs_remove_directory_blocks (s : FS) (path : CStr) :
    fs_remove_directory s path = none := by
  unfold fs_remove_directory pthread_mutex_lock
  by_cases h : s.fs_mutex = true
  · rw [if_pos h]
  · rw [if_neg h]
    simp only []
    rw [fs_get_file_locked _ path rfl]

theorem fs_delete_file_blocks (s : FS) (path : CStr) : fs_delete_file s path = none := by
  unfold fs_delete_file pthread_mutex_lock
  by_cases h : s.fs_mutex = true
  · rw [if_pos h]
  · rw [if_neg h]
    simp only []
    rw [fs_get_file_locked _ path rfl]

theorem fs_create_file_blocks (s : FS) (path : CStr) (type : FileType)
    (h : '/' ∈ path) : fs_create_file s path type = none := by
  unfold fs_create_file pthread_mutex_lock
  by_cases hm : s.fs_mutex = true
  · rw [if_pos hm]
  · rw [if_neg hm]
    simp only []
    cases hs : strrchr path '/' with
    | none => exact absurd h (strrchr_none hs)
    | some i =>
      simp only []
      rw [fs_get_file_locked _ _ rfl]

/-- A path without a slash is refused by `fs_create_file` before any lookup. -/
theorem fs_create_file_no_slash (s : FS) (path : CStr) (type : FileType)
    (hm : s.fs_mutex = false) (h : '/' ∉ path) :
    fs_create_file s path type = some (s, none) := by
  have hs : strrchr path '/' = none := by
    cases hs : strrchr path '/' with
    | none => rfl
    | some i =>
      have := (strrchr_some hs).1
      exact absurd (by rw [this]; simp) h
  unfold fs_create_file pthread_mutex_lock pthread_mutex_unlock
  rw [if_neg (by simp [hm])]
  simp only [hs]
  cases s
  simp only [FS.mk.injEq, Option.some.injEq, Prod.mk.injEq, and_true, true_and]
  exact hm.symm

/-- The statements behind the lookup differ: on a Directory with
`child_count > 0` those of `fs_remove_directory` return -1 and leave the tree
unchanged, while those of `fs_delete_file`, which has no such test, take the
directory (whose parent is live) out of its parent, free it and return 0. -/
theorem fs_delete_file_found_no_child_test (s : FS) (d : Nat) (n : FileEntry)
    (hd : s.entry d = some n) (htype : n.type = FileType.FS_TYPE_DIRECTORY)
    (hkids : n.children.length > 0) :
    fs_remove_directory_found s (some d) = some (pthread_mutex_unlock s, -1) ∧
    ∀ p pn, n.parent = some p → s.entry p = some pn →
      ∃ s1, fs_delete_file_found s (some d) = some (s1, 0) ∧ s1.entry d = none ∧
        (p ≠ d → (s1.entry p).map (fun m => m.children) = some (pn.children.erase d)) := by
  constructor
  · unfold fs_remove_directory_found
    simp only [hd]
    rw [if_neg (by simp [htype]), if_pos hkids]
  · intro p pn hp hpn
    have hdlt : d < s.heap.length := by
      unfold FS.entry at hd
      by_contra hlt
      rw [List.getElem?_eq_none (Nat.le_of_not_lt hlt)] at hd
      simp at hd
    have hplt : p < s.heap.length := by
      unfold FS.entry at hpn
      by_contra hlt
      rw [List.getElem?_eq_none (Nat.le_of_not_lt hlt)] at hpn
      simp at hpn
    unfold fs_delete_file_found fs_unlink
    simp only [hd, hp, hpn]
    refine ⟨_, rfl, ?_, ?_⟩
    · unfold pthread_mutex_unlock FS.entry
      simp only [List.getElem?_set, List.length_set]
      simp [hdlt]
    · intro hne
      unfold pthread_mutex_unlock FS.entry
      simp only [List.getElem?_set, List.length_set]
      rw [if_neg (Ne.symm hne), if_pos trivial, if_pos hplt]
      rfl

theorem permsApart_node {s t : VFS} (h : PermsApart s t) {p : Nat} {n : VFSNode}
    (hn : s.node p = some n) : ∃ m, t.node p = some m ∧ strip_perms m = strip_perms n := by
  have := h.2.2 p
  rw [hn] at this
  cases ht : t.node p with
  | none => rw [ht] at this; simp at this
  | some m =>
    rw [ht] at this
    simp only [Option.map_some', Option.some.injEq] at this
    exact ⟨m, rfl, this.symm⟩

theorem permsApart_node_none {s t : VFS} (h : PermsApart s t) {p : Nat}
    (hn : s.node p = none) : t.node p = none := by
  have := h.2.2 p
  rw [hn] at this
  cases ht : t.node p with
  | none => rfl
  | some m => rw [ht] at this; simp at this

theorem strip_perms_fields {n m : VFSNode} (h : strip_perms m = strip_perms n) :
    m.name = n.name ∧ m.type = n.type ∧ m.children = n.children ∧ m.parent = n.parent := by
  unfold strip_perms at h
  have h1 := congrArg VFSNode.name h
  have h2 := congrArg VFSNode.type h
  have h3 := congrArg VFSNode.children h
  have h4 := congrArg VFSNode.parent h
  exact ⟨h1, h2, h3, h4⟩

theorem permsApart_sameShape {s t : VFS} (h : PermsApart s t) : SameShape s t := by
  refine ⟨h.1, h.2.1, fun p => ?_⟩
  cases hn : s.node p with
  | none => rw [permsApart_node_none h hn]
  | some n =>
    obtain ⟨m, hm, hs⟩ := permsApart_node h hn
    obtain ⟨h1, h2, h3, _⟩ := strip_perms_fields hs
    rw [hm]
    simp only [Option.map_some', shape, h1, h2, h3]

theorem permsApart_setNode {s t : VFS} (h : PermsApart s t) {p : Nat} {n0 m0 : VFSNode}
    (n m : VFSNode) (hn : s.node p = some n0) (hm : t.node p = some m0)
    (hs : strip_perms n = strip_perms m) : PermsApart (s.setNode p n) (t.setNode p m) := by
  refine ⟨h.1, h.2.1, fun q => ?_⟩
  by_cases hq : q = p
  · subst hq
    rw [node_setNode_self n hn, node_setNode_self m hm]
    simp only [Option.map_some', hs]
  · rw [node_setNode_ne s n hq, node_setNode_ne t m hq]
    exact h.2.2 q

theorem permsApart_free {s t : VFS} (h : PermsApart s t) (x : Nat) :
    PermsApart (s.free x) (t.free x) := by
  refine ⟨h.1, h.2.1, fun q => ?_⟩
  rw [node_free, node_free]
  by_cases hq : q = x
  · simp [hq]
  · simp only [if_neg hq]; exact h.2.2 q

theorem permsApart_of_check {s t : VFS} (h : PermsApart_check s t = true) :
    PermsApart s t := by
  unfold PermsApart_check at h
  simp only [Bool.and_eq_true, decide_eq_true_eq, List.all_eq_true, List.mem_range] at h
  obtain ⟨⟨⟨h1, h2⟩, h3⟩, h4⟩ := h
  refine ⟨h1, h2, fun p => ?_⟩
  by_cases hp : p < s.heap.length
  · exact h4 p hp
  · have hs : s.node p = none := by
      unfold VFS.node
      rw [List.getElem?_eq_none (Nat.le_of_not_lt hp)]; rfl
    have ht : t.node p = none := by
      unfold VFS.node
      rw [List.getElem?_eq_none (by rw [← h3]; exact Nat.le_of_not_lt hp)]; rfl
    rw [hs, ht]

/-- C12 (amended): `vfs_delete` makes no permission check.  In two states that
differ at most in the permission bits, owners and groups of their nodes, the call
for the same path has the same outcome: undefined in both, or the same return
value in both, leaving states that again differ at most in those fields. -/
theorem C12_delete_ignores_permissions (e : Env) (s t : VFS) (path : CStr) (h : PermsApart s t) :
    (vfs_delete e s path = none ∧ vfs_delete e t path = none) ∨
    ∃ s1 t1 r, vfs_delete e s path = some (s1, r) ∧ vfs_delete e t path = some (t1, r) ∧
      PermsApart s1 t1 := by
  unfold vfs_delete
  rw [← h.1, ← vfs_get_node_sameShape (permsApart_sameShape h) path]
  cases hr : s.vfs_root with
  | none => exact Or.inr ⟨s, t, -1, rfl, rfl, h⟩
  | some r =>
    simp only []
    by_cases hroot : path = ['/']
    · rw [if_pos hroot, if_pos hroot]; exact Or.inr ⟨s, t, -1, rfl, rfl, h⟩
    · rw [if_neg hroot, if_neg hroot]
      cases hg : vfs_get_node s path with
      | undefined => exact Or.inl ⟨rfl, rfl⟩
      | null => exact Or.inr ⟨s, t, -1, rfl, rfl, h⟩
      | found x =>
        simp only []
        cases hx : s.node x with
        | none =>
          rw [permsApart_node_none h hx]; exact Or.inl ⟨rfl, rfl⟩
        | some n =>
          obtain ⟨m, hm, hs⟩ := permsApart_node h hx
          obtain ⟨_, h2, h3, h4⟩ := strip_perms_fields hs
          rw [hm]
          simp only [h2, h3, h4]
          by_cases hd : n.type = VFSNodeType.VFS_TYPE_DIRECTORY ∧ n.children.length > 0
          · rw [if_pos hd, if_pos hd]; exact Or.inr ⟨s, t, -1, rfl, rfl, h⟩
          · rw [if_neg hd, if_neg hd]
            cases hp : s.node n.parent with
            | none =>
              rw [permsApart_node_none h hp]; exact Or.inl ⟨rfl, rfl⟩
            | some pn =>
              obtain ⟨pm, hpm, hps⟩ := permsApart_node h hp
              obtain ⟨_, _, hp3, _⟩ := strip_perms_fields hps
              rw [hpm]
              simp only [hp3]
              by_cases hmem : x ∈ pn.children
              · rw [if_pos hmem, if_pos hmem]
                refine Or.inr ⟨_, _, 0, rfl, rfl, ?_⟩
                apply permsApart_free
                apply permsApart_setNode h _ _ hp hpm
                unfold strip_perms at hps ⊢
                simp only [VFSNode.mk.injEq] at hps ⊢
                obtain ⟨a1, a2, a3, _, a5, _, _, _, a9, a10, a11, _⟩ := hps
                exact ⟨a1.symm, a2.symm, a3.symm, trivial, a5.symm, trivial, trivial,
                  trivial, a9.symm, a10.symm, a11.symm, trivial⟩
              · rw [if_neg hmem, if_neg hmem]; exact Or.inr ⟨s, t, -1, rfl, rfl, h⟩

/-- Witness of C12: `/d/f` is deleted alike whether `/d` was created with mode
0555 (not writable by the caller, its owner) or with mode 0755 (writable). -/
theorem C12_delete_ignores_permissions_witness :
    PermsApart (fs_dir_mode 0o555) (fs_dir_mode 0o755) ∧
    vfs_is_writable env0 (fs_dir_mode 0o555) "/d".toList = some 0 ∧
    vfs_is_writable env0 (fs_dir_mode 0o755) "/d".toList = some 1 ∧
    (vfs_delete env0 (fs_dir_mode 0o555) "/d/f".toList).map Prod.snd = some 0 ∧
    ((vfs_delete env0 (fs_dir_mode 0o555) "/d/f".toList = none ∧
        vfs_delete env0 (fs_dir_mode 0o755) "/d/f".toList = none) ∨
      ∃ s1 t1 r, vfs_delete env0 (fs_dir_mode 0o555) "/d/f".toList = some (s1, r) ∧
        vfs_delete env0 (fs_dir_mode 0o755) "/d/f".toList = some (t1, r) ∧
        PermsApart s1 t1) :=
  have hpa : PermsApart (fs_dir_mode 0o555) (fs_dir_mode 0o755) :=
    permsApart_of_check (by decide!)
  ⟨hpa, by decide!, by decide!, by decide!,
    C12_delete_ignores_permissions env0 (fs_dir_mode 0o555) (fs_dir_mode 0o755)
      "/d/f".toList hpa⟩

/-- C12 as stated fails: `/d` (address 7) was created with mode 0555 and is owned
by the caller, so the caller has no write permission on it and
`vfs_is_writable("/d")` returns 0; yet `vfs_delete("/d/f")` returns 0, `/d/f` no
longer resolves and `/d` has no child left. -/
theorem C12_counterexample :
    vfs_get_parent (fs_dir_mode 0o555) "/d/f".toList = .found 7 ∧
    ((fs_dir_mode 0o555).node 7).map (fun n => (n.permissions, n.uid, n.gid, n.children))
      = some (0o555, 1000, 1000, [8]) ∧
    vfs_is_writable env0 (fs_dir_mode 0o555) "/d".toList = some 0 ∧
    vfs_get_node (fs_dir_mode 0o555) "/d/f".toList = .found 8 ∧
    (vfs_delete env0 (fs_dir_mode 0o555) "/d/f".toList).map Prod.snd = some 0 ∧
    ((vfs_delete env0 (fs_dir_mode 0o555) "/d/f".toList).map fun r =>
      vfs_get_node r.1 "/d/f".toList) = some .null ∧
    ((vfs_delete env0 (fs_dir_mode 0o555) "/d/f".toList).bind fun r =>
      (r.1.node 7).map fun n => n.children) = some [] := by
  decide!


/-! ## Symbolic links -/

/-- A node created at an absolute path is the node this path resolves to
afterwards. -/
theorem create_node_resolves (e : Env) (s s1 : VFS) (path : CStr) (mode : Nat)
    (type : VFSNodeType) (size : Nat) (data : List Nat) (f : Nat)
    (habs : path.head? = some '/') (hlen : path.length < VFS_MAX_PATH - 1)
    (hdot : vfs_get_filename path ≠ ['.']) (hdotdot : vfs_get_filename path ≠ ['.', '.'])
    (hname : (vfs_get_filename path).length ≤ VFS_MAX_FILENAME - 1)
    (hc : vfs_create_node e s path mode type size data = some (s1, some f)) :
    ∃ r parent, s1.vfs_root = some r ∧
      traverse s1 (.found r) (parent_comps path) = .found parent ∧
      (split_path path).tail = parent_comps path ++ [vfs_get_filename path] ∧
      vfs_get_node s1 path = .found f ∧
      s1.node f = some (new_node e parent (vfs_get_filename path) mode type size data) := by
  obtain ⟨r, parent, pn, hr, hp, hn, ht, hne, hf, _, hfe, hs1⟩ :=
    vfs_create_node_success hc
  have hext : Extends s s1 := by
    rw [hs1, hfe]
    exact extends_create s parent pn _ hn
  have hr1 : s1.vfs_root = some r := by rw [hs1]; exact hr
  have hpar_lt := lt_length_of_node hn
  have halloc_par : (s.alloc (new_node e parent (vfs_get_filename path) mode
      type size data)).1.node parent = some pn := by
    rw [node_alloc, if_neg (show ¬ parent = s.heap.length by omega)]; exact hn
  have hn1 : s1.node parent =
      some { pn with children := pn.children ++ [f], modified := e.now } := by
    rw [hs1]; exact node_setNode_self _ halloc_par
  have hf1 : s1.node f = some (new_node e parent (vfs_get_filename path) mode
      type size data) := by
    rw [hs1, node_setNode_ne _ _ (show f ≠ parent by omega), node_alloc, if_pos hfe]
  have hwalk : traverse s (.found r) (parent_comps path) = .found parent := by
    rw [← vfs_get_parent_abs s r path hr habs hlen]; exact hp
  have hwalk1 := traverse_extends hext hwalk
  have hold : find_child s1 pn.children (vfs_get_filename path) = .null := by
    apply find_child_eq_null
    intro c hcm
    obtain ⟨n, hcn, hcname⟩ := find_child_null hf c hcm
    obtain ⟨m, _, hm, hmname, _, _⟩ := hext c n hcn
    exact ⟨m, hm, by rw [hmname]; exact hcname⟩
  have hfind : find_child s1 (pn.children ++ [f]) (vfs_get_filename path) = .found f := by
    rw [find_child_append_null _ hold, find_child_cons]
    simp only [hf1]
    rw [if_pos (by simp [new_node, List.take_of_length_le hname])]
  have hsplit := split_path_parent_name path habs hlen hne hdot hdotdot
  refine ⟨r, parent, hr1, hwalk1, hsplit, ?_, hf1⟩
  rw [vfs_get_node_abs s1 r path hr1 habs, hsplit, traverse_append, hwalk1,
    traverse_step [] hn1 ht hfind]
  simp [traverse]

/-- The components of an absolute path continued by one more name. -/
theorem split_path_snoc (path name : CStr) (habs : path.head? = some '/')
    (hlen : path.length < VFS_MAX_PATH - 1) (hslash : '/' ∉ name) (hne : name ≠ [])
    (hdot : name ≠ ['.']) (hdotdot : name ≠ ['.', '.']) :
    split_path (path ++ '/' :: name) = split_path path ++ [name] := by
  cases path with
  | nil => simp at habs
  | cons c rest =>
    simp only [List.head?_cons, Option.some.injEq] at habs
    subst habs
    have hcount : (split_loop (strtok_all [] rest) [['/']]).length < VFS_MAX_PATH - 1 := by
      have h1 := split_loop_length (strtok_all [] rest) [['/']]
      have h2 := strtok_all_length_le rest
      simp only [List.length_cons, List.length_nil] at h1 hlen
      omega
    unfold split_path
    simp only [List.cons_append, List.head?_cons, if_true, List.drop_succ_cons, List.drop_zero]
    rw [strtok_all_append_slash [] rest name hslash hne, split_loop_append,
      split_loop_single name _ hdot hdotdot hcount]

/-- C13 (amended): symlinks are not followed during resolution.  After a
successful `vfs_create_symlink(link, target)`, with `link` an absolute path
shorter than `VFS_MAX_PATH - 1` whose last component is not `.` or `..` and has at
most 255 characters, `vfs_get_node(link)` returns the new node itself, a Symlink
without children that stores the target string; it is never the Directory that
`target` resolves to; and a path that goes on through the link, `link/name`,
resolves to `NULL`. -/
theorem C13_symlink_not_followed (e : Env) (s s1 : VFS) (link target : CStr) (mode : Nat)
    (f : Nat)
    (habs : link.head? = some '/') (hlen : link.length < VFS_MAX_PATH - 1)
    (hdot : vfs_get_filename link ≠ ['.']) (hdotdot : vfs_get_filename link ≠ ['.', '.'])
    (hname : (vfs_get_filename link).length ≤ VFS_MAX_FILENAME - 1)
    (hc : vfs_create_symlink e s link target mode = some (s1, some f)) :
    vfs_get_node s1 link = .found f ∧
    (∃ fn, s1.node f = some fn ∧ fn.type = VFSNodeType.VFS_TYPE_SYMLINK ∧
      fn.data = target.map Char.toNat ++ [0] ∧ fn.size = target.length ∧
      fn.children = []) ∧
    (∀ d dn, vfs_get_node s1 target = .found d → s1.node d = some dn →
      dn.type = VFSNodeType.VFS_TYPE_DIRECTORY → d ≠ f) ∧
    (∀ name : CStr, '/' ∉ name → name ≠ [] → name ≠ ['.'] → name ≠ ['.', '.'] →
      vfs_get_node s1 (link ++ '/' :: name) = .null) := by
  unfold vfs_create_symlink at hc
  obtain ⟨r, parent, hr1, hwalk1, hsplit, hget, hf1⟩ :=
    create_node_resolves e s s1 link mode _ _ _ f habs hlen hdot hdotdot hname hc
  refine ⟨hget, ⟨_, hf1, rfl, rfl, rfl, rfl⟩, ?_, ?_⟩
  · intro d dn _ hd htype hdf
    subst hdf
    rw [hf1] at hd
    cases hd
    simp [new_node] at htype
  · intro name hslash hne hd hdd
    have habs2 : (link ++ '/' :: name).head? = some '/' := by
      cases link with
      | nil => simp at habs
      | cons c rest => simpa using habs
    have hwalk : traverse s1 (.found r) (split_path link).tail = .found f := by
      rw [← vfs_get_node_abs s1 r link hr1 habs]; exact hget
    obtain ⟨zs, hzs⟩ := split_path_abs link habs
    rw [vfs_get_node_abs s1 r _ hr1 habs2,
      split_path_snoc link name habs hlen hslash hne hd hdd, hzs]
    rw [hzs] at hwalk
    simp only [List.cons_append, List.tail_cons] at hwalk ⊢
    rw [traverse_append, hwalk, traverse_cons_found]
    simp only [hf1]
    rw [if_pos (by simp [new_node])]

theorem fs_init_create_link :
    vfs_create_symlink env0 fs_init "/link".toList "/home".toList 0o777
      = some (fs_link_home, some 7) := by
  decide!

/-- Witness of C13: `vfs_create_symlink("/link", "/home")` after `vfs_init`. -/
theorem C13_symlink_not_followed_witness :
    vfs_create_symlink env0 fs_init "/link".toList "/home".toList 0o777
      = some (fs_link_home, some 7) ∧
    vfs_get_node fs_link_home "/link".toList = .found 7 ∧
    (∃ fn, fs_link_home.node 7 = some fn ∧ fn.type = VFSNodeType.VFS_TYPE_SYMLINK ∧
      fn.data = "/home".toList.map Char.toNat ++ [0] ∧ fn.size = "/home".toList.length ∧
      fn.children = []) ∧
    vfs_get_node fs_link_home "/link/bob".toList = .null :=
  have h := C13_symlink_not_followed env0 fs_init fs_link_home "/link".toList
    "/home".toList 0o777 7 (by decide) (by decide!) (by decide) (by decide) (by decide!)
    fs_init_create_link
  ⟨fs_init_create_link, h.1, h.2.1,
    h.2.2.2 "bob".toList (by decide) (by decide) (by decide) (by decide)⟩

/-- C13 as stated fails.  After `vfs_create_symlink("/link", "/home")` the path
`/link` resolves to the Symlink node at address 7 and `/home` to the Directory at
address 3; `/link/x` does not resolve although `/home/x` exists.  With a link
`/l` whose target is `/l`, `vfs_get_node("/l")` does not fail: it returns the
link (address 7), and the path that names the link nine times resolves to
`NULL` as any path through a node that is not a Directory. -/
theorem C13_counterexample :
    vfs_get_node fs_link_home "/link".toList = .found 7 ∧
    vfs_get_node fs_link_home "/home".toList = .found 3 ∧
    (fs_link_home.node 7).map (fun n => n.type) = some VFSNodeType.VFS_TYPE_SYMLINK ∧
    (fs_link_home.node 3).map (fun n => n.type) = some VFSNodeType.VFS_TYPE_DIRECTORY ∧
    ((vfs_create_file env0 fs_link_home "/home/x".toList 0o644).map fun r =>
      (vfs_get_node r.1 "/home/x".toList, vfs_get_node r.1 "/link/x".toList))
      = some (.found 8, .null) ∧
    vfs_create_symlink env0 fs_init "/l".toList "/l".toList 0o777
      = some (fs_link_self, some 7) ∧
    vfs_get_node fs_link_self "/l".toList = .found 7 ∧
    vfs_get_node fs_link_self "/l/l/l/l/l/l/l/l/l".toList = .null := by
  decide!


/-! ## Canonical paths -/

theorem length_slash_join (cs : List CStr) : (slash_join cs).length = weight cs := by
  induction cs with
  | nil => rfl
  | cons c cs ih => simp only [slash_join, weight, List.length_cons, List.length_append, ih]

theorem weight_append (a b : List CStr) : weight (a ++ b) = weight a + weight b := by
  induction a with
  | nil => simp [weight]
  | cons c cs ih =>
    rw [List.cons_append]
    simp only [weight]
    rw [ih]
    omega

theorem weight_dropLast_le (a : List CStr) : weight a.dropLast ≤ weight a := by
  induction a with
  | nil => simp [weight]
  | cons c cs ih =>
    cases cs with
    | nil => simp [weight]
    | cons d ds =>
      simp only [List.dropLast_cons₂, weight] at ih ⊢
      omega

theorem length_le_weight (a : List CStr) : a.length ≤ weight a := by
  induction a with
  | nil => simp
  | cons c cs ih => simp only [List.length_cons, weight]; omega

theorem weight_split_loop (toks acc : List CStr) :
    weight (split_loop toks acc) ≤ weight acc + weight toks := by
  induction toks generalizing acc with
  | nil => simp [split_loop, weight]
  | cons t ts ih =>
    rw [split_loop_cons]
    simp only [weight]
    split
    · split
      · split
        · split
          · have := ih acc.dropLast
            have := weight_dropLast_le acc
            omega
          · have := ih acc; omega
        · have := ih (acc ++ [t])
          rw [weight_append] at this
          simp only [weight] at this
          omega
      · have := ih acc; omega
    · omega

theorem weight_strtok_all (cur l : CStr) :
    weight (strtok_all cur l) ≤ cur.length + l.length + 1 := by
  induction l generalizing cur with
  | nil =>
    unfold strtok_all
    split <;> simp [weight]
  | cons c cs ih =>
    unfold strtok_all
    split
    · split
      · have := ih []
        simp only [List.length_nil, List.length_cons] at this ⊢
        omega
      · have := ih []
        simp only [weight, List.length_nil, List.length_cons] at this ⊢
        omega
    · have := ih (cur ++ [c])
      simp only [List.length_append, List.length_singleton, List.length_cons,
        List.length_nil] at this ⊢
      omega

/-- Every component that `split_loop` returns was in the array before or is a
token other than `.` and `..`. -/
theorem split_loop_mem (toks acc : List CStr) (t : CStr)
    (h : t ∈ split_loop toks acc) :
    t ∈ acc ∨ (t ∈ toks ∧ t ≠ ['.'] ∧ t ≠ ['.', '.']) := by
  induction toks generalizing acc with
  | nil => left; simpa [split_loop] using h
  | cons k ks ih =>
    rw [split_loop_cons] at h
    split at h
    · split at h
      · rename_i hk
        split at h
        · split at h
          · rcases ih _ h with h1 | h1
            · left; exact List.mem_of_mem_dropLast h1
            · right; exact ⟨List.mem_cons_of_mem _ h1.1, h1.2⟩
          · rcases ih _ h with h1 | h1
            · left; exact h1
            · right; exact ⟨List.mem_cons_of_mem _ h1.1, h1.2⟩
        · rename_i hkk
          rcases ih _ h with h1 | h1
          · rcases List.mem_append.mp h1 with h2 | h2
            · left; exact h2
            · right
              have : t = k := by simpa using h2
              subst this
              exact ⟨List.mem_cons_self _ _, hk, hkk⟩
          · right; exact ⟨List.mem_cons_of_mem _ h1.1, h1.2⟩
      · rcases ih _ h with h1 | h1
        · left; exact h1
        · right; exact ⟨List.mem_cons_of_mem _ h1.1, h1.2⟩
    · left; exact h

/-- The components after the first that `split_loop` returns for a non-empty
array were there before or are tokens other than `.` and `..`. -/
theorem split_loop_tail_mem (toks : List CStr) (x : CStr) (ys : List CStr) (t : CStr)
    (h : t ∈ (split_loop toks (x :: ys)).tail) :
    t ∈ ys ∨ (t ∈ toks ∧ t ≠ ['.'] ∧ t ≠ ['.', '.']) := by
  induction toks generalizing ys with
  | nil => left; simpa [split_loop] using h
  | cons k ks ih =>
    rw [split_loop_cons] at h
    split at h
    · split at h
      · rename_i hk
        split at h
        · split at h
          · rename_i hlen
            have hd : (x :: ys).dropLast = x :: ys.dropLast := by
              cases ys with
              | nil => simp at hlen
              | cons y ys => rfl
            rw [hd] at h
            rcases ih _ h with h1 | h1
            · left; exact List.mem_of_mem_dropLast h1
            · right; exact ⟨List.mem_cons_of_mem _ h1.1, h1.2⟩
          · rcases ih _ h with h1 | h1
            · left; exact h1
            · right; exact ⟨List.mem_cons_of_mem _ h1.1, h1.2⟩
        · rename_i hkk
          rw [List.cons_append] at h
          rcases ih _ h with h1 | h1
          · rcases List.mem_append.mp h1 with h2 | h2
            · left; exact h2
            · right
              have : t = k := by simpa using h2
              subst this
              exact ⟨List.mem_cons_self _ _, hk, hkk⟩
          · right; exact ⟨List.mem_cons_of_mem _ h1.1, h1.2⟩
      · rcases ih _ h with h1 | h1
        · left; exact h1
        · right; exact ⟨List.mem_cons_of_mem _ h1.1, h1.2⟩
    · left; simpa using h

theorem strtok_all_slash (l : CStr) : strtok_all [] ('/' :: l) = strtok_all [] l := by
  rw [strtok_all]; simp

theorem strtok_all_slash_join (cs : List CStr) (h : ∀ t ∈ cs, '/' ∉ t ∧ t ≠ []) :
    strtok_all [] (slash_join cs) = cs := by
  induction cs with
  | nil => simp [slash_join, strtok_all]
  | cons c cs ih =>
    have hc := h c (List.mem_cons_self _ _)
    have ih2 := ih (fun t ht => h t (List.mem_cons_of_mem _ ht))
    show strtok_all [] ('/' :: (c ++ slash_join cs)) = c :: cs
    rw [strtok_all_slash]
    cases cs with
    | nil =>
      simp only [slash_join, List.append_nil]
      exact strtok_all_noslash [] c hc.1 (by simpa using hc.2)
    | cons d ds =>
      have hj : slash_join (d :: ds) = '/' :: (d ++ slash_join ds) := rfl
      rw [hj] at ih2 ⊢
      rw [strtok_all_slash] at ih2
      rw [strtok_all_append_sep, ih2, strtok_all_noslash [] c hc.1 (by simpa using hc.2)]
      simp

theorem canonical_loop_append (acc : CStr) (cs : List CStr) (hacc : 2 ≤ acc.length) :
    canonical_loop acc cs = acc ++ slash_join cs := by
  induction cs generalizing acc with
  | nil => simp [canonical_loop, slash_join]
  | cons c cs ih =>
    have hne : acc ≠ ['/'] := by
      intro h0; rw [h0] at hacc; simp at hacc
    rw [canonical_loop, if_pos hne]
    rw [ih _ (by simp only [List.length_append, List.length_singleton]; omega)]
    simp [slash_join]

theorem canonical_loop_root (cs : List CStr) (h : ∀ t ∈ cs, t ≠ []) :
    canonical_loop ['/'] cs = join_path cs := by
  cases cs with
  | nil => rfl
  | cons c cs =>
    have hc := h c (List.mem_cons_self _ _)
    rw [canonical_loop, if_neg (by simp)]
    have hne : 2 ≤ (['/'] ++ c).length := by
      have := List.length_pos.mpr hc
      simp only [List.length_append, List.length_singleton]
      omega
    rw [canonical_loop_append _ _ hne]
    simp [join_path, slash_join]

theorem join_path_head (cs : List CStr) : (join_path cs).head? = some '/' := by
  unfold join_path
  cases cs with
  | nil => rfl
  | cons c cs => simp [slash_join]

theorem length_join_path (cs : List CStr) :
    (join_path cs).length = if cs = [] then 1 else weight cs := by
  unfold join_path
  split
  · rfl
  · exact length_slash_join cs

/-- The canonical spelling splits into the components it was built from. -/
theorem split_path_join (cs : List CStr) (h : ∀ t ∈ cs, Proper t)
    (hlen : cs.length + 1 < VFS_MAX_PATH - 1) :
    split_path (join_path cs) = ['/'] :: cs := by
  have hdd : ['.', '.'] ∉ cs := fun hm => (h _ hm).2.2.2 rfl
  have hfil : cs.filter (fun t => t != ['.']) = cs := by
    rw [List.filter_eq_self]
    intro t ht
    simpa using (h t ht).2.2.1
  unfold split_path
  rw [if_pos (join_path_head cs)]
  have htok : strtok_all [] ((join_path cs).drop 1) = cs := by
    unfold join_path
    cases cs with
    | nil => simp [strtok_all]
    | cons c ds =>
      rw [if_neg (by simp)]
      have := strtok_all_slash_join (c :: ds) (fun t ht => ⟨(h t ht).1, (h t ht).2.1⟩)
      have hj : slash_join (c :: ds) = '/' :: (c ++ slash_join ds) := rfl
      rw [hj] at this ⊢
      rw [strtok_all_slash] at this
      simpa using this
  rw [htok, split_loop_plain cs [['/']] hdd (by simpa using (by omega : 1 + cs.length < VFS_MAX_PATH - 1)),
    hfil]
  rfl

/-- The components after the first that `split_path` returns are proper. -/
theorem split_path_proper (a : CStr) : ∀ t ∈ (split_path a).drop 1, Proper t := by
  intro t ht
  have key : ∀ l : CStr, ∀ u, (u ∈ strtok_all [] l ∧ u ≠ ['.'] ∧ u ≠ ['.', '.']) → Proper u := by
    intro l u hu
    obtain ⟨h1, h2⟩ := strtok_all_noslash_mem [] l (by simp) u hu.1
    exact ⟨h1, h2, hu.2.1, hu.2.2⟩
  unfold split_path at ht
  split at ht
  · rw [List.drop_one] at ht
    rcases split_loop_tail_mem _ _ _ _ ht with h1 | h1
    · simp at h1
    · exact key _ _ h1
  · have ht2 := List.mem_of_mem_drop ht
    rcases split_loop_mem _ _ _ ht2 with h1 | h1
    · simp at h1
    · exact key _ _ h1

theorem length_absolute_path {s : VFS} {p a : CStr}
    (h : vfs_get_absolute_path s p = some a) : a.length ≤ VFS_MAX_PATH - 1 := by
  unfold vfs_get_absolute_path at h
  split at h
  · split at h
    · cases h
    · cases h; omega
  · split at h <;> (cases h; exact List.length_take_le _ _)

theorem weight_drop_one_le (X : List CStr) : weight (X.drop 1) + 1 ≤ weight X ∨ X = [] := by
  cases X with
  | nil => right; rfl
  | cons x xs => left; simp only [List.drop_succ_cons, List.drop_zero, weight]; omega

/-- The canonical spelling of the components of a path is not longer than the
path. -/
theorem length_join_split (a : CStr) :
    (join_path ((split_path a).drop 1)).length ≤ max 1 a.length := by
  rw [length_join_path]
  split
  · omega
  · rename_i hne
    unfold split_path at hne ⊢
    split
    · rename_i habs
      rw [if_pos habs] at hne
      obtain ⟨zs, hzs⟩ := split_loop_head (strtok_all [] (a.drop 1)) ['/'] []
      have h1 := weight_split_loop (strtok_all [] (a.drop 1)) [['/']]
      have h2 := weight_strtok_all [] (a.drop 1)
      have hpos : 0 < a.length := by
        cases a with
        | nil => simp at habs
        | cons c cs => simp
      rw [hzs] at h1 ⊢
      simp only [List.drop_succ_cons, List.drop_zero, weight, List.length_singleton,
        List.length_nil, List.length_drop] at h1 h2 ⊢
      omega
    · rename_i habs
      rw [if_neg habs] at hne
      have h1 := weight_split_loop (strtok_all [] a) []
      have h2 := weight_strtok_all [] a
      rcases weight_drop_one_le (split_loop (strtok_all [] a) []) with h3 | h3
      · simp only [weight, List.length_nil] at h1 h2
        omega
      · rw [h3] at hne; simp at hne

/-- The value of `vfs_get_canonical_path` whenever the absolute path is a C
string: the components after the first, each behind a separator. -/
theorem canonical_eq {s : VFS} {p a : CStr} (h : vfs_get_absolute_path s p = some a) :
    vfs_get_canonical_path s p = some (join_path ((split_path a).drop 1)) := by
  have hl := length_join_split a
  have ha := length_absolute_path h
  have hc : canonical_loop ['/'] ((split_path a).drop 1)
      = join_path ((split_path a).drop 1) :=
    canonical_loop_root _ (fun t ht => (split_path_proper a t ht).2.1)
  have hpos : 0 < (join_path ((split_path a).drop 1)).length := by
    rw [length_join_path]
    split
    · omega
    · rename_i hne
      cases hcs : (split_path a).drop 1 with
      | nil => exact absurd hcs hne
      | cons c cs => simp only [weight]; omega
  unfold vfs_get_canonical_path
  rw [h]
  simp only [hc]
  rw [if_neg (by unfold VFS_MAX_PATH at *; omega), if_neg (by omega)]

/-- A canonical spelling shorter than `VFS_MAX_PATH - 1` is its own canonical
path, whatever the working directory. -/
theorem canonical_join (t : VFS) (cs : List CStr) (h : ∀ u ∈ cs, Proper u)
    (hlen : (join_path cs).length < VFS_MAX_PATH - 1) :
    vfs_get_canonical_path t (join_path cs) = some (join_path cs) := by
  have hcount : cs.length + 1 < VFS_MAX_PATH - 1 := by
    rw [length_join_path] at hlen
    split at hlen
    · rename_i h0; rw [h0]; unfold VFS_MAX_PATH; simp
    · rename_i hne
      have h1 := length_le_weight cs
      cases cs with
      | nil => exact absurd rfl hne
      | cons c ds =>
        have hc := (h c (List.mem_cons_self _ _)).2.1
        have := List.length_pos.mpr hc
        have h2 := length_le_weight ds
        simp only [weight, List.length_cons] at hlen h1 ⊢
        omega
  have ha : vfs_get_absolute_path t (join_path cs) = some (join_path cs) := by
    unfold vfs_get_absolute_path
    rw [if_pos (join_path_head cs), if_neg (by omega)]
  rw [canonical_eq ha, split_path_join cs h hcount]
  rfl

/-- Idempotence of `vfs_get_canonical_path` on results shorter than
`VFS_MAX_PATH - 1`. -/
theorem canonical_idempotent (s t : VFS) (p c : CStr)
    (h : vfs_get_canonical_path s p = some c) (hlen : c.length < VFS_MAX_PATH - 1) :
    vfs_get_canonical_path t c = some c := by
  cases ha : vfs_get_absolute_path s p with
  | none => unfold vfs_get_canonical_path at h; rw [ha] at h; cases h
  | some a =>
    rw [canonical_eq ha] at h
    cases h
    exact canonical_join t _ (split_path_proper a) hlen


/-! ## Canonical paths at the length bound -/

theorem long_rel_length : long_rel.length = 1022 := by
  unfold long_rel; exact List.length_replicate _ _

theorem long_rel_noslash : '/' ∉ long_rel := by
  unfold long_rel
  intro h
  have := (List.mem_replicate.mp h).2
  exact absurd this (by decide)

theorem long_rel_head : long_rel.head? ≠ some '/' := by
  intro h
  have h1 : long_rel = 'a' :: List.replicate 1021 'a' := rfl
  rw [h1] at h
  exact absurd h (by decide)

theorem split_path_long_abs : split_path long_abs = [['/'], long_rel] := by
  have hne : long_rel ≠ [] := by
    intro h; have := long_rel_length; rw [h] at this; simp at this
  have h1 : long_rel ≠ ['.'] := by
    intro h; have := long_rel_length; rw [h] at this; simp at this
  have h2 : long_rel ≠ ['.', '.'] := by
    intro h; have := long_rel_length; rw [h] at this; simp at this
  unfold split_path long_abs
  rw [if_pos (show ('/' :: long_rel).head? = some '/' from rfl)]
  simp only [List.drop_succ_cons, List.drop_zero]
  rw [strtok_all_noslash [] long_rel long_rel_noslash (by simpa using hne)]
  exact split_loop_single long_rel [['/']] h1 h2 (by unfold VFS_MAX_PATH; simp)

/-- C15 fails at the length bound.  The absolute path `long_abs` has 1023
characters, fewer than `VFS_MAX_PATH`; `strncpy` then copies 1023 characters and
no terminator into the fresh block, so `vfs_get_canonical_path(long_abs)` reads an
unterminated block: it has no defined result, in any state.  The relative path
`long_rel` (1022 characters) has, in the working directory `/`, the canonical
path `long_abs`, whose own canonical path is therefore not defined either. -/
theorem C15_canonical_path_unterminated :
    long_abs.length < VFS_MAX_PATH ∧
    (∀ s : VFS, vfs_get_canonical_path s long_abs = none) ∧
    long_rel.length < VFS_MAX_PATH ∧
    fs_init.vfs_current_directory = ['/'] ∧
    vfs_get_canonical_path fs_init long_rel = some long_abs ∧
    vfs_get_canonical_path fs_init long_abs = none := by
  have hl : long_abs.length = 1023 := by
    unfold long_abs; rw [List.length_cons, long_rel_length]
  have hnone : ∀ s : VFS, vfs_get_canonical_path s long_abs = none := by
    intro s
    unfold vfs_get_canonical_path vfs_get_absolute_path
    rw [if_pos (show long_abs.head? = some '/' from rfl),
      if_pos (by rw [hl]; unfold VFS_MAX_PATH; decide)]
  have hcwd : fs_init.vfs_current_directory = ['/'] := by decide!
  refine ⟨by rw [hl]; unfold VFS_MAX_PATH; decide, hnone,
    by rw [long_rel_length]; unfold VFS_MAX_PATH; decide, hcwd, ?_, hnone _⟩
  have ha : vfs_get_absolute_path fs_init long_rel = some long_abs := by
    unfold vfs_get_absolute_path
    rw [if_neg long_rel_head, if_pos hcwd]
    rw [List.take_of_length_le (by
      show long_abs.length ≤ VFS_MAX_PATH - 1
      rw [hl]; unfold VFS_MAX_PATH; decide)]
    rfl
  have hj : join_path [long_rel] = long_abs := by
    unfold join_path
    rw [if_neg (by simp)]
    simp [slash_join, long_abs]
  rw [canonical_eq ha, split_path_long_abs]
  simp only [List.drop_succ_cons, List.drop_zero, hj]


/-! ## The parent-directory component -/

/-- C14 fails for a relative path of one component.  After `vfs_init` the working
directory is `/` and `home` resolves to the Directory at address 3, whose parent
is the root (address 0); `vfs_get_node("home/..")` returns address 3 again, not
the root: `split_path` drops a `..` only while more than one component is
stored, so the single component `home` stays.  With the working directory
`/home/bob` (address 7) and the file `notes` in it (address 8), likewise,
`notes/..` returns the file.  The absolute spellings `/home/..` and `/..` do
return the root. -/
theorem C14_relative_dotdot_not_parent :
    fs_init.vfs_current_directory = "/".toList ∧
    vfs_get_node fs_init "/".toList = .found 0 ∧
    vfs_get_node fs_init "home".toList = .found 3 ∧
    (fs_init.node 3).map (fun n => n.parent) = some 0 ∧
    split_path "home/..".toList = ["home".toList] ∧
    vfs_get_node fs_init "home/..".toList = .found 3 ∧
    vfs_get_node fs_init "/home/..".toList = .found 0 ∧
    vfs_get_node fs_init "/..".toList = .found 0 ∧
    fs_bob_notes.vfs_current_directory = "/home/bob".toList ∧
    vfs_get_node fs_bob_notes "/home/bob".toList = .found 7 ∧
    vfs_get_node fs_bob_notes "notes".toList = .found 8 ∧
    (fs_bob_notes.node 8).map (fun n => n.parent) = some 7 ∧
    vfs_get_node fs_bob_notes "notes/..".toList = .found 8 := by
  decide!


/-! ## Canonical paths and resolution -/

theorem count_of_join_length (cs : List CStr) (h : ∀ u ∈ cs, Proper u)
    (hlen : (join_path cs).length < VFS_MAX_PATH - 1) :
    cs.length + 1 < VFS_MAX_PATH - 1 := by
  rw [length_join_path] at hlen
  split at hlen
  · rename_i h0; rw [h0]; unfold VFS_MAX_PATH; simp
  · rename_i hne
    cases cs with
    | nil => exact absurd rfl hne
    | cons c ds =>
      have hc := (h c (List.mem_cons_self _ _)).2.1
      have := List.length_pos.mpr hc
      have h2 := length_le_weight ds
      simp only [weight, List.length_cons] at hlen ⊢
      omega

/-- Resolution of a canonical spelling walks from the root over its components. -/
theorem vfs_get_node_join (s : VFS) (r : Nat) (cs : List CStr) (hr : s.vfs_root = some r)
    (h : ∀ u ∈ cs, Proper u) (hlen : (join_path cs).length < VFS_MAX_PATH - 1) :
    vfs_get_node s (join_path cs) = traverse s (.found r) cs := by
  rw [vfs_get_node_abs s r _ hr (join_path_head cs),
    split_path_join cs h (count_of_join_length cs h hlen)]
  rfl

/-- The absolute path of a plain path: it is absolute, not truncated, and the
path resolves as a walk from the root over its components. -/
theorem resolve_absolute (s : VFS) (r : Nat) (p : CStr) (hr : s.vfs_root = some r)
    (hplain : PlainPath s p) (hlen : (effective_path s p).length < VFS_MAX_PATH - 1)
    (hdef : split_path p ≠ []) :
    ∃ a, vfs_get_absolute_path s p = some a ∧ a.head? = some '/' ∧
      a.length < VFS_MAX_PATH - 1 ∧
      vfs_get_node s p = traverse s (.found r) (split_path a).tail := by
  by_cases ha : p.head? = some '/'
  · rw [effective_path_abs s p ha] at hlen
    refine ⟨p, ?_, ha, hlen, vfs_get_node_abs s r p hr ha⟩
    unfold vfs_get_absolute_path
    rw [if_pos ha, if_neg (by omega)]
  · rcases hplain with h | ⟨hcwd, hdd⟩
    · exact absurd h ha
    · have he : effective_path s p = s.vfs_current_directory ++ ['/'] ++ p := by
        unfold effective_path; rw [if_neg ha]
      rw [he] at hlen
      simp only [List.length_append, List.length_singleton] at hlen
      have hcne : s.vfs_current_directory ≠ [] := by
        intro h0; simp [h0] at hcwd
      have hcpos := List.length_pos.mpr hcne
      have hB := strtok_all_length_le p
      have hsp : split_path p = (strtok_all [] p).filter (fun x => x != ['.']) := by
        unfold split_path
        rw [if_neg ha, split_loop_plain _ _ hdd (by simp; omega)]
        simp
      obtain ⟨W, hW⟩ := split_path_abs _ hcwd
      have hcl : (split_path s.vfs_current_directory).length
          ≤ s.vfs_current_directory.length := by
        unfold split_path
        rw [if_pos hcwd]
        have a1 := split_loop_length (strtok_all [] (s.vfs_current_directory.drop 1))
          [['/']]
        have a2 := strtok_all_length_le (s.vfs_current_directory.drop 1)
        simp only [List.length_singleton, List.length_drop] at a1 a2
        omega
      have hcs : split_path s.vfs_current_directory
          = split_loop (strtok_all [] (s.vfs_current_directory.drop 1)) [['/']] := by
        unfold split_path; rw [if_pos hcwd]
      -- the walk that `vfs_get_node` makes for the relative path
      have hcwdnode : vfs_get_node_cwd s r = traverse s (.found r) W := by
        unfold vfs_get_node_cwd
        by_cases h1 : s.vfs_current_directory = ['/']
        · rw [if_pos h1]
          have h2 : split_path ['/'] = [['/']] := by decide
          rw [h1, h2] at hW
          have : W = [] := by simpa using hW.symm
          simp [this, traverse]
        · rw [if_neg h1]
          simp only [hW]
          rw [if_neg (by simp)]
      have hpne : p ≠ ['/'] := by
        intro h0; rw [h0] at ha; simp at ha
      have hrel : vfs_get_node s p = traverse s (.found r) (W ++ split_path p) := by
        cases hc0 : split_path p with
        | nil => exact absurd hc0 hdef
        | cons c0 rest =>
          have hc0mem : c0 ∈ strtok_all [] p := by
            have : c0 ∈ split_path p := by rw [hc0]; simp
            rw [hsp, List.mem_filter] at this
            exact this.1
          obtain ⟨hns, hnn⟩ := strtok_all_noslash_mem [] p (by simp) c0 hc0mem
          have hc0h : c0.head? ≠ some '/' := by
            cases c0 with
            | nil => exact absurd rfl hnn
            | cons ch cs =>
              simp only [List.head?_cons, ne_eq, Option.some.injEq]
              intro hch
              exact hns (by simp [hch])
          unfold vfs_get_node
          simp only [hr, hc0]
          rw [if_neg hpne, if_pos hc0h, hcwdnode, traverse_append]
      by_cases h1 : s.vfs_current_directory = ['/']
      · -- the working directory is the root
        rw [h1] at hlen
        simp only [List.length_singleton] at hlen
        have h2 : split_path ['/'] = [['/']] := by decide
        rw [h1, h2] at hW
        have hWnil : W = [] := by simpa using hW.symm
        have hsa : split_path ('/' :: p) = ['/'] :: split_path p := by
          conv_lhs =>
            unfold split_path
            rw [if_pos (by simp)]
          simp only [List.drop_succ_cons, List.drop_zero]
          rw [split_loop_plain _ _ hdd (by simp; omega), hsp]
          rfl
        refine ⟨'/' :: p, ?_, by simp, by simp only [List.length_cons]; omega, ?_⟩
        · unfold vfs_get_absolute_path
          rw [if_neg ha, if_pos h1, List.take_of_length_le (by
            simp only [List.length_cons]; omega)]
        · rw [hrel, hsa, hWnil]; rfl
      · -- the working directory is below the root
        have hdrop : (s.vfs_current_directory ++ ['/'] ++ p).drop 1
            = s.vfs_current_directory.drop 1 ++ '/' :: p := by
          rw [List.append_assoc, List.drop_append_of_le_length (by omega)]
          simp
        have hhead : (s.vfs_current_directory ++ ['/'] ++ p).head? = some '/' := by
          cases hc : s.vfs_current_directory with
          | nil => exact absurd hc hcne
          | cons c cs => rw [hc] at hcwd; simpa using hcwd
        have hsa : split_path (s.vfs_current_directory ++ ['/'] ++ p)
            = split_path s.vfs_current_directory ++ split_path p := by
          conv_lhs =>
            unfold split_path
            rw [if_pos hhead, hdrop, strtok_all_append_sep, split_loop_append, ← hcs]
          rw [split_loop_plain _ _ hdd (by omega), hsp]
        refine ⟨s.vfs_current_directory ++ ['/'] ++ p, ?_, hhead,
          by simp only [List.length_append, List.length_singleton]; omega, ?_⟩
        · unfold vfs_get_absolute_path
          rw [if_neg ha, if_neg h1, List.take_of_length_le (by
            simp only [List.length_append, List.length_singleton]; omega)]
        · rw [hrel, hsa, hW]; rfl

/-- C16 (amended): for a path that is absolute, or relative without a `..`
component under an absolute working directory, and whose effective path is
shorter than `VFS_MAX_PATH - 1`: if `vfs_get_node` finds a node for the path,
`vfs_get_canonical_path` returns a string and `vfs_get_node` finds the same node
for that string. -/
theorem C16_canonical_path_resolves_alike (s : VFS) (p : CStr) (x : Nat)
    (hplain : PlainPath s p) (hlen : (effective_path s p).length < VFS_MAX_PATH - 1)
    (hget : vfs_get_node s p = .found x) :
    ∃ c, vfs_get_canonical_path s p = some c ∧ vfs_get_node s c = .found x := by
  obtain ⟨r, hr⟩ := root_of_found hget
  have hdef : split_path p ≠ [] := by
    intro h0
    by_cases hp : p = ['/']
    · rw [hp] at h0; exact absurd h0 (by decide)
    · unfold vfs_get_node at hget
      simp only [hr, h0] at hget
      rw [if_neg hp] at hget
      cases hget
  obtain ⟨a, ha, hhead, halen, hwalk⟩ := resolve_absolute s r p hr hplain hlen hdef
  have hjl := length_join_split a
  have htail : (split_path a).tail = (split_path a).drop 1 := by rw [List.drop_one]
  refine ⟨_, canonical_eq ha, ?_⟩
  have hmax : VFS_MAX_PATH = 1024 := rfl
  rw [vfs_get_node_join s r _ hr (split_path_proper a) (by omega), ← htail, ← hwalk]
  exact hget

/-- Witness of C16: the relative path `./notes` in the working directory
`/home/bob`. -/
theorem C16_canonical_path_resolves_alike_witness :
    PlainPath fs_bob_notes "./notes".toList ∧
    vfs_get_node fs_bob_notes "./notes".toList = .found 8 ∧
    vfs_get_canonical_path fs_bob_notes "./notes".toList = some "/home/bob/notes".toList ∧
    ∃ c, vfs_get_canonical_path fs_bob_notes "./notes".toList = some c ∧
      vfs_get_node fs_bob_notes c = .found 8 :=
  have hp : PlainPath fs_bob_notes "./notes".toList := Or.inr (by decide!)
  have hg : vfs_get_node fs_bob_notes "./notes".toList = .found 8 := by decide!
  ⟨hp, hg, by decide!,
    C16_canonical_path_resolves_alike fs_bob_notes "./notes".toList 8 hp (by decide!) hg⟩

/-- C16 as stated fails.  After `vfs_init` (working directory `/`) the relative
path `home/..` resolves to `/home` (address 3), its canonical path is `/`, and
that resolves to the root (address 0).  And in `fs_deep`, whose working directory
is 768 characters long, the name `name255` resolves to the directory at address
10; the absolute path is cut at `VFS_MAX_PATH - 1` characters, so the canonical
path ends in a name of 254 characters and resolves to `NULL`. -/
theorem C16_counterexample :
    vfs_get_node fs_init "home/..".toList = .found 3 ∧
    vfs_get_canonical_path fs_init "home/..".toList = some "/".toList ∧
    vfs_get_node fs_init "/".toList = .found 0 ∧
    fs_deep.vfs_current_directory = deep3 ∧
    vfs_get_node fs_deep name255 = .found 10 ∧
    vfs_get_canonical_path fs_deep name255
      = some (deep3 ++ '/' :: List.replicate 254 'a') ∧
    vfs_get_node fs_deep (deep3 ++ '/' :: List.replicate 254 'a') = .null := by
  decide!


/-! ## The working directory after a change -/

/-- C17 fails for relative paths with a `..` component.  After `vfs_init` the
working directory `/` names the root (address 0), a Directory.  The path
`home/..` resolves to `/home` (address 3), a Directory, so
`vfs_change_directory("home/..")` returns 0; it stores `/`, which resolves to the
root and not to the node the path resolved to.  In `fs_bob_xy` (working directory
`/home/bob`, address 7) the path `x/../y` resolves to `/home/bob/x/y` (address 9);
the call returns 0 and stores `/home/bob/y`, which does not resolve at all. -/
theorem C17_change_directory_dotdot :
    fs_init.vfs_current_directory = "/".toList ∧
    vfs_get_node fs_init "/".toList = .found 0 ∧
    (fs_init.node 0).map (fun n => n.type) = some VFSNodeType.VFS_TYPE_DIRECTORY ∧
    vfs_get_node fs_init "home/..".toList = .found 3 ∧
    (fs_init.node 3).map (fun n => n.type) = some VFSNodeType.VFS_TYPE_DIRECTORY ∧
    vfs_change_directory fs_init "home/..".toList
      = some ({ fs_init with vfs_current_directory := "/".toList }, 0) ∧
    vfs_get_node { fs_init with vfs_current_directory := "/".toList } "/".toList
      = .found 0 ∧
    fs_bob_xy.vfs_current_directory = "/home/bob".toList ∧
    vfs_get_node fs_bob_xy "/home/bob".toList = .found 7 ∧
    (fs_bob_xy.node 7).map (fun n => n.type) = some VFSNodeType.VFS_TYPE_DIRECTORY ∧
    vfs_get_node fs_bob_xy "x/../y".toList = .found 9 ∧
    (fs_bob_xy.node 9).map (fun n => n.type) = some VFSNodeType.VFS_TYPE_DIRECTORY ∧
    vfs_change_directory fs_bob_xy "x/../y".toList
      = some ({ fs_bob_xy with vfs_current_directory := "/home/bob/y".toList }, 0) ∧
    vfs_get_node { fs_bob_xy with vfs_current_directory := "/home/bob/y".toList }
      "/home/bob/y".toList = .null := by
  decide!


/-! ## Changing the working directory -/

theorem vfs_change_directory_eq (s : VFS) (path : CStr) :
    vfs_change_directory s path =
      match s.vfs_root with
      | none => some (s, -1)
      | some _ =>
        match vfs_get_node s path with
        | .undefined => none
        | .null => some (s, -1)
        | .found node =>
          match s.node node with
          | none => none
          | some n =>
            if n.type ≠ VFSNodeType.VFS_TYPE_DIRECTORY then some (s, -1)
            else
              match vfs_get_absolute_path s path with
              | none => none
              | some a =>
                match vfs_get_canonical_path s a with
                | none => none
                | some canonical =>
                  some ({ s with vfs_current_directory :=
                    canonical.take (VFS_MAX_PATH - 1) }, 0) := rfl

/-- Under a working directory that is not absolute no relative path resolves. -/
theorem relative_cwd_unresolved (s : VFS) (p : CStr) (x : Nat)
    (hp : p.head? ≠ some '/') (hc : s.vfs_current_directory.head? ≠ some '/') :
    vfs_get_node s p ≠ .found x := by
  intro hget
  obtain ⟨r, hr⟩ := root_of_found hget
  have hpne : p ≠ ['/'] := by
    intro h0; rw [h0] at hp; simp at hp
  have hcne : s.vfs_current_directory ≠ ['/'] := by
    intro h0; rw [h0] at hc; simp at hc
  have htok : ∀ l : CStr, l.head? ≠ some '/' → ∀ c0 rest, split_path l = c0 :: rest →
      c0.head? ≠ some '/' := by
    intro l hl c0 rest hs
    unfold split_path at hs
    rw [if_neg hl] at hs
    have hm : c0 ∈ split_loop (strtok_all [] l) [] := by rw [hs]; simp
    rcases split_loop_mem _ _ _ hm with h1 | h1
    · simp at h1
    · obtain ⟨hns, hnn⟩ := strtok_all_noslash_mem [] l (by simp) c0 h1.1
      cases c0 with
      | nil => exact absurd rfl hnn
      | cons ch cs =>
        simp only [List.head?_cons, ne_eq, Option.some.injEq]
        intro hch
        exact hns (by simp [hch])
  have hcwd : vfs_get_node_cwd s r = .undefined := by
    unfold vfs_get_node_cwd
    rw [if_neg hcne]
    cases hs : split_path s.vfs_current_directory with
    | nil => rfl
    | cons c0 rest =>
      simp only []
      rw [if_pos (htok _ hc c0 rest hs)]
  unfold vfs_get_node at hget
  simp only [hr] at hget
  rw [if_neg hpne] at hget
  cases hs : split_path p with
  | nil => rw [hs] at hget; cases hget
  | cons c0 rest =>
    rw [hs] at hget
    simp only [] at hget
    rw [if_pos (htok _ hp c0 rest hs), hcwd, traverse_undefined] at hget
    cases hget

/-- The absolute path built for a path that resolves is absolute. -/
theorem absolute_path_head {s : VFS} {p a : CStr} {x : Nat}
    (hget : vfs_get_node s p = .found x) (ha : vfs_get_absolute_path s p = some a) :
    a.head? = some '/' := by
  by_cases hp : p.head? = some '/'
  · unfold vfs_get_absolute_path at ha
    rw [if_pos hp] at ha
    split at ha
    · cases ha
    · cases ha; exact hp
  · by_cases hc : s.vfs_current_directory.head? = some '/'
    · unfold vfs_get_absolute_path at ha
      rw [if_neg hp] at ha
      split at ha
      · cases ha; rfl
      · cases ha
        cases hcw : s.vfs_current_directory with
        | nil => rw [hcw] at hc; simp at hc
        | cons c cs =>
          rw [hcw] at hc
          simp only [List.head?_cons, Option.some.injEq] at hc
          subst hc
          rfl
    · exact absurd hget (relative_cwd_unresolved s p x hp hc)

/-- C18: `vfs_change_directory(p)` returns -1 and changes nothing when `p` does
not resolve or resolves to a node that is not a Directory; it returns 0 or -1
whenever it returns; when it returns 0 the new state is the old one with the
working directory replaced by `vfs_get_canonical_path(p)`, taken in the old
state; and it does return 0 for a path to a Directory that is absolute, or
relative without `..` under an absolute working directory, with an effective
path shorter than `VFS_MAX_PATH - 1`. -/
theorem C18_change_directory (s : VFS) (p : CStr) :
    (vfs_get_node s p = .null → vfs_change_directory s p = some (s, -1)) ∧
    (∀ x n, vfs_get_node s p = .found x → s.node x = some n →
      n.type ≠ VFSNodeType.VFS_TYPE_DIRECTORY → vfs_change_directory s p = some (s, -1)) ∧
    (∀ s1 r, vfs_change_directory s p = some (s1, r) → r = 0 ∨ (r = -1 ∧ s1 = s)) ∧
    (∀ s1, vfs_change_directory s p = some (s1, 0) →
      ∃ c, vfs_get_canonical_path s p = some c ∧
        s1 = { s with vfs_current_directory := c }) ∧
    (∀ x n, PlainPath s p → (effective_path s p).length < VFS_MAX_PATH - 1 →
      vfs_get_node s p = .found x → s.node x = some n →
      n.type = VFSNodeType.VFS_TYPE_DIRECTORY →
      ∃ s1, vfs_change_directory s p = some (s1, 0)) := by
  have hmax : VFS_MAX_PATH = 1024 := rfl
  refine ⟨?_, ?_, ?_, ?_, ?_⟩
  · intro h
    rw [vfs_change_directory_eq, h]
    cases s.vfs_root <;> rfl
  · intro x n hx hn ht
    rw [vfs_change_directory_eq, hx]
    obtain ⟨r, hr⟩ := root_of_found hx
    simp only [hr, hn]
    rw [if_pos ht]
  · intro s1 r h
    rw [vfs_change_directory_eq] at h
    cases hr : s.vfs_root with
    | none => rw [hr] at h; cases h; right; exact ⟨rfl, rfl⟩
    | some r0 =>
      rw [hr] at h
      simp only [] at h
      cases hg : vfs_get_node s p with
      | undefined => rw [hg] at h; cases h
      | null => rw [hg] at h; cases h; right; exact ⟨rfl, rfl⟩
      | found x =>
        rw [hg] at h
        simp only [] at h
        cases hn : s.node x with
        | none => rw [hn] at h; cases h
        | some n =>
          rw [hn] at h
          simp only [] at h
          split at h
          · cases h; right; exact ⟨rfl, rfl⟩
          · cases ha : vfs_get_absolute_path s p with
            | none => rw [ha] at h; cases h
            | some a =>
              rw [ha] at h
              simp only [] at h
              cases hc : vfs_get_canonical_path s a with
              | none => rw [hc] at h; cases h
              | some c => rw [hc] at h; cases h; left; rfl
  · intro s1 h
    rw [vfs_change_directory_eq] at h
    cases hr : s.vfs_root with
    | none => rw [hr] at h; cases h
    | some r0 =>
      rw [hr] at h
      simp only [] at h
      cases hg : vfs_get_node s p with
      | undefined => rw [hg] at h; cases h
      | null => rw [hg] at h; cases h
      | found x =>
        rw [hg] at h
        simp only [] at h
        cases hn : s.node x with
        | none => rw [hn] at h; cases h
        | some n =>
          rw [hn] at h
          simp only [] at h
          split at h
          · cases h
          · cases ha : vfs_get_absolute_path s p with
            | none => rw [ha] at h; cases h
            | some a =>
              rw [ha] at h
              simp only [] at h
              cases hc : vfs_get_canonical_path s a with
              | none => rw [hc] at h; cases h
              | some c =>
                rw [hc] at h
                simp only [] at h
                have hhead := absolute_path_head hg ha
                have hal := length_absolute_path ha
                -- the absolute path of the absolute path is the path itself
                have haa : vfs_get_absolute_path s a = some a := by
                  cases haa0 : vfs_get_absolute_path s a with
                  | none =>
                    unfold vfs_get_canonical_path at hc
                    rw [haa0] at hc; cases hc
                  | some a2 =>
                    unfold vfs_get_absolute_path at haa0
                    rw [if_pos hhead] at haa0
                    split at haa0
                    · cases haa0
                    · exact haa0.symm
                rw [canonical_eq haa] at hc
                have hlen := length_join_split a
                rw [Option.some.injEq] at hc
                rw [hc] at hlen
                refine ⟨c, by rw [canonical_eq ha, hc], ?_⟩
                rw [List.take_of_length_le (by omega)] at h
                cases h
                rfl
  · intro x n hplain hlen hg hn ht
    obtain ⟨r, hr⟩ := root_of_found hg
    have hdef : split_path p ≠ [] := by
      intro h0
      by_cases hp : p = ['/']
      · rw [hp] at h0; exact absurd h0 (by decide)
      · unfold vfs_get_node at hg
        simp only [hr, h0] at hg
        rw [if_neg hp] at hg
        cases hg
    obtain ⟨a, ha, hhead, halen, _⟩ := resolve_absolute s r p hr hplain hlen hdef
    have haa : vfs_get_absolute_path s a = some a := by
      unfold vfs_get_absolute_path
      rw [if_pos hhead, if_neg (by omega)]
    rw [vfs_change_directory_eq, hg]
    simp only [hr, hn, ha, canonical_eq haa]
    rw [if_neg (by simp [ht])]
    exact ⟨_, rfl⟩

/-- Witness of C18 after `vfs_init` (working directory `/`): `nope` does not
resolve and `/f` is a File, so both calls return -1 and change nothing; `home` is
a Directory, the call returns 0 and stores `/home`, the canonical path of
`home`. -/
theorem C18_change_directory_witness :
    (vfs_get_node fs_init "nope".toList = .null ∧
      vfs_change_directory fs_init "nope".toList = some (fs_init, -1)) ∧
    (vfs_get_node fs_with_file "/f".toList = .found 7 ∧
      fs_with_file.node 7 = some file_f ∧
      vfs_change_directory fs_with_file "/f".toList = some (fs_with_file, -1)) ∧
    (∃ s1, vfs_change_directory fs_init "home".toList = some (s1, 0)) ∧
    vfs_get_canonical_path fs_init "home".toList = some "/home".toList ∧
    vfs_change_directory fs_init "home".toList
      = some ({ fs_init with vfs_current_directory := "/home".toList }, 0) :=
  have h1 : vfs_get_node fs_init "nope".toList = .null := by decide!
  have h2 : vfs_get_node fs_init "home".toList = .found 3 := by decide!
  have h3 : fs_init.node 3 = some (home_node []) := by decide!
  ⟨⟨h1, (C18_change_directory fs_init "nope".toList).1 h1⟩,
    ⟨fs_with_file_get, fs_with_file_node,
      (C18_change_directory fs_with_file "/f".toList).2.1 7 file_f fs_with_file_get
        fs_with_file_node (by decide)⟩,
    (C18_change_directory fs_init "home".toList).2.2.2.2 3 (home_node [])
      (Or.inr (by decide!)) (by decide!) h2 h3 rfl,
    by decide!, by decide!⟩


/-! ## Permission tests -/

theorem and_two_pow_ne_zero (n i : Nat) : n &&& 2 ^ i ≠ 0 ↔ n.testBit i = true := by
  rw [Nat.and_two_pow]
  cases h : n.testBit i <;> simp

/-- The value of a permission test on a node: the owner bit for the owner, else
the group bit for a member of the group, else the other bit (`k` is the number of
the other bit, 2 for read and 1 for write). -/
theorem tier_value (e : Env) (node : VFSNode) (k : Nat) :
    ((if node.uid = e.uid then
        some (if node.permissions &&& 2 ^ (k + 6) ≠ 0 then (1 : Int) else 0)
      else if node.gid = e.gid then
        some (if node.permissions &&& 2 ^ (k + 3) ≠ 0 then (1 : Int) else 0)
      else some (if node.permissions &&& 2 ^ k ≠ 0 then (1 : Int) else 0)) = some 1 ↔
      (if node.uid = e.uid then node.permissions.testBit (k + 6)
       else if node.gid = e.gid then node.permissions.testBit (k + 3)
       else node.permissions.testBit k) = true) ∧
    ((if node.uid = e.uid then
        some (if node.permissions &&& 2 ^ (k + 6) ≠ 0 then (1 : Int) else 0)
      else if node.gid = e.gid then
        some (if node.permissions &&& 2 ^ (k + 3) ≠ 0 then (1 : Int) else 0)
      else some (if node.permissions &&& 2 ^ k ≠ 0 then (1 : Int) else 0)) = some 0 ↔
      (if node.uid = e.uid then node.permissions.testBit (k + 6)
       else if node.gid = e.gid then node.permissions.testBit (k + 3)
       else node.permissions.testBit k) = false) := by
  have key : ∀ i, ((if node.permissions &&& 2 ^ i ≠ 0 then (1 : Int) else 0) = 1 ↔
        node.permissions.testBit i = true) ∧
      ((if node.permissions &&& 2 ^ i ≠ 0 then (1 : Int) else 0) = 0 ↔
        node.permissions.testBit i = false) := by
    intro i
    by_cases hb : node.permissions.testBit i = true
    · have := (and_two_pow_ne_zero node.permissions i).mpr hb
      rw [if_pos this]; simp [hb]
    · have hn : ¬ node.permissions &&& 2 ^ i ≠ 0 :=
        fun h => hb ((and_two_pow_ne_zero node.permissions i).mp h)
      rw [if_neg hn]; simp [hb]
  by_cases hu : node.uid = e.uid
  · simp only [if_pos hu, Option.some.injEq]; exact key _
  · simp only [if_neg hu]
    by_cases hg : node.gid = e.gid
    · simp only [if_pos hg, Option.some.injEq]; exact key _
    · simp only [if_neg hg, Option.some.injEq]; exact key _

/-- C19: for a path that resolves to a node, `vfs_is_readable` returns 1 or 0, and
1 exactly when the owner read bit (0400) is set if the caller's uid is the node's,
else the group read bit (040) if the caller's gid is the node's, else the other
read bit (04); `vfs_is_writable` likewise with the write bits (0200, 020, 02).  So
the owner is denied when the owner bit is clear, whatever the group and other
bits. -/
theorem C19_three_tier_permissions (e : Env) (s : VFS) (path : CStr) (p : Nat)
    (node : VFSNode) (hp : vfs_get_node s path = .found p) (hn : s.node p = some node) :
    (vfs_is_readable e s path = some 1 ↔
      (if node.uid = e.uid then node.permissions.testBit 8
       else if node.gid = e.gid then node.permissions.testBit 5
       else node.permissions.testBit 2) = true) ∧
    (vfs_is_readable e s path = some 0 ↔
      (if node.uid = e.uid then node.permissions.testBit 8
       else if node.gid = e.gid then node.permissions.testBit 5
       else node.permissions.testBit 2) = false) ∧
    (vfs_is_writable e s path = some 1 ↔
      (if node.uid = e.uid then node.permissions.testBit 7
       else if node.gid = e.gid then node.permissions.testBit 4
       else node.permissions.testBit 1) = true) ∧
    (vfs_is_writable e s path = some 0 ↔
      (if node.uid = e.uid then node.permissions.testBit 7
       else if node.gid = e.gid then node.permissions.testBit 4
       else node.permissions.testBit 1) = false) ∧
    (node.uid = e.uid → node.permissions.testBit 8 = false →
      vfs_is_readable e s path = some 0) ∧
    (node.uid = e.uid → node.permissions.testBit 7 = false →
      vfs_is_writable e s path = some 0) := by
  have hr : vfs_is_readable e s path =
      (if node.uid = e.uid then
        some (if node.permissions &&& 2 ^ (2 + 6) ≠ 0 then (1 : Int) else 0)
      else if node.gid = e.gid then
        some (if node.permissions &&& 2 ^ (2 + 3) ≠ 0 then (1 : Int) else 0)
      else some (if node.permissions &&& 2 ^ 2 ≠ 0 then (1 : Int) else 0)) := by
    unfold vfs_is_readable
    rw [hp]; simp only [hn]; rfl
  have hw : vfs_is_writable e s path =
      (if node.uid = e.uid then
        some (if node.permissions &&& 2 ^ (1 + 6) ≠ 0 then (1 : Int) else 0)
      else if node.gid = e.gid then
        some (if node.permissions &&& 2 ^ (1 + 3) ≠ 0 then (1 : Int) else 0)
      else some (if node.permissions &&& 2 ^ 1 ≠ 0 then (1 : Int) else 0)) := by
    unfold vfs_is_writable
    rw [hp]; simp only [hn]; rfl
  have tr := tier_value e node 2
  have tw := tier_value e node 1
  rw [← hr] at tr
  rw [← hw] at tw
  refine ⟨tr.1, tr.2, tw.1, tw.2, ?_, ?_⟩
  · intro hu hb
    exact tr.2.mpr (by rw [if_pos hu]; exact hb)
  · intro hu hb
    exact tw.2.mpr (by rw [if_pos hu]; exact hb)

/-- Witness of C19: the file `/f` created with mode 0077 by the caller (uid 1000):
the caller owns it and the owner bits are clear, so both tests return 0 although
the group and other bits are set; a caller who is neither the owner nor in the
group is granted both. -/
theorem C19_three_tier_permissions_witness :
    vfs_get_node fs_owner_denied "/f".toList = .found 7 ∧
    fs_owner_denied.node 7 = some file_077 ∧
    vfs_is_readable env0 fs_owner_denied "/f".toList = some 0 ∧
    vfs_is_writable env0 fs_owner_denied "/f".toList = some 0 ∧
    vfs_is_readable { env0 with uid := 1, gid := 1 } fs_owner_denied "/f".toList = some 1 ∧
    vfs_is_writable { env0 with uid := 1, gid := 1 } fs_owner_denied "/f".toList = some 1 :=
  have hg : vfs_get_node fs_owner_denied "/f".toList = .found 7 := by decide!
  have hn : fs_owner_denied.node 7 = some file_077 := by decide!
  have h := C19_three_tier_permissions env0 fs_owner_denied "/f".toList 7 file_077 hg hn
  have h1 := C19_three_tier_permissions { env0 with uid := 1, gid := 1 } fs_owner_denied
    "/f".toList 7 file_077 hg hn
  ⟨hg, hn, h.2.2.2.2.1 rfl (by decide), h.2.2.2.2.2 rfl (by decide),
    h1.1.mpr (by decide), h1.2.2.1.mpr (by decide)⟩


/-! ## The ceiling on the number of children -/

theorem bounded_setNode {s : VFS} (hb : Bounded s) (p : Nat) (n : VFSNode)
    (hn : n.children.length ≤ VFS_MAX_CHILDREN) : Bounded (s.setNode p n) := by
  intro q m hq
  rw [node_setNode] at hq
  split at hq
  · split at hq
    · cases hq; exact hn
    · cases hq
  · exact hb q m hq

theorem bounded_free {s : VFS} (hb : Bounded s) (x : Nat) : Bounded (s.free x) := by
  intro q m hq
  rw [node_free] at hq
  split at hq
  · cases hq
  · exact hb q m hq

theorem bounded_cwd {s : VFS} (hb : Bounded s) (c : CStr) :
    Bounded { s with vfs_current_directory := c } :=
  fun p n h => hb p n h

theorem bounded_create {e : Env} {s s1 : VFS} {path : CStr} {mode : Nat}
    {type : VFSNodeType} {size : Nat} {data : List Nat} {res : Option Nat}
    (hb : Bounded s)
    (h : vfs_create_node e s path mode type size data = some (s1, res)) : Bounded s1 := by
  rcases vfs_create_node_cases e s s1 path mode type size data res h with h0 | ⟨f, h0⟩
  · rw [h0]; exact hb
  · obtain ⟨r, parent, pn, _, _, hn, _, _, _, hroom, hfe, hs1⟩ := vfs_create_node_success h0
    rw [hs1]
    apply bounded_setNode
    · intro q m hq
      rw [node_alloc] at hq
      split at hq
      · cases hq; simp [new_node]
      · exact hb q m hq
    · simp only [List.length_append, List.length_singleton]
      omega

theorem bounded_write {e : Env} {s s1 : VFS} {path : CStr} {buffer : List Nat} {size : Nat}
    {offset : Int} {r : Int} (hb : Bounded s)
    (h : vfs_write e s path buffer size offset = some (s1, r)) : Bounded s1 := by
  unfold vfs_write at h
  cases hr : s.vfs_root with
  | none => rw [hr] at h; cases h; exact hb
  | some r0 =>
    rw [hr] at h
    simp only [] at h
    cases hg : vfs_get_node s path with
    | undefined => rw [hg] at h; cases h
    | null => rw [hg] at h; cases h; exact hb
    | found f =>
      rw [hg] at h
      simp only [] at h
      cases hn : s.node f with
      | none => rw [hn] at h; cases h
      | some file =>
        rw [hn] at h
        simp only [] at h
        have hfile := hb f file hn
        repeat' split at h
        all_goals first
          | (cases h; exact hb)
          | (cases h; exact bounded_setNode hb _ _ hfile)
          | cases h

theorem bounded_read {e : Env} {s s1 : VFS} {path : CStr} {size : Nat}
    {offset : Int} {r : Int × List Nat} (hb : Bounded s)
    (h : vfs_read e s path size offset = some (s1, r)) : Bounded s1 := by
  unfold vfs_read at h
  cases hr : s.vfs_root with
  | none => rw [hr] at h; cases h; exact hb
  | some r0 =>
    rw [hr] at h
    simp only [] at h
    cases hg : vfs_get_node s path with
    | undefined => rw [hg] at h; cases h
    | null => rw [hg] at h; cases h; exact hb
    | found f =>
      rw [hg] at h
      simp only [] at h
      cases hn : s.node f with
      | none => rw [hn] at h; cases h
      | some file =>
        rw [hn] at h
        simp only [] at h
        have hfile := hb f file hn
        repeat' split at h
        all_goals first
          | (cases h; exact hb)
          | (cases h; exact bounded_setNode hb _ _ hfile)
          | cases h

theorem bounded_delete {e : Env} {s s1 : VFS} {path : CStr} {r : Int} (hb : Bounded s)
    (h : vfs_delete e s path = some (s1, r)) : Bounded s1 := by
  unfold vfs_delete at h
  cases hr : s.vfs_root with
  | none => rw [hr] at h; cases h; exact hb
  | some r0 =>
    rw [hr] at h
    simp only [] at h
    split at h
    · cases h; exact hb
    · cases hg : vfs_get_node s path with
      | undefined => rw [hg] at h; cases h
      | null => rw [hg] at h; cases h; exact hb
      | found x =>
        rw [hg] at h
        simp only [] at h
        cases hn : s.node x with
        | none => rw [hn] at h; cases h
        | some n =>
          rw [hn] at h
          simp only [] at h
          split at h
          · cases h; exact hb
          · cases hp : s.node n.parent with
            | none => rw [hp] at h; cases h
            | some pn =>
              rw [hp] at h
              simp only [] at h
              have hpn := hb _ pn hp
              split at h
              · cases h
                apply bounded_free
                apply bounded_setNode hb
                have := List.length_erase_le x pn.children
                simp only []
                omega
              · cases h; exact hb

theorem bounded_rename_link {e : Env} {S1 s3 : VFS} {x tp : Nat} {nm : CStr} {r : Int}
    (hb : Bounded S1)
    (hroom : ∀ n, S1.node tp = some n → n.children.length < VFS_MAX_CHILDREN)
    (h : rename_link e S1 x tp nm = some (s3, r)) : Bounded s3 := by
  unfold rename_link at h
  cases h1 : S1.node x with
  | none => rw [h1] at h; cases h
  | some n1 =>
    rw [h1] at h
    simp only [] at h
    have hb2 : Bounded (S1.setNode x
        { n1 with name := nm.take (VFS_MAX_FILENAME - 1), parent := tp,
                  modified := e.now }) :=
      bounded_setNode hb _ _ (hb x n1 h1)
    cases h2 : (S1.setNode x
        { n1 with name := nm.take (VFS_MAX_FILENAME - 1), parent := tp,
                  modified := e.now }).node tp with
    | none => rw [h2] at h; cases h
    | some n2 =>
      rw [h2] at h
      cases h
      apply bounded_setNode hb2
      have hlt : n2.children.length < VFS_MAX_CHILDREN := by
        rw [node_setNode] at h2
        split at h2
        · rename_i heq
          split at h2
          · cases h2
            exact hroom n1 (by rw [heq]; exact h1)
          · cases h2
        · exact hroom n2 h2
      simp only [List.length_append, List.length_singleton]
      omega

theorem bounded_rename {e : Env} {s s1 : VFS} {old_path new_path : CStr} {r : Int}
    (hb : Bounded s) (h : vfs_rename e s old_path new_path = some (s1, r)) :
    Bounded s1 := by
  unfold vfs_rename at h
  cases hr : s.vfs_root with
  | none => rw [hr] at h; cases h; exact hb
  | some r0 =>
    rw [hr] at h
    simp only [] at h
    cases hg : vfs_get_node s old_path with
    | undefined => rw [hg] at h; cases h
    | null => rw [hg] at h; cases h; exact hb
    | found x =>
      rw [hg] at h
      simp only [] at h
      cases hp : vfs_get_parent s new_path with
      | undefined => rw [hp] at h; cases h
      | null => rw [hp] at h; cases h; exact hb
      | found tp =>
        rw [hp] at h
        simp only [] at h
        cases htp : s.node tp with
        | none => rw [htp] at h; cases h
        | some tpn =>
          rw [htp] at h
          simp only [] at h
          split at h
          · cases h; exact hb
          · split at h
            · cases h; exact hb
            · cases hf : find_child s tpn.children (vfs_get_filename new_path) with
              | undefined => rw [hf] at h; cases h
              | found c => rw [hf] at h; cases h; exact hb
              | null =>
                rw [hf] at h
                simp only [] at h
                split at h
                · cases h; exact hb
                · rename_i hroom
                  cases hx : s.node x with
                  | none => rw [hx] at h; cases h
                  | some xn =>
                    rw [hx] at h
                    simp only [] at h
                    cases hsp : s.node xn.parent with
                    | none => rw [hsp] at h; cases h
                    | some spn =>
                      rw [hsp] at h
                      simp only [] at h
                      split at h
                      · have hle := List.length_erase_le x spn.children
                        have hspn := hb _ spn hsp
                        refine bounded_rename_link
                          (bounded_setNode hb _ _ (by simp only []; omega)) ?_ h
                        intro n hn
                        rw [node_setNode] at hn
                        split at hn
                        · rename_i heq
                          rw [heq, hsp] at htp
                          cases htp
                          split at hn
                          · cases hn; simp only []; omega
                          · cases hn
                        · rw [htp] at hn; cases hn; omega
                      · cases h; exact hb

theorem vfs_change_directory_cases {s s1 : VFS} {path : CStr} {r : Int}
    (h : vfs_change_directory s path = some (s1, r)) :
    s1 = s ∨ ∃ c, s1 = { s with vfs_current_directory := c } := by
  rw [vfs_change_directory_eq] at h
  cases hr : s.vfs_root with
  | none => rw [hr] at h; cases h; left; rfl
  | some r0 =>
    rw [hr] at h
    simp only [] at h
    cases hg : vfs_get_node s path with
    | undefined => rw [hg] at h; cases h
    | null => rw [hg] at h; cases h; left; rfl
    | found x =>
      rw [hg] at h
      simp only [] at h
      cases hn : s.node x with
      | none => rw [hn] at h; cases h
      | some n =>
        rw [hn] at h
        simp only [] at h
        split at h
        · cases h; left; rfl
        · cases ha : vfs_get_absolute_path s path with
          | none => rw [ha] at h; cases h
          | some a =>
            rw [ha] at h
            simp only [] at h
            cases hc : vfs_get_canonical_path s a with
            | none => rw [hc] at h; cases h
            | some c =>
              rw [hc] at h
              cases h
              right
              exact ⟨_, rfl⟩

theorem bounded_change_directory {s s1 : VFS} {path : CStr} {r : Int} (hb : Bounded s)
    (h : vfs_change_directory s path = some (s1, r)) : Bounded s1 := by
  rcases vfs_change_directory_cases h with h0 | ⟨c, h0⟩
  · rw [h0]; exact hb
  · rw [h0]; exact bounded_cwd hb c

theorem bounded_create_directory {e : Env} {s : VFS} {path : CStr} {mode : Nat}
    {r : VFS × Option Nat} (hb : Bounded s)
    (h : vfs_create_directory e s path mode = some r) : Bounded r.1 := by
  unfold vfs_create_directory at h
  have h2 : vfs_create_node e s path mode VFSNodeType.VFS_TYPE_DIRECTORY 0 []
      = some (r.1, r.2) := by rw [h]
  exact bounded_create hb h2

theorem bounded_init {e : Env} {pw : Option CStr} {s : VFS}
    (h : vfs_init e pw = some s) : Bounded s := by
  unfold vfs_init at h
  simp only [Option.bind_eq_some] at h
  obtain ⟨r1, h1, r2, h2, r3, h3, r4, h4, r5, h5, r6, h6, h7⟩ := h
  have b0 : Bounded ({ (vfs_initial.alloc
        { name := ['/']
          type := VFSNodeType.VFS_TYPE_DIRECTORY
          created := e.now
          modified := e.now
          accessed := e.now
          permissions := 0o755
          uid := e.uid
          gid := e.gid
          size := 0
          data := []
          parent := vfs_initial.heap.length
          children := [] }).1 with vfs_root := some vfs_initial.heap.length }) := by
    intro p n hp
    have : p = 0 ∨ 0 < p := by omega
    rcases this with h0 | h0
    · subst h0
      simp [VFS.node, VFS.alloc, vfs_initial] at hp
      rw [← hp]; simp
    · have : p = (p - 1) + 1 := by omega
      rw [this] at hp
      simp [VFS.node, VFS.alloc, vfs_initial] at hp
  have b1 := bounded_create_directory b0 h1
  have b2 := bounded_create_directory b1 h2
  have b3 := bounded_create_directory b2 h3
  have b4 := bounded_create_directory b3 h4
  have b5 := bounded_create_directory b4 h5
  have b6 := bounded_create_directory b5 h6
  cases pw with
  | none =>
    simp only [Option.some.injEq] at h7
    rw [← h7]; exact b6
  | some pw_name =>
    simp only [Option.bind_eq_some, Option.some.injEq] at h7
    obtain ⟨r7, h8, h9⟩ := h7
    rw [← h9]
    exact bounded_cwd (bounded_create_directory b6 h8) _

theorem bounded_run {e : Env} {c : Call} {s t : VFS} (hb : Bounded s)
    (h : c.run e s = some t) : Bounded t := by
  cases c with
  | create_file path mode =>
    simp only [Call.run, Option.map_eq_some'] at h
    obtain ⟨r, hr, ht⟩ := h
    rw [← ht]
    unfold vfs_create_file at hr
    have h2 : vfs_create_node e s path mode VFSNodeType.VFS_TYPE_FILE 0 []
        = some (r.1, r.2) := by rw [hr]
    exact bounded_create hb h2
  | create_directory path mode =>
    simp only [Call.run, Option.map_eq_some'] at h
    obtain ⟨r, hr, ht⟩ := h
    rw [← ht]
    exact bounded_create_directory hb hr
  | create_symlink path target mode =>
    simp only [Call.run, Option.map_eq_some'] at h
    obtain ⟨r, hr, ht⟩ := h
    rw [← ht]
    unfold vfs_create_symlink at hr
    have h2 : vfs_create_node e s path mode VFSNodeType.VFS_TYPE_SYMLINK target.length
        (target.map Char.toNat ++ [0]) = some (r.1, r.2) := by rw [hr]
    exact bounded_create hb h2
  | write path buffer size offset =>
    simp only [Call.run, Option.map_eq_some'] at h
    obtain ⟨r, hr, ht⟩ := h
    rw [← ht]
    have h2 : vfs_write e s path buffer size offset = some (r.1, r.2) := by rw [hr]
    exact bounded_write hb h2
  | read path size offset =>
    simp only [Call.run, Option.map_eq_some'] at h
    obtain ⟨r, hr, ht⟩ := h
    rw [← ht]
    have h2 : vfs_read e s path size offset = some (r.1, r.2) := by rw [hr]
    exact bounded_read hb h2
  | delete path =>
    simp only [Call.run, Option.map_eq_some'] at h
    obtain ⟨r, hr, ht⟩ := h
    rw [← ht]
    have h2 : vfs_delete e s path = some (r.1, r.2) := by rw [hr]
    exact bounded_delete hb h2
  | rename old_path new_path =>
    simp only [Call.run, Option.map_eq_some'] at h
    obtain ⟨r, hr, ht⟩ := h
    rw [← ht]
    have h2 : vfs_rename e s old_path new_path = some (r.1, r.2) := by rw [hr]
    exact bounded_rename hb h2
  | change_directory path =>
    simp only [Call.run, Option.map_eq_some'] at h
    obtain ⟨r, hr, ht⟩ := h
    rw [← ht]
    have h2 : vfs_change_directory s path = some (r.1, r.2) := by rw [hr]
    exact bounded_change_directory hb h2

theorem reachable_bounded {s : VFS} (h : Reachable s) : Bounded s := by
  induction h with
  | init e pw s hs => exact bounded_init hs
  | step e c s t _ hrun ih => exact bounded_run ih hrun

theorem find_child_defined {s : VFS} {cs : List Nat} (nm : CStr)
    (h : ∀ c ∈ cs, ∃ cn, s.node c = some cn) : find_child s cs nm ≠ .undefined := by
  induction cs with
  | nil => simp [find_child]
  | cons c cs ih =>
    obtain ⟨cn, hcn⟩ := h c (List.mem_cons_self _ _)
    rw [find_child_cons, hcn]
    simp only []
    split
    · simp
    · exact ih (fun d hd => h d (List.mem_cons_of_mem _ hd))

/-- A `vfs_create_*` call whose parent directory is full returns `NULL` and
changes nothing. -/
theorem create_full (e : Env) (s : VFS) (path : CStr) (mode : Nat) (type : VFSNodeType)
    (size : Nat) (data : List Nat) (tp : Nat) (tpn : VFSNode) (hwf : WF s)
    (hp : vfs_get_parent s path = .found tp) (hn : s.node tp = some tpn)
    (hfull : tpn.children.length ≥ VFS_MAX_CHILDREN) :
    vfs_create_node e s path mode type size data = some (s, none) := by
  have hdef := find_child_defined (s := s) (vfs_get_filename path)
    (fun c hc => by
      obtain ⟨cn, h1, _⟩ := (hwf tp tpn hn).2 c hc
      exact ⟨cn, h1⟩)
  unfold vfs_create_node
  cases hr : s.vfs_root with
  | none => rfl
  | some r =>
    simp only [hp, hn]
    split
    · rfl
    · split
      · rfl
      · cases hf : find_child s tpn.children (vfs_get_filename path) with
        | undefined => exact absurd hf hdef
        | found c => rfl
        | null =>
          first
            | exact if_pos hfull
            | rfl

/-- A `vfs_rename` call whose target parent directory is full returns -1 and
changes nothing. -/
theorem rename_full (e : Env) (s : VFS) (old_path new_path : CStr) (tp : Nat)
    (tpn : VFSNode) (hwf : WF s) (hold : vfs_get_node s old_path ≠ .undefined)
    (hp : vfs_get_parent s new_path = .found tp) (hn : s.node tp = some tpn)
    (hfull : tpn.children.length ≥ VFS_MAX_CHILDREN) :
    vfs_rename e s old_path new_path = some (s, -1) := by
  have hdef := find_child_defined (s := s) (vfs_get_filename new_path)
    (fun c hc => by
      obtain ⟨cn, h1, _⟩ := (hwf tp tpn hn).2 c hc
      exact ⟨cn, h1⟩)
  unfold vfs_rename
  cases hr : s.vfs_root with
  | none => rfl
  | some r =>
    simp only []
    cases hg : vfs_get_node s old_path with
    | undefined => exact absurd hg hold
    | null => rfl
    | found x =>
      simp only [hp, hn]
      split
      · rfl
      · split
        · rfl
        · cases hf : find_child s tpn.children (vfs_get_filename new_path) with
          | undefined => exact absurd hf hdef
          | found c => rfl
          | null =>
            first
              | exact if_pos hfull
              | rfl

/-- C20: in a state with well-formed links, `vfs_create_file`,
`vfs_create_directory` and `vfs_create_symlink` return `NULL`, and `vfs_rename`
(for a source path whose resolution is defined) returns -1, without any change
of the state, when the parent directory of the new path has `VFS_MAX_CHILDREN`
children or more; and in every state reachable from `vfs_init` by calls of the
interface no node has more than `VFS_MAX_CHILDREN` (128) children. -/
theorem C20_child_count_ceiling :
    (∀ (e : Env) (s : VFS) (path target : CStr) (mode tp : Nat) (tpn : VFSNode), WF s →
      vfs_get_parent s path = .found tp → s.node tp = some tpn →
      tpn.children.length ≥ VFS_MAX_CHILDREN →
      vfs_create_file e s path mode = some (s, none) ∧
      vfs_create_directory e s path mode = some (s, none) ∧
      vfs_create_symlink e s path target mode = some (s, none)) ∧
    (∀ (e : Env) (s : VFS) (old_path new_path : CStr) (tp : Nat) (tpn : VFSNode), WF s →
      vfs_get_node s old_path ≠ .undefined →
      vfs_get_parent s new_path = .found tp → s.node tp = some tpn →
      tpn.children.length ≥ VFS_MAX_CHILDREN →
      vfs_rename e s old_path new_path = some (s, -1)) ∧
    (∀ s : VFS, Reachable s → ∀ p n, s.node p = some n →
      0 ≤ n.children.length ∧ n.children.length ≤ VFS_MAX_CHILDREN) := by
  refine ⟨?_, ?_, ?_⟩
  · intro e s path target mode tp tpn hwf hp hn hfull
    exact ⟨create_full e s path mode _ _ _ tp tpn hwf hp hn hfull,
      create_full e s path mode _ _ _ tp tpn hwf hp hn hfull,
      create_full e s path mode _ _ _ tp tpn hwf hp hn hfull⟩
  · intro e s old_path new_path tp tpn hwf hold hp hn hfull
    exact rename_full e s old_path new_path tp tpn hwf hold hp hn hfull
  · intro s hs p n hn
    exact ⟨Nat.zero_le _, reachable_bounded hs p n hn⟩


/-- Witness of C20: in `fs_full` the directory `/d` (address 1) has 128 children;
a further create there and a rename of `/d/aa` to a new name there fail and
change nothing.  The state after `vfs_init` is reachable, and its root has six
children. -/
theorem C20_child_count_ceiling_witness :
    WF fs_full ∧
    vfs_get_parent fs_full "/d/new".toList = .found 1 ∧
    fs_full.node 1 = some full_dir_node ∧
    full_dir_node.children.length = 128 ∧
    vfs_create_file env0 fs_full "/d/new".toList 0o644 = some (fs_full, none) ∧
    vfs_create_directory env0 fs_full "/d/new".toList 0o755 = some (fs_full, none) ∧
    vfs_create_symlink env0 fs_full "/d/new".toList "/d".toList 0o777
      = some (fs_full, none) ∧
    vfs_rename env0 fs_full "/d/aa".toList "/d/new".toList = some (fs_full, -1) ∧
    Reachable fs_init ∧
    (0 ≤ root_node.children.length ∧ root_node.children.length ≤ VFS_MAX_CHILDREN) :=
  have hwf : WF fs_full := WF_of_check (by decide!)
  have hp : vfs_get_parent fs_full "/d/new".toList = .found 1 := by decide!
  have hn : fs_full.node 1 = some full_dir_node := by decide!
  have hlen : full_dir_node.children.length = 128 := by decide!
  have hfull : full_dir_node.children.length ≥ VFS_MAX_CHILDREN := by rw [hlen]; decide
  have hreach : Reachable fs_init := Reachable.init env0 none fs_init fs_init_reached
  have h1 := C20_child_count_ceiling.1 env0 fs_full "/d/new".toList "/d".toList
    0o644 1 full_dir_node hwf hp hn hfull
  have h2 := C20_child_count_ceiling.1 env0 fs_full "/d/new".toList "/d".toList
    0o755 1 full_dir_node hwf hp hn hfull
  have h3 := C20_child_count_ceiling.1 env0 fs_full "/d/new".toList "/d".toList
    0o777 1 full_dir_node hwf hp hn hfull
  ⟨hwf, hp, hn, hlen, h1.1, h2.2.1, h3.2.2,
    C20_child_count_ceiling.2.1 env0 fs_full "/d/aa".toList "/d/new".toList 1
      full_dir_node hwf (by decide!) hp hn hfull,
    hreach, C20_child_count_ceiling.2.2 fs_init hreach 0 root_node (by decide!)⟩



/-! ## The tokenizer of command lines -/

theorem strtok_by_eq_splitOnP (sep : Char → Bool) (cur l : CStr) :
    strtok_by sep cur l =
      (((l.splitOnP sep).modifyHead fun t => cur ++ t).filter fun t => t ≠ []) := by
  induction l generalizing cur with
  | nil =>
    simp only [strtok_by, List.splitOnP_nil, List.modifyHead_cons, List.append_nil]
    by_cases h : cur = [] <;> simp [h]
  | cons c cs ih =>
    rw [strtok_by, List.splitOnP_cons]
    by_cases hc : sep c = true
    · rw [if_pos hc, if_pos hc]
      simp only [List.modifyHead_cons, List.append_nil]
      have ih0 := ih []
      simp only [List.nil_append] at ih0
      have hid : ((cs.splitOnP sep).modifyHead fun t => t) = cs.splitOnP sep := by
        cases cs.splitOnP sep <;> rfl
      rw [hid] at ih0
      by_cases h : cur = []
      · rw [if_pos h, ih0]; simp [h]
      · rw [if_neg h, ih0]; simp [h]
    · rw [if_neg hc, if_neg hc, ih]
      cases hs : cs.splitOnP sep with
      | nil => exact absurd hs (List.splitOnP_ne_nil _ _)
      | cons t ts => simp

theorem parse_loop_eq (toks : List CStr) (args : List (Option CStr))
    (h : args.length ≤ MAX_ARGS - 1) :
    parse_loop toks args =
      args ++ (toks.take (MAX_ARGS - 1 - args.length)).map some ++ [none] := by
  induction toks generalizing args with
  | nil => simp [parse_loop]
  | cons t ts ih =>
    rw [parse_loop]
    by_cases hlt : args.length < MAX_ARGS - 1
    · rw [if_pos hlt, ih _ (by simp only [List.length_append, List.length_singleton]; omega)]
      have h1 : MAX_ARGS - 1 - args.length = (MAX_ARGS - 1 - (args ++ [some t]).length) + 1 := by
        simp only [List.length_append, List.length_singleton]; omega
      rw [h1, List.take_succ_cons]
      simp
    · rw [if_neg hlt]
      have h0 : MAX_ARGS - 1 - args.length = 0 := by omega
      rw [h0]
      simp

/-- C25: `parse_command` stores in `args`, in order, the maximal runs of
characters other than space and tab of the line (the pieces between separators
that are not empty), at most the first `MAX_ARGS - 1` = 9 of them, and then a
`NULL`; so at most `MAX_ARGS` entries are written.  For `ls -l /home` these are
`ls`, `-l`, `/home`, `NULL`. -/
theorem C25_parse_command_tokens (line : CStr) :
    parse_command line =
      (((line.splitOnP fun c => c == ' ' || c == '\t').filter fun t => t ≠ []).take
        (MAX_ARGS - 1)).map some ++ [none] ∧
    (parse_command line).length ≤ MAX_ARGS ∧
    MAX_ARGS - 1 = 9 ∧
    parse_command "ls -l /home".toList
      = [some "ls".toList, some "-l".toList, some "/home".toList, none] := by
  have h1 : parse_command line =
      (((line.splitOnP fun c => c == ' ' || c == '\t').filter fun t => t ≠ []).take
        (MAX_ARGS - 1)).map some ++ [none] := by
    unfold parse_command
    rw [parse_loop_eq _ _ (by simp), strtok_by_eq_splitOnP]
    have hid : ((line.splitOnP is_blank).modifyHead fun t => [] ++ t)
        = line.splitOnP is_blank := by
      cases line.splitOnP is_blank <;> rfl
    rw [hid]
    rfl
  refine ⟨h1, ?_, rfl, by decide⟩
  rw [h1]
  simp only [List.length_append, List.length_map, List.length_take, List.length_singleton]
  have : MAX_ARGS = 10 := rfl
  omega


/-! ## The command history -/

theorem length_shift_loop (a : List (Option CStr)) (lo k : Nat) :
    (shift_loop a lo k).length = a.length := by
  induction k generalizing a lo with
  | zero => rfl
  | succ k ih => rw [shift_loop, ih, List.length_set]

theorem getElem?_shift_loop (a : List (Option CStr)) (lo k j : Nat)
    (h : lo + k < a.length) :
    (shift_loop a lo k)[j]? = if lo ≤ j ∧ j < lo + k then a[j + 1]? else a[j]? := by
  induction k generalizing a lo with
  | zero =>
    rw [shift_loop, if_neg (by omega)]
  | succ k ih =>
    rw [shift_loop, ih _ _ (by rw [List.length_set]; omega)]
    have hv : some ((a[lo + 1]?).getD none) = a[lo + 1]? := by
      rw [List.getElem?_eq_getElem (by omega)]; rfl
    by_cases h1 : lo + 1 ≤ j ∧ j < lo + 1 + k
    · rw [if_pos h1, if_pos (by omega), List.getElem?_set_ne (by omega)]
    · rw [if_neg h1]
      by_cases h2 : j = lo
      · subst h2
        rw [if_pos (by omega), List.getElem?_set_self (by omega), hv]
      · rw [if_neg (by omega), List.getElem?_set_ne (by omega)]

/-- C26: in a state of the history with `history_count` at most `MAX_HISTORY`,
`add_to_history(line)` leaves `history_count` positive and at most
`MAX_HISTORY`, the last entry `history[history_count - 1]` is `line`, and the
entries before it are the previous entries in their order: all of them while the
history was not full, all but the oldest when it was. -/
theorem C26_add_to_history_appends (h : History) (line : CStr)
    (hlen : h.history.length = MAX_HISTORY) (hcount : h.history_count ≤ MAX_HISTORY) :
    ∃ h1, add_to_history h line = some h1 ∧
      h1.history.length = MAX_HISTORY ∧
      0 < h1.history_count ∧ h1.history_count ≤ MAX_HISTORY ∧
      h1.history[h1.history_count - 1]? = some (some line) ∧
      (h.history_count < MAX_HISTORY →
        h1.history_count = h.history_count + 1 ∧
        ∀ i, i < h.history_count → h1.history[i]? = h.history[i]?) ∧
      (h.history_count = MAX_HISTORY →
        h1.history_count = MAX_HISTORY ∧
        ∀ i, i + 1 < MAX_HISTORY → h1.history[i]? = h.history[i + 1]?) := by
  have hmax : MAX_HISTORY = 1000 := rfl
  unfold add_to_history
  by_cases hlt : h.history_count < MAX_HISTORY
  · rw [if_pos hlt, if_pos (by omega)]
    refine ⟨_, rfl, by simp only [List.length_set]; exact hlen, by simp, by
      simp only []; omega, ?_, ?_, ?_⟩
    · simp only [Nat.add_sub_cancel]
      rw [List.getElem?_set_self (by omega)]
    · intro _
      refine ⟨rfl, fun i hi => ?_⟩
      simp only []
      rw [List.getElem?_set_ne (by omega)]
    · intro heq; omega
  · rw [if_neg hlt, if_pos (by omega)]
    have hc : h.history_count = MAX_HISTORY := by omega
    refine ⟨_, rfl, by simp only [List.length_set, length_shift_loop]; exact hlen,
      by simp only []; omega, by simp only []; omega, ?_, ?_, ?_⟩
    · simp only []
      rw [List.getElem?_set_self (by rw [length_shift_loop]; omega)]
    · intro hlt2; omega
    · intro _
      refine ⟨hc, fun i hi => ?_⟩
      simp only []
      rw [List.getElem?_set_ne (by omega),
        getElem?_shift_loop _ _ _ _ (by omega), if_pos (by omega)]

/-- Witness of C26: the call `add_to_history("test command")` of the test suite on
the empty history, and the same call on a full history. -/
theorem C26_add_to_history_appends_witness :
    (hist_empty.history.length = MAX_HISTORY ∧ hist_empty.history_count ≤ MAX_HISTORY ∧
      ∃ h1, add_to_history hist_empty "test command".toList = some h1 ∧
        0 < h1.history_count ∧ h1.history_count ≤ MAX_HISTORY ∧
        h1.history[h1.history_count - 1]? = some (some "test command".toList)) ∧
    (hist_full.history.length = MAX_HISTORY ∧ hist_full.history_count ≤ MAX_HISTORY ∧
      ∃ h1, add_to_history hist_full "test command".toList = some h1 ∧
        h1.history_count = MAX_HISTORY ∧
        h1.history[h1.history_count - 1]? = some (some "test command".toList) ∧
        ∀ i, i + 1 < MAX_HISTORY → h1.history[i]? = hist_full.history[i + 1]?) :=
  have e1 : hist_empty.history.length = MAX_HISTORY := List.length_replicate _ _
  have e2 : hist_empty.history_count ≤ MAX_HISTORY := Nat.zero_le _
  have f1 : hist_full.history.length = MAX_HISTORY := by
    unfold hist_full; simp
  have f2 : hist_full.history_count ≤ MAX_HISTORY := Nat.le_refl _
  ⟨⟨e1, e2,
    match C26_add_to_history_appends hist_empty "test command".toList e1 e2 with
    | ⟨h1, a, _, b, c, d, _, _⟩ => ⟨h1, a, b, c, d⟩⟩,
   ⟨f1, f2,
    match C26_add_to_history_appends hist_full "test command".toList f1 f2 with
    | ⟨h1, a, _, _, _, d, _, g⟩ => ⟨h1, a, (g rfl).1, d, (g rfl).2⟩⟩⟩


/-! ## The table of virtual files -/

/-- The first free slot after `init_virtual_env` is slot 2: `create_vfile` puts a
file that fits the buffers there and leaves the slots 0 and 1 as they are. -/
theorem create_vfile_after_init (e : Env) (name content : CStr)
    (hn : name.length < MAX_LINE) (hc : content.length < MAX_LINE * 10) :
    ∃ t, create_vfile e files_after_init name content = some t ∧
      t[0]? = some (some vfile_passwd) ∧ t[1]? = some (some vfile_hostname) ∧
      t[2]? = some (some { name := name, content := content, size := content.length,
                           owner := "root".toList, permissions := "rw-r--r--".toList,
                           created := e.now, modified := e.now }) := by
  have h : ∃ rest, files_after_init
      = some vfile_passwd :: some vfile_hostname :: none :: rest :=
    ⟨List.replicate (MAX_FILES - 3) none, by decide!⟩
  obtain ⟨rest, h⟩ := h
  have hfit : ¬ (name.length ≥ MAX_LINE ∨ content.length ≥ MAX_LINE * 10) := by omega
  unfold create_vfile
  rw [h]
  simp only [create_vfile_loop, if_neg hfit, Option.map_some']
  refine ⟨_, rfl, ?_, ?_, ?_⟩ <;> simp

/-- C27 fails in the state that `init_virtual_env` produces.  There
`vfs_files[0]` is `/etc/passwd` and `vfs_files[1]` is `/etc/hostname`; the call
`create_vfile("/test_file", "test content")` of the test suite takes the first
free slot, slot 2, so afterwards `vfs_files[0]->name` is still `/etc/passwd`, not
`/test_file`. -/
theorem C27_create_vfile_takes_slot_two :
    init_virtual_env env0 = some files_after_init ∧
    files_after_init.length = MAX_FILES ∧
    files_after_init[0]? = some (some vfile_passwd) ∧
    files_after_init[1]? = some (some vfile_hostname) ∧
    files_after_init[2]? = some none ∧
    ((create_vfile env0 files_after_init "/test_file".toList "test content".toList).map
      fun t => (t[0]?).map (Option.map fun f => (f.name, f.content)))
      = some (some (some ("/etc/passwd".toList,
          "root:x:0:0:root:/root:/bin/sh\n".toList))) ∧
    ((create_vfile env0 files_after_init "/test_file".toList "test content".toList).map
      fun t => (t[2]?).map (Option.map fun f => (f.name, f.content)))
      = some (some (some ("/test_file".toList, "test content".toList))) := by
  decide!


/-! ## Reading and writing what is not a File -/

/-- C22: for a path that does not resolve, or that resolves to a Directory or a
Symlink, `vfs_write` and `vfs_read` return -1, copy nothing and leave the whole
state (every node with its content and size, and the tree) unchanged. -/
theorem C22_read_write_only_files (e : Env) (s : VFS) (path : CStr) (buffer : List Nat)
    (size : Nat) (offset : Int) :
    (vfs_get_node s path = .null →
      vfs_write e s path buffer size offset = some (s, -1) ∧
      vfs_read e s path size offset = some (s, -1, [])) ∧
    (∀ x n, vfs_get_node s path = .found x → s.node x = some n →
      n.type = VFSNodeType.VFS_TYPE_DIRECTORY ∨ n.type = VFSNodeType.VFS_TYPE_SYMLINK →
      vfs_write e s path buffer size offset = some (s, -1) ∧
      vfs_read e s path size offset = some (s, -1, [])) := by
  constructor
  · intro h
    unfold vfs_write vfs_read
    rw [h]
    cases s.vfs_root <;> exact ⟨rfl, rfl⟩
  · intro x n hx hn ht
    have hne : n.type ≠ VFSNodeType.VFS_TYPE_FILE := by
      rcases ht with h | h <;> rw [h] <;> decide
    obtain ⟨r, hr⟩ := root_of_found hx
    unfold vfs_write vfs_read
    simp only [hr, hx, hn]
    rw [if_pos hne, if_pos hne]
    exact ⟨rfl, rfl⟩

/-- Witness of C22 in the state with the Symlink `/link` (address 7) and the
Directory `/home` (address 3); `/nope` does not resolve. -/
theorem C22_read_write_only_files_witness :
    (vfs_get_node fs_link_home "/nope".toList = .null ∧
      vfs_write env0 fs_link_home "/nope".toList [1, 2] 2 0 = some (fs_link_home, -1) ∧
      vfs_read env0 fs_link_home "/nope".toList 2 0 = some (fs_link_home, -1, [])) ∧
    (vfs_get_node fs_link_home "/home".toList = .found 3 ∧
      vfs_write env0 fs_link_home "/home".toList [1, 2] 2 0 = some (fs_link_home, -1) ∧
      vfs_read env0 fs_link_home "/home".toList 2 0 = some (fs_link_home, -1, [])) ∧
    (vfs_get_node fs_link_home "/link".toList = .found 7 ∧
      vfs_write env0 fs_link_home "/link".toList [1, 2] 2 0 = some (fs_link_home, -1) ∧
      vfs_read env0 fs_link_home "/link".toList 2 0 = some (fs_link_home, -1, [])) :=
  have h1 : vfs_get_node fs_link_home "/nope".toList = .null := by decide!
  have h2 : vfs_get_node fs_link_home "/home".toList = .found 3 := by decide!
  have h3 : vfs_get_node fs_link_home "/link".toList = .found 7 := by decide!
  have n2 : fs_link_home.node 3 = some (home_node []) := by decide!
  have a := (C22_read_write_only_files env0 fs_link_home "/nope".toList [1, 2] 2 0).1 h1
  have b := (C22_read_write_only_files env0 fs_link_home "/home".toList [1, 2] 2 0).2 3
    (home_node []) h2 n2 (Or.inl rfl)
  have c := (C22_read_write_only_files env0 fs_link_home "/link".toList [1, 2] 2 0).2 7
    (new_node env0 0 "link".toList 0o777 VFSNodeType.VFS_TYPE_SYMLINK 5
      ("/home".toList.map Char.toNat ++ [0])) h3 (by decide!) (Or.inr rfl)
  ⟨⟨h1, a.1, a.2⟩, ⟨h2, b.1, b.2⟩, ⟨h3, c.1, c.2⟩⟩


/-! ## Paths without a component -/

/-- A path other than `/` that `split_path` reduces to no component has no
defined resolution: `components[0]` is read although nothing was stored. -/
theorem vfs_get_node_no_component (s : VFS) (r : Nat) (path : CStr)
    (hr : s.vfs_root = some r) (hp : path ≠ ['/']) (h : split_path path = []) :
    vfs_get_node s path = .undefined := by
  unfold vfs_get_node
  simp only [hr, h]
  rw [if_neg hp]

/-- C29 fails: after `vfs_init` the working directory `/` names the root, a
Directory.  For the paths `.`, `./.`, `..` and the empty path `split_path` returns
a count of 0 and an array in which nothing was stored; `vfs_get_node` then reads
`components[0][0]` to tell absolute from relative, so the resolution has no
defined result instead of the working-directory node.  The same holds in the
working directory `/home/bob`. -/
theorem C29_no_component_undefined :
    vfs_get_node fs_init fs_init.vfs_current_directory = .found 0 ∧
    (fs_init.node 0).map (fun n => n.type) = some VFSNodeType.VFS_TYPE_DIRECTORY ∧
    split_path ".".toList = [] ∧
    split_path "./.".toList = [] ∧
    vfs_get_node fs_init ".".toList = .undefined ∧
    vfs_get_node fs_init "./.".toList = .undefined ∧
    vfs_get_node fs_init "..".toList = .undefined ∧
    vfs_get_node fs_init [] = .undefined ∧
    vfs_get_node fs_home_bob fs_home_bob.vfs_current_directory = .found 7 ∧
    vfs_get_node fs_home_bob ".".toList = .undefined ∧
    vfs_get_node fs_home_bob "./.".toList = .undefined := by
  decide!


/-! ## The form of canonical paths -/

theorem splitOnP_append_nosep (p : Char → Bool) (c rest : CStr) (h : ∀ x ∈ c, p x = false) :
    (c ++ rest).splitOnP p = (rest.splitOnP p).modifyHead fun t => c ++ t := by
  induction c with
  | nil =>
    simp only [List.nil_append]
    cases rest.splitOnP p <;> rfl
  | cons x xs ih =>
    have hx : p x = false := h x (List.mem_cons_self _ _)
    rw [List.cons_append, List.splitOnP_cons, if_neg (by simp [hx]),
      ih (fun y hy => h y (List.mem_cons_of_mem _ hy))]
    cases rest.splitOnP p <;> rfl

/-- The pieces of a canonical spelling between separators: an empty piece before
the leading separator, then the components. -/
theorem splitOn_slash_join (cs : List CStr) (h : ∀ t ∈ cs, '/' ∉ t) (hne : cs ≠ []) :
    (slash_join cs).splitOn '/' = [] :: cs := by
  induction cs with
  | nil => exact absurd rfl hne
  | cons c ds ih =>
    have hc : ∀ x ∈ c, (x == '/') = false := by
      intro x hx
      have : x ≠ '/' := fun h0 => h c (List.mem_cons_self _ _) (h0 ▸ hx)
      simpa using this
    show ('/' :: (c ++ slash_join ds)).splitOnP (· == '/') = [] :: c :: ds
    rw [List.splitOnP_cons, if_pos (by simp), splitOnP_append_nosep _ _ _ hc]
    cases ds with
    | nil => simp [slash_join, List.splitOnP_nil]
    | cons d es =>
      have ih2 := ih (fun t ht => h t (List.mem_cons_of_mem _ ht)) (by simp)
      have ih3 : (slash_join (d :: es)).splitOnP (· == '/') = [] :: d :: es := ih2
      rw [ih3]
      simp

/-- Every result of `vfs_get_canonical_path` is the canonical spelling of proper
components: it starts with a separator, and when it is not `/` itself its pieces
between separators are, behind the leading separator, components that are not
empty and are neither `.` nor `..`; so it has no empty component and no trailing
separator. -/
theorem canonical_form (s : VFS) (p c : CStr) (h : vfs_get_canonical_path s p = some c) :
    c.head? = some '/' ∧
    ∃ cs, c = join_path cs ∧ (∀ t ∈ cs, Proper t) ∧
      (cs = [] → c = ['/']) ∧ (cs ≠ [] → c.splitOn '/' = [] :: cs) := by
  cases ha : vfs_get_absolute_path s p with
  | none => unfold vfs_get_canonical_path at h; rw [ha] at h; cases h
  | some a =>
    rw [canonical_eq ha] at h
    cases h
    refine ⟨join_path_head _, _, rfl, split_path_proper a, ?_, ?_⟩
    · intro h0; rw [h0]; rfl
    · intro hne
      unfold join_path
      rw [if_neg hne]
      exact splitOn_slash_join _ (fun t ht => (split_path_proper a t ht).1) hne

/-- C30 fails at the length bound: for the absolute path `long_abs` of 1023
characters, fewer than `VFS_MAX_PATH`, `vfs_get_canonical_path` has no defined
result (the block that `strncpy` fills is left without terminator), whatever the
working directory.  Below the bound the results have the form claimed: in the
working directory `/home/bob` the canonical path of `a//b/./c/../d/` is
`/home/bob/a/b/d`, and that of `/../x/` is `/x`. -/
theorem C30_canonical_form_unterminated :
    long_abs.head? = some '/' ∧
    vfs_get_absolute_path fs_home_bob long_abs = none ∧
    vfs_get_canonical_path fs_home_bob long_abs = none ∧
    fs_home_bob.vfs_current_directory = "/home/bob".toList ∧
    vfs_get_canonical_path fs_home_bob "a//b/./c/../d/".toList
      = some "/home/bob/a/b/d".toList ∧
    vfs_get_canonical_path fs_home_bob "/../x/".toList = some "/x".toList := by
  have hl : long_abs.length = 1023 := by
    unfold long_abs; rw [List.length_cons, long_rel_length]
  have ha : vfs_get_absolute_path fs_home_bob long_abs = none := by
    unfold vfs_get_absolute_path
    rw [if_pos (show long_abs.head? = some '/' from rfl),
      if_pos (by rw [hl]; unfold VFS_MAX_PATH; decide)]
  refine ⟨rfl, ha, ?_, by decide!, by decide!, by decide!⟩
  unfold vfs_get_canonical_path
  rw [ha]


/-! ## What a deletion leaves -/

/-- C23 fails where two siblings carry the same stored name.  The state
`fs_two_long_names` is the one that `vfs_init` and the creation of `/aa...ab` and
`/aa...ac` (256 characters each after the slash) leave: the root lists the files
at the addresses 7 and 8, both stored under the name of 255 times `a`.  The path `/aa...a` (255 times `a`)
resolves to address 7, and `vfs_delete` of it returns 0 and removes address 7
from the children of the root, keeping the order of the others; but the deleted
path still resolves afterwards, to the twin at address 8. -/
theorem C23_deleted_path_resolves_to_twin :
    ((vfs_init env0 none).bind fun s0 =>
      (vfs_create_file env0 s0 long_path_b 0o644).bind fun r1 =>
        (vfs_create_file env0 r1.1 long_path_c 0o644).map fun r2 => r2.1)
      = some fs_two_long_names ∧
    (fs_two_long_names.node 0).map (fun n => n.children) = some [1, 2, 3, 4, 5, 6, 7, 8] ∧
    vfs_get_node fs_two_long_names ('/' :: name255) = .found 7 ∧
    (vfs_delete env0 fs_two_long_names ('/' :: name255)).map Prod.snd = some 0 ∧
    ((vfs_delete env0 fs_two_long_names ('/' :: name255)).bind fun r =>
      (r.1.node 0).map fun n => n.children) = some [1, 2, 3, 4, 5, 6, 8] ∧
    ((vfs_delete env0 fs_two_long_names ('/' :: name255)).map fun r => r.1.node 7)
      = some none ∧
    ((vfs_delete env0 fs_two_long_names ('/' :: name255)).map fun r =>
      vfs_get_node r.1 ('/' :: name255)) = some (.found 8) := by
  refine ⟨by decide!, by decide!, by decide!, by decide!, by decide!, by decide!, by decide!⟩


/-! ## Resolution as a fold -/

theorem strtok_all_eq_strtok_by (cur l : CStr) :
    strtok_all cur l = strtok_by (fun c => c == '/') cur l := by
  induction l generalizing cur with
  | nil => rfl
  | cons c cs ih =>
    rw [strtok_all, strtok_by]
    by_cases hc : c = '/'
    · subst hc
      simp only [if_true, beq_self_eq_true, ih]
    · rw [if_neg hc, if_neg (by simpa using hc), ih]

/-- The tokens of `split_path` are the components of the specification. -/
theorem strtok_all_eq_spec_components (path : CStr) :
    strtok_all [] path = spec_components path := by
  rw [strtok_all_eq_strtok_by, strtok_by_eq_splitOnP]
  have hid : ((path.splitOnP fun c => c == '/').modifyHead fun t => [] ++ t)
      = path.splitOnP fun c => c == '/' := by
    cases path.splitOnP fun c => c == '/' <;> rfl
  rw [hid]
  rfl

theorem spec_components_slash (path : CStr) :
    spec_components ('/' :: path) = spec_components path := by
  rw [← strtok_all_eq_spec_components, ← strtok_all_eq_spec_components, strtok_all_slash]

/-- Without `..` and while the array has room, `split_loop` appends the tokens
other than `.` to what it has. -/
theorem split_loop_plain_le (toks acc : List CStr) (hdd : ['.', '.'] ∉ toks)
    (hlen : acc.length + toks.length ≤ VFS_MAX_PATH - 1) :
    split_loop toks acc = acc ++ toks.filter (fun t => t != ['.']) := by
  induction toks generalizing acc with
  | nil => simp [split_loop]
  | cons t ts ih =>
    simp only [List.mem_cons, not_or] at hdd
    simp only [List.length_cons] at hlen
    rw [split_loop_cons, if_pos (by omega)]
    by_cases h1 : t ≠ ['.']
    · rw [if_pos h1, if_neg (fun h => hdd.1 h.symm)]
      rw [ih (acc ++ [t]) hdd.2 (by simp; omega)]
      simp [List.filter_cons, h1]
    · rw [if_neg h1, ih acc hdd.2 (by omega)]
      simp [List.filter_cons, not_not.mp h1]

theorem foldl_spec_step_none (s : VFS) (cs : List CStr) :
    cs.foldl (spec_step s) none = none := by
  induction cs with
  | nil => rfl
  | cons c cs ih => simpa [List.foldl_cons, spec_step] using ih

/-- On children that are all live the inner loop of `vfs_get_node` is a search
for the first child with the name. -/
theorem find_child_eq_find (s : VFS) (cs : List Nat) (nm : CStr)
    (h : ∀ c ∈ cs, ∃ cn, s.node c = some cn) :
    find_child s cs nm = Lookup.ofOption (cs.find? (name_is s nm)) := by
  induction cs with
  | nil => rfl
  | cons c cs ih =>
    obtain ⟨cn, hcn⟩ := h c (List.mem_cons_self _ _)
    rw [find_child_cons, List.find?_cons]
    simp only [hcn, name_is]
    by_cases hname : cn.name = nm
    · simp [hname, Lookup.ofOption]
    · simp only [hname, decide_False, if_false]
      exact ih (fun d hd => h d (List.mem_cons_of_mem _ hd))

theorem spec_step_some (s : VFS) (p : Nat) (n : VFSNode) (c : CStr)
    (hp : s.node p = some n) :
    spec_step s (some p) c =
      if n.type = VFSNodeType.VFS_TYPE_DIRECTORY then n.children.find? (name_is s c)
      else none := by
  simp only [spec_step, hp]

/-- From a live node, in a state with well-formed links, the walk of
`vfs_get_node` is the fold of the specification. -/
theorem traverse_eq_fold (s : VFS) (hwf : WF s) (cs : List CStr) (p : Nat) (n : VFSNode)
    (hp : s.node p = some n) :
    traverse s (.found p) cs = Lookup.ofOption (cs.foldl (spec_step s) (some p)) := by
  induction cs generalizing p n with
  | nil => rfl
  | cons c cs ih =>
    have hlive : ∀ d ∈ n.children, ∃ dn, s.node d = some dn := by
      intro d hd
      obtain ⟨dn, h1, _⟩ := (hwf p n hp).2 d hd
      exact ⟨dn, h1⟩
    rw [traverse_cons_found, List.foldl_cons, spec_step_some s p n c hp]
    simp only [hp]
    by_cases ht : n.type = VFSNodeType.VFS_TYPE_DIRECTORY
    · rw [if_neg (by simp [ht]), if_pos ht, find_child_eq_find s _ _ hlive]
      cases hf : n.children.find? (name_is s c) with
      | none =>
        rw [foldl_spec_step_none]
        simp only [Lookup.ofOption]
        rw [traverse_null]
      | some b =>
        obtain ⟨bn, hbn⟩ := hlive b (List.mem_of_find?_eq_some hf)
        simp only [Lookup.ofOption]
        exact ih b bn hbn
    · rw [if_pos ht, if_neg ht, foldl_spec_step_none]
      rfl

/-- C28 (amended): in a state with well-formed links and a live root, for every
absolute path with at most `VFS_MAX_PATH - 2` components none of which is `.` or
`..`, `vfs_get_node` returns what the fold of the specification returns: the
path is split on `/`, empty components are discarded, and the walk goes from the
root by exact-name child lookup, giving `NULL` as soon as a component is absent
or the current node is not a Directory. -/
theorem C28_get_node_is_fold (s : VFS) (path : CStr) (hwf : WF s)
    (hroot : ∀ r, s.vfs_root = some r → ∃ rn, s.node r = some rn)
    (habs : path.head? = some '/')
    (hdot : ∀ t ∈ spec_components path, t ≠ ['.'] ∧ t ≠ ['.', '.'])
    (hcount : (spec_components path).length ≤ VFS_MAX_PATH - 2) :
    vfs_get_node s path = Lookup.ofOption (spec_resolve s path) := by
  have hmax : VFS_MAX_PATH = 1024 := rfl
  cases path with
  | nil => simp at habs
  | cons c rest =>
    simp only [List.head?_cons, Option.some.injEq] at habs
    subst habs
    rw [spec_components_slash] at hdot hcount
    unfold spec_resolve
    rw [spec_components_slash]
    cases hr : s.vfs_root with
    | none =>
      unfold vfs_get_node
      rw [hr, foldl_spec_step_none]
      rfl
    | some r =>
      obtain ⟨rn, hrn⟩ := hroot r hr
      have hsplit : split_path ('/' :: rest) = ['/'] :: spec_components rest := by
        unfold split_path
        rw [if_pos (by simp)]
        simp only [List.drop_succ_cons, List.drop_zero]
        rw [strtok_all_eq_spec_components,
          split_loop_plain_le _ _ (fun hm => (hdot _ hm).2 rfl)
            (by simp only [List.length_singleton]; omega)]
        have hfil : (spec_components rest).filter (fun t => t != ['.'])
            = spec_components rest := by
          rw [List.filter_eq_self]
          intro t ht
          simpa using (hdot t ht).1
        rw [hfil]
        rfl
      rw [vfs_get_node_abs s r _ hr (by simp), hsplit]
      exact traverse_eq_fold s hwf _ r rn hrn


/-- Witness of C28: the path `/home//bob/` in the state after `vfs_init` for the
user `bob`. -/
theorem C28_get_node_is_fold_witness :
    WF fs_home_bob ∧
    spec_components "/home//bob/".toList = ["home".toList, "bob".toList] ∧
    spec_resolve fs_home_bob "/home//bob/".toList = some 7 ∧
    vfs_get_node fs_home_bob "/home//bob/".toList
      = Lookup.ofOption (spec_resolve fs_home_bob "/home//bob/".toList) :=
  have hwf : WF fs_home_bob := WF_of_check (by decide!)
  have hc : spec_components "/home//bob/".toList = ["home".toList, "bob".toList] := by
    decide!
  ⟨hwf, hc, by decide!,
    C28_get_node_is_fold fs_home_bob "/home//bob/".toList hwf
      (fun r hr => by
        have h0 : fs_home_bob.vfs_root = some 0 := by decide!
        rw [h0] at hr
        cases hr
        exact ⟨_, (by decide! : fs_home_bob.node 0 = some { root_node with
          children := [1, 2, 3, 4, 5, 6] })⟩)
      (by decide)
      (by rw [hc]; decide)
      (by rw [hc]; decide)⟩

theorem chain_node (i : Nat) (h : i < 1023) :
    fs_chain.node i = some
      { name := if i = 0 then ['/'] else ['a']
        type := VFSNodeType.VFS_TYPE_DIRECTORY
        created := 100, modified := 100, accessed := 100, permissions := 0o755
        uid := 1000, gid := 1000, size := 0, data := []
        parent := i - 1
        children := if i < 1022 then [i + 1] else [] } := by
  unfold VFS.node fs_chain
  simp only [List.getElem?_map, List.getElem?_range h, Option.map_some', Option.getD_some]

theorem strtok_all_chain (k : Nat) :
    strtok_all ['a'] (chain_path k) = List.replicate (k + 1) ['a'] := by
  induction k with
  | zero => rfl
  | succ k ih =>
    show strtok_all ['a'] ('/' :: 'a' :: chain_path k) = _
    rw [strtok_all, if_pos rfl, if_neg (by simp), strtok_all, if_neg (by decide)]
    simp only [List.nil_append]
    rw [ih]
    rfl

theorem spec_components_chain (k : Nat) :
    spec_components (chain_path k) = List.replicate k ['a'] := by
  rw [← strtok_all_eq_spec_components]
  cases k with
  | zero => rfl
  | succ k =>
    show strtok_all [] ('/' :: 'a' :: chain_path k) = _
    rw [strtok_all_slash, strtok_all, if_neg (by decide)]
    exact strtok_all_chain k

theorem split_path_chain : split_path (chain_path 1023) = ['/'] :: List.replicate 1022 ['a'] := by
  have hmax : VFS_MAX_PATH = 1024 := rfl
  have htok : strtok_all [] ((chain_path 1023).drop 1)
      = List.replicate 1022 ['a'] ++ [['a']] := by
    show strtok_all [] ('a' :: chain_path 1022) = _
    rw [strtok_all, if_neg (by decide)]
    simp only [List.nil_append]
    rw [strtok_all_chain, List.replicate_succ']
  have hfil : (List.replicate 1022 ['a']).filter (fun t => t != ['.'])
      = List.replicate 1022 ['a'] := by
    rw [List.filter_eq_self]
    intro t ht
    rw [(List.mem_replicate.mp ht).2]
    decide
  have hin : split_loop (List.replicate 1022 ['a']) [['/']]
      = ['/'] :: List.replicate 1022 ['a'] := by
    rw [split_loop_plain_le (List.replicate 1022 ['a']) [['/']] (by
        intro hm
        exact absurd (List.mem_replicate.mp hm).2 (by decide)) (by
        simp only [List.length_singleton, List.length_replicate]; omega), hfil]
    rfl
  unfold split_path
  rw [if_pos (show (chain_path 1023).head? = some '/' from rfl), htok, split_loop_append,
    hin, split_loop_full _ _ (by
      simp only [List.length_cons, List.length_replicate]; omega)]

theorem traverse_chain (k i : Nat) (h : i + k ≤ 1022) :
    traverse fs_chain (.found i) (List.replicate k ['a']) = .found (i + k) := by
  induction k generalizing i with
  | zero => rfl
  | succ k ih =>
    rw [List.replicate_succ, traverse_step _ (chain_node i (by omega)) rfl
      (b := .found (i + 1)) (by
        simp only []
        rw [if_pos (by omega), find_child_cons, chain_node (i + 1) (by omega)]
        simp)]
    rw [ih (i + 1) (by omega), show i + 1 + k = i + (k + 1) by omega]

theorem fold_chain (k i : Nat) (h : i + k ≤ 1022) :
    (List.replicate k ['a']).foldl (spec_step fs_chain) (some i) = some (i + k) := by
  induction k generalizing i with
  | zero => rfl
  | succ k ih =>
    rw [List.replicate_succ, List.foldl_cons,
      spec_step_some _ _ _ _ (chain_node i (by omega))]
    simp only [if_true]
    rw [if_pos (show i < 1022 by omega)]
    have hn : name_is fs_chain ['a'] (i + 1) = true := by
      unfold name_is
      rw [chain_node (i + 1) (by omega)]
      simp
    rw [List.find?_cons, hn]
    simp only []
    rw [ih (i + 1) (by omega), show i + 1 + k = i + (k + 1) by omega]

theorem WF_chain : WF fs_chain := by
  intro p n hp
  have hlt : p < 1023 := by
    have h1 := lt_length_of_node hp
    have h2 : fs_chain.heap.length = 1023 := by
      unfold fs_chain
      simp only [List.length_map, List.length_range]
    omega
  rw [chain_node p hlt] at hp
  cases hp
  simp only []
  by_cases h : p < 1022
  · rw [if_pos h]
    refine ⟨by simp, fun c hc => ?_⟩
    have hc2 : c = p + 1 := by simpa using hc
    subst hc2
    exact ⟨_, chain_node (p + 1) (by omega), by simp⟩
  · rw [if_neg h]
    exact ⟨List.nodup_nil, fun c hc => by simp at hc⟩

/-- C28 as stated fails for a path of more than `VFS_MAX_PATH - 2` components.
In `fs_chain`, 1022 directories named `a` nested below the root, the path
`/a/a/.../a` of 1023 components has no node in the fold of the specification
(the innermost directory has no child); `split_path` stops storing components
when 1023 are stored, the leading `/` among them, so `vfs_get_node` walks 1022
components and returns the innermost directory, at address 1022. -/
theorem C28_counterexample :
    WF fs_chain ∧
    (chain_path 1023).head? = some '/' ∧
    spec_components (chain_path 1023) = List.replicate 1023 ['a'] ∧
    fs_chain.vfs_root = some 0 ∧
    spec_resolve fs_chain (chain_path 1023) = none ∧
    vfs_get_node fs_chain (chain_path 1023) = .found 1022 := by
  refine ⟨WF_chain, rfl, spec_components_chain 1023, rfl, ?_, ?_⟩
  · unfold spec_resolve
    rw [spec_components_chain, List.replicate_succ', List.foldl_append]
    have h0 : fs_chain.vfs_root = some 0 := rfl
    rw [h0, fold_chain 1022 0 (by omega)]
    simp only [List.foldl_cons, List.foldl_nil, Nat.zero_add]
    rw [spec_step_some _ _ _ _ (chain_node 1022 (by omega))]
    simp
  · rw [vfs_get_node_abs fs_chain 0 (chain_path 1023) rfl rfl, split_path_chain]
    simp only [List.tail_cons]
    rw [traverse_chain 1022 0 (by omega)]


/-! ## Invariants of the reachable states -/

/-- States with the same root and the same links at every address share
well-formedness and the state of the root. -/
theorem WF_of_links {s t : VFS} (h : ∀ q, (t.node q).map links = (s.node q).map links)
    (hwf : WF s) : WF t := by
  have key : ∀ q m, t.node q = some m →
      ∃ n, s.node q = some n ∧ n.parent = m.parent ∧ n.children = m.children := by
    intro q m hq
    have := h q
    rw [hq] at this
    cases hs : s.node q with
    | none => rw [hs] at this; simp at this
    | some n =>
      rw [hs] at this
      simp only [Option.map_some', Option.some.injEq, links, Prod.mk.injEq] at this
      exact ⟨n, rfl, this.1.symm, this.2.symm⟩
  have key2 : ∀ q n, s.node q = some n →
      ∃ m, t.node q = some m ∧ m.parent = n.parent ∧ m.children = n.children := by
    intro q n hq
    have := h q
    rw [hq] at this
    cases ht : t.node q with
    | none => rw [ht] at this; simp at this
    | some m =>
      rw [ht] at this
      simp only [Option.map_some', Option.some.injEq, links, Prod.mk.injEq] at this
      exact ⟨m, rfl, this.1, this.2⟩
  intro p m hp
  obtain ⟨n, hn, _, hch⟩ := key p m hp
  obtain ⟨hnd, hk⟩ := hwf p n hn
  rw [← hch]
  refine ⟨hnd, fun c hc => ?_⟩
  obtain ⟨cn, hcn, hcp⟩ := hk c hc
  obtain ⟨cm, hcm, hcmp, _⟩ := key2 c cn hcn
  exact ⟨cm, hcm, by rw [hcmp, hcp]⟩

theorem RootOK_of_links {s t : VFS} (hroot : t.vfs_root = s.vfs_root)
    (h : ∀ q, (t.node q).map links = (s.node q).map links) (hok : RootOK s) : RootOK t := by
  obtain ⟨r, rn, hr, hrn, hp, hc⟩ := hok
  have := h r
  rw [hrn] at this
  cases ht : t.node r with
  | none => rw [ht] at this; simp at this
  | some m =>
    rw [ht] at this
    simp only [Option.map_some', Option.some.injEq, links, Prod.mk.injEq] at this
    exact ⟨r, m, by rw [hroot, hr], ht, by rw [this.1, hp], by rw [this.2]; exact hc⟩

theorem links_setNode {s : VFS} {f : Nat} {file : VFSNode} (n : VFSNode)
    (hf : s.node f = some file) (hl : links n = links file) :
    ∀ q, ((s.setNode f n).node q).map links = (s.node q).map links := by
  intro q
  by_cases hq : q = f
  · subst hq
    rw [node_setNode_self n hf, hf]
    simp [hl]
  · rw [node_setNode_ne s n hq]

/-- A state with well-formed links and a sound root lists the root nowhere. -/
theorem root_not_listed {s : VFS} (hwf : WF s) {r : Nat} {rn : VFSNode}
    (hrn : s.node r = some rn) (hp : rn.parent = r) (hc : r ∉ rn.children)
    {q : Nat} {n : VFSNode} (hq : s.node q = some n) : r ∉ n.children := by
  intro hm
  obtain ⟨cn, hcn, hcp⟩ := (hwf q n hq).2 r hm
  rw [hrn] at hcn
  cases hcn
  rw [hp] at hcp
  subst hcp
  rw [hrn] at hq
  cases hq
  exact hc hm

/-- The outcomes of `vfs_write` and `vfs_read`: nothing changes, or one node is
stored again with its links. -/
theorem vfs_write_links {e : Env} {s s1 : VFS} {path : CStr} {buffer : List Nat}
    {size : Nat} {offset : Int} {r : Int}
    (h : vfs_write e s path buffer size offset = some (s1, r)) :
    s1.vfs_root = s.vfs_root ∧ ∀ q, (s1.node q).map links = (s.node q).map links := by
  unfold vfs_write at h
  cases hr : s.vfs_root with
  | none => rw [hr] at h; cases h; exact ⟨hr, fun _ => rfl⟩
  | some r0 =>
    rw [hr] at h
    simp only [] at h
    cases hg : vfs_get_node s path with
    | undefined => rw [hg] at h; cases h
    | null => rw [hg] at h; cases h; exact ⟨hr, fun _ => rfl⟩
    | found f =>
      rw [hg] at h
      simp only [] at h
      cases hn : s.node f with
      | none => rw [hn] at h; cases h
      | some file =>
        rw [hn] at h
        simp only [] at h
        repeat' split at h
        all_goals first
          | (cases h; exact ⟨hr, fun _ => rfl⟩)
          | (cases h; exact ⟨hr, links_setNode _ hn rfl⟩)
          | cases h

theorem vfs_read_links {e : Env} {s s1 : VFS} {path : CStr} {size : Nat}
    {offset : Int} {r : Int × List Nat}
    (h : vfs_read e s path size offset = some (s1, r)) :
    s1.vfs_root = s.vfs_root ∧ ∀ q, (s1.node q).map links = (s.node q).map links := by
  unfold vfs_read at h
  cases hr : s.vfs_root with
  | none => rw [hr] at h; cases h; exact ⟨hr, fun _ => rfl⟩
  | some r0 =>
    rw [hr] at h
    simp only [] at h
    cases hg : vfs_get_node s path with
    | undefined => rw [hg] at h; cases h
    | null => rw [hg] at h; cases h; exact ⟨hr, fun _ => rfl⟩
    | found f =>
      rw [hg] at h
      simp only [] at h
      cases hn : s.node f with
      | none => rw [hn] at h; cases h
      | some file =>
        rw [hn] at h
        simp only [] at h
        repeat' split at h
        all_goals first
          | (cases h; exact ⟨hr, fun _ => rfl⟩)
          | (cases h; exact ⟨hr, links_setNode _ hn rfl⟩)
          | cases h


/-- The outcomes of `vfs_delete`: nothing changes, or a node listed by its parent
is taken from that list and freed. -/
theorem vfs_delete_success {e : Env} {s s1 : VFS} {path : CStr} {r : Int}
    (h : vfs_delete e s path = some (s1, r)) :
    s1 = s ∨ ∃ x n pn, vfs_get_node s path = .found x ∧ s.node x = some n ∧
      s.node n.parent = some pn ∧ x ∈ pn.children ∧ r = 0 ∧
      s1 = (s.setNode n.parent
        { pn with children := pn.children.erase x, modified := e.now }).free x := by
  unfold vfs_delete at h
  cases hr : s.vfs_root with
  | none => rw [hr] at h; cases h; left; rfl
  | some r0 =>
    rw [hr] at h
    simp only [] at h
    split at h
    · cases h; left; rfl
    · cases hg : vfs_get_node s path with
      | undefined => rw [hg] at h; cases h
      | null => rw [hg] at h; cases h; left; rfl
      | found x =>
        rw [hg] at h
        simp only [] at h
        cases hn : s.node x with
        | none => rw [hn] at h; cases h
        | some n =>
          rw [hn] at h
          simp only [] at h
          split at h
          · cases h; left; rfl
          · cases hp : s.node n.parent with
            | none => rw [hp] at h; cases h
            | some pn =>
              rw [hp] at h
              simp only [] at h
              split at h
              · rename_i hmem
                cases h
                right
                exact ⟨x, n, pn, rfl, hn, hp, hmem, rfl, rfl⟩
              · cases h; left; rfl

/-- The nodes after a deletion. -/
theorem delete_node {s : VFS} {x : Nat} {n pn : VFSNode} (now : Nat)
    (hp : s.node n.parent = some pn) (q : Nat) :
    ((s.setNode n.parent
        { pn with children := pn.children.erase x, modified := now }).free x).node q =
      if q = x then none
      else if q = n.parent then
        some { pn with children := pn.children.erase x, modified := now }
      else s.node q := by
  rw [node_free]
  by_cases hq : q = x
  · rw [if_pos hq, if_pos hq]
  · rw [if_neg hq, if_neg hq]
    by_cases hq2 : q = n.parent
    · rw [if_pos hq2, hq2, node_setNode_self _ hp]
    · rw [if_neg hq2, node_setNode_ne _ _ hq2]

/-- In a state with well-formed links a node is listed by its parent only. -/
theorem listed_only_by_parent {s : VFS} (hwf : WF s) {x q : Nat} {xn n : VFSNode}
    (hx : s.node x = some xn) (hq : s.node q = some n) (hm : x ∈ n.children) :
    q = xn.parent := by
  obtain ⟨cn, hcn, hcp⟩ := (hwf q n hq).2 x hm
  rw [hx] at hcn
  cases hcn
  exact hcp.symm

theorem WF_delete {s : VFS} (hwf : WF s) {x : Nat} {n pn : VFSNode} (now : Nat)
    (hx : s.node x = some n) (hp : s.node n.parent = some pn) :
    WF ((s.setNode n.parent
      { pn with children := pn.children.erase x, modified := now }).free x) := by
  intro q m hq
  rw [delete_node now hp] at hq
  by_cases hqx : q = x
  · rw [if_pos hqx] at hq; cases hq
  · rw [if_neg hqx] at hq
    -- the children of `q` before, and that `x` is not among those left
    have hold : ∃ n0, s.node q = some n0 ∧ m.parent = n0.parent ∧
        (∀ c ∈ m.children, c ∈ n0.children) ∧ m.children.Nodup ∧ x ∉ m.children := by
      by_cases hq2 : q = n.parent
      · rw [if_pos hq2] at hq
        cases hq
        have hnd := (hwf _ pn hp).1
        refine ⟨pn, by rw [hq2]; exact hp, rfl, fun c hc => List.mem_of_mem_erase hc,
          hnd.erase x, ?_⟩
        intro hm
        exact ((List.Nodup.mem_erase_iff hnd).mp hm).1 rfl
      · rw [if_neg hq2] at hq
        refine ⟨m, hq, rfl, fun c hc => hc, (hwf q m hq).1, ?_⟩
        intro hm
        exact hq2 (listed_only_by_parent hwf hx hq hm)
    obtain ⟨n0, hn0, _, hsub, hnd, hxm⟩ := hold
    refine ⟨hnd, fun c hc => ?_⟩
    obtain ⟨cn, hcn, hcp⟩ := (hwf q n0 hn0).2 c (hsub c hc)
    have hcx : c ≠ x := fun h0 => hxm (h0 ▸ hc)
    rw [delete_node now hp, if_neg hcx]
    by_cases hc2 : c = n.parent
    · rw [if_pos hc2]
      rw [hc2, hp] at hcn
      cases hcn
      exact ⟨_, rfl, hcp⟩
    · rw [if_neg hc2]
      exact ⟨cn, hcn, hcp⟩

theorem RootOK_delete {s : VFS} (hwf : WF s) (hok : RootOK s) {x : Nat} {n pn : VFSNode}
    (now : Nat) (hx : s.node x = some n) (hp : s.node n.parent = some pn)
    (hmem : x ∈ pn.children) :
    RootOK ((s.setNode n.parent
      { pn with children := pn.children.erase x, modified := now }).free x) := by
  obtain ⟨r, rn, hr, hrn, hrp, hrc⟩ := hok
  have hrx : r ≠ x := by
    intro h0
    subst h0
    exact root_not_listed hwf hrn hrp hrc hp hmem
  by_cases hr2 : r = n.parent
  · have : pn = rn := by
      rw [← hr2, hrn] at hp
      cases hp; rfl
    subst this
    refine ⟨r, { pn with children := pn.children.erase x, modified := now }, hr, ?_, hrp,
      fun hm => hrc (List.mem_of_mem_erase hm)⟩
    rw [delete_node now hp, if_neg hrx, if_pos hr2]
  · refine ⟨r, rn, hr, ?_, hrp, hrc⟩
    rw [delete_node now hp, if_neg hrx, if_neg hr2]
    exact hrn


/-- The outcomes of `vfs_rename`: nothing changes, or a node listed by its parent
is taken from that list and linked below the target parent. -/
theorem vfs_rename_success {e : Env} {s s1 : VFS} {old_path new_path : CStr} {r : Int}
    (h : vfs_rename e s old_path new_path = some (s1, r)) :
    s1 = s ∨ ∃ x xn spn tp tpn, vfs_get_node s old_path = .found x ∧
      s.node x = some xn ∧ s.node xn.parent = some spn ∧ x ∈ spn.children ∧
      s.node tp = some tpn ∧
      rename_link e
        (s.setNode xn.parent
          { spn with children := spn.children.erase x, modified := e.now })
        x tp (vfs_get_filename new_path) = some (s1, r) := by
  unfold vfs_rename at h
  cases hr : s.vfs_root with
  | none => rw [hr] at h; cases h; left; rfl
  | some r0 =>
    rw [hr] at h
    simp only [] at h
    cases hg : vfs_get_node s old_path with
    | undefined => rw [hg] at h; cases h
    | null => rw [hg] at h; cases h; left; rfl
    | found x =>
      rw [hg] at h
      simp only [] at h
      cases hp : vfs_get_parent s new_path with
      | undefined => rw [hp] at h; cases h
      | null => rw [hp] at h; cases h; left; rfl
      | found tp =>
        rw [hp] at h
        simp only [] at h
        cases htp : s.node tp with
        | none => rw [htp] at h; cases h
        | some tpn =>
          rw [htp] at h
          simp only [] at h
          split at h
          · cases h; left; rfl
          · split at h
            · cases h; left; rfl
            · cases hf : find_child s tpn.children (vfs_get_filename new_path) with
              | undefined => rw [hf] at h; cases h
              | found c => rw [hf] at h; cases h; left; rfl
              | null =>
                rw [hf] at h
                simp only [] at h
                split at h
                · cases h; left; rfl
                · cases hx : s.node x with
                  | none => rw [hx] at h; cases h
                  | some xn =>
                    rw [hx] at h
                    simp only [] at h
                    cases hsp : s.node xn.parent with
                    | none => rw [hsp] at h; cases h
                    | some spn =>
                      rw [hsp] at h
                      simp only [] at h
                      split at h
                      · rename_i hmem
                        right
                        exact ⟨x, xn, spn, tp, tpn, rfl, hx, hsp, hmem, htp, h⟩
                      · cases h; left; rfl

/-- The nodes after the stores of a rename: the source leaves the children of its
old parent, is appended to those of the target parent, and has the target parent
as parent; no other link changes and no node appears or disappears. -/
theorem rename_link_node {e : Env} {s s3 : VFS} {x sp tp : Nat} {nm : CStr} {r : Int}
    {xn spn tpn : VFSNode} (hx : s.node x = some xn) (hsp : s.node sp = some spn)
    (htp : s.node tp = some tpn)
    (h : rename_link e
      (s.setNode sp { spn with children := spn.children.erase x, modified := e.now })
      x tp nm = some (s3, r)) :
    s3.vfs_root = s.vfs_root ∧ s3.vfs_current_directory = s.vfs_current_directory ∧
    ∀ q, (s.node q = none → s3.node q = none) ∧
      ∀ n, s.node q = some n → ∃ m, s3.node q = some m ∧
        m.children = (if q = sp then n.children.erase x else n.children) ++
          (if q = tp then [x] else []) ∧
        m.parent = (if q = x then tp else n.parent) := by
  obtain ⟨S1, hS1⟩ : ∃ S1, S1 = s.setNode sp
      { spn with children := spn.children.erase x, modified := e.now } := ⟨_, rfl⟩
  rw [← hS1] at h
  have hS1node : ∀ q, S1.node q =
      if q = sp then some { spn with children := spn.children.erase x, modified := e.now }
      else s.node q := by
    intro q
    rw [hS1]
    by_cases hq : q = sp
    · rw [if_pos hq, hq]; exact node_setNode_self _ hsp
    · rw [if_neg hq]; exact node_setNode_ne _ _ hq
  unfold rename_link at h
  cases h1 : S1.node x with
  | none => rw [h1] at h; cases h
  | some n1 =>
    rw [h1] at h
    simp only [] at h
    obtain ⟨S2, hS2⟩ : ∃ S2, S2 = S1.setNode x
        { n1 with name := nm.take (VFS_MAX_FILENAME - 1), parent := tp,
                  modified := e.now } := ⟨_, rfl⟩
    rw [← hS2] at h
    have hS2node : ∀ q, S2.node q =
        if q = x then some { n1 with name := nm.take (VFS_MAX_FILENAME - 1), parent := tp,
                                     modified := e.now }
        else S1.node q := by
      intro q
      rw [hS2]
      by_cases hq : q = x
      · rw [if_pos hq, hq]; exact node_setNode_self _ h1
      · rw [if_neg hq]; exact node_setNode_ne _ _ hq
    cases h2 : S2.node tp with
    | none => rw [h2] at h; cases h
    | some n2 =>
      rw [h2] at h
      simp only [Option.some.injEq, Prod.mk.injEq] at h
      obtain ⟨h3, _⟩ := h
      have hS3node : ∀ q, s3.node q =
          if q = tp then some { n2 with children := n2.children ++ [x], modified := e.now }
          else S2.node q := by
        intro q
        rw [← h3]
        by_cases hq : q = tp
        · rw [if_pos hq, hq]; exact node_setNode_self _ h2
        · rw [if_neg hq]; exact node_setNode_ne _ _ hq
      -- the links of the source and of the target parent before the last store
      have hn1 : n1.children = (if x = sp then xn.children.erase x else xn.children) ∧
          n1.parent = xn.parent := by
        rw [hS1node] at h1
        by_cases hq : x = sp
        · rw [if_pos hq] at h1
          rw [if_pos hq]
          rw [hq, hsp] at hx
          cases hx
          cases h1
          exact ⟨rfl, rfl⟩
        · rw [if_neg hq, hx] at h1
          rw [if_neg hq]
          cases h1
          exact ⟨rfl, rfl⟩
      have hn2 : n2.children = (if tp = sp then tpn.children.erase x else tpn.children) ∧
          n2.parent = (if tp = x then tp else tpn.parent) := by
        rw [hS2node] at h2
        by_cases hq : tp = x
        · rw [if_pos hq] at h2
          rw [if_pos hq]
          cases h2
          rw [hq, hx] at htp
          cases htp
          refine ⟨?_, rfl⟩
          show n1.children = _
          rw [hn1.1, hq]
        · rw [if_neg hq, hS1node] at h2
          rw [if_neg hq]
          by_cases hq2 : tp = sp
          · rw [if_pos hq2] at h2
            rw [if_pos hq2]
            rw [hq2, hsp] at htp
            cases htp
            cases h2
            exact ⟨rfl, rfl⟩
          · rw [if_neg hq2, htp] at h2
            rw [if_neg hq2]
            cases h2
            exact ⟨rfl, rfl⟩
      refine ⟨by rw [← h3, hS2, hS1]; rfl, by rw [← h3, hS2, hS1]; rfl, fun q => ⟨?_, ?_⟩⟩
      · intro hq
        have hqtp : q ≠ tp := fun h0 => by rw [h0, htp] at hq; cases hq
        have hqx : q ≠ x := fun h0 => by rw [h0, hx] at hq; cases hq
        have hqsp : q ≠ sp := fun h0 => by rw [h0, hsp] at hq; cases hq
        rw [hS3node, if_neg hqtp, hS2node, if_neg hqx, hS1node, if_neg hqsp]
        exact hq
      · intro n hn
        rw [hS3node]
        by_cases hqtp : q = tp
        · rw [if_pos hqtp]
          rw [hqtp, htp] at hn
          cases hn
          refine ⟨_, rfl, ?_, ?_⟩
          · simp only []
            rw [hn2.1, hqtp, if_pos rfl]
          · simp only []
            rw [hn2.2, hqtp]
        · rw [if_neg hqtp, hS2node]
          by_cases hqx : q = x
          · rw [if_pos hqx]
            rw [hqx, hx] at hn
            cases hn
            refine ⟨_, rfl, ?_, ?_⟩
            · simp only []
              rw [hn1.1, hqx, if_neg (fun h0 => hqtp (hqx.trans h0))]
              simp
            · simp only []
              rw [if_pos hqx]
          · rw [if_neg hqx, hS1node]
            by_cases hqsp : q = sp
            · rw [if_pos hqsp]
              rw [hqsp, hsp] at hn
              cases hn
              refine ⟨_, rfl, ?_, ?_⟩
              · simp only []
                rw [if_pos hqsp, if_neg hqtp]
                simp
              · simp only []
                rw [if_neg hqx]
            · rw [if_neg hqsp]
              refine ⟨n, hn, ?_, ?_⟩
              · rw [if_neg hqsp, if_neg hqtp]; simp
              · rw [if_neg hqx]


theorem WF_rename {e : Env} {s s3 : VFS} {x tp : Nat} {nm : CStr} {r : Int}
    {xn spn tpn : VFSNode} (hwf : WF s) (hx : s.node x = some xn)
    (hsp : s.node xn.parent = some spn) (htp : s.node tp = some tpn)
    (h : rename_link e
      (s.setNode xn.parent { spn with children := spn.children.erase x, modified := e.now })
      x tp nm = some (s3, r)) : WF s3 := by
  obtain ⟨_, _, hdesc⟩ := rename_link_node hx hsp htp h
  -- the source is in no list once it is taken from its parent
  have hgone : ∀ q n, s.node q = some n →
      x ∉ (if q = xn.parent then n.children.erase x else n.children) := by
    intro q n hq hm
    by_cases hq2 : q = xn.parent
    · rw [if_pos hq2] at hm
      exact ((List.Nodup.mem_erase_iff (hwf q n hq).1).mp hm).1 rfl
    · rw [if_neg hq2] at hm
      exact hq2 (listed_only_by_parent hwf hx hq hm)
  intro q m hq
  cases hsq : s.node q with
  | none => rw [(hdesc q).1 hsq] at hq; cases hq
  | some n =>
    obtain ⟨m0, hm0, hch, _⟩ := (hdesc q).2 n hsq
    rw [hm0] at hq
    cases hq
    have hnd : (if q = xn.parent then n.children.erase x else n.children).Nodup := by
      split
      · exact (hwf q n hsq).1.erase x
      · exact (hwf q n hsq).1
    rw [hch]
    refine ⟨?_, fun c hc => ?_⟩
    · rw [List.nodup_append]
      refine ⟨hnd, by split <;> simp, ?_⟩
      intro c hc hc2
      split at hc2
      · simp only [List.mem_singleton] at hc2
        subst hc2
        exact hgone q n hsq hc
      · simp at hc2
    · rcases List.mem_append.mp hc with hc | hc
      · have hcx : c ≠ x := fun h0 => hgone q n hsq (h0 ▸ hc)
        have hcn : c ∈ n.children := by
          split at hc
          · exact List.mem_of_mem_erase hc
          · exact hc
        obtain ⟨cn, hcn1, hcp⟩ := (hwf q n hsq).2 c hcn
        obtain ⟨cm, hcm, _, hcmp⟩ := (hdesc c).2 cn hcn1
        rw [if_neg hcx] at hcmp
        exact ⟨cm, hcm, by rw [hcmp, hcp]⟩
      · split at hc
        · rename_i hqtp
          simp only [List.mem_singleton] at hc
          subst hc
          obtain ⟨cm, hcm, _, hcmp⟩ := (hdesc c).2 xn hx
          rw [if_pos rfl] at hcmp
          exact ⟨cm, hcm, by rw [hcmp, hqtp]⟩
        · simp at hc

theorem RootOK_rename {e : Env} {s s3 : VFS} {x tp : Nat} {nm : CStr} {r : Int}
    {xn spn tpn : VFSNode} (hwf : WF s) (hok : RootOK s) (hx : s.node x = some xn)
    (hsp : s.node xn.parent = some spn) (hmem : x ∈ spn.children)
    (htp : s.node tp = some tpn)
    (h : rename_link e
      (s.setNode xn.parent { spn with children := spn.children.erase x, modified := e.now })
      x tp nm = some (s3, r)) : RootOK s3 := by
  obtain ⟨hroot, _, hdesc⟩ := rename_link_node hx hsp htp h
  obtain ⟨r0, rn, hr, hrn, hrp, hrc⟩ := hok
  have hrx : r0 ≠ x := by
    intro h0
    subst h0
    exact root_not_listed hwf hrn hrp hrc hsp hmem
  obtain ⟨m, hm, hch, hpar⟩ := (hdesc r0).2 rn hrn
  rw [if_neg hrx] at hpar
  refine ⟨r0, m, by rw [hroot, hr], hm, by rw [hpar, hrp], ?_⟩
  rw [hch]
  intro hin
  rcases List.mem_append.mp hin with hc | hc
  · split at hc
    · exact hrc (List.mem_of_mem_erase hc)
    · exact hrc hc
  · split at hc
    · simp only [List.mem_singleton] at hc
      exact hrx hc
    · simp at hc

/-- The nodes after a successful create. -/
theorem create_node_desc {e : Env} {s s1 : VFS} {path : CStr} {mode : Nat}
    {type : VFSNodeType} {size : Nat} {data : List Nat} {f : Nat}
    (h : vfs_create_node e s path mode type size data = some (s1, some f)) :
    ∃ parent pn, s.node parent = some pn ∧ f = s.heap.length ∧
      s1.vfs_root = s.vfs_root ∧
      ∀ p, s1.node p =
        if p = parent then some { pn with children := pn.children ++ [f], modified := e.now }
        else if p = f then
          some (new_node e parent (vfs_get_filename path) mode type size data)
        else s.node p := by
  obtain ⟨r, parent, pn, _, _, hn, _, _, _, _, hfe, hs1⟩ := vfs_create_node_success h
  have hplt := lt_length_of_node hn
  refine ⟨parent, pn, hn, hfe, by rw [hs1]; rfl, fun p => ?_⟩
  have hpar : (s.alloc (new_node e parent (vfs_get_filename path) mode type size
      data)).1.node parent = some pn := by
    rw [node_alloc, if_neg (show ¬ parent = s.heap.length by omega)]; exact hn
  by_cases hp : p = parent
  · rw [if_pos hp, hs1, hp]; exact node_setNode_self _ hpar
  · rw [if_neg hp, hs1, node_setNode_ne _ _ hp, node_alloc, hfe]

theorem RootOK_create {e : Env} {s s1 : VFS} {path : CStr} {mode : Nat}
    {type : VFSNodeType} {size : Nat} {data : List Nat} {res : Option Nat}
    (hok : RootOK s)
    (h : vfs_create_node e s path mode type size data = some (s1, res)) : RootOK s1 := by
  rcases vfs_create_node_cases e s s1 path mode type size data res h with h0 | ⟨f, h0⟩
  · rw [h0]; exact hok
  · obtain ⟨parent, pn, hn, hfe, hroot, hnode⟩ := create_node_desc h0
    obtain ⟨r, rn, hr, hrn, hrp, hrc⟩ := hok
    have hrlt := lt_length_of_node hrn
    by_cases hrpar : r = parent
    · have : pn = rn := by
        rw [← hrpar, hrn] at hn
        cases hn; rfl
      subst this
      refine ⟨r, { pn with children := pn.children ++ [f], modified := e.now },
        by rw [hroot, hr], by rw [hnode, if_pos hrpar], hrp, ?_⟩
      intro hin
      rcases List.mem_append.mp hin with hc | hc
      · exact hrc hc
      · simp only [List.mem_singleton] at hc
        omega
    · refine ⟨r, rn, by rw [hroot, hr], ?_, hrp, hrc⟩
      rw [hnode, if_neg hrpar, if_neg (show ¬ r = f by omega)]
      exact hrn


/-- The two invariants together. -/
theorem inv_create {e : Env} {s s1 : VFS} {path : CStr} {mode : Nat} {type : VFSNodeType}
    {size : Nat} {data : List Nat} {r : VFS × Option Nat} (h0 : WF s ∧ RootOK s)
    (h : vfs_create_node e s path mode type size data = some r) (hs1 : s1 = r.1) :
    WF s1 ∧ RootOK s1 := by
  have h2 : vfs_create_node e s path mode type size data = some (r.1, r.2) := by rw [h]
  rw [hs1]
  exact ⟨WF_create h0.1 h2, RootOK_create h0.2 h2⟩

theorem inv_cwd {s : VFS} (h : WF s ∧ RootOK s) (c : CStr) :
    WF { s with vfs_current_directory := c } ∧
      RootOK { s with vfs_current_directory := c } :=
  ⟨fun p n hp => h.1 p n hp, h.2⟩

theorem inv_init {e : Env} {pw : Option CStr} {s : VFS} (h : vfs_init e pw = some s) :
    WF s ∧ RootOK s := by
  unfold vfs_init at h
  simp only [Option.bind_eq_some] at h
  obtain ⟨r1, h1, r2, h2, r3, h3, r4, h4, r5, h5, r6, h6, h7⟩ := h
  have hnode0 : ∀ p n, VFS.node ({ (vfs_initial.alloc
        { name := ['/']
          type := VFSNodeType.VFS_TYPE_DIRECTORY
          created := e.now
          modified := e.now
          accessed := e.now
          permissions := 0o755
          uid := e.uid
          gid := e.gid
          size := 0
          data := []
          parent := vfs_initial.heap.length
          children := [] }).1 with vfs_root := some vfs_initial.heap.length }) p = some n →
      p = 0 ∧ n.children = [] ∧ n.parent = 0 := by
    intro p n hp
    have : p = 0 ∨ 0 < p := by omega
    rcases this with h0 | h0
    · subst h0
      simp [VFS.node, VFS.alloc, vfs_initial] at hp
      rw [← hp]; simp
    · have : p = (p - 1) + 1 := by omega
      rw [this] at hp
      simp [VFS.node, VFS.alloc, vfs_initial] at hp
  have b0 : WF ({ (vfs_initial.alloc
        { name := ['/']
          type := VFSNodeType.VFS_TYPE_DIRECTORY
          created := e.now
          modified := e.now
          accessed := e.now
          permissions := 0o755
          uid := e.uid
          gid := e.gid
          size := 0
          data := []
          parent := vfs_initial.heap.length
          children := [] }).1 with vfs_root := some vfs_initial.heap.length }) ∧
      RootOK ({ (vfs_initial.alloc
        { name := ['/']
          type := VFSNodeType.VFS_TYPE_DIRECTORY
          created := e.now
          modified := e.now
          accessed := e.now
          permissions := 0o755
          uid := e.uid
          gid := e.gid
          size := 0
          data := []
          parent := vfs_initial.heap.length
          children := [] }).1 with vfs_root := some vfs_initial.heap.length }) := by
    constructor
    · intro p n hp
      obtain ⟨_, hc, _⟩ := hnode0 p n hp
      rw [hc]
      exact ⟨List.nodup_nil, fun c hc => by simp at hc⟩
    · exact ⟨0, _, rfl, rfl, rfl, by simp⟩
  unfold vfs_create_directory at h1 h2 h3 h4 h5 h6
  have b1 := inv_create b0 h1 rfl
  have b2 := inv_create b1 h2 rfl
  have b3 := inv_create b2 h3 rfl
  have b4 := inv_create b3 h4 rfl
  have b5 := inv_create b4 h5 rfl
  have b6 := inv_create b5 h6 rfl
  cases pw with
  | none =>
    simp only [Option.some.injEq] at h7
    rw [← h7]; exact b6
  | some pw_name =>
    simp only [Option.bind_eq_some, Option.some.injEq] at h7
    obtain ⟨r7, h8, h9⟩ := h7
    unfold vfs_create_directory at h8
    rw [← h9]
    exact inv_cwd (inv_create b6 h8 rfl) _

theorem inv_run {e : Env} {c : Call} {s t : VFS} (h0 : WF s ∧ RootOK s)
    (h : c.run e s = some t) : WF t ∧ RootOK t := by
  cases c with
  | create_file path mode =>
    simp only [Call.run, Option.map_eq_some'] at h
    obtain ⟨r, hr, ht⟩ := h
    unfold vfs_create_file at hr
    exact inv_create h0 hr ht.symm
  | create_directory path mode =>
    simp only [Call.run, Option.map_eq_some'] at h
    obtain ⟨r, hr, ht⟩ := h
    unfold vfs_create_directory at hr
    exact inv_create h0 hr ht.symm
  | create_symlink path target mode =>
    simp only [Call.run, Option.map_eq_some'] at h
    obtain ⟨r, hr, ht⟩ := h
    unfold vfs_create_symlink at hr
    exact inv_create h0 hr ht.symm
  | write path buffer size offset =>
    simp only [Call.run, Option.map_eq_some'] at h
    obtain ⟨r, hr, ht⟩ := h
    have h2 : vfs_write e s path buffer size offset = some (r.1, r.2) := by rw [hr]
    obtain ⟨hroot, hl⟩ := vfs_write_links h2
    rw [← ht]
    exact ⟨WF_of_links hl h0.1, RootOK_of_links hroot hl h0.2⟩
  | read path size offset =>
    simp only [Call.run, Option.map_eq_some'] at h
    obtain ⟨r, hr, ht⟩ := h
    have h2 : vfs_read e s path size offset = some (r.1, r.2) := by rw [hr]
    obtain ⟨hroot, hl⟩ := vfs_read_links h2
    rw [← ht]
    exact ⟨WF_of_links hl h0.1, RootOK_of_links hroot hl h0.2⟩
  | delete path =>
    simp only [Call.run, Option.map_eq_some'] at h
    obtain ⟨r, hr, ht⟩ := h
    have h2 : vfs_delete e s path = some (r.1, r.2) := by rw [hr]
    rw [← ht]
    rcases vfs_delete_success h2 with h3 | ⟨x, n, pn, _, hx, hp, hmem, _, h3⟩
    · rw [h3]; exact h0
    · rw [h3]
      exact ⟨WF_delete h0.1 e.now hx hp, RootOK_delete h0.1 h0.2 e.now hx hp hmem⟩
  | rename old_path new_path =>
    simp only [Call.run, Option.map_eq_some'] at h
    obtain ⟨r, hr, ht⟩ := h
    have h2 : vfs_rename e s old_path new_path = some (r.1, r.2) := by rw [hr]
    rw [← ht]
    rcases vfs_rename_success h2 with h3 | ⟨x, xn, spn, tp, tpn, _, hx, hsp, hmem, htp, h3⟩
    · rw [h3]; exact h0
    · exact ⟨WF_rename h0.1 hx hsp htp h3, RootOK_rename h0.1 h0.2 hx hsp hmem htp h3⟩
  | change_directory path =>
    simp only [Call.run, Option.map_eq_some'] at h
    obtain ⟨r, hr, ht⟩ := h
    have h2 : vfs_change_directory s path = some (r.1, r.2) := by rw [hr]
    rw [← ht]
    rcases vfs_change_directory_cases h2 with h3 | ⟨c, h3⟩
    · rw [h3]; exact h0
    · rw [h3]; exact inv_cwd h0 c

/-- Every state reachable from `vfs_init` has well-formed links and a sound
root. -/
theorem reachable_inv {s : VFS} (h : Reachable s) : WF s ∧ RootOK s := by
  induction h with
  | init e pw s hs => exact inv_init hs
  | step e c s t _ hrun ih => exact inv_run ih hrun

/-- A walk from a live node ends at a live node. -/
theorem traverse_live {s : VFS} {a c : Nat} {cs : List CStr}
    (h : traverse s (.found a) cs = .found c) (ha : ∃ an, s.node a = some an) :
    ∃ cn, s.node c = some cn := by
  induction cs generalizing a with
  | nil =>
    simp only [traverse, Lookup.found.injEq] at h
    rw [← h]; exact ha
  | cons comp rest ih =>
    obtain ⟨n, b, _, _, hf, hw⟩ := traverse_found_cons h
    obtain ⟨_, bn, hbn, _⟩ := find_child_found hf
    exact ih hw ⟨bn, hbn⟩

theorem vfs_get_node_live {s : VFS} (hok : RootOK s) {path : CStr} {x : Nat}
    (h : vfs_get_node s path = .found x) : ∃ n, s.node x = some n := by
  obtain ⟨r, rn, hr, hrn, _, _⟩ := hok
  obtain ⟨comps, hc⟩ := vfs_get_node_components s r x path hr h
  rw [hc s hr rfl] at h
  exact traverse_live h ⟨rn, hrn⟩

theorem vfs_get_parent_live {s : VFS} (hok : RootOK s) {path : CStr} {x : Nat}
    (h : vfs_get_parent s path = .found x) : ∃ n, s.node x = some n := by
  have hroot : ∀ y, rootLookup s = .found y → ∃ n, s.node y = some n := by
    intro y hy
    obtain ⟨r, rn, hr, hrn, _, _⟩ := hok
    unfold rootLookup at hy
    rw [hr] at hy
    cases hy
    exact ⟨rn, hrn⟩
  have hgen : ∀ a : CStr, (match strrchr a '/' with
      | none => rootLookup s
      | some 0 => rootLookup s
      | some (i + 1) =>
        if (a.take (i + 1)).length = 0 then rootLookup s
        else vfs_get_node s (a.take (i + 1))) = .found x → ∃ n, s.node x = some n := by
    intro a ha
    split at ha
    · exact hroot x ha
    · exact hroot x ha
    · split at ha
      · exact hroot x ha
      · exact vfs_get_node_live hok ha
  unfold vfs_get_parent at h
  split at h
  · cases h
  · exact hgen _ h


/-- The working directory string is left alone by `vfs_write` and `vfs_read`. -/
theorem vfs_write_cwd {e : Env} {s s1 : VFS} {path : CStr} {buffer : List Nat}
    {size : Nat} {offset : Int} {r : Int}
    (h : vfs_write e s path buffer size offset = some (s1, r)) :
    s1.vfs_current_directory = s.vfs_current_directory := by
  unfold vfs_write at h
  cases hr : s.vfs_root with
  | none => rw [hr] at h; cases h; rfl
  | some r0 =>
    rw [hr] at h
    simp only [] at h
    cases hg : vfs_get_node s path with
    | undefined => rw [hg] at h; cases h
    | null => rw [hg] at h; cases h; rfl
    | found f =>
      rw [hg] at h
      simp only [] at h
      cases hn : s.node f with
      | none => rw [hn] at h; cases h
      | some file =>
        rw [hn] at h
        simp only [] at h
        repeat' split at h
        all_goals first
          | (cases h; rfl)
          | cases h

theorem vfs_read_cwd {e : Env} {s s1 : VFS} {path : CStr} {size : Nat}
    {offset : Int} {r : Int × List Nat}
    (h : vfs_read e s path size offset = some (s1, r)) :
    s1.vfs_current_directory = s.vfs_current_directory := by
  unfold vfs_read at h
  cases hr : s.vfs_root with
  | none => rw [hr] at h; cases h; rfl
  | some r0 =>
    rw [hr] at h
    simp only [] at h
    cases hg : vfs_get_node s path with
    | undefined => rw [hg] at h; cases h
    | null => rw [hg] at h; cases h; rfl
    | found f =>
      rw [hg] at h
      simp only [] at h
      cases hn : s.node f with
      | none => rw [hn] at h; cases h
      | some file =>
        rw [hn] at h
        simp only [] at h
        repeat' split at h
        all_goals first
          | (cases h; rfl)
          | cases h

theorem vfs_create_node_cwd {e : Env} {s s1 : VFS} {path : CStr} {mode : Nat}
    {type : VFSNodeType} {size : Nat} {data : List Nat} {res : Option Nat}
    (h : vfs_create_node e s path mode type size data = some (s1, res)) :
    s1.vfs_current_directory = s.vfs_current_directory := by
  rcases vfs_create_node_cases e s s1 path mode type size data res h with h0 | ⟨f, h0⟩
  · rw [h0]
  · obtain ⟨_, _, _, _, _, _, _, _, _, _, _, hs1⟩ := vfs_create_node_success h0
    rw [hs1]; rfl

theorem canonical_loop_head (acc : CStr) (comps : List CStr)
    (h : acc.head? = some '/') : (canonical_loop acc comps).head? = some '/' := by
  induction comps generalizing acc with
  | nil => simpa [canonical_loop] using h
  | cons c rest ih =>
    unfold canonical_loop
    apply ih
    cases acc with
    | nil => simp at h
    | cons a as =>
      simp only [List.head?_cons, Option.some.injEq] at h
      subst h
      split <;> simp

theorem vfs_get_canonical_path_head {s : VFS} {a c : CStr}
    (h : vfs_get_canonical_path s a = some c) : c.head? = some '/' := by
  unfold vfs_get_canonical_path at h
  split at h
  · cases h
  · simp only [] at h
    split at h
    · cases h
    · split at h
      · cases h; rfl
      · cases h
        exact canonical_loop_head _ _ rfl

/-- The working directory after `vfs_change_directory` is the old one or starts
with a slash. -/
theorem vfs_change_directory_cwd {s s1 : VFS} {path : CStr} {r : Int}
    (h : vfs_change_directory s path = some (s1, r)) :
    s1.vfs_current_directory = s.vfs_current_directory ∨
      s1.vfs_current_directory.head? = some '/' := by
  rw [vfs_change_directory_eq] at h
  cases hr : s.vfs_root with
  | none => rw [hr] at h; cases h; left; rfl
  | some r0 =>
    rw [hr] at h
    simp only [] at h
    cases hg : vfs_get_node s path with
    | undefined => rw [hg] at h; cases h
    | null => rw [hg] at h; cases h; left; rfl
    | found f =>
      rw [hg] at h
      simp only [] at h
      cases hn : s.node f with
      | none => rw [hn] at h; cases h
      | some n =>
        rw [hn] at h
        simp only [] at h
        split at h
        · cases h; left; rfl
        · cases ha : vfs_get_absolute_path s path with
          | none => rw [ha] at h; cases h
          | some a =>
            rw [ha] at h
            simp only [] at h
            cases hc : vfs_get_canonical_path s a with
            | none => rw [hc] at h; cases h
            | some c =>
              rw [hc] at h
              cases h
              right
              have hh := vfs_get_canonical_path_head hc
              cases c with
              | nil => simp at hh
              | cons x xs =>
                simp only [List.head?_cons, Option.some.injEq] at hh
                subst hh
                have hmax : VFS_MAX_PATH - 1 = 1022 + 1 := rfl
                show (List.take (VFS_MAX_PATH - 1) ('/' :: xs)).head? = some '/'
                rw [hmax, List.take_succ_cons]
                rfl

theorem cwd_init {e : Env} {pw : Option CStr} {s : VFS} (h : vfs_init e pw = some s) :
    s.vfs_current_directory.head? = some '/' := by
  unfold vfs_init at h
  simp only [Option.bind_eq_some] at h
  obtain ⟨r1, h1, r2, h2, r3, h3, r4, h4, r5, h5, r6, h6, h7⟩ := h
  unfold vfs_create_directory at h1 h2 h3 h4 h5 h6
  have c1 := vfs_create_node_cwd (show _ = some (r1.1, r1.2) by rw [h1])
  have c2 := vfs_create_node_cwd (show _ = some (r2.1, r2.2) by rw [h2])
  have c3 := vfs_create_node_cwd (show _ = some (r3.1, r3.2) by rw [h3])
  have c4 := vfs_create_node_cwd (show _ = some (r4.1, r4.2) by rw [h4])
  have c5 := vfs_create_node_cwd (show _ = some (r5.1, r5.2) by rw [h5])
  have c6 := vfs_create_node_cwd (show _ = some (r6.1, r6.2) by rw [h6])
  cases pw with
  | none =>
    simp only [Option.some.injEq] at h7
    rw [← h7, c6, c5, c4, c3, c2, c1]
    rfl
  | some pw_name =>
    simp only [Option.bind_eq_some, Option.some.injEq] at h7
    obtain ⟨r7, _, h9⟩ := h7
    rw [← h9]
    have hmax : VFS_MAX_PATH - 1 = 1022 + 1 := rfl
    show (List.take (VFS_MAX_PATH - 1) ("/home/".toList ++ pw_name)).head? = some '/'
    rw [hmax]
    rfl

theorem cwd_run {e : Env} {c : Call} {s t : VFS}
    (h0 : s.vfs_current_directory.head? = some '/')
    (h : c.run e s = some t) : t.vfs_current_directory.head? = some '/' := by
  cases c with
  | create_file path mode =>
    simp only [Call.run, Option.map_eq_some'] at h
    obtain ⟨r, hr, ht⟩ := h
    unfold vfs_create_file at hr
    rw [← ht, vfs_create_node_cwd (show _ = some (r.1, r.2) by rw [hr])]; exact h0
  | create_directory path mode =>
    simp only [Call.run, Option.map_eq_some'] at h
    obtain ⟨r, hr, ht⟩ := h
    unfold vfs_create_directory at hr
    rw [← ht, vfs_create_node_cwd (show _ = some (r.1, r.2) by rw [hr])]; exact h0
  | create_symlink path target mode =>
    simp only [Call.run, Option.map_eq_some'] at h
    obtain ⟨r, hr, ht⟩ := h
    unfold vfs_create_symlink at hr
    rw [← ht, vfs_create_node_cwd (show _ = some (r.1, r.2) by rw [hr])]; exact h0
  | write path buffer size offset =>
    simp only [Call.run, Option.map_eq_some'] at h
    obtain ⟨r, hr, ht⟩ := h
    rw [← ht, vfs_write_cwd (show _ = some (r.1, r.2) by rw [hr])]; exact h0
  | read path size offset =>
    simp only [Call.run, Option.map_eq_some'] at h
    obtain ⟨r, hr, ht⟩ := h
    rw [← ht, vfs_read_cwd (show _ = some (r.1, r.2) by rw [hr])]; exact h0
  | delete path =>
    simp only [Call.run, Option.map_eq_some'] at h
    obtain ⟨r, hr, ht⟩ := h
    have h2 : vfs_delete e s path = some (r.1, r.2) := by rw [hr]
    rw [← ht]
    rcases vfs_delete_success h2 with h3 | ⟨x, n, pn, _, _, _, _, _, h3⟩
    · rw [h3]; exact h0
    · rw [h3]; exact h0
  | rename old_path new_path =>
    simp only [Call.run, Option.map_eq_some'] at h
    obtain ⟨r, hr, ht⟩ := h
    have h2 : vfs_rename e s old_path new_path = some (r.1, r.2) := by rw [hr]
    rw [← ht]
    rcases vfs_rename_success h2 with h3 | ⟨x, xn, spn, tp, tpn, _, hx, hsp, _, htp, h3⟩
    · rw [h3]; exact h0
    · rw [(rename_link_node hx hsp htp h3).2.1]; exact h0
  | change_directory path =>
    simp only [Call.run, Option.map_eq_some'] at h
    obtain ⟨r, hr, ht⟩ := h
    have h2 : vfs_change_directory s path = some (r.1, r.2) := by rw [hr]
    rw [← ht]
    rcases vfs_change_directory_cwd h2 with h3 | h3
    · rw [h3]; exact h0
    · exact h3

/-- In every state reachable from `vfs_init` the working directory string starts
with a slash. -/
theorem reachable_cwd {s : VFS} (h : Reachable s) :
    s.vfs_current_directory.head? = some '/' := by
  induction h with
  | init e pw s hs => exact cwd_init hs
  | step e c s t _ hrun ih => exact cwd_run ih hrun

/-- With well-formed links a walk from a live node never reads a dead one. -/
theorem traverse_defined {s : VFS} (hwf : WF s) {a : Nat} {cs : List CStr}
    (ha : ∃ an, s.node a = some an) : traverse s (.found a) cs ≠ .undefined := by
  induction cs generalizing a with
  | nil => simp [traverse]
  | cons comp rest ih =>
    obtain ⟨an, han⟩ := ha
    rw [traverse_cons_found, han]
    simp only []
    split
    · simp
    · have hd : find_child s an.children comp ≠ .undefined :=
        find_child_defined comp (fun c hc => by
          obtain ⟨cn, hcn, _⟩ := (hwf a an han).2 c hc
          exact ⟨cn, hcn⟩)
      cases hf : find_child s an.children comp with
      | undefined => exact absurd hf hd
      | null => rw [traverse_null]; simp
      | found b =>
        obtain ⟨_, bn, hbn, _⟩ := find_child_found hf
        exact ih ⟨bn, hbn⟩

theorem vfs_get_node_defined {s : VFS} (hwf : WF s) (hok : RootOK s) {path : CStr}
    (habs : path.head? = some '/') : vfs_get_node s path ≠ .undefined := by
  obtain ⟨r, rn, hr, hrn, _, _⟩ := hok
  rw [vfs_get_node_abs s r path hr habs]
  exact traverse_defined hwf ⟨rn, hrn⟩

theorem rootLookup_defined (s : VFS) : rootLookup s ≠ .undefined := by
  unfold rootLookup
  split <;> simp

/-- In a state with well-formed links, a sound root and an absolute working
directory, `vfs_get_parent` is undefined exactly on the absolute paths of
`VFS_MAX_PATH - 1` characters or more. -/
theorem vfs_get_parent_undefined_iff {s : VFS} (hwf : WF s) (hok : RootOK s)
    (hcwd : s.vfs_current_directory.head? = some '/') (path : CStr) :
    vfs_get_parent s path = .undefined ↔
      (path.head? = some '/' ∧ path.length ≥ VFS_MAX_PATH - 1) := by
  have hgen : ∀ a : CStr, a.head? = some '/' → (match strrchr a '/' with
      | none => rootLookup s
      | some 0 => rootLookup s
      | some (i + 1) =>
        if (a.take (i + 1)).length = 0 then rootLookup s
        else vfs_get_node s (a.take (i + 1))) ≠ .undefined := by
    intro a ha
    split
    · exact rootLookup_defined s
    · exact rootLookup_defined s
    · split
      · exact rootLookup_defined s
      · apply vfs_get_node_defined hwf hok
        cases a with
        | nil => simp at ha
        | cons x xs => simpa using ha
  constructor
  · intro h
    by_contra hlong
    unfold vfs_get_parent at h
    rw [if_neg hlong] at h
    refine hgen _ ?_ h
    split
    · assumption
    · cases hc : s.vfs_current_directory with
      | nil => rw [hc] at hcwd; simp at hcwd
      | cons x xs =>
        rw [hc] at hcwd
        simp only [List.head?_cons, Option.some.injEq] at hcwd
        subst hcwd
        have hmax : VFS_MAX_PATH - 1 = 1022 + 1 := rfl
        rw [hmax]
        rfl
  · intro h
    unfold vfs_get_parent
    rw [if_pos h]


/-- C21: in every state reachable from `vfs_init` by calls of the interface, for
every path string that resolves to the root node, `vfs_delete` returns -1 and
leaves the whole state (root pointer, working directory and every node) as it
was, and `vfs_rename` with that path as source does the same for every
destination on which the parent lookup is defined; the parent lookup is
undefined exactly for the absolute destinations of `VFS_MAX_PATH - 1`
characters or more. -/
theorem C21_root_never_removed (e : Env) (s : VFS) (r : Nat) (path : CStr)
    (hs : Reachable s) (hr : s.vfs_root = some r)
    (hp : vfs_get_node s path = .found r) :
    vfs_delete e s path = some (s, -1) ∧
    (∀ new_path, vfs_get_parent s new_path ≠ .undefined →
      vfs_rename e s path new_path = some (s, -1)) ∧
    (∀ new_path, vfs_get_parent s new_path = .undefined ↔
      (new_path.head? = some '/' ∧ new_path.length ≥ VFS_MAX_PATH - 1)) := by
  obtain ⟨hwf, hok⟩ := reachable_inv hs
  have hcwd := reachable_cwd hs
  obtain ⟨r0, rn, hr0, hrn, hpar, hnot⟩ := hok
  rw [hr] at hr0
  cases hr0
  have hself : s.node rn.parent = some rn := by rw [hpar]; exact hrn
  refine ⟨?_, ?_, fun new_path =>
    vfs_get_parent_undefined_iff hwf ⟨r, rn, hr, hrn, hpar, hnot⟩ hcwd new_path⟩
  · unfold vfs_delete
    rw [hr]
    simp only []
    split
    · rfl
    · rw [hp]
      simp only [hrn, hself]
      split
      · rfl
      · rfl
  · intro new_path hdef
    unfold vfs_rename
    rw [hr]
    simp only [hp]
    cases hg : vfs_get_parent s new_path with
    | undefined => exact absurd hg hdef
    | null => rfl
    | found tp =>
      obtain ⟨tpn, htpn⟩ := vfs_get_parent_live ⟨r, rn, hr, hrn, hpar, hnot⟩ hg
      simp only [htpn]
      split
      · rfl
      · split
        · rfl
        · have hd : find_child s tpn.children (vfs_get_filename new_path) ≠ .undefined :=
            find_child_defined _ (fun c hc => by
              obtain ⟨cn, hcn, _⟩ := (hwf tp tpn htpn).2 c hc
              exact ⟨cn, hcn⟩)
          cases hf : find_child s tpn.children (vfs_get_filename new_path) with
          | undefined => exact absurd hf hd
          | found c => rfl
          | null =>
            simp only [hrn, hself]
            split
            · rfl
            · rfl

/-- In the state after `vfs_init` the paths "/", "//", "/.", "/.." and "/a/.."
all resolve to the root, and neither `vfs_delete` nor `vfs_rename` to "/tmp/r"
touches it. -/
theorem C21_root_never_removed_witness :
    Reachable fs_init ∧ fs_init.vfs_root = some 0 ∧
    vfs_get_node fs_init "/a/..".toList = .found 0 ∧
    vfs_get_node fs_init "/".toList = .found 0 ∧
    vfs_get_node fs_init "//".toList = .found 0 ∧
    vfs_get_node fs_init "/.".toList = .found 0 ∧
    vfs_get_node fs_init "/..".toList = .found 0 ∧
    vfs_get_parent fs_init "/tmp/r".toList ≠ .undefined ∧
    vfs_delete env0 fs_init "/a/..".toList = some (fs_init, -1) ∧
    vfs_rename env0 fs_init "/a/..".toList "/tmp/r".toList = some (fs_init, -1) :=
  have hreach : Reachable fs_init := Reachable.init env0 none fs_init fs_init_reached
  have hget : vfs_get_node fs_init "/a/..".toList = .found 0 := by decide!
  have hpar : vfs_get_parent fs_init "/tmp/r".toList ≠ .undefined := by decide!
  have h := C21_root_never_removed env0 fs_init 0 "/a/..".toList hreach rfl hget
  ⟨hreach, rfl, hget, by decide!, by decide!, by decide!, by decide!, hpar, h.1,
    h.2.1 _ hpar⟩


/-! ## What another thread finds during a rename -/

theorem setNode_setNode (s : VFS) (p : Nat) (a b : VFSNode) :
    (s.setNode p a).setNode p b = s.setNode p b := by
  unfold VFS.setNode
  simp [List.set_set]

/-- The last of the states of `rename_stores` is the state `rename_link` returns
in. -/
theorem rename_link_eq_stores (e : Env) (s1 : VFS) (x tp : Nat) (nm : CStr) :
    rename_link e s1 x tp nm =
      (rename_stores e s1 x tp nm).bind fun l => l.getLast?.map fun t => (t, 0) := by
  unfold rename_link rename_stores
  cases hx : s1.node x with
  | none => rfl
  | some n1 =>
    simp only [setNode_setNode]
    cases htp : (s1.setNode x
        { n1 with name := nm.take (VFS_MAX_FILENAME - 1),
                  parent := tp, modified := e.now }).node tp with
    | none => rfl
    | some n2 => rfl

theorem mem_parents_of {s : VFS} {x p : Nat} :
    p ∈ parents_of s x ↔ ∃ n, s.node p = some n ∧ x ∈ n.children := by
  unfold parents_of
  rw [List.mem_filter, List.mem_range]
  constructor
  · rintro ⟨_, h⟩
    cases hn : s.node p with
    | none => rw [hn] at h; simp at h
    | some n =>
      rw [hn] at h
      exact ⟨n, rfl, by simpa using h⟩
  · rintro ⟨n, hn, hm⟩
    refine ⟨lt_length_of_node hn, ?_⟩
    rw [hn]
    simpa using hm

theorem parents_of_nodup (s : VFS) (x : Nat) : (parents_of s x).Nodup :=
  (List.nodup_range _).filter _

theorem parents_of_eq_nil {s : VFS} {x : Nat}
    (h : ∀ p n, s.node p = some n → x ∉ n.children) : parents_of s x = [] := by
  apply List.eq_nil_iff_forall_not_mem.mpr
  intro p hp
  obtain ⟨n, hn, hm⟩ := mem_parents_of.mp hp
  exact h p n hn hm

theorem parents_of_eq_singleton {s : VFS} {x a : Nat}
    (h : ∀ p, (∃ n, s.node p = some n ∧ x ∈ n.children) ↔ p = a) :
    parents_of s x = [a] := by
  have hnd := parents_of_nodup s x
  have hmem : ∀ p, p ∈ parents_of s x ↔ p = a := fun p => mem_parents_of.trans (h p)
  cases hl : parents_of s x with
  | nil =>
    have := (hmem a).mpr rfl
    rw [hl] at this
    simp at this
  | cons y ys =>
    rw [hl] at hnd hmem
    have hy : y = a := (hmem y).mp (List.mem_cons_self _ _)
    cases ys with
    | nil => rw [hy]
    | cons z zs =>
      have hz : z = a := (hmem z).mp (List.mem_cons_of_mem _ (List.mem_cons_self _ _))
      have : y ∉ z :: zs := (List.nodup_cons.mp hnd).1
      rw [hy, hz] at this
      exact absurd (List.mem_cons_self _ _) this

/-- A store to a node that keeps its children keeps the parents of every node. -/
theorem parents_of_setNode_same {u : VFS} {p : Nat} {old : VFSNode} (m : VFSNode)
    (hold : u.node p = some old) (hm : m.children = old.children) (x : Nat) :
    parents_of (u.setNode p m) x = parents_of u x := by
  unfold parents_of
  have hlen : (u.setNode p m).heap.length = u.heap.length := by
    unfold VFS.setNode; simp
  rw [hlen]
  apply List.filter_congr
  intro q _
  by_cases hq : q = p
  · subst hq
    rw [node_setNode_self m hold, hold]
    simp only [hm]
  · rw [node_setNode_ne _ _ hq]

/-- The lists of parents of the moved node in the states of `rename_stores`, when
no directory lists it in the first of them. -/
theorem parents_of_stores {e : Env} {s1 : VFS} {x tp : Nat} {nm : CStr}
    {stores : List VFS} (h : rename_stores e s1 x tp nm = some stores)
    (h0 : parents_of s1 x = []) :
    stores.map (fun t => parents_of t x) = [[], [], [], [], [tp], [tp]] := by
  unfold rename_stores at h
  cases hx : s1.node x with
  | none => rw [hx] at h; cases h
  | some n1 =>
    rw [hx] at h
    simp only [] at h
    have h2n := node_setNode_self { n1 with name := nm.take (VFS_MAX_FILENAME - 1) } hx
    have h3n := node_setNode_self
      { n1 with name := nm.take (VFS_MAX_FILENAME - 1), parent := tp } h2n
    have h4n := node_setNode_self
      { n1 with name := nm.take (VFS_MAX_FILENAME - 1), parent := tp, modified := e.now } h3n
    have p2 := parents_of_setNode_same
      { n1 with name := nm.take (VFS_MAX_FILENAME - 1) } hx rfl x
    have p3 := parents_of_setNode_same
      { n1 with name := nm.take (VFS_MAX_FILENAME - 1), parent := tp } h2n rfl x
    have p4 := parents_of_setNode_same
      { n1 with name := nm.take (VFS_MAX_FILENAME - 1), parent := tp, modified := e.now }
      h3n rfl x
    rw [p2, h0] at p3
    rw [p3] at p4
    rw [h0] at p2
    cases htp : (((s1.setNode x { n1 with name := nm.take (VFS_MAX_FILENAME - 1) }).setNode x
        { n1 with name := nm.take (VFS_MAX_FILENAME - 1), parent := tp }).setNode x
        { n1 with name := nm.take (VFS_MAX_FILENAME - 1), parent := tp,
                  modified := e.now }).node tp with
    | none => rw [htp] at h; cases h
    | some n2 =>
      rw [htp] at h
      simp only [Option.some.injEq] at h
      have h5n := node_setNode_self { n2 with children := n2.children ++ [x] } htp
      have p5 : parents_of ((((s1.setNode x
          { n1 with name := nm.take (VFS_MAX_FILENAME - 1) }).setNode x
          { n1 with name := nm.take (VFS_MAX_FILENAME - 1), parent := tp }).setNode x
          { n1 with name := nm.take (VFS_MAX_FILENAME - 1), parent := tp,
                    modified := e.now }).setNode tp
          { n2 with children := n2.children ++ [x] }) x = [tp] := by
        apply parents_of_eq_singleton
        intro p
        constructor
        · rintro ⟨n, hn, hm⟩
          by_contra hne
          rw [node_setNode_ne _ _ hne] at hn
          have : p ∈ parents_of _ x := mem_parents_of.mpr ⟨n, hn, hm⟩
          rw [p4] at this
          simp at this
        · intro hp
          subst hp
          exact ⟨_, h5n, by simp⟩
      have p6 := parents_of_setNode_same
        { n2 with children := n2.children ++ [x], modified := e.now } h5n rfl x
      rw [p5] at p6
      rw [← h]
      simp only [List.map_cons, List.map_nil, h0, p2, p3, p4, p5, p6]

/-- A call of `vfs_rename` that returns 0 has found the source node listed by its
parent and has run `rename_link` behind the removal. -/
theorem vfs_rename_zero {e : Env} {s s1 : VFS} {old_path new_path : CStr}
    (h : vfs_rename e s old_path new_path = some (s1, 0)) :
    ∃ x xn spn tp, vfs_get_node s old_path = .found x ∧
      vfs_get_parent s new_path = .found tp ∧
      s.node x = some xn ∧ s.node xn.parent = some spn ∧ x ∈ spn.children ∧
      rename_link e
        (s.setNode xn.parent
          { spn with children := spn.children.erase x, modified := e.now })
        x tp (vfs_get_filename new_path) = some (s1, 0) := by
  have hne : ∀ t : VFS, some (t, (-1 : Int)) ≠ some (s1, (0 : Int)) := by
    intro t ht
    simp at ht
  unfold vfs_rename at h
  cases hr : s.vfs_root with
  | none => rw [hr] at h; exact absurd h (hne _)
  | some r0 =>
    rw [hr] at h
    simp only [] at h
    cases hg : vfs_get_node s old_path with
    | undefined => rw [hg] at h; cases h
    | null => rw [hg] at h; exact absurd h (hne _)
    | found x =>
      rw [hg] at h
      simp only [] at h
      cases hp : vfs_get_parent s new_path with
      | undefined => rw [hp] at h; cases h
      | null => rw [hp] at h; exact absurd h (hne _)
      | found tp =>
        rw [hp] at h
        simp only [] at h
        cases htp : s.node tp with
        | none => rw [htp] at h; cases h
        | some tpn =>
          rw [htp] at h
          simp only [] at h
          split at h
          · exact absurd h (hne _)
          · split at h
            · exact absurd h (hne _)
            · cases hf : find_child s tpn.children (vfs_get_filename new_path) with
              | undefined => rw [hf] at h; cases h
              | found c => rw [hf] at h; exact absurd h (hne _)
              | null =>
                rw [hf] at h
                simp only [] at h
                split at h
                · exact absurd h (hne _)
                · cases hx : s.node x with
                  | none => rw [hx] at h; cases h
                  | some xn =>
                    rw [hx] at h
                    simp only [] at h
                    cases hsp : s.node xn.parent with
                    | none => rw [hsp] at h; cases h
                    | some spn =>
                      rw [hsp] at h
                      simp only [] at h
                      split at h
                      · rename_i hmem
                        exact ⟨x, xn, spn, tp, rfl, rfl, hx, hsp, hmem, h⟩
                      · exact absurd h (hne _)

/-- C24 (amended): `vfs_rename` runs without a lock.  When it moves a node `x` of
a tree with well-formed links and returns 0, the states another thread can find
between its statements are those of `rename_stores`, the last of which is the
state the call returns in.  Before the call `x` is listed by its old parent
alone; in the first four of these states, from the removal from the old parent
until the append to the target parent, `x` is listed by no directory; in the last
two it is listed by the target parent alone.  So an observer never finds `x` in
two parents, but does find it in none. -/
theorem C24_rename_observed (e : Env) (s s1 : VFS) (old_path new_path : CStr)
    (hwf : WF s) (h : vfs_rename e s old_path new_path = some (s1, 0)) :
    ∃ x xn spn tp stores,
      vfs_get_node s old_path = .found x ∧ vfs_get_parent s new_path = .found tp ∧
      s.node x = some xn ∧ s.node xn.parent = some spn ∧
      rename_stores e
        (s.setNode xn.parent
          { spn with children := spn.children.erase x, modified := e.now })
        x tp (vfs_get_filename new_path) = some stores ∧
      stores.getLast? = some s1 ∧
      parents_of s x = [xn.parent] ∧
      stores.map (fun t => parents_of t x) = [[], [], [], [], [tp], [tp]] ∧
      ∀ t ∈ stores, (parents_of t x).length ≤ 1 := by
  obtain ⟨x, xn, spn, tp, hg, hp, hx, hsp, hmem, hl⟩ := vfs_rename_zero h
  rw [rename_link_eq_stores] at hl
  cases hst : rename_stores e
      (s.setNode xn.parent
        { spn with children := spn.children.erase x, modified := e.now })
      x tp (vfs_get_filename new_path) with
  | none => rw [hst] at hl; cases hl
  | some stores =>
    rw [hst] at hl
    simp only [Option.some_bind, Option.map_eq_some', Prod.mk.injEq, and_true] at hl
    obtain ⟨t, ht, hts⟩ := hl
    have hpre : parents_of s x = [xn.parent] := by
      apply parents_of_eq_singleton
      intro p
      constructor
      · rintro ⟨n, hn, hm⟩
        exact listed_only_by_parent hwf hx hn hm
      · intro hp2
        subst hp2
        exact ⟨spn, hsp, hmem⟩
    have h0 : parents_of (s.setNode xn.parent
        { spn with children := spn.children.erase x, modified := e.now }) x = [] := by
      apply parents_of_eq_nil
      intro p n hn hm
      by_cases hpp : p = xn.parent
      · subst hpp
        rw [node_setNode_self _ hsp] at hn
        cases hn
        exact (List.Nodup.mem_erase_iff (hwf _ _ hsp).1).mp hm |>.1 rfl
      · rw [node_setNode_ne _ _ hpp] at hn
        exact hpp (listed_only_by_parent hwf hx hn hm)
    have hmap := parents_of_stores hst h0
    refine ⟨x, xn, spn, tp, stores, hg, hp, hx, hsp, hst, by rw [ht, hts], hpre, hmap, ?_⟩
    intro t2 ht2
    have : parents_of t2 x ∈ stores.map (fun t => parents_of t x) :=
      List.mem_map_of_mem _ ht2
    rw [hmap] at this
    simp only [List.mem_cons, List.mem_singleton, List.not_mem_nil, or_false] at this
    rcases this with h1 | h1 | h1 | h1 | h1 | h1 <;> rw [h1] <;> simp


/-- Witness of C24, the scenario of the specification: `/home/a.txt` (address 7,
listed by `/home` at address 3) is moved to `/b.txt` below the root. -/
theorem C24_rename_observed_witness :
    WF fs_home_a ∧
    vfs_rename env0 fs_home_a "/home/a.txt".toList "/b.txt".toList
      = some (fs_home_a_moved, 0) ∧
    ∃ x xn spn tp stores,
      vfs_get_node fs_home_a "/home/a.txt".toList = .found x ∧
      vfs_get_parent fs_home_a "/b.txt".toList = .found tp ∧
      fs_home_a.node x = some xn ∧ fs_home_a.node xn.parent = some spn ∧
      rename_stores env0
        (fs_home_a.setNode xn.parent
          { spn with children := spn.children.erase x, modified := env0.now })
        x tp (vfs_get_filename "/b.txt".toList) = some stores ∧
      stores.getLast? = some fs_home_a_moved ∧
      parents_of fs_home_a x = [xn.parent] ∧
      stores.map (fun t => parents_of t x) = [[], [], [], [], [tp], [tp]] ∧
      ∀ t ∈ stores, (parents_of t x).length ≤ 1 :=
  have hwf : WF fs_home_a := WF_of_check (by decide!)
  have hren : vfs_rename env0 fs_home_a "/home/a.txt".toList "/b.txt".toList
      = some (fs_home_a_moved, 0) := by decide!
  ⟨hwf, hren,
    C24_rename_observed env0 fs_home_a fs_home_a_moved "/home/a.txt".toList "/b.txt".toList
      hwf hren⟩

/-- C24 as stated fails.  In `fs_home_a` the file `/home/a.txt` is the node at
address 7, listed by `/home` (address 3) alone.  `vfs_rename("/home/a.txt",
"/b.txt")` returns 0; the state it leaves behind the removal from `/home`, and
the three states after the stores to the moved node that follow, hold the node
alive but listed by no directory, so that a resolver running then finds it under
neither path; only the append to the children of the root (address 0) makes it
reachable again, as `/b.txt`. -/
theorem C24_counterexample :
    vfs_get_node fs_home_a "/home/a.txt".toList = .found 7 ∧
    vfs_get_parent fs_home_a "/b.txt".toList = .found 0 ∧
    fs_home_a.node 7 = some file_a ∧
    fs_home_a.node 3 = some (home_node [7]) ∧
    parents_of fs_home_a 7 = [3] ∧
    vfs_rename env0 fs_home_a "/home/a.txt".toList "/b.txt".toList
      = rename_link env0 fs_home_a_unlinked 7 0 "b.txt".toList ∧
    (vfs_rename env0 fs_home_a "/home/a.txt".toList "/b.txt".toList).map Prod.snd
      = some 0 ∧
    (rename_stores env0 fs_home_a_unlinked 7 0 "b.txt".toList).map (fun l =>
      l.map fun t => (parents_of t 7, (t.node 7).isSome,
        vfs_get_node t "/home/a.txt".toList, vfs_get_node t "/b.txt".toList))
      = some [([], true, .null, .null), ([], true, .null, .null),
              ([], true, .null, .null), ([], true, .null, .null),
              ([0], true, .null, .found 7), ([0], true, .null, .found 7)] := by
  refine ⟨by decide!, by decide!, by decide!, by decide!, by decide!, by decide!,
    by decide!, by decide!⟩

end CShell
